import Mathlib

/-!
# abcIf.c : interface between the logic network and the FPGA mapper

A shallow embedding of `src/base/abci/abcIf.c`.

* Pointers to objects are object identifiers (`Nat`); a pointer that may be
  `NULL` is an `Option`.
* The mutable fields the C code keeps on shared objects (`pCopy`, the cut
  data slot) are maps from identifiers to values.
* A C `assert` that fails, a `NULL` dereference and a recursion that does
  not end within the given depth are the three `Fault`s.
* Recursive C functions take the recursion depth they may use as their
  first argument (`fuel`).
-/

namespace AbcIf

/-! ## Faults -/

/-- The ways in which a run of the C code can fail to return. -/
inductive Fault where
  | assertion
  | nullPointer
  | outOfFuel
  deriving DecidableEq, Repr

/-! ## The Boolean-function graph container (`hop.h`) -/

/-- Modelled from the spec: the Boolean-function graph container (`hop.h` is
not part of the sources). A value is a function-graph edge: a constant, a
variable or a two-input AND node, together with the complement bit that the
C code keeps in the low bit of a `Hop_Obj_t *`. Structurally identical
expressions are the same value. -/
inductive Hop_Obj where
  | const1 : Bool → Hop_Obj
  | var : Nat → Bool → Hop_Obj
  | and : Hop_Obj → Hop_Obj → Bool → Hop_Obj
  deriving DecidableEq, Repr

/-- Modelled from the spec: `Variable(index)`, the uncomplemented variable
node of position `i`. -/
def Hop_IthVar (i : Nat) : Hop_Obj := .var i false

/-- Modelled from the spec: complementing an edge flips its complement bit. -/
def Hop_Not : Hop_Obj → Hop_Obj
  | .const1 c => .const1 (!c)
  | .var i c => .var i (!c)
  | .and a b c => .and a b (!c)

/-- Modelled from the spec: `Complement(x, bit)`. -/
def Hop_NotCond (g : Hop_Obj) (c : Bool) : Hop_Obj :=
  if c then Hop_Not g else g

/-- Modelled from the spec: `And(a, b)`, the uncomplemented AND node of two
edges. -/
def Hop_And (a b : Hop_Obj) : Hop_Obj := .and a b false

/-- Value of a function-graph edge under an assignment to the variables. -/
def Hop_Eval (env : Nat → Bool) : Hop_Obj → Bool
  | .const1 c => !c
  | .var i c => xor (env i) c
  | .and a b c => xor (Hop_Eval env a && Hop_Eval env b) c

/-- Number of AND nodes on the paths of a function-graph edge. -/
def Hop_Size : Hop_Obj → Nat
  | .const1 _ => 0
  | .var _ _ => 0
  | .and a b _ => Hop_Size a + Hop_Size b + 1

/-! ## The mapper (`if.h`) -/

/-- Object types of the mapper. -/
inductive If_Type where
  | IF_NONE
  | IF_CONST1
  | IF_CI
  | IF_CO
  | IF_AND
  deriving DecidableEq, Repr

/-- A pointer to a cut: the object that owns it and its index in the
object's array `Cuts`. -/
abbrev If_CutRef := Nat × Nat

/-- Modelled from the spec: the fields of `If_Cut_t` read by `abcIf.c`
(the struct is declared in `if.h`, which is not part of the sources):
two child cuts with their complement bits, the phase bit and the ordered
leaves (`nLeaves` is the length of `pLeaves`). -/
structure If_Cut_t where
  pOne : Option If_CutRef
  pTwo : Option If_CutRef
  fCompl0 : Bool
  fCompl1 : Bool
  Phase : Bool
  pLeaves : List Nat
  deriving DecidableEq, Repr

/-- Modelled from the spec: the fields of the `If_Obj_t` objects of a mapper,
as maps from object identifiers, and the lists of its inputs and outputs. -/
structure If_Net where
  nObjs : Nat
  Typ : Nat → If_Type
  fCompl0 : Nat → Bool
  fCompl1 : Nat → Bool
  pFanin0 : Nat → Option Nat
  pFanin1 : Nat → Option Nat
  pEquiv : Nat → Option Nat
  iCut : Nat → Nat
  Cuts : Nat → Nat → If_Cut_t
  pConst1 : Nat
  vPis : List Nat
  vPos : List Nat

/-- Modelled from the spec: the mapper handle `If_Man_t`: its objects, the
output-correspondence field `pCopy` of every object, the scratch annotation
of every cut and the array `vTemp`. -/
structure If_Man where
  net : If_Net
  pCopy : Nat → Option Nat
  cutData : If_CutRef → Option Hop_Obj
  vTemp : List If_CutRef

/-- Modelled from the spec: `If_ObjCutTriv`, the first cut of an object. -/
def If_ObjCutTriv (pObj : Nat) : If_CutRef := (pObj, 0)

/-- Modelled from the spec: `If_ObjCutBest`, the cut selected by the mapper. -/
def If_ObjCutBest (p : If_Man) (pObj : Nat) : If_CutRef := (pObj, p.net.iCut pObj)

/-- The cut a cut pointer refers to. -/
def If_Man.cut (p : If_Man) (c : If_CutRef) : If_Cut_t := p.net.Cuts c.1 c.2

/-- Modelled from the spec: `If_CutData`, the scratch annotation of a cut. -/
def If_CutData (p : If_Man) (pCut : If_CutRef) : Option Hop_Obj := p.cutData pCut

/-- Modelled from the spec: `If_CutSetData`. -/
def If_CutSetData (p : If_Man) (pCut : If_CutRef) (d : Option Hop_Obj) : If_Man :=
  { p with cutData := Function.update p.cutData pCut d }

/-- Modelled from the spec: `If_ObjCopy`. -/
def If_ObjCopy (p : If_Man) (pObj : Nat) : Option Nat := p.pCopy pObj

/-- Modelled from the spec: `If_ObjSetCopy`. -/
def If_ObjSetCopy (p : If_Man) (pObj : Nat) (c : Option Nat) : If_Man :=
  { p with pCopy := Function.update p.pCopy pObj c }

/-- The call `Vec_PtrPush( vVisited, pCut )` on the array `vTemp` of the mapper. -/
def Vec_PtrPush (p : If_Man) (pCut : If_CutRef) : If_Man :=
  { p with vTemp := p.vTemp ++ [pCut] }

/-- The call `Vec_PtrClear( pIfMan->vTemp )`. -/
def Vec_PtrClear (p : If_Man) : If_Man :=
  { p with vTemp := [] }

/-! ## Function synthesis -/

/-- The function `Abc_NodeIfToHop_rec` (abcIf.c:238). -/
def Abc_NodeIfToHop_rec : Nat → If_Man → Option If_CutRef → Except Fault (Hop_Obj × If_Man)
  | 0, _, _ => .error .outOfFuel
  | _ + 1, _, none => .error .nullPointer
  | fuel + 1, p, some pCut =>
    match If_CutData p pCut with
    | some g => .ok (g, p)
    | none =>
      match Abc_NodeIfToHop_rec fuel p (p.cut pCut).pOne with
      | .error e => .error e
      | .ok (gFunc0, p1) =>
        match Abc_NodeIfToHop_rec fuel p1 (p1.cut pCut).pTwo with
        | .error e => .error e
        | .ok (gFunc1, p2) =>
          let gFunc := Hop_And (Hop_NotCond gFunc0 (p2.cut pCut).fCompl0)
            (Hop_NotCond gFunc1 (p2.cut pCut).fCompl1)
          let gFunc := Hop_NotCond gFunc (p2.cut pCut).Phase
          match If_CutData p2 pCut with
          | some _ => .error .assertion
          | none => .ok (gFunc, Vec_PtrPush (If_CutSetData p2 pCut (some gFunc)) pCut)

/-- The loop `If_CutForEachLeaf( pIfMan, pCut, pLeaf, i )
If_CutSetData( If_ObjCutTriv(pLeaf), Hop_IthVar(pHopMan, i) )`, from
position `i` on. -/
def setLeafVars (p : If_Man) : List Nat → Nat → If_Man
  | [], _ => p
  | pLeaf :: rest, i =>
    setLeafVars (If_CutSetData p (If_ObjCutTriv pLeaf) (some (Hop_IthVar i))) rest (i + 1)

/-- The loop `If_CutForEachLeaf( pIfMan, pCut, pLeaf, i )
If_CutSetData( If_ObjCutTriv(pLeaf), NULL )`. -/
def cleanLeaves (p : If_Man) : List Nat → If_Man
  | [] => p
  | pLeaf :: rest => cleanLeaves (If_CutSetData p (If_ObjCutTriv pLeaf) none) rest

/-- The loop `Vec_PtrForEachEntry( pIfMan->vTemp, pCut, i )
If_CutSetData( pCut, NULL )`. -/
def cleanCuts (p : If_Man) : List If_CutRef → If_Man
  | [] => p
  | pCut :: rest => cleanCuts (If_CutSetData p pCut none) rest

/-- The function `Abc_NodeIfToHop` (abcIf.c:268). -/
def Abc_NodeIfToHop (fuel : Nat) (p : If_Man) (pCut : If_CutRef) :
    Except Fault (Hop_Obj × If_Man) :=
  if (p.cut pCut).pLeaves.length > 1 then
    let p1 := setLeafVars p (p.cut pCut).pLeaves 0
    let p2 := Vec_PtrClear p1
    match Abc_NodeIfToHop_rec fuel p2 (some pCut) with
    | .error e => .error e
    | .ok (gFunc, p3) =>
      let p4 := cleanLeaves p3 (p3.cut pCut).pLeaves
      .ok (gFunc, cleanCuts p4 p4.vTemp)
  else .error .assertion

/-- The function `Abc_NodeIfToHop2_rec` (abcIf.c:301). -/
def Abc_NodeIfToHop2_rec : Nat → If_Man → Option Nat → Except Fault (Hop_Obj × If_Man)
  | 0, _, _ => .error .outOfFuel
  | _ + 1, _, none => .error .nullPointer
  | fuel + 1, p, some pIfObj =>
    let pCut := If_ObjCutTriv pIfObj
    match If_CutData p pCut with
    | some g => .ok (g, p)
    | none =>
      match Abc_NodeIfToHop2_rec fuel p (p.net.pFanin0 pIfObj) with
      | .error e => .error e
      | .ok (gFunc0, p1) =>
        match Abc_NodeIfToHop2_rec fuel p1 (p1.net.pFanin1 pIfObj) with
        | .error e => .error e
        | .ok (gFunc1, p2) =>
          let gFunc := Hop_And (Hop_NotCond gFunc0 (p2.net.fCompl0 pIfObj))
            (Hop_NotCond gFunc1 (p2.net.fCompl1 pIfObj))
          let gFunc := Hop_NotCond gFunc (p2.cut pCut).Phase
          match If_CutData p2 pCut with
          | some _ => .error .assertion
          | none => .ok (gFunc, Vec_PtrPush (If_CutSetData p2 pCut (some gFunc)) pCut)

/-- The function `Abc_NodeIfToHop2` (abcIf.c:334). -/
def Abc_NodeIfToHop2 (fuel : Nat) (p : If_Man) (pIfObj : Nat) :
    Except Fault (Hop_Obj × If_Man) :=
  let pCut := If_ObjCutBest p pIfObj
  if (p.cut pCut).pLeaves.length > 1 then
    let p1 := setLeafVars p (p.cut pCut).pLeaves 0
    let p2 := Vec_PtrClear p1
    match Abc_NodeIfToHop2_rec fuel p2 (some pIfObj) with
    | .error e => .error e
    | .ok (gFunc, p3) =>
      let p4 := cleanLeaves p3 (p3.cut pCut).pLeaves
      .ok (gFunc, cleanCuts p4 p4.vTemp)
  else .error .assertion

/-! ## The logic network (`abc.h`) -/

/-- Object types of a network. -/
inductive Abc_ObjType where
  | ABC_OBJ_NONE
  | ABC_OBJ_CONST1
  | ABC_OBJ_PI
  | ABC_OBJ_PO
  | ABC_OBJ_NODE
  deriving DecidableEq, Repr

/-- Types of networks. -/
inductive Abc_NtkType where
  | ABC_NTK_STRASH
  | ABC_NTK_LOGIC
  deriving DecidableEq, Repr

/-- The field `pData` of a network object, an untyped pointer in C: empty,
the next node of an equivalence chain (in a structurally hashed network) or
the function of the node (in a logic network). -/
inductive Abc_Data where
  | null
  | obj (id : Nat)
  | func (g : Hop_Obj)
  deriving DecidableEq, Repr

/-- A pointer to a network object together with the complement bit that the
C code keeps in the low bit of an `Abc_Obj_t *`. -/
abbrev Abc_Ptr := Nat × Bool

/-- Modelled from the spec: the fields of the objects of a network
(`Abc_Ntk_t` and `Abc_Obj_t` are declared in `abc.h`, which is not part of
the sources), as maps from object identifiers: type, ordered fanins with
their complement attribute, fanouts, `pData` and the correspondence field
`pCopy`; the type of the network, the lists of its inputs and outputs and
its constant node. -/
structure Abc_Ntk where
  ntkType : Abc_NtkType
  nObjs : Nat
  Typ : Nat → Abc_ObjType
  vFanins : Nat → List Abc_Ptr
  vFanouts : Nat → List Nat
  pData : Nat → Abc_Data
  pCopy : Nat → Option Nat
  vCis : List Nat
  vCos : List Nat
  pConst1 : Nat

/-- Modelled from the spec: a network of type `t` without objects. -/
def Abc_NtkAlloc (t : Abc_NtkType) : Abc_Ntk where
  ntkType := t
  nObjs := 0
  Typ := fun _ => .ABC_OBJ_NONE
  vFanins := fun _ => []
  vFanouts := fun _ => []
  pData := fun _ => .null
  pCopy := fun _ => none
  vCis := []
  vCos := []
  pConst1 := 0

/-- Modelled from the spec: node creation. The new object gets the next
identifier, has no fanins, no fanouts and empty `pData` and `pCopy`. -/
def Abc_NtkCreateObj (pNtk : Abc_Ntk) (t : Abc_ObjType) : Abc_Ntk :=
  { pNtk with
    nObjs := pNtk.nObjs + 1
    Typ := Function.update pNtk.Typ pNtk.nObjs t
    vFanins := Function.update pNtk.vFanins pNtk.nObjs []
    vFanouts := Function.update pNtk.vFanouts pNtk.nObjs []
    pData := Function.update pNtk.pData pNtk.nObjs .null
    pCopy := Function.update pNtk.pCopy pNtk.nObjs none }

/-- Modelled from the spec: `Abc_NtkCreateNode`; the new node is the object
`pNtk.nObjs`. -/
def Abc_NtkCreateNode (pNtk : Abc_Ntk) : Abc_Ntk := Abc_NtkCreateObj pNtk .ABC_OBJ_NODE

/-- Setting the field `pData` of an object. -/
def Abc_ObjSetData (pNtk : Abc_Ntk) (pObj : Nat) (d : Abc_Data) : Abc_Ntk :=
  { pNtk with pData := Function.update pNtk.pData pObj d }

/-- Setting the field `pCopy` of an object. -/
def Abc_ObjSetCopy (pNtk : Abc_Ntk) (pObj : Nat) (c : Option Nat) : Abc_Ntk :=
  { pNtk with pCopy := Function.update pNtk.pCopy pObj c }

/-- Modelled from the spec: `Abc_NtkCreateNodeConst1`, a new node without
fanins whose function is the constant 1; the new node is the object
`pNtk.nObjs`. -/
def Abc_NtkCreateNodeConst1 (pNtk : Abc_Ntk) : Abc_Ntk :=
  Abc_ObjSetData (Abc_NtkCreateNode pNtk) pNtk.nObjs (.func (.const1 false))

/-- Modelled from the spec: `Abc_ObjNotCond`. -/
def Abc_ObjNotCond (pObj : Abc_Ptr) (c : Bool) : Abc_Ptr := (pObj.1, xor pObj.2 c)

/-- Modelled from the spec: `Abc_ObjAddFanin`, ordered fanin attachment. The
fanin is appended to the fanins of `pObj`, with its complement bit as the
complement attribute, and `pObj` is appended to the fanouts of the fanin. -/
def Abc_ObjAddFanin (pNtk : Abc_Ntk) (pObj : Nat) (pFanin : Abc_Ptr) : Abc_Ntk :=
  { pNtk with
    vFanins := Function.update pNtk.vFanins pObj (pNtk.vFanins pObj ++ [pFanin])
    vFanouts := Function.update pNtk.vFanouts pFanin.1 (pNtk.vFanouts pFanin.1 ++ [pObj]) }

/-- Modelled from the spec: `Abc_ObjFanoutNum`. -/
def Abc_ObjFanoutNum (pNtk : Abc_Ntk) (pObj : Nat) : Nat := (pNtk.vFanouts pObj).length

/-- Modelled from the spec: `Abc_NtkDeleteObj`. The object becomes
`ABC_OBJ_NONE`, loses its fanins and fanouts, and is removed from the fanins
and fanouts of the other objects. -/
def Abc_NtkDeleteObj (pNtk : Abc_Ntk) (pObj : Nat) : Abc_Ntk :=
  { pNtk with
    Typ := Function.update pNtk.Typ pObj .ABC_OBJ_NONE
    vFanins := fun j => if j = pObj then [] else (pNtk.vFanins j).filter (fun f => f.1 != pObj)
    vFanouts := fun j => if j = pObj then [] else (pNtk.vFanouts j).filter (fun f => f != pObj) }

/-- Modelled from the spec: `Abc_ObjFanin0`, the first fanin of an object. -/
def Abc_ObjFanin0 (pNtk : Abc_Ntk) (pObj : Nat) : Option Nat :=
  ((pNtk.vFanins pObj)[0]?).map Prod.fst

/-- Modelled from the spec: `Abc_ObjFanin1`, the second fanin of an object. -/
def Abc_ObjFanin1 (pNtk : Abc_Ntk) (pObj : Nat) : Option Nat :=
  ((pNtk.vFanins pObj)[1]?).map Prod.fst

/-- Modelled from the spec: `Abc_ObjFaninC0`, the complement attribute of
the first fanin. -/
def Abc_ObjFaninC0 (pNtk : Abc_Ntk) (pObj : Nat) : Bool :=
  (((pNtk.vFanins pObj)[0]?).map Prod.snd).getD false

/-- Modelled from the spec: `Abc_ObjFaninC1`, the complement attribute of
the second fanin. -/
def Abc_ObjFaninC1 (pNtk : Abc_Ntk) (pObj : Nat) : Bool :=
  (((pNtk.vFanins pObj)[1]?).map Prod.snd).getD false

/-! ## Reconstruction of the mapped network -/

/-- The loop `If_CutForEachLeaf( pIfMan, pCutBest, pIfLeaf, i )
Abc_ObjAddFanin( pNodeNew, Abc_NodeFromIf_rec(pNtkNew, pIfMan, pIfLeaf) )` of
`Abc_NodeFromIf_rec` (abcIf.c:217), over the recursive call `recur`. -/
def leafLoop (recur : Abc_Ntk → If_Man → Option Nat → Except Fault (Nat × Abc_Ntk × If_Man))
    (pNodeNew : Nat) : List Nat → Abc_Ntk → If_Man → Except Fault (Abc_Ntk × If_Man)
  | [], pNtkNew, pIfMan => .ok (pNtkNew, pIfMan)
  | pIfLeaf :: rest, pNtkNew, pIfMan =>
    match recur pNtkNew pIfMan (some pIfLeaf) with
    | .error e => .error e
    | .ok (pFanin, ntk1, p1) =>
      leafLoop recur pNodeNew rest (Abc_ObjAddFanin ntk1 pNodeNew (pFanin, false)) p1

/-- The function `Abc_NodeFromIf_rec` (abcIf.c:202). -/
def Abc_NodeFromIf_rec : Nat → Abc_Ntk → If_Man → Option Nat →
    Except Fault (Nat × Abc_Ntk × If_Man)
  | 0, _, _, _ => .error .outOfFuel
  | _ + 1, _, _, none => .error .nullPointer
  | fuel + 1, pNtkNew, pIfMan, some pIfObj =>
    match If_ObjCopy pIfMan pIfObj with
    | some pNodeNew => .ok (pNodeNew, pNtkNew, pIfMan)
    | none =>
      if pIfMan.net.Typ pIfObj = .IF_AND then
        let pNodeNew := pNtkNew.nObjs
        let ntk1 := Abc_NtkCreateNode pNtkNew
        let pCutBest := If_ObjCutBest pIfMan pIfObj
        match leafLoop (Abc_NodeFromIf_rec fuel) pNodeNew (pIfMan.cut pCutBest).pLeaves
            ntk1 pIfMan with
        | .error e => .error e
        | .ok (ntk2, p2) =>
          match Abc_NodeIfToHop2 fuel p2 pIfObj with
          | .error e => .error e
          | .ok (gFunc, p3) =>
            .ok (pNodeNew, Abc_ObjSetData ntk2 pNodeNew (.func gFunc),
              If_ObjSetCopy p3 pIfObj (some pNodeNew))
      else .error .assertion

/-- Modelled from the spec: creation of a primary input; the new object is
the object `pNtk.nObjs`. -/
def Abc_NtkCreatePi (pNtk : Abc_Ntk) : Abc_Ntk :=
  { Abc_NtkCreateObj pNtk .ABC_OBJ_PI with vCis := pNtk.vCis ++ [pNtk.nObjs] }

/-- Modelled from the spec: creation of a primary output; the new object is
the object `pNtk.nObjs`. -/
def Abc_NtkCreatePo (pNtk : Abc_Ntk) : Abc_Ntk :=
  { Abc_NtkCreateObj pNtk .ABC_OBJ_PO with vCos := pNtk.vCos ++ [pNtk.nObjs] }

/-- Modelled from the spec: the loop of `Abc_NtkStartFrom` that duplicates the
primary inputs `objs` of the source network in the new network and records
each duplicate in the field `pCopy` of its original. -/
def Abc_NtkDupCis : List Nat → Abc_Ntk → Abc_Ntk → Abc_Ntk × Abc_Ntk
  | [], pNtk, pNtkNew => (pNtk, pNtkNew)
  | pObj :: rest, pNtk, pNtkNew =>
    Abc_NtkDupCis rest (Abc_ObjSetCopy pNtk pObj (some pNtkNew.nObjs)) (Abc_NtkCreatePi pNtkNew)

/-- Modelled from the spec: the loop of `Abc_NtkStartFrom` that duplicates the
primary outputs `objs` of the source network in the new network and records
each duplicate in the field `pCopy` of its original. -/
def Abc_NtkDupCos : List Nat → Abc_Ntk → Abc_Ntk → Abc_Ntk × Abc_Ntk
  | [], pNtk, pNtkNew => (pNtk, pNtkNew)
  | pObj :: rest, pNtk, pNtkNew =>
    Abc_NtkDupCos rest (Abc_ObjSetCopy pNtk pObj (some pNtkNew.nObjs)) (Abc_NtkCreatePo pNtkNew)

/-- Modelled from the spec: `Abc_NtkStartFrom`, a fresh network with the
same primary inputs and outputs and an empty body. Returns the source
network, whose inputs and outputs now point to their duplicates, and the
new network. -/
def Abc_NtkStartFrom (pNtk : Abc_Ntk) : Abc_Ntk × Abc_Ntk :=
  let r := Abc_NtkDupCis pNtk.vCis pNtk (Abc_NtkAlloc .ABC_NTK_LOGIC)
  Abc_NtkDupCos pNtk.vCos r.1 r.2

/-- Modelled from the spec: `If_ManCleanNodeCopy`. -/
def If_ManCleanNodeCopy (p : If_Man) : If_Man := { p with pCopy := fun _ => none }

/-- Modelled from the spec: `If_ManCleanCutData`. -/
def If_ManCleanCutData (p : If_Man) : If_Man := { p with cutData := fun _ => none }

/-- The loop `Abc_NtkForEachCi( pNtk, pNode, i )
If_ObjSetCopy( If_ManPi(pIfMan, i), pNode->pCopy )` of `Abc_NtkFromIf`
(abcIf.c:168), from position `i` on. An input of the source network without
an `i`-th mapper input is an invalid array access. -/
def setPiCopies (pNtk : Abc_Ntk) : List Nat → Nat → If_Man → Except Fault If_Man
  | [], _, pIfMan => .ok pIfMan
  | pNode :: rest, i, pIfMan =>
    match pIfMan.net.vPis[i]? with
    | none => .error .nullPointer
    | some pi => setPiCopies pNtk rest (i + 1) (If_ObjSetCopy pIfMan pi (pNtk.pCopy pNode))

/-- The statements of `Abc_NtkFromIf` before its output loop
(abcIf.c:162-169). Returns the source network, the new network and the
mapper. -/
def Abc_NtkFromIf_start (pIfMan : If_Man) (pNtk : Abc_Ntk) :
    Except Fault (Abc_Ntk × Abc_Ntk × If_Man) :=
  let r := Abc_NtkStartFrom pNtk
  let p1 := If_ManCleanCutData (If_ManCleanNodeCopy pIfMan)
  let p2 := If_ObjSetCopy p1 p1.net.pConst1 (some r.2.nObjs)
  let ntk1 := Abc_NtkCreateNodeConst1 r.2
  match setPiCopies r.1 r.1.vCis 0 p2 with
  | .error e => .error e
  | .ok p3 => .ok (r.1, ntk1, p3)

/-- The output loop of `Abc_NtkFromIf` (abcIf.c:172-178), from position `i`
on. -/
def coLoop (fuel : Nat) (pNtk : Abc_Ntk) : List Nat → Nat → Abc_Ntk → If_Man →
    Except Fault (Abc_Ntk × If_Man)
  | [], _, pNtkNew, pIfMan => .ok (pNtkNew, pIfMan)
  | pNode :: rest, i, pNtkNew, pIfMan =>
    match pIfMan.net.vPos[i]? with
    | none => .error .nullPointer
    | some po =>
      match Abc_NodeFromIf_rec fuel pNtkNew pIfMan (pIfMan.net.pFanin0 po) with
      | .error e => .error e
      | .ok (pNodeNew, ntk1, p1) =>
        match pNtk.pCopy pNode with
        | none => .error .nullPointer
        | some pCo =>
          coLoop fuel pNtk rest (i + 1)
            (Abc_ObjAddFanin ntk1 pCo (Abc_ObjNotCond (pNodeNew, false) (p1.net.fCompl0 po))) p1

/-- The function `Abc_NtkFromIf` up to the end of its output loop (abcIf.c:162-178). -/
def Abc_NtkFromIf_outputs (fuel : Nat) (pIfMan : If_Man) (pNtk : Abc_Ntk) :
    Except Fault (Abc_Ntk × Abc_Ntk × If_Man) :=
  match Abc_NtkFromIf_start pIfMan pNtk with
  | .error e => .error e
  | .ok (ntk, ntkNew, p) =>
    match coLoop fuel ntk ntk.vCos 0 ntkNew p with
    | .error e => .error e
    | .ok (ntkNew1, p1) => .ok (ntk, ntkNew1, p1)

/-- The removal of the unused constant node in `Abc_NtkFromIf`
(abcIf.c:181-183). -/
def removeUnusedConst (pIfMan : If_Man) (pNtkNew : Abc_Ntk) : Except Fault Abc_Ntk :=
  match If_ObjCopy pIfMan pIfMan.net.pConst1 with
  | none => .error .nullPointer
  | some pNodeNew =>
    if Abc_ObjFanoutNum pNtkNew pNodeNew = 0 then .ok (Abc_NtkDeleteObj pNtkNew pNodeNew)
    else .ok pNtkNew

/-- The function `Abc_NtkFromIf` (abcIf.c:155). The pass `Abc_NtkLogicMakeSimpleCos`, which
is not part of the sources, is the parameter `makeSimpleCos`. -/
def Abc_NtkFromIf (makeSimpleCos : Abc_Ntk → Abc_Ntk) (fuel : Nat) (pIfMan : If_Man)
    (pNtk : Abc_Ntk) : Except Fault (Abc_Ntk × Abc_Ntk × If_Man) :=
  match Abc_NtkFromIf_outputs fuel pIfMan pNtk with
  | .error e => .error e
  | .ok (ntk, ntkNew, p) =>
    match removeUnusedConst p ntkNew with
    | .error e => .error e
    | .ok ntkNew1 => .ok (ntk, makeSimpleCos ntkNew1, p)

/-! ## Loading the network into the mapper -/

/-- Modelled from the spec: `If_ManConst1`, the constant object of the mapper. -/
def If_ManConst1 (p : If_Man) : Nat := p.net.pConst1

/-- Modelled from the spec: creation of a mapper object. The new object gets
the next identifier and has no equivalent and no recorded correspondent. -/
def If_ManSetupObj (p : If_Man) (t : If_Type) (pFan0 : Option Nat) (fCompl0 : Bool)
    (pFan1 : Option Nat) (fCompl1 : Bool) : If_Man :=
  { p with
    net := { p.net with
      nObjs := p.net.nObjs + 1
      Typ := Function.update p.net.Typ p.net.nObjs t
      fCompl0 := Function.update p.net.fCompl0 p.net.nObjs fCompl0
      fCompl1 := Function.update p.net.fCompl1 p.net.nObjs fCompl1
      pFanin0 := Function.update p.net.pFanin0 p.net.nObjs pFan0
      pFanin1 := Function.update p.net.pFanin1 p.net.nObjs pFan1
      pEquiv := Function.update p.net.pEquiv p.net.nObjs none }
    pCopy := Function.update p.pCopy p.net.nObjs none }

/-- Modelled from the spec: `If_ManCreatePi`; the new input is the object
`p.net.nObjs`. -/
def If_ManCreatePi (p : If_Man) : If_Man :=
  let q := If_ManSetupObj p .IF_CI none false none false
  { q with net := { q.net with vPis := q.net.vPis ++ [p.net.nObjs] } }

/-- Modelled from the spec: `If_ManCreateAnd`, a mapper object combining two
mapper objects with their complement bits; the new object is the object
`p.net.nObjs`. -/
def If_ManCreateAnd (p : If_Man) (pFan0 : Nat) (fCompl0 : Bool) (pFan1 : Nat) (fCompl1 : Bool) :
    If_Man :=
  If_ManSetupObj p .IF_AND (some pFan0) fCompl0 (some pFan1) fCompl1

/-- Modelled from the spec: `If_ManCreatePo`, a mapper output referencing a
mapper object and a complement bit; the new output is the object
`p.net.nObjs`. -/
def If_ManCreatePo (p : If_Man) (pDriver : Nat) (fCompl : Bool) : If_Man :=
  let q := If_ManSetupObj p .IF_CO (some pDriver) fCompl none false
  { q with net := { q.net with vPos := q.net.vPos ++ [p.net.nObjs] } }

/-- Modelled from the spec: `If_ObjSetChoice`, the link from a mapper object
to the next member of its equivalence chain. -/
def If_ObjSetChoice (p : If_Man) (pObj : Nat) (pEqu : Option Nat) : If_Man :=
  { p with net := { p.net with pEquiv := Function.update p.net.pEquiv pObj pEqu } }

/-- Modelled from the spec: `Abc_AigNodeIsChoice`, the node heads or belongs
to an equivalence chain: it has a next node in the chain (for the last
member of a chain there is nothing to link). -/
def Abc_AigNodeIsChoice (pNtk : Abc_Ntk) (pNode : Nat) : Bool :=
  match pNtk.pData pNode with
  | .obj _ => true
  | _ => false

/-- The objects visited by `Abc_AigForEachAnd`: the nodes of the network in
the order of their identifiers. -/
def Abc_AigAnds (pNtk : Abc_Ntk) : List Nat :=
  (List.range pNtk.nObjs).filter (fun i => pNtk.Typ i = .ABC_OBJ_NODE)

/-- The loop `Abc_NtkForEachCi( pNtk, pNode, i )
pNode->pCopy = If_ManCreatePi( pIfMan )` of `Abc_NtkToIf` (abcIf.c:119). -/
def ciLoopToIf : List Nat → Abc_Ntk → If_Man → Abc_Ntk × If_Man
  | [], pNtk, pIfMan => (pNtk, pIfMan)
  | pNode :: rest, pNtk, pIfMan =>
    ciLoopToIf rest (Abc_ObjSetCopy pNtk pNode (some pIfMan.net.nObjs)) (If_ManCreatePi pIfMan)

/-- The loop `for ( pPrev = pNode, pFanin = pNode->pData; pFanin;
pPrev = pFanin, pFanin = pFanin->pData ) If_ObjSetChoice( pPrev->pCopy,
pFanin->pCopy )` of `Abc_NtkToIf` (abcIf.c:133), entered with `pPrev` and
`pFanin`. -/
def choiceLoop : Nat → Abc_Ntk → Nat → Abc_Data → If_Man → Except Fault If_Man
  | _, _, _, .null, pIfMan => .ok pIfMan
  | _, _, _, .func _, _ => .error .nullPointer
  | 0, _, _, .obj _, _ => .error .outOfFuel
  | fuel + 1, pNtk, pPrev, .obj pFanin, pIfMan =>
    match pNtk.pCopy pPrev with
    | none => .error .nullPointer
    | some pObj =>
      choiceLoop fuel pNtk pFanin (pNtk.pData pFanin)
        (If_ObjSetChoice pIfMan pObj (pNtk.pCopy pFanin))

/-- The loop `Abc_AigForEachAnd( pNtk, pNode, i )` of `Abc_NtkToIf`
(abcIf.c:124-135), over the nodes still to visit. -/
def andLoopToIf (fuel : Nat) : List Nat → Abc_Ntk → If_Man → Except Fault (Abc_Ntk × If_Man)
  | [], pNtk, pIfMan => .ok (pNtk, pIfMan)
  | pNode :: rest, pNtk, pIfMan =>
    match Abc_ObjFanin0 pNtk pNode, Abc_ObjFanin1 pNtk pNode with
    | some pFanin0, some pFanin1 =>
      match pNtk.pCopy pFanin0, pNtk.pCopy pFanin1 with
      | some pFan0, some pFan1 =>
        let ntk1 := Abc_ObjSetCopy pNtk pNode (some pIfMan.net.nObjs)
        let p1 := If_ManCreateAnd pIfMan pFan0 (Abc_ObjFaninC0 pNtk pNode)
          pFan1 (Abc_ObjFaninC1 pNtk pNode)
        if Abc_AigNodeIsChoice ntk1 pNode then
          match choiceLoop fuel ntk1 pNode (ntk1.pData pNode) p1 with
          | .error e => .error e
          | .ok p2 => andLoopToIf fuel rest ntk1 p2
        else andLoopToIf fuel rest ntk1 p1
      | _, _ => .error .nullPointer
    | _, _ => .error .nullPointer

/-- The loop `Abc_NtkForEachCo( pNtk, pNode, i ) If_ManCreatePo( pIfMan,
Abc_ObjFanin0(pNode)->pCopy, Abc_ObjFaninC0(pNode) )` of `Abc_NtkToIf`
(abcIf.c:139). -/
def coLoopToIf (pNtk : Abc_Ntk) : List Nat → If_Man → Except Fault If_Man
  | [], pIfMan => .ok pIfMan
  | pNode :: rest, pIfMan =>
    match Abc_ObjFanin0 pNtk pNode with
    | none => .error .nullPointer
    | some pFanin =>
      match pNtk.pCopy pFanin with
      | none => .error .nullPointer
      | some pDriver =>
        coLoopToIf pNtk rest (If_ManCreatePo pIfMan pDriver (Abc_ObjFaninC0 pNtk pNode))

/-- The function `Abc_NtkToIf` (abcIf.c:105). The call `If_ManStart`, which is not part of
the sources, is the parameter `If_ManStart`; it returns no mapper when the
mapper cannot be initialized. Returns the source network, with its
correspondence fields, and the mapper handle. -/
def Abc_NtkToIf {Par : Type} (If_ManStart : Par → Option If_Man) (fuel : Nat) (pNtk : Abc_Ntk)
    (pPars : Par) : Except Fault (Abc_Ntk × Option If_Man) :=
  if pNtk.ntkType = .ABC_NTK_STRASH then
    match If_ManStart pPars with
    | none => .error .nullPointer
    | some pIfMan =>
      let ntk1 := Abc_ObjSetCopy pNtk pNtk.pConst1 (some (If_ManConst1 pIfMan))
      let r := ciLoopToIf ntk1.vCis ntk1 pIfMan
      match andLoopToIf fuel (Abc_AigAnds r.1) r.1 r.2 with
      | .error e => .error e
      | .ok (ntk3, p3) =>
        match coLoopToIf ntk3 ntk3.vCos p3 with
        | .error e => .error e
        | .ok p4 => .ok (ntk3, some p4)
  else .error .assertion

/-- Modelled from the spec: a mapper as `If_ManStart` returns it, with the
constant as its only object. -/
def If_ManStartFresh : If_Man where
  net :=
    { nObjs := 1
      Typ := fun i => if i = 0 then .IF_CONST1 else .IF_NONE
      fCompl0 := fun _ => false
      fCompl1 := fun _ => false
      pFanin0 := fun _ => none
      pFanin1 := fun _ => none
      pEquiv := fun _ => none
      iCut := fun _ => 0
      Cuts := fun n _ => ⟨none, none, false, false, false, [n]⟩
      pConst1 := 0
      vPis := []
      vPos := [] }
  pCopy := fun _ => none
  cutData := fun _ => none
  vTemp := []

/-! ## Reference semantics of a cut -/

/-- The leaves separate a node from the inputs: the node is a leaf, or it has
two fanins that the leaves separate from the inputs. -/
inductive Separates (N : If_Net) (leaves : List Nat) : Nat → Prop where
  | leaf (m : Nat) : m ∈ leaves → Separates N leaves m
  | node (m f0 f1 : Nat) : N.pFanin0 m = some f0 → N.pFanin1 m = some f1 →
      Separates N leaves f0 → Separates N leaves f1 → Separates N leaves m

/-- Reference value of a node for an assignment `a` to the leaves: the value
of a leaf is the one assigned to it; the value of any other node is its phase
XOR the AND of the values of its two fanins, each XOR its complement bit. The
phase of a node is the phase bit of its first cut. -/
def refVal (N : If_Net) (leaves : List Nat) (a : Nat → Bool) : Nat → Nat → Option Bool
  | 0, _ => none
  | fuel + 1, m =>
    if m ∈ leaves then some (a m)
    else
      match N.pFanin0 m, N.pFanin1 m with
      | some f0, some f1 =>
        match refVal N leaves a fuel f0, refVal N leaves a fuel f1 with
        | some b0, some b1 =>
          some (xor (N.Cuts m 0).Phase (xor b0 (N.fCompl0 m) && xor b1 (N.fCompl1 m)))
        | _, _ => none
      | _, _ => none

/-- Every scratch annotation of the mapper is empty. -/
def AllEmpty (p : If_Man) : Prop := ∀ c, p.cutData c = none

/-- The state `q` is the state `p` after the cuts `vs`, whose annotation was
empty, were annotated and pushed onto `vTemp`, in this order. -/
def Extends (p q : If_Man) (vs : List If_CutRef) : Prop :=
  q.net = p.net ∧ q.pCopy = p.pCopy ∧ q.vTemp = p.vTemp ++ vs ∧ vs.Nodup ∧
    (∀ c, c ∉ vs → q.cutData c = p.cutData c) ∧
    (∀ c, c ∈ vs → p.cutData c = none ∧ q.cutData c ≠ none)

/-- The function graph of a node over the annotations `seed` found on entry:
an annotated node has its annotation; any other node has the AND of the
function graphs of its two fanins, with the complement bits of the fanins
and the phase bit of its first cut. -/
inductive Cone (N : If_Net) (seed : If_CutRef → Option Hop_Obj) : Nat → Hop_Obj → Prop where
  | leaf (n : Nat) (g : Hop_Obj) : seed (If_ObjCutTriv n) = some g → Cone N seed n g
  | node (n f0 f1 : Nat) (g0 g1 : Hop_Obj) : seed (If_ObjCutTriv n) = none →
      N.pFanin0 n = some f0 → N.pFanin1 n = some f1 →
      Cone N seed f0 g0 → Cone N seed f1 g1 →
      Cone N seed n (Hop_NotCond (Hop_And (Hop_NotCond g0 (N.fCompl0 n))
        (Hop_NotCond g1 (N.fCompl1 n))) (N.Cuts n 0).Phase)

/-- Invariant of the memoized recursion over nodes: every annotation of a
first cut is the function graph of its node, and the annotations found on
entry are still there. -/
def MemoInv (N : If_Net) (seed : If_CutRef → Option Hop_Obj) (p : If_Man) : Prop :=
  p.net = N ∧ (∀ m h, p.cutData (If_ObjCutTriv m) = some h → Cone N seed m h) ∧
    (∀ m h, seed (If_ObjCutTriv m) = some h → p.cutData (If_ObjCutTriv m) = some h)

/-! ## A small mapper used to exercise the statements

Objects: `0` is the constant, `1`, `2`, `3` are inputs, `4 = AND(1, 2)`,
`5 = AND(4, NOT 3)`, `6 = AND(4, 3)`, `7 = AND(6, NOT 4)`, and `8`, `9`, `10`
are the outputs driven by `NOT 5`, `6` and `7`. The best cut of `4` has the
leaves `1, 2`; the best cut of `5` has the leaves `1, 2, 3`; the best cuts of
`6` and `7` have the leaves `4, 3`. -/

/-- Cuts of the example mapper. -/
def exCuts : Nat → Nat → If_Cut_t
  | 4, 1 => ⟨some (1, 0), some (2, 0), false, false, false, [1, 2]⟩
  | 5, 0 => ⟨none, none, false, false, true, [5]⟩
  | 5, 1 => ⟨some (4, 1), some (3, 0), false, true, true, [1, 2, 3]⟩
  | 6, 1 => ⟨some (4, 0), some (3, 0), false, false, false, [4, 3]⟩
  | 7, 1 => ⟨some (6, 1), some (4, 0), false, true, false, [4, 3]⟩
  | n, _ => ⟨none, none, false, false, false, [n]⟩

/-- Objects of the example mapper. -/
def exNet : If_Net where
  nObjs := 11
  Typ := fun i => match i with
    | 0 => .IF_CONST1
    | 1 => .IF_CI
    | 2 => .IF_CI
    | 3 => .IF_CI
    | 4 => .IF_AND
    | 5 => .IF_AND
    | 6 => .IF_AND
    | 7 => .IF_AND
    | 8 => .IF_CO
    | 9 => .IF_CO
    | 10 => .IF_CO
    | _ => .IF_NONE
  fCompl0 := fun i => match i with
    | 8 => true
    | _ => false
  fCompl1 := fun i => match i with
    | 5 => true
    | 7 => true
    | _ => false
  pFanin0 := fun i => match i with
    | 4 => some 1
    | 5 => some 4
    | 6 => some 4
    | 7 => some 6
    | 8 => some 5
    | 9 => some 6
    | 10 => some 7
    | _ => none
  pFanin1 := fun i => match i with
    | 4 => some 2
    | 5 => some 3
    | 6 => some 3
    | 7 => some 4
    | _ => none
  pEquiv := fun _ => none
  iCut := fun i => match i with
    | 4 => 1
    | 5 => 1
    | 6 => 1
    | 7 => 1
    | _ => 0
  Cuts := exCuts
  pConst1 := 0
  vPis := [1, 2, 3]
  vPos := [8, 9, 10]

/-- The example mapper, with empty correspondence and scratch annotations. -/
def exMan : If_Man where
  net := exNet
  pCopy := fun _ => none
  cutData := fun _ => none
  vTemp := []

/-- The structurally hashed network the example mapper was loaded from. -/
def exNtk : Abc_Ntk where
  ntkType := .ABC_NTK_STRASH
  nObjs := 11
  Typ := fun i => match i with
    | 0 => .ABC_OBJ_CONST1
    | 1 => .ABC_OBJ_PI
    | 2 => .ABC_OBJ_PI
    | 3 => .ABC_OBJ_PI
    | 4 => .ABC_OBJ_NODE
    | 5 => .ABC_OBJ_NODE
    | 6 => .ABC_OBJ_NODE
    | 7 => .ABC_OBJ_NODE
    | 8 => .ABC_OBJ_PO
    | 9 => .ABC_OBJ_PO
    | 10 => .ABC_OBJ_PO
    | _ => .ABC_OBJ_NONE
  vFanins := fun i => match i with
    | 4 => [(1, false), (2, false)]
    | 5 => [(4, false), (3, true)]
    | 6 => [(4, false), (3, false)]
    | 7 => [(6, false), (4, true)]
    | 8 => [(5, true)]
    | 9 => [(6, false)]
    | 10 => [(7, false)]
    | _ => []
  vFanouts := fun i => match i with
    | 1 => [4]
    | 2 => [4]
    | 3 => [5, 6]
    | 4 => [5, 6, 7]
    | 5 => [8]
    | 6 => [7, 9]
    | 7 => [10]
    | _ => []
  pData := fun _ => .null
  pCopy := fun _ => none
  vCis := [1, 2, 3]
  vCos := [8, 9, 10]
  pConst1 := 0

/-- The new network of the example when the output loop of `Abc_NtkFromIf`
starts. -/
def exNew0 : Abc_Ntk :=
  match Abc_NtkFromIf_start exMan exNtk with
  | .ok (_, ntkNew, _) => ntkNew
  | .error _ => Abc_NtkAlloc .ABC_NTK_LOGIC

/-- The mapper of the example when the output loop of `Abc_NtkFromIf`
starts. -/
def exMan0 : If_Man :=
  match Abc_NtkFromIf_start exMan exNtk with
  | .ok (_, _, p) => p
  | .error _ => exMan

/-- The result of a call of `Abc_NodeFromIf_rec` that returned. -/
def reconResult (r : Except Fault (Nat × Abc_Ntk × If_Man)) : Nat × Abc_Ntk × If_Man :=
  match r with
  | .ok x => x
  | .error _ => (0, Abc_NtkAlloc .ABC_NTK_LOGIC, exMan)

/-- One synthesis pass: a call of `Abc_NodeIfToHop2` on a node or a call of
`Abc_NodeIfToHop` on a cut, that returns. -/
def SynthPass (p q : If_Man) : Prop :=
  (∃ fuel n g, Abc_NodeIfToHop2 fuel p n = .ok (g, q)) ∨
    (∃ fuel c g, Abc_NodeIfToHop fuel p c = .ok (g, q))

/-- The state a pass leaves: the returned state when the pass returned,
the state it started from when it did not. -/
def passState (p : If_Man) (r : Except Fault (Hop_Obj × If_Man)) : If_Man :=
  match r with
  | .ok (_, q) => q
  | .error _ => p

/-- The example mapper after a pass of `Abc_NodeIfToHop2` on the node `4`. -/
def exMan1 : If_Man := passState exMan (Abc_NodeIfToHop2 5 exMan 4)

/-- The example mapper after a further pass of `Abc_NodeIfToHop2` on the node `5`. -/
def exMan2 : If_Man := passState exMan1 (Abc_NodeIfToHop2 5 exMan1 5)

/-- The example mapper after a further pass of `Abc_NodeIfToHop` on the best
cut of the node `5`. -/
def exMan3 : If_Man := passState exMan2 (Abc_NodeIfToHop 5 exMan2 (5, 1))

/-- The leaves of the best cut of a mapper object. -/
def If_Man.bestLeaves (p : If_Man) (pObj : Nat) : List Nat :=
  (p.cut (If_ObjCutBest p pObj)).pLeaves

/-- Relation between the state `(ntk, p)` before and the state `(ntk', p')`
after a part of the reconstruction. Objects of the new network that existed
before keep their type and function, and their fanins unless exempted by
`E`; recorded correspondents stay; every mapper object `m` that got a
correspondent satisfies `Q`, is an AND object, and its correspondent is a
node created in between whose fanins are the correspondents of the leaves of
the best cut of `m`, in leaf order and uncomplemented, and whose function was
returned by `Abc_NodeIfToHop2` on `m`; every object created in between is the
correspondent of exactly one mapper object. -/
structure Grows (E Q : Nat → Prop) (ntk : Abc_Ntk) (p : If_Man) (ntk' : Abc_Ntk)
    (p' : If_Man) : Prop where
  net : p'.net = p.net
  empty : AllEmpty p'
  le : ntk.nObjs ≤ ntk'.nObjs
  fanins : ∀ j, j < ntk.nObjs → ¬ E j → ntk'.vFanins j = ntk.vFanins j
  typ : ∀ j, j < ntk.nObjs → ntk'.Typ j = ntk.Typ j
  data : ∀ j, j < ntk.nObjs → ntk'.pData j = ntk.pData j
  cis : ntk'.vCis = ntk.vCis
  cos : ntk'.vCos = ntk.vCos
  mono : ∀ m c, p.pCopy m = some c → p'.pCopy m = some c
  fresh : ∀ m c, p.pCopy m = none → p'.pCopy m = some c →
    Q m ∧ p.net.Typ m = .IF_AND ∧ ntk.nObjs ≤ c ∧ c < ntk'.nObjs ∧
      ntk'.Typ c = .ABC_OBJ_NODE ∧
      (ntk'.vFanins c).map (fun f => some f.1) = (p.bestLeaves m).map p'.pCopy ∧
      (∀ f ∈ ntk'.vFanins c, f.2 = false) ∧
      ∃ g fuel q q', ntk'.pData c = .func g ∧ AllEmpty q ∧ q.net = p.net ∧
        Abc_NodeIfToHop2 fuel q m = .ok (g, q')
  onto : ∀ j, ntk.nObjs ≤ j → j < ntk'.nObjs → ∃ m, p.pCopy m = none ∧ p'.pCopy m = some j
  inj : ∀ m1 m2 c, p.pCopy m1 = none → p.pCopy m2 = none →
    p'.pCopy m1 = some c → p'.pCopy m2 = some c → m1 = m2

/-- The best-cut-leaf relation of the mapper is acyclic: the leaves of the
best cut of every AND object are below the object for the measure `rank`. -/
def LeavesBelow (N : If_Net) (rank : Nat → Nat) : Prop :=
  ∀ m, N.Typ m = .IF_AND → ∀ l ∈ (N.Cuts m (N.iCut m)).pLeaves, rank l < rank m

/-- The object can be reconstructed from the correspondence `cp`: it has a
recorded correspondent, or it is an AND object whose best cut has at least
two leaves that separate it from the inputs and can be reconstructed
themselves. -/
inductive Reconstructible (N : If_Net) (cp : Nat → Option Nat) : Nat → Prop where
  | cached (n c : Nat) : cp n = some c → Reconstructible N cp n
  | node (n : Nat) : N.Typ n = .IF_AND → 2 ≤ (N.Cuts n (N.iCut n)).pLeaves.length →
      Separates N (N.Cuts n (N.iCut n)).pLeaves n →
      (∀ l, l ∈ (N.Cuts n (N.iCut n)).pLeaves → Reconstructible N cp l) →
      Reconstructible N cp n

/-- The result of a run of `Abc_NtkFromIf` up to the end of its output loop
that returned. -/
def outputsResult (r : Except Fault (Abc_Ntk × Abc_Ntk × If_Man)) : Abc_Ntk × Abc_Ntk × If_Man :=
  match r with
  | .ok x => x
  | .error _ => (Abc_NtkAlloc .ABC_NTK_LOGIC, Abc_NtkAlloc .ABC_NTK_LOGIC, exMan)

/-- The example after the output loop of `Abc_NtkFromIf`: the source
network, the new network and the mapper. -/
def exOut : Abc_Ntk × Abc_Ntk × If_Man := outputsResult (Abc_NtkFromIf_outputs 5 exMan exNtk)

/-- The decomposition tree under a cut mirrors the fanin graph below the
object of the cut, as far as the leaves: the cut is the first cut of a leaf,
or its children `pOne` and `pTwo` are cuts of the first and the second fanin
of its object, its complement bits are those of the object, its phase bit is
that of the first cut of the object, and the trees under both children
mirror the fanin graph. -/
inductive CutMirrors (N : If_Net) (leaves : List Nat) : If_CutRef → Prop where
  | leaf (l : Nat) : l ∈ leaves → CutMirrors N leaves (l, 0)
  | node (n i f0 f1 i0 i1 : Nat) : N.pFanin0 n = some f0 → N.pFanin1 n = some f1 →
      (N.Cuts n i).pOne = some (f0, i0) → (N.Cuts n i).pTwo = some (f1, i1) →
      (N.Cuts n i).fCompl0 = N.fCompl0 n → (N.Cuts n i).fCompl1 = N.fCompl1 n →
      (N.Cuts n i).Phase = (N.Cuts n 0).Phase →
      CutMirrors N leaves (f0, i0) → CutMirrors N leaves (f1, i1) →
      CutMirrors N leaves (n, i)

/-- The decomposition tree under a cut mirrors the fanin graph below the
object of the cut and ends exactly at the leaves: as `CutMirrors`, and a cut
of the tree that has children does not belong to a leaf. -/
inductive CutMirrorsToLeaves (N : If_Net) (leaves : List Nat) : If_CutRef → Prop where
  | leaf (l : Nat) : l ∈ leaves → CutMirrorsToLeaves N leaves (l, 0)
  | node (n i f0 f1 i0 i1 : Nat) : n ∉ leaves →
      N.pFanin0 n = some f0 → N.pFanin1 n = some f1 →
      (N.Cuts n i).pOne = some (f0, i0) → (N.Cuts n i).pTwo = some (f1, i1) →
      (N.Cuts n i).fCompl0 = N.fCompl0 n → (N.Cuts n i).fCompl1 = N.fCompl1 n →
      (N.Cuts n i).Phase = (N.Cuts n 0).Phase →
      CutMirrorsToLeaves N leaves (f0, i0) → CutMirrorsToLeaves N leaves (f1, i1) →
      CutMirrorsToLeaves N leaves (n, i)

/-- The function graph of a cut over the annotations `seed` found on entry:
an annotated cut has its annotation; any other cut has the AND of the
function graphs of its two children, with its complement bits and its phase
bit. -/
inductive ConeCut (N : If_Net) (seed : If_CutRef → Option Hop_Obj) : If_CutRef → Hop_Obj → Prop where
  | leaf (c : If_CutRef) (g : Hop_Obj) : seed c = some g → ConeCut N seed c g
  | node (c c0 c1 : If_CutRef) (g0 g1 : Hop_Obj) : seed c = none →
      (N.Cuts c.1 c.2).pOne = some c0 → (N.Cuts c.1 c.2).pTwo = some c1 →
      ConeCut N seed c0 g0 → ConeCut N seed c1 g1 →
      ConeCut N seed c (Hop_NotCond (Hop_And (Hop_NotCond g0 (N.Cuts c.1 c.2).fCompl0)
        (Hop_NotCond g1 (N.Cuts c.1 c.2).fCompl1)) (N.Cuts c.1 c.2).Phase)

/-- Invariant of the memoized recursion over cuts: every annotation is the
function graph of its cut, and the annotations found on entry are still
there. -/
def MemoInvCut (N : If_Net) (seed : If_CutRef → Option Hop_Obj) (p : If_Man) : Prop :=
  p.net = N ∧ (∀ c h, p.cutData c = some h → ConeCut N seed c h) ∧
    (∀ c h, seed c = some h → p.cutData c = some h)

/-- A mapper in which the best cut of the object `7 = AND(6, NOT 4)` has the
children `(6, 1)`, with the leaves `4, 3`, and `(4, 1)`, with the leaves
`1, 2`, hence the leaves `4, 3, 1, 2`: the object `4` is a leaf and the
object of a cut with children. -/
def exManShared : If_Man :=
  { exMan with
    net := { exNet with
      iCut := fun i => if i = 7 then 2 else exNet.iCut i
      Cuts := fun n i =>
        if n = 7 ∧ i = 2 then ⟨some (6, 1), some (4, 1), false, true, false, [4, 3, 1, 2]⟩
        else exCuts n i } }

/-- A source object that gets a mapper object: the constant, an input or a
node. -/
def Abc_Ntk.IsSource (ntk : Abc_Ntk) (j : Nat) : Prop :=
  j = ntk.pConst1 ∨ j ∈ ntk.vCis ∨ (j < ntk.nObjs ∧ ntk.Typ j = .ABC_OBJ_NODE)

/-- A structurally hashed network: the constant is a constant object; the
inputs are pairwise distinct input objects; every node has exactly two
fanins, which are source objects with smaller identifiers; every output has
exactly one fanin, which is a source object. -/
structure StrashWF (ntk : Abc_Ntk) : Prop where
  strash : ntk.ntkType = .ABC_NTK_STRASH
  const_typ : ntk.Typ ntk.pConst1 = .ABC_OBJ_CONST1
  cis_typ : ∀ ci, ci ∈ ntk.vCis → ntk.Typ ci = .ABC_OBJ_PI
  cis_nodup : ntk.vCis.Nodup
  and_fanins : ∀ n, n < ntk.nObjs → ntk.Typ n = .ABC_OBJ_NODE →
    ∃ f0 c0 f1 c1, ntk.vFanins n = [(f0, c0), (f1, c1)] ∧ f0 < n ∧ f1 < n ∧
      ntk.IsSource f0 ∧ ntk.IsSource f1
  co_fanin : ∀ co, co ∈ ntk.vCos → ∃ f c, ntk.vFanins co = [(f, c)] ∧ ntk.IsSource f

/-- The equivalence chains lead to nodes visited earlier: the next node in
the chain of a node is a node with a smaller identifier. -/
def ChainOrdered (ntk : Abc_Ntk) : Prop :=
  ∀ n, n < ntk.nObjs → ntk.Typ n = .ABC_OBJ_NODE →
    (∀ g, ntk.pData n ≠ .func g) ∧
    ∀ m, ntk.pData n = .obj m → m < n ∧ ntk.Typ m = .ABC_OBJ_NODE

/-- A mapper as it is before loading: it has its constant, no inputs, no
outputs and no AND objects. -/
def If_Man.Fresh (p : If_Man) : Prop :=
  p.net.vPis = [] ∧ p.net.vPos = [] ∧ p.net.pConst1 < p.net.nObjs ∧
    ∀ k, k < p.net.nObjs → p.net.Typ k ≠ .IF_AND

/-- The number of AND objects of a mapper. -/
def If_Man.andCount (p : If_Man) : Nat :=
  ((List.range p.net.nObjs).filter (fun k => p.net.Typ k = .IF_AND)).length

/-- The mapper `q` has the objects of the mapper `p`, with the same type,
fanins and complement bits, and possibly more. -/
def NetExt (p q : If_Man) : Prop :=
  p.net.nObjs ≤ q.net.nObjs ∧ ∀ k, k < p.net.nObjs →
    q.net.Typ k = p.net.Typ k ∧ q.net.pFanin0 k = p.net.pFanin0 k ∧
    q.net.fCompl0 k = p.net.fCompl0 k ∧ q.net.pFanin1 k = p.net.pFanin1 k ∧
    q.net.fCompl1 k = p.net.fCompl1 k

/-- The network `ntk` is the network `src` up to the correspondence fields. -/
def SameButCopy (src ntk : Abc_Ntk) : Prop := ntk = { src with pCopy := ntk.pCopy }

/-- The source objects that have been loaded when the nodes `ands` are still
to visit: the constant, the inputs and the other nodes. -/
def Loaded (src : Abc_Ntk) (ands : List Nat) (j : Nat) : Prop :=
  j = src.pConst1 ∨ j ∈ src.vCis ∨ (j < src.nObjs ∧ src.Typ j = .ABC_OBJ_NODE ∧ j ∉ ands)

/-- Invariant of the node loop of the loader, when the nodes `ands` are still
to visit: the network is the source up to the correspondence fields; the
nodes to visit are in increasing order and above the visited ones; every
loaded object points to a mapper object of its own; the mapper object of a
visited node is an AND object over the mapper objects of the two fanins of
the node, with their complement bits; the mapper inputs are the mapper
objects of the source inputs, in order; the mapper has no outputs; the AND
objects of the mapper are as many as the visited nodes. -/
structure LoadInv (src : Abc_Ntk) (ands : List Nat) (ntk : Abc_Ntk) (p : If_Man) : Prop where
  same : SameButCopy src ntk
  sorted : ands.Pairwise (fun a b => a < b)
  ands_node : ∀ n, n ∈ ands → n < src.nObjs ∧ src.Typ n = .ABC_OBJ_NODE
  below : ∀ j, j < src.nObjs → src.Typ j = .ABC_OBJ_NODE → j ∉ ands → ∀ n, n ∈ ands → j < n
  loaded : ∀ j, Loaded src ands j → ∃ k, ntk.pCopy j = some k ∧ k < p.net.nObjs
  inj : ∀ j j', Loaded src ands j → Loaded src ands j' → ntk.pCopy j = ntk.pCopy j' → j = j'
  andOK : ∀ j, j < src.nObjs → src.Typ j = .ABC_OBJ_NODE → j ∉ ands →
    ∃ k f0 c0 f1 c1, ntk.pCopy j = some k ∧ src.vFanins j = [(f0, c0), (f1, c1)] ∧
      p.net.Typ k = .IF_AND ∧ p.net.pFanin0 k = ntk.pCopy f0 ∧ p.net.fCompl0 k = c0 ∧
      p.net.pFanin1 k = ntk.pCopy f1 ∧ p.net.fCompl1 k = c1
  pis : p.net.vPis.map some = src.vCis.map ntk.pCopy
  pos : p.net.vPos = []
  count : p.andCount + ands.length = (Abc_AigAnds src).length

/-- The mapper `q` is the mapper `p` up to the equivalence links. -/
def SameButEquiv (p q : If_Man) : Prop :=
  q = { p with net := { p.net with pEquiv := q.net.pEquiv } }

/-- The equivalence link of the source node `j` is recorded: when `j` has a
next node in its chain, the mapper object of `j` is linked to the mapper
object of that node. -/
def LinkOK (src ntk : Abc_Ntk) (p : If_Man) (j : Nat) : Prop :=
  ∀ m, src.pData j = .obj m →
    ∃ k e, ntk.pCopy j = some k ∧ ntk.pCopy m = some e ∧ p.net.pEquiv k = some e

/-! ## Two small networks with an equivalence chain

Objects: `0` is the constant, `1`, `2` are inputs, `3 = AND(1, 2)` and
`4 = AND(2, 1)` are equivalent nodes and `5` is the output. -/

/-- A structurally hashed network in which the node `4` drives the output
and heads the chain `4 -> 3`: the chain leads to a node visited earlier. -/
def exNtkOrd : Abc_Ntk where
  ntkType := .ABC_NTK_STRASH
  nObjs := 6
  Typ := fun i => match i with
    | 0 => .ABC_OBJ_CONST1
    | 1 => .ABC_OBJ_PI
    | 2 => .ABC_OBJ_PI
    | 3 => .ABC_OBJ_NODE
    | 4 => .ABC_OBJ_NODE
    | 5 => .ABC_OBJ_PO
    | _ => .ABC_OBJ_NONE
  vFanins := fun i => match i with
    | 3 => [(1, false), (2, false)]
    | 4 => [(2, false), (1, false)]
    | 5 => [(4, false)]
    | _ => []
  vFanouts := fun i => match i with
    | 1 => [3, 4]
    | 2 => [3, 4]
    | 4 => [5]
    | _ => []
  pData := fun i => match i with
    | 4 => .obj 3
    | _ => .null
  pCopy := fun _ => none
  vCis := [1, 2]
  vCos := [5]
  pConst1 := 0

/-- A structurally hashed network in which the node `3` drives the output
and heads the chain `3 -> 4`: the chain leads to a node visited later. -/
def exNtkChoice : Abc_Ntk where
  ntkType := .ABC_NTK_STRASH
  nObjs := 6
  Typ := fun i => match i with
    | 0 => .ABC_OBJ_CONST1
    | 1 => .ABC_OBJ_PI
    | 2 => .ABC_OBJ_PI
    | 3 => .ABC_OBJ_NODE
    | 4 => .ABC_OBJ_NODE
    | 5 => .ABC_OBJ_PO
    | _ => .ABC_OBJ_NONE
  vFanins := fun i => match i with
    | 3 => [(1, false), (2, false)]
    | 4 => [(2, false), (1, false)]
    | 5 => [(3, false)]
    | _ => []
  vFanouts := fun i => match i with
    | 1 => [3, 4]
    | 2 => [3, 4]
    | 3 => [5]
    | _ => []
  pData := fun i => match i with
    | 3 => .obj 4
    | _ => .null
  pCopy := fun _ => none
  vCis := [1, 2]
  vCos := [5]
  pConst1 := 0

/-- The result of a run of `Abc_NtkToIf` that returned a mapper. -/
def loadResult (r : Except Fault (Abc_Ntk × Option If_Man)) : Abc_Ntk × If_Man :=
  match r with
  | .ok (ntk, some p) => (ntk, p)
  | _ => (Abc_NtkAlloc .ABC_NTK_STRASH, If_ManStartFresh)

/-! ## The driver -/

/-- The calls of `Abc_NtkIf` and of the functions it calls into code that is
not part of the sources: the start of the mapper, the mapping itself, which
returns whether it succeeded and leaves its cuts in the mapper, the timing
information of the inputs written into the parameters, the pass
`Abc_NtkLogicMakeSimpleCos`, the duplication of the EXDC network of the
source onto the new network, and the check of a network. -/
structure If_Services (Par : Type) where
  If_ManStart : Par → Option If_Man
  If_ManPerformMapping : If_Man → Bool × If_Man
  Abc_NtkGetCiArrivalFloats : Abc_Ntk → Par → Par
  Abc_NtkLogicMakeSimpleCos : Abc_Ntk → Abc_Ntk
  Abc_NtkDupExdc : Abc_Ntk → Abc_Ntk → Abc_Ntk
  Abc_NtkCheck : Abc_Ntk → Bool

/-- What a run of `Abc_NtkIf` that returns leaves behind: the returned
pointer (`none` for `NULL`), the mapper handle obtained from the loader, the
number of calls of `If_ManStop` on the handle, and whether the new network
was deleted by `Abc_NtkDelete`. -/
structure Abc_NtkIf_Out where
  pNtkNew : Option Abc_Ntk
  pIfMan : Option If_Man
  nStops : Nat
  fDeleted : Bool

/-- The statements of `Abc_NtkIf` after the call of `Abc_NtkFromIf`
(abcIf.c:76-91), for the pointer `pNtkNew` this call returned. -/
def Abc_NtkIf_finish {Par : Type} (S : If_Services Par) (pNtk : Abc_Ntk) (pIfMan : If_Man)
    (pNtkNew : Option Abc_Ntk) : Abc_NtkIf_Out :=
  match pNtkNew with
  | none => { pNtkNew := none, pIfMan := some pIfMan, nStops := 0, fDeleted := false }
  | some ntkNew =>
    let ntk1 := S.Abc_NtkDupExdc pNtk ntkNew
    if S.Abc_NtkCheck ntk1 then
      { pNtkNew := some ntk1, pIfMan := some pIfMan, nStops := 1, fDeleted := false }
    else { pNtkNew := none, pIfMan := some pIfMan, nStops := 1, fDeleted := true }

/-- The statements of `Abc_NtkIf` after the call of `Abc_NtkToIf`
(abcIf.c:66-91), for the handle `pIfMan` this call returned. -/
def Abc_NtkIf_mapping {Par : Type} (S : If_Services Par) (fuel : Nat) (pNtk : Abc_Ntk)
    (pIfMan : Option If_Man) : Except Fault Abc_NtkIf_Out :=
  match pIfMan with
  | none => .ok { pNtkNew := none, pIfMan := none, nStops := 0, fDeleted := false }
  | some m =>
    let r := S.If_ManPerformMapping m
    if r.1 then
      match Abc_NtkFromIf S.Abc_NtkLogicMakeSimpleCos fuel r.2 pNtk with
      | .error e => .error e
      | .ok (ntk2, ntkNew, m2) => .ok (Abc_NtkIf_finish S ntk2 m2 (some ntkNew))
    else .ok { pNtkNew := none, pIfMan := some r.2, nStops := 1, fDeleted := false }

/-- The function `Abc_NtkIf` (abcIf.c:49). The warning it prints about
choice nodes has no effect on the state. -/
def Abc_NtkIf {Par : Type} (S : If_Services Par) (fuel : Nat) (pNtk : Abc_Ntk) (pPars : Par) :
    Except Fault Abc_NtkIf_Out :=
  if pNtk.ntkType = .ABC_NTK_STRASH then
    match Abc_NtkToIf S.If_ManStart fuel pNtk (S.Abc_NtkGetCiArrivalFloats pNtk pPars) with
    | .error e => .error e
    | .ok (ntk1, pIfMan) => Abc_NtkIf_mapping S fuel ntk1 pIfMan
  else .error .assertion

/-- Services for the example: the mapper starts with its constant only, the
mapping succeeds and selects the cuts of the example mapper, and the check
of a network passes exactly when `fCheck` is set. -/
def exServices (fMap fCheck : Bool) : If_Services Unit where
  If_ManStart := fun _ => some If_ManStartFresh
  If_ManPerformMapping := fun m =>
    (fMap, { m with net := { m.net with iCut := exNet.iCut, Cuts := exCuts } })
  Abc_NtkGetCiArrivalFloats := fun _ pPars => pPars
  Abc_NtkLogicMakeSimpleCos := fun ntk => ntk
  Abc_NtkDupExdc := fun _ ntkNew => ntkNew
  Abc_NtkCheck := fun _ => fCheck

/-- The result of a run of `Abc_NtkIf` that returned. -/
def driverResult (r : Except Fault Abc_NtkIf_Out) : Abc_NtkIf_Out :=
  match r with
  | .ok out => out
  | .error _ => { pNtkNew := none, pIfMan := none, nStops := 0, fDeleted := false }

/-! ## Invariants of the reconstruction that need no acyclicity -/

/-- The fanouts of the network mirror its fanins, and only objects of the
network have fanins or are fanins. -/
def FanoutsOK (ntk : Abc_Ntk) : Prop :=
  (∀ c j, j ∈ ntk.vFanouts c ↔ ∃ b, (c, b) ∈ ntk.vFanins j) ∧
    ∀ j f, f ∈ ntk.vFanins j → j < ntk.nObjs ∧ f.1 < ntk.nObjs

/-- Every recorded correspondent is an object of the new network. -/
def CopiesBelow (ntk : Abc_Ntk) (p : If_Man) : Prop :=
  ∀ m c, p.pCopy m = some c → c < ntk.nObjs

/-- Every AND object with a recorded correspondent has recorded
correspondents for all leaves of its best cut. -/
def LeavesClosed (p : If_Man) : Prop :=
  ∀ m, p.net.Typ m = .IF_AND → p.pCopy m ≠ none → ∀ l, l ∈ p.bestLeaves m → p.pCopy l ≠ none

/-- The best-cut-leaf relation: `l` is a leaf of the best cut of the AND
object `m`. -/
def LeafEdge (N : If_Net) (m l : Nat) : Prop :=
  N.Typ m = .IF_AND ∧ l ∈ (N.Cuts m (N.iCut m)).pLeaves

/-- Relation between the state `(ntk, p)` before and the state `(ntk', p')`
after a part of the reconstruction, for any mapper. The mapper objects stay;
objects of the new network that existed before keep their type, and their
fanins unless exempted by `E`; recorded correspondents stay; every mapper
object that got a correspondent satisfies `Q`; the leaves of the best cuts
of the AND objects with a correspondent keep having correspondents; the
fanouts keep mirroring the fanins and the correspondents keep being objects
of the new network. -/
structure Keeps (E Q : Nat → Prop) (ntk : Abc_Ntk) (p : If_Man) (ntk' : Abc_Ntk)
    (p' : If_Man) : Prop where
  net : p'.net = p.net
  le : ntk.nObjs ≤ ntk'.nObjs
  typ : ∀ j, j < ntk.nObjs → ntk'.Typ j = ntk.Typ j
  data : ∀ j, j < ntk.nObjs → ntk'.pData j = ntk.pData j
  fanins : ∀ j, j < ntk.nObjs → ¬ E j → ntk'.vFanins j = ntk.vFanins j
  cis : ntk'.vCis = ntk.vCis
  cos : ntk'.vCos = ntk.vCos
  mono : ∀ m c, p.pCopy m = some c → p'.pCopy m = some c
  fresh : ∀ m, p.pCopy m = none → p'.pCopy m ≠ none → Q m
  closed : LeavesClosed p → LeavesClosed p'
  bound : FanoutsOK ntk → CopiesBelow ntk p → FanoutsOK ntk' ∧ CopiesBelow ntk' p'

/-- The mapper objects reached from the driver of a mapper output through
the best-cut-leaf relation. -/
def DriverReach (N : If_Net) (m : Nat) : Prop :=
  ∃ mpo drv, mpo ∈ N.vPos ∧ N.pFanin0 mpo = some drv ∧
    Relation.ReflTransGen (LeafEdge N) drv m

/-- The result of the removal of the unused constant node. -/
def constResult (r : Except Fault Abc_Ntk) : Abc_Ntk :=
  match r with
  | .ok ntk => ntk
  | .error _ => Abc_NtkAlloc .ABC_NTK_LOGIC

/-! ## The state in which a fault occurs

The functions below are the functions of the same names without `_at`, with
one difference: a fault is returned together with the state in which it
occurs. -/

/-- The function `Abc_NodeIfToHop_rec` (abcIf.c:238), with the state at a fault. -/
def Abc_NodeIfToHop_rec_at : Nat → If_Man → Option If_CutRef →
    Except (Fault × If_Man) (Hop_Obj × If_Man)
  | 0, p, _ => .error (.outOfFuel, p)
  | _ + 1, p, none => .error (.nullPointer, p)
  | fuel + 1, p, some pCut =>
    match If_CutData p pCut with
    | some g => .ok (g, p)
    | none =>
      match Abc_NodeIfToHop_rec_at fuel p (p.cut pCut).pOne with
      | .error e => .error e
      | .ok (gFunc0, p1) =>
        match Abc_NodeIfToHop_rec_at fuel p1 (p1.cut pCut).pTwo with
        | .error e => .error e
        | .ok (gFunc1, p2) =>
          let gFunc := Hop_And (Hop_NotCond gFunc0 (p2.cut pCut).fCompl0)
            (Hop_NotCond gFunc1 (p2.cut pCut).fCompl1)
          let gFunc := Hop_NotCond gFunc (p2.cut pCut).Phase
          match If_CutData p2 pCut with
          | some _ => .error (.assertion, p2)
          | none => .ok (gFunc, Vec_PtrPush (If_CutSetData p2 pCut (some gFunc)) pCut)

/-- The function `Abc_NodeIfToHop` (abcIf.c:268), with the state at a fault. -/
def Abc_NodeIfToHop_at (fuel : Nat) (p : If_Man) (pCut : If_CutRef) :
    Except (Fault × If_Man) (Hop_Obj × If_Man) :=
  if (p.cut pCut).pLeaves.length > 1 then
    let p1 := setLeafVars p (p.cut pCut).pLeaves 0
    let p2 := Vec_PtrClear p1
    match Abc_NodeIfToHop_rec_at fuel p2 (some pCut) with
    | .error e => .error e
    | .ok (gFunc, p3) =>
      let p4 := cleanLeaves p3 (p3.cut pCut).pLeaves
      .ok (gFunc, cleanCuts p4 p4.vTemp)
  else .error (.assertion, p)

/-- The function `Abc_NodeIfToHop2_rec` (abcIf.c:301), with the state at a fault. -/
def Abc_NodeIfToHop2_rec_at : Nat → If_Man → Option Nat →
    Except (Fault × If_Man) (Hop_Obj × If_Man)
  | 0, p, _ => .error (.outOfFuel, p)
  | _ + 1, p, none => .error (.nullPointer, p)
  | fuel + 1, p, some pIfObj =>
    let pCut := If_ObjCutTriv pIfObj
    match If_CutData p pCut with
    | some g => .ok (g, p)
    | none =>
      match Abc_NodeIfToHop2_rec_at fuel p (p.net.pFanin0 pIfObj) with
      | .error e => .error e
      | .ok (gFunc0, p1) =>
        match Abc_NodeIfToHop2_rec_at fuel p1 (p1.net.pFanin1 pIfObj) with
        | .error e => .error e
        | .ok (gFunc1, p2) =>
          let gFunc := Hop_And (Hop_NotCond gFunc0 (p2.net.fCompl0 pIfObj))
            (Hop_NotCond gFunc1 (p2.net.fCompl1 pIfObj))
          let gFunc := Hop_NotCond gFunc (p2.cut pCut).Phase
          match If_CutData p2 pCut with
          | some _ => .error (.assertion, p2)
          | none => .ok (gFunc, Vec_PtrPush (If_CutSetData p2 pCut (some gFunc)) pCut)

/-- The function `Abc_NodeIfToHop2` (abcIf.c:334), with the state at a fault. -/
def Abc_NodeIfToHop2_at (fuel : Nat) (p : If_Man) (pIfObj : Nat) :
    Except (Fault × If_Man) (Hop_Obj × If_Man) :=
  let pCut := If_ObjCutBest p pIfObj
  if (p.cut pCut).pLeaves.length > 1 then
    let p1 := setLeafVars p (p.cut pCut).pLeaves 0
    let p2 := Vec_PtrClear p1
    match Abc_NodeIfToHop2_rec_at fuel p2 (some pIfObj) with
    | .error e => .error e
    | .ok (gFunc, p3) =>
      let p4 := cleanLeaves p3 (p3.cut pCut).pLeaves
      .ok (gFunc, cleanCuts p4 p4.vTemp)
  else .error (.assertion, p)

/-- The leaf loop of `Abc_NodeFromIf_rec` (abcIf.c:217), with the state at a fault. -/
def leafLoop_at
    (recur : Abc_Ntk → If_Man → Option Nat →
      Except (Fault × Abc_Ntk × If_Man) (Nat × Abc_Ntk × If_Man))
    (pNodeNew : Nat) : List Nat → Abc_Ntk → If_Man →
    Except (Fault × Abc_Ntk × If_Man) (Abc_Ntk × If_Man)
  | [], pNtkNew, pIfMan => .ok (pNtkNew, pIfMan)
  | pIfLeaf :: rest, pNtkNew, pIfMan =>
    match recur pNtkNew pIfMan (some pIfLeaf) with
    | .error e => .error e
    | .ok (pFanin, ntk1, p1) =>
      leafLoop_at recur pNodeNew rest (Abc_ObjAddFanin ntk1 pNodeNew (pFanin, false)) p1

/-- The function `Abc_NodeFromIf_rec` (abcIf.c:202), with the state at a fault. -/
def Abc_NodeFromIf_rec_at : Nat → Abc_Ntk → If_Man → Option Nat →
    Except (Fault × Abc_Ntk × If_Man) (Nat × Abc_Ntk × If_Man)
  | 0, pNtkNew, pIfMan, _ => .error (.outOfFuel, pNtkNew, pIfMan)
  | _ + 1, pNtkNew, pIfMan, none => .error (.nullPointer, pNtkNew, pIfMan)
  | fuel + 1, pNtkNew, pIfMan, some pIfObj =>
    match If_ObjCopy pIfMan pIfObj with
    | some pNodeNew => .ok (pNodeNew, pNtkNew, pIfMan)
    | none =>
      if pIfMan.net.Typ pIfObj = .IF_AND then
        let pNodeNew := pNtkNew.nObjs
        let ntk1 := Abc_NtkCreateNode pNtkNew
        let pCutBest := If_ObjCutBest pIfMan pIfObj
        match leafLoop_at (Abc_NodeFromIf_rec_at fuel) pNodeNew (pIfMan.cut pCutBest).pLeaves
            ntk1 pIfMan with
        | .error e => .error e
        | .ok (ntk2, p2) =>
          match Abc_NodeIfToHop2_at fuel p2 pIfObj with
          | .error (f, q) => .error (f, ntk2, q)
          | .ok (gFunc, p3) =>
            .ok (pNodeNew, Abc_ObjSetData ntk2 pNodeNew (.func gFunc),
              If_ObjSetCopy p3 pIfObj (some pNodeNew))
      else .error (.assertion, pNtkNew, pIfMan)

/-- The mapper states the reconstruction goes through from the state `p0`:
the state `p0`; the state after a call of `Abc_NodeFromIf_rec` that returns,
at any depth, from such a state; and every state that differs from such a
state in the scratch annotations and the array `vTemp` only, as the states
inside a synthesis pass do. -/
inductive ReconPoint (p0 : If_Man) : If_Man → Prop where
  | start : ReconPoint p0 p0
  | call {p : If_Man} (fuel : Nat) (ntk : Abc_Ntk) (o : Option Nat) (c : Nat) (ntk' : Abc_Ntk)
      (p' : If_Man) : ReconPoint p0 p →
      Abc_NodeFromIf_rec fuel ntk p o = .ok (c, ntk', p') → ReconPoint p0 p'
  | scratch {p : If_Man} (q : If_Man) : ReconPoint p0 p → q.net = p.net → q.pCopy = p.pCopy →
      ReconPoint p0 q

/-! ## Descent of the synthesis -/

/-- A step of the descent of `Abc_NodeIfToHop2_rec`: from an object that is
not a leaf to one of its two fanins. -/
def FaninEdge (N : If_Net) (leaves : List Nat) (a b : Nat) : Prop :=
  a ∉ leaves ∧ (N.pFanin0 a = some b ∨ N.pFanin1 a = some b)

/-- A step of the descent of `Abc_NodeIfToHop_rec`: from a cut that is not
the first cut of a leaf to one of its two children. -/
def CutEdge (N : If_Net) (leaves : List Nat) (a b : If_CutRef) : Prop :=
  a ∉ leaves.map If_ObjCutTriv ∧
    ((N.Cuts a.1 a.2).pOne = some b ∨ (N.Cuts a.1 a.2).pTwo = some b)

/-- The decomposition tree under a cut ends at the leaves: the cut is the
first cut of a leaf, or it has two children whose trees end at the leaves. -/
inductive SeparatesCut (N : If_Net) (leaves : List Nat) : If_CutRef → Prop where
  | leaf (l : Nat) : l ∈ leaves → SeparatesCut N leaves (If_ObjCutTriv l)
  | node (c c0 c1 : If_CutRef) : (N.Cuts c.1 c.2).pOne = some c0 →
      (N.Cuts c.1 c.2).pTwo = some c1 →
      SeparatesCut N leaves c0 → SeparatesCut N leaves c1 → SeparatesCut N leaves c

/-- The fanin graph of the mapper is acyclic: the fanins of every object are
below the object for the measure `rank`. -/
def FaninsBelow (N : If_Net) (rank : Nat → Nat) : Prop :=
  ∀ m f, N.pFanin0 m = some f ∨ N.pFanin1 m = some f → rank f < rank m

/-- The child pointers of the cuts of the mapper are acyclic: the children of
every cut are below the cut for the measure `rank`. -/
def CutsBelow (N : If_Net) (rank : If_CutRef → Nat) : Prop :=
  ∀ c d, (N.Cuts c.1 c.2).pOne = some d ∨ (N.Cuts c.1 c.2).pTwo = some d → rank d < rank c

/-- The fanin relation of a network: `b` is one of the fanins of `a`. -/
def Abc_Ntk.IsFanin (ntk : Abc_Ntk) (a b : Nat) : Prop :=
  ∃ c, (b, c) ∈ ntk.vFanins a

/-- The example mapper with the best cut of the object `6 = AND(4, 3)`
reduced to the single leaf `4`: the input `3` is a fanin of `6` and is not
a leaf. -/
def exManOpen : If_Man :=
  { exMan with
    net := { exNet with
      Cuts := fun n i =>
        if n = 6 ∧ i = 1 then ⟨some (4, 0), some (3, 0), false, false, false, [4]⟩
        else exCuts n i } }

/-- Every variable of the function graph has an index below `k`. -/
def Hop_VarsBelow (k : Nat) : Hop_Obj → Prop
  | .const1 _ => True
  | .var i _ => i < k
  | .and a b _ => Hop_VarsBelow k a ∧ Hop_VarsBelow k b

/-- Services for the example in which the mapper cannot be started. -/
def exServicesNoStart : If_Services Unit :=
  { exServices true true with If_ManStart := fun _ => none }

/-- The example mapper with the best cut of the object `7 = AND(6, NOT 4)`
set to the leaves `3, 1`: the fanin path `7, 6, 4, 2` passes through no leaf
and ends at the input `2`, which is not a leaf. -/
def exManGap : If_Man :=
  { exMan with
    net := { exNet with
      Cuts := fun n i =>
        if n = 7 ∧ i = 1 then ⟨some (6, 1), some (4, 0), false, true, false, [3, 1]⟩
        else exCuts n i } }

/-- The mapper `exManGap` with an annotation left on the first cut of the
object `4`. -/
def exManStale : If_Man := If_CutSetData exManGap (If_ObjCutTriv 4) (some (Hop_IthVar 0))

/-- A structurally hashed network with two decompositions of the AND of its
three inputs: `4 = AND(1, 2)`, `5 = AND(4, 3)`, `6 = AND(2, 3)` and
`7 = AND(1, 6)`. The node `5` drives the output `8` and heads the chain
`5 -> 7`: the chain leads to a node visited later. -/
def exNtkAlt : Abc_Ntk where
  ntkType := .ABC_NTK_STRASH
  nObjs := 9
  Typ := fun i => match i with
    | 0 => .ABC_OBJ_CONST1
    | 1 => .ABC_OBJ_PI
    | 2 => .ABC_OBJ_PI
    | 3 => .ABC_OBJ_PI
    | 4 => .ABC_OBJ_NODE
    | 5 => .ABC_OBJ_NODE
    | 6 => .ABC_OBJ_NODE
    | 7 => .ABC_OBJ_NODE
    | 8 => .ABC_OBJ_PO
    | _ => .ABC_OBJ_NONE
  vFanins := fun i => match i with
    | 4 => [(1, false), (2, false)]
    | 5 => [(4, false), (3, false)]
    | 6 => [(2, false), (3, false)]
    | 7 => [(1, false), (6, false)]
    | 8 => [(5, false)]
    | _ => []
  vFanouts := fun i => match i with
    | 1 => [4, 7]
    | 2 => [4, 6]
    | 3 => [5, 6]
    | 4 => [5]
    | 5 => [8]
    | 6 => [7]
    | _ => []
  pData := fun i => match i with
    | 5 => .obj 7
    | _ => .null
  pCopy := fun _ => none
  vCis := [1, 2, 3]
  vCos := [8]
  pConst1 := 0

/-! ## Basic facts about the state operations -/

@[simp] theorem If_CutSetData_net (p : If_Man) (c : If_CutRef) (d : Option Hop_Obj) :
    (If_CutSetData p c d).net = p.net := rfl

@[simp] theorem If_CutSetData_pCopy (p : If_Man) (c : If_CutRef) (d : Option Hop_Obj) :
    (If_CutSetData p c d).pCopy = p.pCopy := rfl

@[simp] theorem If_CutSetData_vTemp (p : If_Man) (c : If_CutRef) (d : Option Hop_Obj) :
    (If_CutSetData p c d).vTemp = p.vTemp := rfl

theorem If_CutSetData_cutData (p : If_Man) (c : If_CutRef) (d : Option Hop_Obj)
    (x : If_CutRef) :
    (If_CutSetData p c d).cutData x = if x = c then d else p.cutData x := by
  simp [If_CutSetData, Function.update_apply]

@[simp] theorem Vec_PtrPush_net (p : If_Man) (c : If_CutRef) : (Vec_PtrPush p c).net = p.net := rfl

@[simp] theorem Vec_PtrPush_pCopy (p : If_Man) (c : If_CutRef) :
    (Vec_PtrPush p c).pCopy = p.pCopy := rfl

@[simp] theorem Vec_PtrPush_cutData (p : If_Man) (c : If_CutRef) :
    (Vec_PtrPush p c).cutData = p.cutData := rfl

@[simp] theorem Vec_PtrPush_vTemp (p : If_Man) (c : If_CutRef) :
    (Vec_PtrPush p c).vTemp = p.vTemp ++ [c] := rfl

@[simp] theorem Vec_PtrClear_net (p : If_Man) : (Vec_PtrClear p).net = p.net := rfl

@[simp] theorem Vec_PtrClear_pCopy (p : If_Man) : (Vec_PtrClear p).pCopy = p.pCopy := rfl

@[simp] theorem Vec_PtrClear_cutData (p : If_Man) : (Vec_PtrClear p).cutData = p.cutData := rfl

@[simp] theorem Vec_PtrClear_vTemp (p : If_Man) : (Vec_PtrClear p).vTemp = [] := rfl

theorem If_Man.cut_congr {p q : If_Man} (h : q.net = p.net) (c : If_CutRef) :
    q.cut c = p.cut c := by
  simp [If_Man.cut, h]

@[simp] theorem setLeafVars_net (p : If_Man) (ls : List Nat) (i : Nat) :
    (setLeafVars p ls i).net = p.net := by
  induction ls generalizing p i with
  | nil => rfl
  | cons l rest ih => simp [setLeafVars, ih]

@[simp] theorem setLeafVars_pCopy (p : If_Man) (ls : List Nat) (i : Nat) :
    (setLeafVars p ls i).pCopy = p.pCopy := by
  induction ls generalizing p i with
  | nil => rfl
  | cons l rest ih => simp [setLeafVars, ih]

@[simp] theorem setLeafVars_vTemp (p : If_Man) (ls : List Nat) (i : Nat) :
    (setLeafVars p ls i).vTemp = p.vTemp := by
  induction ls generalizing p i with
  | nil => rfl
  | cons l rest ih => simp [setLeafVars, ih]

/-- Seeding leaves does not touch the annotation of any other cut. -/
theorem setLeafVars_cutData_of_not_mem (p : If_Man) (ls : List Nat) (i : Nat) (c : If_CutRef)
    (h : ∀ l ∈ ls, c ≠ If_ObjCutTriv l) :
    (setLeafVars p ls i).cutData c = p.cutData c := by
  induction ls generalizing p i with
  | nil => rfl
  | cons l rest ih =>
    simp only [setLeafVars]
    rw [ih _ _ (fun x hx => h x (List.mem_cons_of_mem _ hx)), If_CutSetData_cutData,
      if_neg (h l (List.mem_cons_self _ _))]

/-- After seeding, the first cut of every leaf carries the variable of one of
the positions at which the leaf occurs. -/
theorem setLeafVars_cutData_of_mem (p : If_Man) (ls : List Nat) (i : Nat) (l : Nat)
    (h : l ∈ ls) :
    ∃ j, ls[j]? = some l ∧ (setLeafVars p ls i).cutData (If_ObjCutTriv l) = some (Hop_IthVar (i + j)) := by
  induction ls generalizing p i with
  | nil => simp at h
  | cons x rest ih =>
    simp only [setLeafVars]
    by_cases hr : l ∈ rest
    · obtain ⟨j, hj, hd⟩ := ih (If_CutSetData p (If_ObjCutTriv x) (some (Hop_IthVar i))) (i + 1) hr
      refine ⟨j + 1, by simpa using hj, ?_⟩
      rw [hd]; congr 2; omega
    · have hx : l = x := by
        rcases List.mem_cons.1 h with h1 | h1
        · exact h1
        · exact absurd h1 hr
      subst hx
      refine ⟨0, by simp, ?_⟩
      rw [setLeafVars_cutData_of_not_mem, If_CutSetData_cutData, if_pos rfl]
      · rfl
      · intro y hy hc
        simp only [If_ObjCutTriv, Prod.mk.injEq, and_true] at hc
        exact hr (hc ▸ hy)

@[simp] theorem cleanLeaves_net (p : If_Man) (ls : List Nat) : (cleanLeaves p ls).net = p.net := by
  induction ls generalizing p with
  | nil => rfl
  | cons l rest ih => simp [cleanLeaves, ih]

@[simp] theorem cleanLeaves_pCopy (p : If_Man) (ls : List Nat) :
    (cleanLeaves p ls).pCopy = p.pCopy := by
  induction ls generalizing p with
  | nil => rfl
  | cons l rest ih => simp [cleanLeaves, ih]

@[simp] theorem cleanLeaves_vTemp (p : If_Man) (ls : List Nat) :
    (cleanLeaves p ls).vTemp = p.vTemp := by
  induction ls generalizing p with
  | nil => rfl
  | cons l rest ih => simp [cleanLeaves, ih]

theorem cleanLeaves_cutData (p : If_Man) (ls : List Nat) (c : If_CutRef) :
    (cleanLeaves p ls).cutData c
      = if c ∈ ls.map If_ObjCutTriv then none else p.cutData c := by
  induction ls generalizing p with
  | nil => simp [cleanLeaves]
  | cons l rest ih =>
    simp only [cleanLeaves, ih, If_CutSetData_cutData, List.map_cons, List.mem_cons]
    by_cases h1 : c ∈ rest.map If_ObjCutTriv <;> by_cases h2 : c = If_ObjCutTriv l <;> simp [h1, h2]

@[simp] theorem cleanCuts_net (p : If_Man) (cs : List If_CutRef) : (cleanCuts p cs).net = p.net := by
  induction cs generalizing p with
  | nil => rfl
  | cons l rest ih => simp [cleanCuts, ih]

@[simp] theorem cleanCuts_pCopy (p : If_Man) (cs : List If_CutRef) :
    (cleanCuts p cs).pCopy = p.pCopy := by
  induction cs generalizing p with
  | nil => rfl
  | cons l rest ih => simp [cleanCuts, ih]

@[simp] theorem cleanCuts_vTemp (p : If_Man) (cs : List If_CutRef) :
    (cleanCuts p cs).vTemp = p.vTemp := by
  induction cs generalizing p with
  | nil => rfl
  | cons l rest ih => simp [cleanCuts, ih]

theorem cleanCuts_cutData (p : If_Man) (cs : List If_CutRef) (c : If_CutRef) :
    (cleanCuts p cs).cutData c = if c ∈ cs then none else p.cutData c := by
  induction cs generalizing p with
  | nil => simp [cleanCuts]
  | cons l rest ih =>
    simp only [cleanCuts, ih, If_CutSetData_cutData, List.mem_cons]
    by_cases h1 : c ∈ rest <;> by_cases h2 : c = l <;> simp [h1, h2]

/-! ## The frame of the recursive synthesis -/

theorem Extends.refl (p : If_Man) : Extends p p [] := by
  simp [Extends]

theorem Extends.trans {p q r : If_Man} {vs ws : List If_CutRef}
    (h1 : Extends p q vs) (h2 : Extends q r ws) : Extends p r (vs ++ ws) := by
  obtain ⟨n1, c1, t1, d1, s1, w1⟩ := h1
  obtain ⟨n2, c2, t2, d2, s2, w2⟩ := h2
  refine ⟨n2.trans n1, c2.trans c1, ?_, ?_, ?_, ?_⟩
  · rw [t2, t1, List.append_assoc]
  · rw [List.nodup_append]
    refine ⟨d1, d2, ?_⟩
    intro c hc1 hc2
    have := (w2 c hc2).1
    by_cases hm : c ∈ vs
    · exact (w1 c hm).2 this
    · exact absurd hc1 hm
  · intro c hc
    rw [List.mem_append, not_or] at hc
    rw [s2 c hc.2, s1 c hc.1]
  · intro c hc
    rcases List.mem_append.1 hc with h | h
    · refine ⟨(w1 c h).1, ?_⟩
      by_cases hm : c ∈ ws
      · exact (w2 c hm).2
      · rw [s2 c hm]; exact (w1 c h).2
    · refine ⟨?_, (w2 c h).2⟩
      by_cases hm : c ∈ vs
      · exact (w1 c hm).1
      · rw [← s1 c hm]; exact (w2 c h).1

theorem Extends.push (p : If_Man) (c : If_CutRef) (g : Hop_Obj) (h : p.cutData c = none) :
    Extends p (Vec_PtrPush (If_CutSetData p c (some g)) c) [c] := by
  refine ⟨rfl, rfl, rfl, List.nodup_singleton c, ?_, ?_⟩
  · intro x hx
    simp only [List.mem_singleton] at hx
    simp [If_CutSetData_cutData, hx]
  · intro x hx
    simp only [List.mem_singleton] at hx
    subst hx
    simp [If_CutSetData_cutData, h]

/-- An annotation that is set stays as it is. -/
theorem Extends.mono {p q : If_Man} {vs : List If_CutRef} (h : Extends p q vs)
    {c : If_CutRef} {g : Hop_Obj} (hc : p.cutData c = some g) : q.cutData c = some g := by
  obtain ⟨_, _, _, _, s1, w1⟩ := h
  by_cases hm : c ∈ vs
  · rw [(w1 c hm).1] at hc; cases hc
  · rw [s1 c hm, hc]

/-- An annotation that is set afterwards was set before or belongs to a pushed cut. -/
theorem Extends.written {p q : If_Man} {vs : List If_CutRef} (h : Extends p q vs)
    {c : If_CutRef} (hc : q.cutData c ≠ none) : p.cutData c ≠ none ∨ c ∈ vs := by
  obtain ⟨_, _, _, _, s1, _⟩ := h
  by_cases hm : c ∈ vs
  · exact Or.inr hm
  · left; rw [← s1 c hm]; exact hc

theorem Abc_NodeIfToHop2_rec_extends (fuel : Nat) (p : If_Man) (o : Option Nat)
    (g : Hop_Obj) (q : If_Man) (h : Abc_NodeIfToHop2_rec fuel p o = .ok (g, q)) :
    ∃ vs, Extends p q vs := by
  induction fuel generalizing p o g q with
  | zero => simp [Abc_NodeIfToHop2_rec] at h
  | succ fuel ih =>
    cases o with
    | none => simp [Abc_NodeIfToHop2_rec] at h
    | some n =>
      simp only [Abc_NodeIfToHop2_rec, If_CutData] at h
      split at h
      · simp only [Except.ok.injEq, Prod.mk.injEq] at h
        obtain ⟨_, rfl⟩ := h
        exact ⟨[], Extends.refl p⟩
      · split at h
        · cases h
        · rename_i g0 p1 h0
          split at h
          · cases h
          · rename_i g1 p2 h1
            split at h
            · cases h
            · rename_i hn
              simp only [Except.ok.injEq, Prod.mk.injEq] at h
              obtain ⟨_, rfl⟩ := h
              obtain ⟨vs0, e0⟩ := ih _ _ _ _ h0
              obtain ⟨vs1, e1⟩ := ih _ _ _ _ h1
              exact ⟨(vs0 ++ vs1) ++ [If_ObjCutTriv n],
                (e0.trans e1).trans (Extends.push p2 _ _ hn)⟩

theorem Abc_NodeIfToHop_rec_extends (fuel : Nat) (p : If_Man) (o : Option If_CutRef)
    (g : Hop_Obj) (q : If_Man) (h : Abc_NodeIfToHop_rec fuel p o = .ok (g, q)) :
    ∃ vs, Extends p q vs := by
  induction fuel generalizing p o g q with
  | zero => simp [Abc_NodeIfToHop_rec] at h
  | succ fuel ih =>
    cases o with
    | none => simp [Abc_NodeIfToHop_rec] at h
    | some n =>
      simp only [Abc_NodeIfToHop_rec, If_CutData] at h
      split at h
      · simp only [Except.ok.injEq, Prod.mk.injEq] at h
        obtain ⟨_, rfl⟩ := h
        exact ⟨[], Extends.refl p⟩
      · split at h
        · cases h
        · rename_i g0 p1 h0
          split at h
          · cases h
          · rename_i g1 p2 h1
            split at h
            · cases h
            · rename_i hn
              simp only [Except.ok.injEq, Prod.mk.injEq] at h
              obtain ⟨_, rfl⟩ := h
              obtain ⟨vs0, e0⟩ := ih _ _ _ _ h0
              obtain ⟨vs1, e1⟩ := ih _ _ _ _ h1
              exact ⟨(vs0 ++ vs1) ++ [n],
                (e0.trans e1).trans (Extends.push p2 _ _ hn)⟩

/-! ## No residue -/

theorem Abc_NodeIfToHop2_frame (fuel : Nat) (p : If_Man) (n : Nat) (g : Hop_Obj) (q : If_Man)
    (he : AllEmpty p) (h : Abc_NodeIfToHop2 fuel p n = .ok (g, q)) :
    AllEmpty q ∧ q.net = p.net ∧ q.pCopy = p.pCopy := by
  simp only [Abc_NodeIfToHop2] at h
  split at h
  · split at h
    · cases h
    · rename_i g3 p3 h3
      simp only [Except.ok.injEq, Prod.mk.injEq] at h
      obtain ⟨_, rfl⟩ := h
      obtain ⟨vs, e⟩ := Abc_NodeIfToHop2_rec_extends _ _ _ _ _ h3
      have hnet : p3.net = p.net := by rw [e.1]; simp
      refine ⟨?_, by simp [hnet], by rw [cleanCuts_pCopy, cleanLeaves_pCopy, e.2.1]; simp⟩
      intro c
      rw [cleanCuts_cutData, cleanLeaves_vTemp, cleanLeaves_cutData, If_Man.cut_congr hnet]
      by_cases h1 : c ∈ p3.vTemp
      · simp [h1]
      · rw [if_neg h1]
        split
        · rfl
        · rename_i h2
          have h1' : c ∉ vs := by
            intro hc; apply h1; rw [e.2.2.1]; exact List.mem_append_right _ hc
          rw [e.2.2.2.2.1 c h1', Vec_PtrClear_cutData, setLeafVars_cutData_of_not_mem, he c]
          intro l hl hc
          exact h2 (List.mem_map.2 ⟨l, hl, hc.symm⟩)
  · cases h

theorem Abc_NodeIfToHop_frame (fuel : Nat) (p : If_Man) (pCut : If_CutRef) (g : Hop_Obj)
    (q : If_Man) (he : AllEmpty p) (h : Abc_NodeIfToHop fuel p pCut = .ok (g, q)) :
    AllEmpty q ∧ q.net = p.net ∧ q.pCopy = p.pCopy := by
  simp only [Abc_NodeIfToHop] at h
  split at h
  · split at h
    · cases h
    · rename_i g3 p3 h3
      simp only [Except.ok.injEq, Prod.mk.injEq] at h
      obtain ⟨_, rfl⟩ := h
      obtain ⟨vs, e⟩ := Abc_NodeIfToHop_rec_extends _ _ _ _ _ h3
      have hnet : p3.net = p.net := by rw [e.1]; simp
      refine ⟨?_, by simp [hnet], by rw [cleanCuts_pCopy, cleanLeaves_pCopy, e.2.1]; simp⟩
      intro c
      rw [cleanCuts_cutData, cleanLeaves_vTemp, cleanLeaves_cutData, If_Man.cut_congr hnet]
      by_cases h1 : c ∈ p3.vTemp
      · simp [h1]
      · rw [if_neg h1]
        split
        · rfl
        · rename_i h2
          have h1' : c ∉ vs := by
            intro hc; apply h1; rw [e.2.2.1]; exact List.mem_append_right _ hc
          rw [e.2.2.2.2.1 c h1', Vec_PtrClear_cutData, setLeafVars_cutData_of_not_mem, he c]
          intro l hl hc
          exact h2 (List.mem_map.2 ⟨l, hl, hc.symm⟩)
  · cases h

/-! ## Function correctness of the synthesis over nodes -/

@[simp] theorem Hop_Size_NotCond (g : Hop_Obj) (c : Bool) :
    Hop_Size (Hop_NotCond g c) = Hop_Size g := by
  cases c <;> cases g <;> simp [Hop_NotCond, Hop_Not, Hop_Size]

@[simp] theorem Hop_Size_And (a b : Hop_Obj) :
    Hop_Size (Hop_And a b) = Hop_Size a + Hop_Size b + 1 := rfl

@[simp] theorem Hop_Eval_NotCond (env : Nat → Bool) (g : Hop_Obj) (c : Bool) :
    Hop_Eval env (Hop_NotCond g c) = xor (Hop_Eval env g) c := by
  cases c <;> cases g <;> simp [Hop_NotCond, Hop_Not, Hop_Eval]

@[simp] theorem Hop_Eval_And (env : Nat → Bool) (a b : Hop_Obj) :
    Hop_Eval env (Hop_And a b) = (Hop_Eval env a && Hop_Eval env b) := by
  simp [Hop_And, Hop_Eval]

@[simp] theorem Hop_Eval_IthVar (env : Nat → Bool) (i : Nat) :
    Hop_Eval env (Hop_IthVar i) = env i := by
  simp [Hop_IthVar, Hop_Eval]

theorem Cone.unique {N : If_Net} {seed : If_CutRef → Option Hop_Obj} {n : Nat} {g h : Hop_Obj}
    (hg : Cone N seed n g) (hh : Cone N seed n h) : g = h := by
  induction hg generalizing h with
  | leaf n g hs =>
    cases hh with
    | leaf _ _ hs' => rw [hs] at hs'; exact Option.some.inj hs'
    | node _ _ _ _ _ hs' => rw [hs] at hs'; cases hs'
  | node n f0 f1 g0 g1 hs h0 h1 _ _ ih0 ih1 =>
    cases hh with
    | leaf _ _ hs' => rw [hs] at hs'; cases hs'
    | node _ f0' f1' g0' g1' _ h0' h1' c0 c1 =>
      rw [h0] at h0'; rw [h1] at h1'
      cases h0'; cases h1'
      rw [ih0 c0, ih1 c1]

/-- The memoized recursion over nodes returns the function graph of the node,
for every recursion depth from some depth on. -/
theorem Abc_NodeIfToHop2_rec_total {N : If_Net} {seed : If_CutRef → Option Hop_Obj} {n : Nat}
    {g : Hop_Obj} (hc : Cone N seed n g) (p : If_Man) (hp : MemoInv N seed p) :
    ∃ K q vs, (∀ fuel, K ≤ fuel → Abc_NodeIfToHop2_rec fuel p (some n) = .ok (g, q)) ∧
      MemoInv N seed q ∧ Extends p q vs ∧
      ∀ c ∈ vs, ∃ m h, c = If_ObjCutTriv m ∧ Cone N seed m h ∧ Hop_Size h ≤ Hop_Size g := by
  induction hc generalizing p with
  | leaf n g hs =>
    refine ⟨1, p, [], ?_, hp, Extends.refl p, by simp⟩
    intro fuel hf
    obtain ⟨f, rfl⟩ : ∃ f, fuel = f + 1 := ⟨fuel - 1, by omega⟩
    simp [Abc_NodeIfToHop2_rec, If_CutData, hp.2.2 n g hs]
  | node n f0 f1 g0 g1 hs h0 h1 c0 c1 ih0 ih1 =>
    have hcone := Cone.node n f0 f1 g0 g1 hs h0 h1 c0 c1
    cases hd : p.cutData (If_ObjCutTriv n) with
    | some h =>
      have := Cone.unique (hp.2.1 n h hd) hcone
      subst this
      refine ⟨1, p, [], ?_, hp, Extends.refl p, by simp⟩
      intro fuel hf
      obtain ⟨f, rfl⟩ : ∃ f, fuel = f + 1 := ⟨fuel - 1, by omega⟩
      simp [Abc_NodeIfToHop2_rec, If_CutData, hd]
    | none =>
      obtain ⟨K0, p1, vs0, r0, i0, e0, w0⟩ := ih0 p hp
      obtain ⟨K1, p2, vs1, r1, i1, e1, w1⟩ := ih1 p1 i0
      have hn2 : p2.cutData (If_ObjCutTriv n) = none := by
        by_contra hne
        rcases (e0.trans e1).written hne with h | h
        · exact h hd
        · have hsz : ∀ (g' : Hop_Obj), Hop_Size g' ≤ Hop_Size g0 ∨ Hop_Size g' ≤ Hop_Size g1 →
              Cone N seed n g' → False := by
            intro g' hle hc'
            have := Cone.unique hc' hcone
            subst this
            simp at hle
            omega
          rcases List.mem_append.1 h with h | h
          · obtain ⟨m, h', hm, hc', hle⟩ := w0 _ h
            simp only [If_ObjCutTriv, Prod.mk.injEq, and_true] at hm
            subst hm
            exact hsz h' (Or.inl hle) hc'
          · obtain ⟨m, h', hm, hc', hle⟩ := w1 _ h
            simp only [If_ObjCutTriv, Prod.mk.injEq, and_true] at hm
            subst hm
            exact hsz h' (Or.inr hle) hc'
      refine ⟨max K0 K1 + 1, Vec_PtrPush (If_CutSetData p2 (If_ObjCutTriv n)
        (some (Hop_NotCond (Hop_And (Hop_NotCond g0 (N.fCompl0 n))
          (Hop_NotCond g1 (N.fCompl1 n))) (N.Cuts n 0).Phase)))
        (If_ObjCutTriv n), (vs0 ++ vs1) ++ [If_ObjCutTriv n], ?_, ?_,
        (e0.trans e1).trans (Extends.push p2 _ _ hn2), ?_⟩
      · intro fuel hf
        obtain ⟨f, rfl⟩ : ∃ f, fuel = f + 1 := ⟨fuel - 1, by omega⟩
        have hf0 : K0 ≤ f := by omega
        have hf1 : K1 ≤ f := by omega
        have hd' : p.cutData (n, 0) = none := hd
        have hn2' : p2.cutData (n, 0) = none := hn2
        simp only [Abc_NodeIfToHop2_rec, If_CutData, hd', hp.1, h0, r0 f hf0, i0.1, h1, r1 f hf1,
          hn2', i1.1, If_Man.cut, If_ObjCutTriv]
      · refine ⟨i1.1, ?_, ?_⟩
        · intro m h hm
          simp only [Vec_PtrPush_cutData, If_CutSetData_cutData] at hm
          split at hm
          · rename_i heq
            simp only [If_ObjCutTriv, Prod.mk.injEq, and_true] at heq
            subst heq
            cases hm
            exact hcone
          · exact i1.2.1 m h hm
        · intro m h hm
          simp only [Vec_PtrPush_cutData, If_CutSetData_cutData]
          split
          · rename_i heq
            simp only [If_ObjCutTriv, Prod.mk.injEq, and_true] at heq
            subst heq
            rw [hs] at hm; cases hm
          · exact i1.2.2 m h hm
      · intro c hc
        simp only [List.mem_append, List.mem_singleton] at hc
        rcases hc with (h | h) | h
        · obtain ⟨m, h', hm, hc', hle⟩ := w0 _ h
          exact ⟨m, h', hm, hc', by simp; omega⟩
        · obtain ⟨m, h', hm, hc', hle⟩ := w1 _ h
          exact ⟨m, h', hm, hc', by simp; omega⟩
        · exact ⟨n, _, h, hcone, le_refl _⟩

/-- The annotations after the leaves were seeded: a leaf carries the variable
of one of its positions, any other first cut is empty. -/
theorem setLeafVars_seed (p : If_Man) (he : AllEmpty p) (leaves : List Nat) (m : Nat) :
    (m ∈ leaves → ∃ j, leaves[j]? = some m ∧
        (setLeafVars p leaves 0).cutData (If_ObjCutTriv m) = some (Hop_IthVar j)) ∧
      (m ∉ leaves → (setLeafVars p leaves 0).cutData (If_ObjCutTriv m) = none) := by
  constructor
  · intro hm
    obtain ⟨j, hj, hd⟩ := setLeafVars_cutData_of_mem p leaves 0 m hm
    exact ⟨j, hj, by simpa using hd⟩
  · intro hm
    rw [setLeafVars_cutData_of_not_mem, he]
    intro l hl hc
    simp only [If_ObjCutTriv, Prod.mk.injEq, and_true] at hc
    exact hm (hc ▸ hl)

theorem MemoInv_seeded (p : If_Man) (leaves : List Nat) :
    MemoInv p.net (setLeafVars p leaves 0).cutData (Vec_PtrClear (setLeafVars p leaves 0)) := by
  refine ⟨by simp, ?_, ?_⟩
  · intro m h hm
    exact Cone.leaf m h hm
  · intro m h hm
    exact hm

theorem Separates.cone {p : If_Man} (he : AllEmpty p) {leaves : List Nat} {n : Nat}
    (hs : Separates p.net leaves n) :
    ∃ g, Cone p.net (setLeafVars p leaves 0).cutData n g := by
  induction hs with
  | leaf m hm =>
    obtain ⟨j, _, hd⟩ := (setLeafVars_seed p he leaves m).1 hm
    exact ⟨_, Cone.leaf m _ hd⟩
  | node m f0 f1 h0 h1 _ _ ih0 ih1 =>
    by_cases hm : m ∈ leaves
    · obtain ⟨j, _, hd⟩ := (setLeafVars_seed p he leaves m).1 hm
      exact ⟨_, Cone.leaf m _ hd⟩
    · obtain ⟨g0, c0⟩ := ih0
      obtain ⟨g1, c1⟩ := ih1
      exact ⟨_, Cone.node m f0 f1 g0 g1 ((setLeafVars_seed p he leaves m).2 hm) h0 h1 c0 c1⟩

/-- The function graph of a node over the seeded leaves evaluates to the
reference value of the node. -/
theorem Cone.refVal_eq {p : If_Man} (he : AllEmpty p) {leaves : List Nat} {n : Nat} {g : Hop_Obj}
    (hc : Cone p.net (setLeafVars p leaves 0).cutData n g) :
    ∃ K, ∀ fuel, K ≤ fuel → ∀ a : Nat → Bool,
      refVal p.net leaves a fuel n = some (Hop_Eval (fun i => a (leaves.getD i 0)) g) := by
  induction hc with
  | leaf m g hs =>
    refine ⟨1, ?_⟩
    intro fuel hf a
    obtain ⟨f, rfl⟩ : ∃ f, fuel = f + 1 := ⟨fuel - 1, by omega⟩
    have hm : m ∈ leaves := by
      by_contra hm
      rw [(setLeafVars_seed p he leaves m).2 hm] at hs
      cases hs
    obtain ⟨j, hj, hd⟩ := (setLeafVars_seed p he leaves m).1 hm
    rw [hs] at hd
    cases hd
    simp [refVal, hm, List.getD_eq_getElem?_getD, hj]
  | node m f0 f1 g0 g1 hs h0 h1 _ _ ih0 ih1 =>
    obtain ⟨K0, r0⟩ := ih0
    obtain ⟨K1, r1⟩ := ih1
    refine ⟨max K0 K1 + 1, ?_⟩
    intro fuel hf a
    obtain ⟨f, rfl⟩ : ∃ f, fuel = f + 1 := ⟨fuel - 1, by omega⟩
    have hm : m ∉ leaves := by
      intro hm
      obtain ⟨j, _, hd⟩ := (setLeafVars_seed p he leaves m).1 hm
      rw [hs] at hd
      cases hd
    simp only [refVal, hm, if_false, h0, h1, r0 f (by omega) a, r1 f (by omega) a,
      Hop_Eval_NotCond, Hop_Eval_And]
    rw [Bool.xor_comm]

/-- With empty annotations on entry and at least two leaves, the synthesis
over nodes returns the function graph of the node over the seeded leaves. -/
theorem Abc_NodeIfToHop2_total (p : If_Man) (n : Nat) (g : Hop_Obj)
    (hk : 2 ≤ (p.cut (If_ObjCutBest p n)).pLeaves.length)
    (hc : Cone p.net (setLeafVars p (p.cut (If_ObjCutBest p n)).pLeaves 0).cutData n g) :
    ∃ K q, ∀ fuel, K ≤ fuel → Abc_NodeIfToHop2 fuel p n = .ok (g, q) := by
  obtain ⟨K, q, vs, r, _, _, _⟩ :=
    Abc_NodeIfToHop2_rec_total hc _ (MemoInv_seeded p (p.cut (If_ObjCutBest p n)).pLeaves)
  refine ⟨K, cleanCuts (cleanLeaves q (q.cut (If_ObjCutBest p n)).pLeaves)
    (cleanLeaves q (q.cut (If_ObjCutBest p n)).pLeaves).vTemp, ?_⟩
  intro fuel hf
  have hk' : (p.cut (If_ObjCutBest p n)).pLeaves.length > 1 := by omega
  simp only [Abc_NodeIfToHop2, hk', if_true, r fuel hf]

/-- C1 (function correctness of `Abc_NodeIfToHop2`): for a mapper whose
scratch annotations are all empty and a node whose best cut has at least two
leaves that separate the node from the inputs, the call returns, for every
recursion depth from some depth on, a function graph whose value under
variable `i` := value assigned to the `i`-th leaf is the reference value of
the node, for every assignment to the leaves. In particular, when the two
fanins of the node are its two leaves and carry no inversion, the returned
function graph is `AND(var0, var1)` for phase 0 and its complement for
phase 1. -/
theorem Abc_NodeIfToHop2_correct (p : If_Man) (n : Nat) (he : AllEmpty p)
    (hk : 2 ≤ (p.cut (If_ObjCutBest p n)).pLeaves.length)
    (hs : Separates p.net (p.cut (If_ObjCutBest p n)).pLeaves n) :
    (∃ K, ∀ fuel, K ≤ fuel → ∃ g q, Abc_NodeIfToHop2 fuel p n = .ok (g, q) ∧
      ∀ a : Nat → Bool,
        refVal p.net (p.cut (If_ObjCutBest p n)).pLeaves a fuel n
          = some (Hop_Eval (fun i => a ((p.cut (If_ObjCutBest p n)).pLeaves.getD i 0)) g)) ∧
    (∀ l0 l1, (p.cut (If_ObjCutBest p n)).pLeaves = [l0, l1] →
      p.net.pFanin0 n = some l0 → p.net.pFanin1 n = some l1 →
      p.net.fCompl0 n = false → p.net.fCompl1 n = false →
      l0 ≠ l1 → n ≠ l0 → n ≠ l1 →
      ∃ K, ∀ fuel, K ≤ fuel → ∃ q, Abc_NodeIfToHop2 fuel p n
        = .ok (if (p.net.Cuts n 0).Phase then Hop_Not (Hop_And (Hop_IthVar 0) (Hop_IthVar 1))
            else Hop_And (Hop_IthVar 0) (Hop_IthVar 1), q)) := by
  constructor
  · obtain ⟨g, hc⟩ := hs.cone he
    obtain ⟨K, q, r⟩ := Abc_NodeIfToHop2_total p n g hk hc
    obtain ⟨K', r'⟩ := hc.refVal_eq he
    refine ⟨max K K', ?_⟩
    intro fuel hf
    exact ⟨g, q, r fuel (by omega), r' fuel (by omega)⟩
  · intro l0 l1 hl h0 h1 hc0 hc1 h01 hn0 hn1
    have hseed0 : (setLeafVars p [l0, l1] 0).cutData (If_ObjCutTriv l0) = some (Hop_IthVar 0) := by
      simp [setLeafVars, If_CutSetData_cutData, If_ObjCutTriv, h01]
    have hseed1 : (setLeafVars p [l0, l1] 0).cutData (If_ObjCutTriv l1) = some (Hop_IthVar 1) := by
      simp [setLeafVars, If_CutSetData_cutData, If_ObjCutTriv]
    have hseedn : (setLeafVars p [l0, l1] 0).cutData (If_ObjCutTriv n) = none := by
      simp [setLeafVars, If_CutSetData_cutData, If_ObjCutTriv, hn0, hn1, he (n, 0)]
    have hc := Cone.node (N := p.net) n l0 l1 _ _ hseedn h0 h1
      (Cone.leaf l0 _ hseed0) (Cone.leaf l1 _ hseed1)
    rw [← hl] at hc
    obtain ⟨K, q, r⟩ := Abc_NodeIfToHop2_total p n _ hk hc
    refine ⟨K, ?_⟩
    intro fuel hf
    refine ⟨q, ?_⟩
    rw [r fuel hf, hc0, hc1]
    simp [Hop_NotCond]

/-- C2 (no residue): if every scratch annotation of the mapper is empty
before a call of `Abc_NodeIfToHop2` (respectively `Abc_NodeIfToHop`), then
every scratch annotation is empty again when the call has returned; hence
every scratch annotation is empty after any sequence of synthesis passes. -/
theorem synthesis_no_residue (p : If_Man) (he : AllEmpty p) :
    (∀ fuel n g q, Abc_NodeIfToHop2 fuel p n = .ok (g, q) → AllEmpty q) ∧
    (∀ fuel c g q, Abc_NodeIfToHop fuel p c = .ok (g, q) → AllEmpty q) ∧
    (∀ q, Relation.ReflTransGen SynthPass p q → AllEmpty q) := by
  refine ⟨fun fuel n g q h => (Abc_NodeIfToHop2_frame fuel p n g q he h).1,
    fun fuel c g q h => (Abc_NodeIfToHop_frame fuel p c g q he h).1, ?_⟩
  intro q hq
  induction hq with
  | refl => exact he
  | tail _ hstep ih =>
    rcases hstep with ⟨fuel, n, g, h⟩ | ⟨fuel, c, g, h⟩
    · exact (Abc_NodeIfToHop2_frame fuel _ n g _ ih h).1
    · exact (Abc_NodeIfToHop_frame fuel _ c g _ ih h).1

/-- Two passes over the example mapper, on the nodes `4` and `5` whose cuts
share the leaves `1` and `2`, followed by a pass on the best cut of `5`,
leave no annotation. -/
theorem synthesis_no_residue_witness :
    AllEmpty exMan ∧ SynthPass exMan exMan1 ∧ SynthPass exMan1 exMan2 ∧
      SynthPass exMan2 exMan3 ∧ AllEmpty exMan3 :=
  have s1 : SynthPass exMan exMan1 := Or.inl ⟨5, 4, _, rfl⟩
  have s2 : SynthPass exMan1 exMan2 := Or.inl ⟨5, 5, _, rfl⟩
  have s3 : SynthPass exMan2 exMan3 := Or.inr ⟨5, (5, 1), _, rfl⟩
  ⟨fun _ => rfl, s1, s2, s3,
    (synthesis_no_residue exMan (fun _ => rfl)).2.2 exMan3
      (((Relation.ReflTransGen.single s1).tail s2).tail s3)⟩

/-- The example mapper satisfies the hypotheses of C1 at the node `5`. -/
theorem Abc_NodeIfToHop2_correct_witness :
    AllEmpty exMan ∧ 2 ≤ (exMan.cut (If_ObjCutBest exMan 5)).pLeaves.length ∧
    Separates exMan.net (exMan.cut (If_ObjCutBest exMan 5)).pLeaves 5 ∧
    (∃ K, ∀ fuel, K ≤ fuel → ∃ g q, Abc_NodeIfToHop2 fuel exMan 5 = .ok (g, q) ∧
      ∀ a : Nat → Bool,
        refVal exMan.net (exMan.cut (If_ObjCutBest exMan 5)).pLeaves a fuel 5
          = some (Hop_Eval (fun i => a ((exMan.cut (If_ObjCutBest exMan 5)).pLeaves.getD i 0)) g)) :=
  ⟨fun _ => rfl, by decide,
    .node 5 4 3 rfl rfl (.node 4 1 2 rfl rfl (.leaf 1 (by decide)) (.leaf 2 (by decide)))
      (.leaf 3 (by decide)),
    (Abc_NodeIfToHop2_correct exMan 5 (fun _ => rfl) (by decide)
      (.node 5 4 3 rfl rfl (.node 4 1 2 rfl rfl (.leaf 1 (by decide)) (.leaf 2 (by decide)))
        (.leaf 3 (by decide)))).1⟩

/-! ## The frame of the reconstruction -/

theorem If_Man.bestLeaves_congr {p q : If_Man} (h : q.net = p.net) (m : Nat) :
    q.bestLeaves m = p.bestLeaves m := by
  simp [If_Man.bestLeaves, If_Man.cut, If_ObjCutBest, h]

/-- A list of correspondents that are all recorded is the same under any map
that keeps recorded correspondents. -/
theorem map_pCopy_mono {fs : List Abc_Ptr} {ls : List Nat} {f f' : Nat → Option Nat}
    (h : fs.map (fun x => some x.1) = ls.map f)
    (hm : ∀ l, l ∈ ls → ∀ c, f l = some c → f' l = some c) : ls.map f = ls.map f' := by
  induction ls generalizing fs with
  | nil => rfl
  | cons l rest ih =>
    cases fs with
    | nil => simp at h
    | cons x xs =>
      simp only [List.map_cons, List.cons.injEq] at h ⊢
      refine ⟨?_, ih h.2 (fun l hl => hm l (List.mem_cons_of_mem _ hl))⟩
      rw [← h.1, hm l (List.mem_cons_self _ _) x.1 h.1.symm]

theorem Grows.same (E Q : Nat → Prop) (ntk : Abc_Ntk) (p : If_Man) (he : AllEmpty p) :
    Grows E Q ntk p ntk p where
  net := rfl
  empty := he
  le := le_refl _
  fanins := fun _ _ _ => rfl
  typ := fun _ _ => rfl
  data := fun _ _ => rfl
  cis := rfl
  cos := rfl
  mono := fun _ _ h => h
  fresh := fun m c h1 h2 => by rw [h1] at h2; cases h2
  onto := fun j h1 h2 => by omega
  inj := fun m1 _ c h1 _ h3 _ => by rw [h1] at h3; cases h3

theorem Grows.weaken {E Q E' Q' : Nat → Prop} {ntk ntk' : Abc_Ntk} {p p' : If_Man}
    (h : Grows E Q ntk p ntk' p') (hE : ∀ j, E j → E' j) (hQ : ∀ m, Q m → Q' m) :
    Grows E' Q' ntk p ntk' p' where
  net := h.net
  empty := h.empty
  le := h.le
  fanins := fun j hj hn => h.fanins j hj (fun he => hn (hE j he))
  typ := h.typ
  data := h.data
  cis := h.cis
  cos := h.cos
  mono := h.mono
  fresh := fun m c h1 h2 => by
    obtain ⟨hq, rest⟩ := h.fresh m c h1 h2
    exact ⟨hQ m hq, rest⟩
  onto := h.onto
  inj := h.inj

theorem Grows.comp {E Q : Nat → Prop} {ntk ntk' ntk'' : Abc_Ntk} {p p' p'' : If_Man}
    (h1 : Grows E Q ntk p ntk' p') (h2 : Grows E Q ntk' p' ntk'' p'')
    (hE : ∀ j, E j → j < ntk.nObjs) : Grows E Q ntk p ntk'' p'' where
  net := h2.net.trans h1.net
  empty := h2.empty
  le := le_trans h1.le h2.le
  fanins := fun j hj hn => by
    rw [h2.fanins j (lt_of_lt_of_le hj h1.le) hn, h1.fanins j hj hn]
  typ := fun j hj => by rw [h2.typ j (lt_of_lt_of_le hj h1.le), h1.typ j hj]
  data := fun j hj => by rw [h2.data j (lt_of_lt_of_le hj h1.le), h1.data j hj]
  cis := h2.cis.trans h1.cis
  cos := h2.cos.trans h1.cos
  mono := fun m c h => h2.mono m c (h1.mono m c h)
  fresh := fun m c hn hs => by
    cases hc : p'.pCopy m with
    | some c' =>
      have hcc : c' = c := by
        have := h2.mono m c' hc
        rw [hs] at this
        exact (Option.some.inj this).symm
      subst hcc
      obtain ⟨hq, ht, hlo, hhi, hty, hfan, hcompl, g, fuel, q, q', hd, hq1, hq2, hrun⟩ :=
        h1.fresh m c' hn hc
      have hnE : ¬ E c' := fun he => by have := hE c' he; omega
      refine ⟨hq, ht, hlo, lt_of_lt_of_le hhi h2.le, ?_, ?_, ?_, g, fuel, q, q', ?_, hq1, hq2,
        hrun⟩
      · rw [h2.typ c' hhi, hty]
      · rw [h2.fanins c' hhi hnE, hfan]
        exact map_pCopy_mono hfan (fun l _ c hl => h2.mono l c hl)
      · rw [h2.fanins c' hhi hnE]; exact hcompl
      · rw [h2.data c' hhi, hd]
    | none =>
      obtain ⟨hq, ht, hlo, hhi, hty, hfan, hcompl, g, fuel, q, q', hd, hq1, hq2, hrun⟩ :=
        h2.fresh m c hc hs
      refine ⟨hq, by rw [← h1.net]; exact ht, le_trans h1.le hlo, hhi, hty, ?_, hcompl,
        g, fuel, q, q', hd, hq1, hq2.trans h1.net, ?_⟩
      · rw [hfan, If_Man.bestLeaves_congr h1.net]
      · exact hrun
  onto := fun j hlo hhi => by
    by_cases hj : j < ntk'.nObjs
    · obtain ⟨m, hm1, hm2⟩ := h1.onto j hlo hj
      exact ⟨m, hm1, h2.mono m j hm2⟩
    · obtain ⟨m, hm1, hm2⟩ := h2.onto j (by omega) hhi
      refine ⟨m, ?_, hm2⟩
      cases hc : p.pCopy m with
      | none => rfl
      | some c => rw [h1.mono m c hc] at hm1; cases hm1
  inj := fun m1 m2 c hn1 hn2 hs1 hs2 => by
    cases hc1 : p'.pCopy m1 with
    | some c1 =>
      have e1 : c1 = c := by
        have := h2.mono m1 c1 hc1; rw [hs1] at this; exact (Option.some.inj this).symm
      subst e1
      cases hc2 : p'.pCopy m2 with
      | some c2 =>
        have e2 : c2 = c1 := by
          have := h2.mono m2 c2 hc2; rw [hs2] at this; exact (Option.some.inj this).symm
        subst e2
        exact h1.inj m1 m2 c2 hn1 hn2 hc1 hc2
      | none =>
        have a := (h1.fresh m1 c1 hn1 hc1).2.2.2.1
        have b := (h2.fresh m2 c1 hc2 hs2).2.2.1
        omega
    | none =>
      cases hc2 : p'.pCopy m2 with
      | some c2 =>
        have e2 : c2 = c := by
          have := h2.mono m2 c2 hc2; rw [hs2] at this; exact (Option.some.inj this).symm
        subst e2
        have a := (h1.fresh m2 c2 hn2 hc2).2.2.2.1
        have b := (h2.fresh m1 c2 hc1 hs1).2.2.1
        omega
      | none => exact h2.inj m1 m2 c hc1 hc2 hs1 hs2

theorem Grows.addFanin (Q : Nat → Prop) (ntk : Abc_Ntk) (p : If_Man) (he : AllEmpty p)
    (x : Nat) (f : Abc_Ptr) :
    Grows (fun j => j = x) Q ntk p (Abc_ObjAddFanin ntk x f) p where
  net := rfl
  empty := he
  le := le_refl _
  fanins := fun j _ hn => by
    simp only [Abc_ObjAddFanin]
    rw [Function.update_noteq hn]
  typ := fun _ _ => rfl
  data := fun _ _ => rfl
  cis := rfl
  cos := rfl
  mono := fun _ _ h => h
  fresh := fun m c h1 h2 => by rw [h1] at h2; cases h2
  onto := fun j h1 h2 => by simp only [Abc_ObjAddFanin] at h2; omega
  inj := fun m1 _ c h1 _ h3 _ => by rw [h1] at h3; cases h3

@[simp] theorem Abc_ObjAddFanin_nObjs (ntk : Abc_Ntk) (x : Nat) (f : Abc_Ptr) :
    (Abc_ObjAddFanin ntk x f).nObjs = ntk.nObjs := rfl

theorem Abc_ObjAddFanin_vFanins (ntk : Abc_Ntk) (x : Nat) (f : Abc_Ptr) (j : Nat) :
    (Abc_ObjAddFanin ntk x f).vFanins j = if j = x then ntk.vFanins x ++ [f] else ntk.vFanins j := by
  simp only [Abc_ObjAddFanin, Function.update_apply]

/-- The leaf loop of `Abc_NodeFromIf_rec`, over any recursive call that
satisfies the frame of the reconstruction: the loop appends to the fanins of
the new node the correspondents of the leaves, in leaf order. -/
theorem leafLoop_grows (N : If_Net) (rank : Nat → Nat) (n : Nat)
    (recur : Abc_Ntk → If_Man → Option Nat → Except Fault (Nat × Abc_Ntk × If_Man))
    (hrec : ∀ ntk p l c ntk' p', AllEmpty p → p.net = N →
      recur ntk p (some l) = .ok (c, ntk', p') →
      Grows (fun _ => False) (fun m => rank m ≤ rank l) ntk p ntk' p' ∧ p'.pCopy l = some c)
    (new : Nat) (leaves : List Nat) (hl : ∀ l ∈ leaves, rank l < rank n)
    (ntk : Abc_Ntk) (p : If_Man) (ntk' : Abc_Ntk) (p' : If_Man)
    (he : AllEmpty p) (hN : p.net = N) (hnew : new < ntk.nObjs)
    (h : leafLoop recur new leaves ntk p = .ok (ntk', p')) :
    Grows (fun j => j = new) (fun m => rank m < rank n) ntk p ntk' p' ∧
      ∃ fs, ntk'.vFanins new = ntk.vFanins new ++ fs ∧
        fs.map (fun f => some f.1) = leaves.map p'.pCopy ∧ ∀ f ∈ fs, f.2 = false := by
  induction leaves generalizing ntk p with
  | nil =>
    simp only [leafLoop, Except.ok.injEq, Prod.mk.injEq] at h
    obtain ⟨rfl, rfl⟩ := h
    exact ⟨Grows.same _ _ _ _ he, [], by simp, by simp, by simp⟩
  | cons l rest ih =>
    simp only [leafLoop] at h
    split at h
    · cases h
    · rename_i c ntk1 p1 hr
      obtain ⟨g1, hc⟩ := hrec ntk p l c ntk1 p1 he hN hr
      have hlt := hl l (List.mem_cons_self _ _)
      have g1' : Grows (fun j => j = new) (fun m => rank m < rank n) ntk p ntk1 p1 :=
        g1.weaken (fun _ hf => hf.elim) (fun m hm => lt_of_le_of_lt hm hlt)
      have hnew1 : new < ntk1.nObjs := lt_of_lt_of_le hnew g1.le
      have ga := Grows.addFanin (fun m => rank m < rank n) ntk1 p1 g1.empty new (c, false)
      obtain ⟨g2, fs, hfs, hmap, hcompl⟩ :=
        ih (fun x hx => hl x (List.mem_cons_of_mem _ hx)) (Abc_ObjAddFanin ntk1 new (c, false)) p1
          g1.empty (g1.net.trans hN) (by simpa using hnew1) h
      refine ⟨g1'.comp (ga.comp g2 (fun j hj => by rw [hj]; exact hnew1))
        (fun j hj => by rw [hj]; exact hnew), (c, false) :: fs, ?_, ?_, ?_⟩
      · rw [hfs, Abc_ObjAddFanin_vFanins, if_pos rfl, g1.fanins new hnew (fun hf => hf)]
        simp
      · simp only [List.map_cons, hmap, List.cons.injEq, and_true]
        exact (g2.mono l c hc).symm
      · intro f hf
        rcases List.mem_cons.1 hf with h1 | h1
        · rw [h1]
        · exact hcompl f h1

@[simp] theorem If_ObjSetCopy_net (p : If_Man) (n : Nat) (c : Option Nat) :
    (If_ObjSetCopy p n c).net = p.net := rfl

@[simp] theorem If_ObjSetCopy_cutData (p : If_Man) (n : Nat) (c : Option Nat) :
    (If_ObjSetCopy p n c).cutData = p.cutData := rfl

theorem If_ObjSetCopy_pCopy (p : If_Man) (n : Nat) (c : Option Nat) (m : Nat) :
    (If_ObjSetCopy p n c).pCopy m = if m = n then c else p.pCopy m := by
  simp only [If_ObjSetCopy, Function.update_apply]

@[simp] theorem Abc_NtkCreateObj_nObjs (ntk : Abc_Ntk) (t : Abc_ObjType) :
    (Abc_NtkCreateObj ntk t).nObjs = ntk.nObjs + 1 := rfl

theorem Abc_NtkCreateObj_vFanins (ntk : Abc_Ntk) (t : Abc_ObjType) (j : Nat) :
    (Abc_NtkCreateObj ntk t).vFanins j = if j = ntk.nObjs then [] else ntk.vFanins j := by
  simp only [Abc_NtkCreateObj, Function.update_apply]

theorem Abc_NtkCreateObj_Typ (ntk : Abc_Ntk) (t : Abc_ObjType) (j : Nat) :
    (Abc_NtkCreateObj ntk t).Typ j = if j = ntk.nObjs then t else ntk.Typ j := by
  simp only [Abc_NtkCreateObj, Function.update_apply]

theorem Abc_NtkCreateObj_pData (ntk : Abc_Ntk) (t : Abc_ObjType) (j : Nat) :
    (Abc_NtkCreateObj ntk t).pData j = if j = ntk.nObjs then .null else ntk.pData j := by
  simp only [Abc_NtkCreateObj, Function.update_apply]

@[simp] theorem Abc_NtkCreateObj_vCis (ntk : Abc_Ntk) (t : Abc_ObjType) :
    (Abc_NtkCreateObj ntk t).vCis = ntk.vCis := rfl

@[simp] theorem Abc_NtkCreateObj_vCos (ntk : Abc_Ntk) (t : Abc_ObjType) :
    (Abc_NtkCreateObj ntk t).vCos = ntk.vCos := rfl

@[simp] theorem Abc_ObjSetData_nObjs (ntk : Abc_Ntk) (x : Nat) (d : Abc_Data) :
    (Abc_ObjSetData ntk x d).nObjs = ntk.nObjs := rfl

@[simp] theorem Abc_ObjSetData_vFanins (ntk : Abc_Ntk) (x : Nat) (d : Abc_Data) :
    (Abc_ObjSetData ntk x d).vFanins = ntk.vFanins := rfl

@[simp] theorem Abc_ObjSetData_Typ (ntk : Abc_Ntk) (x : Nat) (d : Abc_Data) :
    (Abc_ObjSetData ntk x d).Typ = ntk.Typ := rfl

@[simp] theorem Abc_ObjSetData_vCis (ntk : Abc_Ntk) (x : Nat) (d : Abc_Data) :
    (Abc_ObjSetData ntk x d).vCis = ntk.vCis := rfl

@[simp] theorem Abc_ObjSetData_vCos (ntk : Abc_Ntk) (x : Nat) (d : Abc_Data) :
    (Abc_ObjSetData ntk x d).vCos = ntk.vCos := rfl

theorem Abc_ObjSetData_pData (ntk : Abc_Ntk) (x : Nat) (d : Abc_Data) (j : Nat) :
    (Abc_ObjSetData ntk x d).pData j = if j = x then d else ntk.pData j := by
  simp only [Abc_ObjSetData, Function.update_apply]

/-- The frame of `Abc_NodeFromIf_rec`: a call that returns, started with
empty scratch annotations on a mapper whose best-cut-leaf relation is
acyclic, returns the correspondent recorded for its object and extends the
new network and the correspondence as `Grows` describes. -/
theorem Abc_NodeFromIf_rec_grows (N : If_Net) (rank : Nat → Nat) (hrank : LeavesBelow N rank)
    (fuel : Nat) (ntk : Abc_Ntk) (p : If_Man) (n c : Nat) (ntk' : Abc_Ntk) (p' : If_Man)
    (he : AllEmpty p) (hN : p.net = N)
    (h : Abc_NodeFromIf_rec fuel ntk p (some n) = .ok (c, ntk', p')) :
    Grows (fun _ => False) (fun m => rank m ≤ rank n) ntk p ntk' p' ∧ p'.pCopy n = some c := by
  induction fuel generalizing ntk p n c ntk' p' with
  | zero => simp [Abc_NodeFromIf_rec] at h
  | succ fuel ih =>
    simp only [Abc_NodeFromIf_rec, If_ObjCopy] at h
    split at h
    · rename_i c0 hc0
      simp only [Except.ok.injEq, Prod.mk.injEq] at h
      obtain ⟨rfl, rfl, rfl⟩ := h
      exact ⟨Grows.same _ _ _ _ he, hc0⟩
    · rename_i hpn
      split at h
      · rename_i hT
        split at h
        · cases h
        · rename_i ntk2 p2 hloop
          split at h
          · cases h
          · rename_i g p3 hhop
            simp only [Except.ok.injEq, Prod.mk.injEq] at h
            obtain ⟨rfl, rfl, rfl⟩ := h
            have hleaves : ∀ l ∈ (p.cut (If_ObjCutBest p n)).pLeaves, rank l < rank n := by
              intro l hl
              apply hrank n (hN ▸ hT) l
              rw [← hN]; exact hl
            obtain ⟨hgl, fs, hfs, hmap, hcompl⟩ := leafLoop_grows N rank n (Abc_NodeFromIf_rec fuel)
              (fun ntk p l c ntk' p' he hN h => ih ntk p l c ntk' p' he hN h)
              ntk.nObjs _ hleaves (Abc_NtkCreateNode ntk) p ntk2 p2 he hN
              (by simp [Abc_NtkCreateNode]) hloop
            obtain ⟨he3, hnet3, hcopy3⟩ := Abc_NodeIfToHop2_frame fuel p2 n g p3 hgl.empty hhop
            have hle : ntk.nObjs + 1 ≤ ntk2.nObjs := hgl.le
            have hp2n : p2.pCopy n = none := by
              cases hc : p2.pCopy n with
              | none => rfl
              | some c =>
                have := (hgl.fresh n c hpn hc).1
                exact absurd this (lt_irrefl _)
            have hmono2 : ∀ l c, p2.pCopy l = some c →
                (If_ObjSetCopy p3 n (some ntk.nObjs)).pCopy l = some c := by
              intro l c hl
              rw [If_ObjSetCopy_pCopy, hcopy3]
              split
              · rename_i e; subst e; rw [hp2n] at hl; cases hl
              · exact hl
            have hnewfan : ntk2.vFanins ntk.nObjs = fs := by
              rw [hfs]
              simp [Abc_NtkCreateNode, Abc_NtkCreateObj_vFanins]
            refine ⟨?_, by simp [If_ObjSetCopy_pCopy]⟩
            refine
              { net := by simp [hnet3, hgl.net]
                empty := fun c => by simpa using he3 c
                le := by simp; omega
                fanins := ?_
                typ := ?_
                data := ?_
                cis := by simp [hgl.cis, Abc_NtkCreateNode]
                cos := by simp [hgl.cos, Abc_NtkCreateNode]
                mono := ?_
                fresh := ?_
                onto := ?_
                inj := ?_ }
            · intro j hj _
              have hjn : j ≠ ntk.nObjs := by omega
              simp only [Abc_ObjSetData_vFanins]
              rw [hgl.fanins j (by simp [Abc_NtkCreateNode]; omega) hjn]
              simp [Abc_NtkCreateNode, Abc_NtkCreateObj_vFanins, hjn]
            · intro j hj
              have hjn : j ≠ ntk.nObjs := by omega
              simp only [Abc_ObjSetData_Typ]
              rw [hgl.typ j (by simp [Abc_NtkCreateNode]; omega)]
              simp [Abc_NtkCreateNode, Abc_NtkCreateObj_Typ, hjn]
            · intro j hj
              have hjn : j ≠ ntk.nObjs := by omega
              rw [Abc_ObjSetData_pData, if_neg hjn, hgl.data j (by simp [Abc_NtkCreateNode]; omega)]
              simp [Abc_NtkCreateNode, Abc_NtkCreateObj_pData, hjn]
            · intro m c hm
              exact hmono2 m c (hgl.mono m c hm)
            · intro m c hm hs
              rw [If_ObjSetCopy_pCopy, hcopy3] at hs
              split at hs
              · rename_i e
                subst e
                cases hs
                refine ⟨le_refl _, hT, le_refl _, by simp; omega, ?_, ?_, ?_,
                  g, fuel, p2, p3, ?_, hgl.empty, hgl.net, hhop⟩
                · simp only [Abc_ObjSetData_Typ]
                  rw [hgl.typ _ (by simp [Abc_NtkCreateNode])]
                  simp [Abc_NtkCreateNode, Abc_NtkCreateObj_Typ]
                · simp only [Abc_ObjSetData_vFanins]
                  rw [hnewfan, hmap]
                  exact map_pCopy_mono hmap (fun l _ c hl => hmono2 l c hl)
                · simp only [Abc_ObjSetData_vFanins]
                  rw [hnewfan]; exact hcompl
                · simp [Abc_ObjSetData_pData]
              · obtain ⟨hq, ht, hlo, hhi, hty, hfan, hcm, g', fuel', q, q', hd, hq1, hq2, hrun⟩ :=
                  hgl.fresh m c hm hs
                simp only [Abc_NtkCreateNode, Abc_NtkCreateObj_nObjs] at hlo
                refine ⟨le_of_lt hq, ht, by omega, by simpa using hhi, by simpa using hty, ?_,
                  by simpa using hcm, g', fuel', q, q', ?_, hq1, hq2, hrun⟩
                · simp only [Abc_ObjSetData_vFanins]
                  rw [hfan]
                  exact map_pCopy_mono hfan (fun l _ c hl => hmono2 l c hl)
                · rw [Abc_ObjSetData_pData, if_neg (by omega), hd]
            · intro j hlo hhi
              simp only [Abc_ObjSetData_nObjs] at hhi
              by_cases hj : j = ntk.nObjs
              · subst hj
                exact ⟨n, hpn, by simp [If_ObjSetCopy_pCopy]⟩
              · obtain ⟨m, hm1, hm2⟩ := hgl.onto j (by simp [Abc_NtkCreateNode]; omega) hhi
                exact ⟨m, hm1, hmono2 m j hm2⟩
            · intro m1 m2 c hn1 hn2 hs1 hs2
              rw [If_ObjSetCopy_pCopy, hcopy3] at hs1 hs2
              by_cases e1 : m1 = n <;> by_cases e2 : m2 = n
              · rw [e1, e2]
              · rw [if_pos e1] at hs1
                rw [if_neg e2] at hs2
                cases hs1
                have := (hgl.fresh m2 _ hn2 hs2).2.2.1
                simp only [Abc_NtkCreateNode, Abc_NtkCreateObj_nObjs] at this
                omega
              · rw [if_neg e1] at hs1
                rw [if_pos e2] at hs2
                cases hs2
                have := (hgl.fresh m1 _ hn1 hs1).2.2.1
                simp only [Abc_NtkCreateNode, Abc_NtkCreateObj_nObjs] at this
                omega
              · rw [if_neg e1] at hs1
                rw [if_neg e2] at hs2
                exact hgl.inj m1 m2 c hn1 hn2 hs1 hs2
      · cases h

/-! ## Termination of the reconstruction -/

/-- The leaf loop returns, for every recursion depth from some depth on, when
the recursive call does so on every leaf. -/
theorem leafLoop_total (N : If_Net) (rank : Nat → Nat) (hrank : LeavesBelow N rank)
    (cp : Nat → Option Nat) (new : Nat) (leaves : List Nat)
    (hrec : ∀ l, l ∈ leaves → ∀ ntk p, AllEmpty p → p.net = N →
      (∀ m c, cp m = some c → p.pCopy m ≠ none) →
      ∃ K r, ∀ fuel, K ≤ fuel → Abc_NodeFromIf_rec fuel ntk p (some l) = .ok r)
    (ntk : Abc_Ntk) (p : If_Man) (he : AllEmpty p) (hN : p.net = N)
    (hcp : ∀ m c, cp m = some c → p.pCopy m ≠ none) :
    ∃ K r, ∀ fuel, K ≤ fuel → leafLoop (Abc_NodeFromIf_rec fuel) new leaves ntk p = .ok r := by
  induction leaves generalizing ntk p with
  | nil => exact ⟨0, (ntk, p), fun _ _ => rfl⟩
  | cons l rest ih =>
    obtain ⟨K1, ⟨c, ntk1, p1⟩, r1⟩ := hrec l (List.mem_cons_self _ _) ntk p he hN hcp
    obtain ⟨g1, _⟩ := Abc_NodeFromIf_rec_grows N rank hrank K1 ntk p l c ntk1 p1 he hN
      (r1 K1 (le_refl _))
    obtain ⟨K2, r, r2⟩ := ih (fun x hx => hrec x (List.mem_cons_of_mem _ hx))
      (Abc_ObjAddFanin ntk1 new (c, false)) p1 g1.empty (g1.net.trans hN)
      (fun m c hm => by
        cases hpm : p.pCopy m with
        | none => exact absurd hpm (hcp m c hm)
        | some c' => rw [g1.mono m c' hpm]; simp)
    refine ⟨max K1 K2, r, ?_⟩
    intro fuel hf
    simp only [leafLoop, r1 fuel (by omega), r2 fuel (by omega)]

/-- The function `Abc_NodeFromIf_rec` returns on a reconstructible object, for every
recursion depth from some depth on. -/
theorem Abc_NodeFromIf_rec_total (N : If_Net) (rank : Nat → Nat) (hrank : LeavesBelow N rank)
    (cp : Nat → Option Nat) (n : Nat) (hr : Reconstructible N cp n)
    (ntk : Abc_Ntk) (p : If_Man) (he : AllEmpty p) (hN : p.net = N)
    (hcp : ∀ m c, cp m = some c → p.pCopy m ≠ none) :
    ∃ K r, ∀ fuel, K ≤ fuel → Abc_NodeFromIf_rec fuel ntk p (some n) = .ok r := by
  induction hr generalizing ntk p with
  | cached n c hc =>
    cases hpn : p.pCopy n with
    | none => exact absurd hpn (hcp n c hc)
    | some c' =>
      refine ⟨1, (c', ntk, p), ?_⟩
      intro fuel hf
      obtain ⟨f, rfl⟩ : ∃ f, fuel = f + 1 := ⟨fuel - 1, by omega⟩
      simp [Abc_NodeFromIf_rec, If_ObjCopy, hpn]
  | node n hT hk hs _ ih =>
    cases hpn : p.pCopy n with
    | some c' =>
      refine ⟨1, (c', ntk, p), ?_⟩
      intro fuel hf
      obtain ⟨f, rfl⟩ : ∃ f, fuel = f + 1 := ⟨fuel - 1, by omega⟩
      simp [Abc_NodeFromIf_rec, If_ObjCopy, hpn]
    | none =>
      obtain ⟨K1, ⟨ntk2, p2⟩, r1⟩ := leafLoop_total N rank hrank cp ntk.nObjs
        (N.Cuts n (N.iCut n)).pLeaves (fun l hl ntk p he hN hcp => ih l hl ntk p he hN hcp)
        (Abc_NtkCreateNode ntk) p he hN hcp
      have hleaves : ∀ l ∈ (N.Cuts n (N.iCut n)).pLeaves, rank l < rank n := hrank n hT
      obtain ⟨hgl, _⟩ := leafLoop_grows N rank n (Abc_NodeFromIf_rec K1)
        (fun ntk p l c ntk' p' he hN h =>
          Abc_NodeFromIf_rec_grows N rank hrank K1 ntk p l c ntk' p' he hN h)
        ntk.nObjs _ hleaves (Abc_NtkCreateNode ntk) p ntk2 p2 he hN
        (by simp [Abc_NtkCreateNode]) (r1 K1 (le_refl _))
      have hN2 : p2.net = N := hgl.net.trans hN
      have hk2 : 2 ≤ (p2.cut (If_ObjCutBest p2 n)).pLeaves.length := by
        simpa [If_Man.cut, If_ObjCutBest, hN2] using hk
      have hs2 : Separates p2.net (p2.cut (If_ObjCutBest p2 n)).pLeaves n := by
        simpa [If_Man.cut, If_ObjCutBest, hN2] using hs
      obtain ⟨g, hc⟩ := hs2.cone hgl.empty
      obtain ⟨K2, p3, r2⟩ := Abc_NodeIfToHop2_total p2 n g hk2 hc
      refine ⟨max K1 K2 + 1, (ntk.nObjs, Abc_ObjSetData ntk2 ntk.nObjs (.func g),
        If_ObjSetCopy p3 n (some ntk.nObjs)), ?_⟩
      intro fuel hf
      obtain ⟨f, rfl⟩ : ∃ f, fuel = f + 1 := ⟨fuel - 1, by omega⟩
      have e1 := r1 f (by omega)
      have e2 := r2 f (by omega)
      simp only [If_Man.cut, If_ObjCutBest, hN] at e1 ⊢
      simp only [Abc_NodeFromIf_rec, If_ObjCopy, hpn, hN, hT, if_true, If_Man.cut, If_ObjCutBest,
        e1, e2]

/-! ## Reconstruction of one node -/

theorem fanin_of_map {fs : List Abc_Ptr} {ls : List Nat} {f : Nat → Option Nat}
    (h : fs.map (fun x => some x.1) = ls.map f) (hc : ∀ x ∈ fs, x.2 = false)
    (i l : Nat) (hl : ls[i]? = some l) :
    ∃ c, f l = some c ∧ fs[i]? = some (c, false) := by
  have h1 : (fs.map (fun x => some x.1))[i]? = (ls.map f)[i]? := by rw [h]
  simp only [List.getElem?_map, hl, Option.map_some'] at h1
  cases hx : fs[i]? with
  | none => rw [hx] at h1; simp at h1
  | some x =>
    rw [hx] at h1
    simp only [Option.map_some', Option.some.injEq] at h1
    refine ⟨x.1, h1.symm, ?_⟩
    have := hc x (List.mem_iff_getElem?.2 ⟨i, hx⟩)
    rw [← this]

/-- A call of `Abc_NodeFromIf_rec` that returns has recorded what it returns. -/
theorem Abc_NodeFromIf_rec_result_copy (fuel : Nat) (ntk : Abc_Ntk) (p : If_Man) (n c : Nat)
    (ntk' : Abc_Ntk) (p' : If_Man)
    (h : Abc_NodeFromIf_rec fuel ntk p (some n) = .ok (c, ntk', p')) : p'.pCopy n = some c := by
  cases fuel with
  | zero => simp [Abc_NodeFromIf_rec] at h
  | succ fuel =>
    simp only [Abc_NodeFromIf_rec, If_ObjCopy] at h
    split at h
    · rename_i c0 hc0
      simp only [Except.ok.injEq, Prod.mk.injEq] at h
      obtain ⟨rfl, rfl, rfl⟩ := h
      exact hc0
    · split at h
      · split at h
        · cases h
        · split at h
          · cases h
          · simp only [Except.ok.injEq, Prod.mk.injEq] at h
            obtain ⟨rfl, rfl, rfl⟩ := h
            simp [If_ObjSetCopy_pCopy]
      · cases h

/-- C4 (a cache hit is idempotent): on a mapper object that has a recorded
correspondent, `Abc_NodeFromIf_rec` returns this correspondent and leaves the
new network and the mapper, with its correspondence and scratch annotations,
as they are; hence a second call on the object of a call that returned
returns the same node and changes nothing. -/
theorem Abc_NodeFromIf_rec_cache_hit (fuel : Nat) (ntk : Abc_Ntk) (p : If_Man) (n : Nat) :
    (∀ c, If_ObjCopy p n = some c →
      Abc_NodeFromIf_rec (fuel + 1) ntk p (some n) = .ok (c, ntk, p)) ∧
    (∀ fuel0 c ntk' p', Abc_NodeFromIf_rec fuel0 ntk p (some n) = .ok (c, ntk', p') →
      Abc_NodeFromIf_rec (fuel + 1) ntk' p' (some n) = .ok (c, ntk', p')) := by
  constructor
  · intro c hc
    simp only [Abc_NodeFromIf_rec, hc]
  · intro fuel0 c ntk' p' h
    have hc := Abc_NodeFromIf_rec_result_copy fuel0 ntk p n c ntk' p' h
    simp only [Abc_NodeFromIf_rec, If_ObjCopy, hc]

/-- In the example, the input `1` has the recorded correspondent `0` when the
output loop starts, and the object `7` has none. -/
theorem Abc_NodeFromIf_rec_cache_hit_witness :
    If_ObjCopy exMan0 1 = some 0 ∧
    Abc_NodeFromIf_rec 1 exNew0 exMan0 (some 1) = .ok (0, exNew0, exMan0) ∧
    Abc_NodeFromIf_rec 4 exNew0 exMan0 (some 7)
      = .ok (reconResult (Abc_NodeFromIf_rec 4 exNew0 exMan0 (some 7))) ∧
    Abc_NodeFromIf_rec 1 (reconResult (Abc_NodeFromIf_rec 4 exNew0 exMan0 (some 7))).2.1
        (reconResult (Abc_NodeFromIf_rec 4 exNew0 exMan0 (some 7))).2.2 (some 7)
      = .ok (reconResult (Abc_NodeFromIf_rec 4 exNew0 exMan0 (some 7))) :=
  ⟨rfl, (Abc_NodeFromIf_rec_cache_hit 0 exNew0 exMan0 1).1 0 rfl, rfl,
    (Abc_NodeFromIf_rec_cache_hit 0 exNew0 exMan0 7).2 4 _ _ _ rfl⟩

/-- Whenever the memoized recursion over nodes returns, what it returns is
the function graph of the node over the annotations found on entry. -/
theorem Abc_NodeIfToHop2_rec_sound {N : If_Net} {seed : If_CutRef → Option Hop_Obj} (fuel : Nat) :
    ∀ (p : If_Man) (o : Option Nat) (g : Hop_Obj) (q : If_Man), MemoInv N seed p →
      Abc_NodeIfToHop2_rec fuel p o = .ok (g, q) →
      ∃ m, o = some m ∧ Cone N seed m g ∧ MemoInv N seed q := by
  induction fuel with
  | zero => intro p o g q _ h; simp [Abc_NodeIfToHop2_rec] at h
  | succ fuel ih =>
    intro p o g q hp h
    cases o with
    | none => simp [Abc_NodeIfToHop2_rec] at h
    | some m =>
      refine ⟨m, rfl, ?_⟩
      simp only [Abc_NodeIfToHop2_rec, If_CutData] at h
      cases hd : p.cutData (If_ObjCutTriv m) with
      | some h0 =>
        simp only [hd] at h
        cases h
        exact ⟨hp.2.1 m _ hd, hp⟩
      | none =>
        simp only [hd] at h
        cases h0 : Abc_NodeIfToHop2_rec fuel p (p.net.pFanin0 m) with
        | error e => simp [h0] at h
        | ok r0 =>
          obtain ⟨g0, p1⟩ := r0
          simp only [h0] at h
          obtain ⟨f0, hf0, c0, i0⟩ := ih p _ g0 p1 hp h0
          cases h1 : Abc_NodeIfToHop2_rec fuel p1 (p1.net.pFanin1 m) with
          | error e => simp [h1] at h
          | ok r1 =>
            obtain ⟨g1, p2⟩ := r1
            simp only [h1] at h
            obtain ⟨f1, hf1, c1, i1⟩ := ih p1 _ g1 p2 i0 h1
            cases hd2 : p2.cutData (If_ObjCutTriv m) with
            | some h2 => simp [hd2] at h
            | none =>
              simp only [hd2] at h
              have hs : seed (If_ObjCutTriv m) = none := by
                cases hsd : seed (If_ObjCutTriv m) with
                | none => rfl
                | some s => rw [hp.2.2 m s hsd] at hd; cases hd
              rw [hp.1] at hf0
              rw [i0.1] at hf1
              have hcone := Cone.node m f0 f1 g0 g1 hs hf0 hf1 c0 c1
              simp only [Except.ok.injEq, Prod.mk.injEq] at h
              obtain ⟨hg, hq⟩ := h
              subst hg hq
              simp only [i1.1, If_Man.cut, If_ObjCutTriv] at hcone ⊢
              refine ⟨hcone, i1.1, ?_, ?_⟩
              · intro x hx hm
                simp only [Vec_PtrPush_cutData, If_CutSetData_cutData] at hm
                split at hm
                · rename_i heq
                  simp only [If_ObjCutTriv, Prod.mk.injEq, and_true] at heq
                  subst heq
                  cases hm
                  exact hcone
                · exact i1.2.1 x hx hm
              · intro x hx hm
                simp only [Vec_PtrPush_cutData, If_CutSetData_cutData]
                split
                · rename_i heq
                  simp only [If_ObjCutTriv, Prod.mk.injEq, and_true] at heq
                  subst heq
                  have hc : (none : Option Hop_Obj) = some hx := hs.symm.trans hm
                  cases hc
                · exact i1.2.2 x hx hm

/-- Whenever the synthesis over nodes returns, what it returns is the
function graph of the node over the seeded leaves. -/
theorem Abc_NodeIfToHop2_sound (fuel : Nat) (p : If_Man) (n : Nat) (g : Hop_Obj) (q : If_Man)
    (h : Abc_NodeIfToHop2 fuel p n = .ok (g, q)) :
    Cone p.net (setLeafVars p (p.bestLeaves n) 0).cutData n g := by
  simp only [Abc_NodeIfToHop2] at h
  split at h
  · cases hr : Abc_NodeIfToHop2_rec fuel
        (Vec_PtrClear (setLeafVars p (p.cut (If_ObjCutBest p n)).pLeaves 0)) (some n) with
    | error e => simp [hr] at h
    | ok r =>
      obtain ⟨g', p3⟩ := r
      simp only [hr, Except.ok.injEq, Prod.mk.injEq] at h
      obtain ⟨m, hm, hc, _⟩ := Abc_NodeIfToHop2_rec_sound fuel _ _ _ _
        (MemoInv_seeded p (p.cut (If_ObjCutBest p n)).pLeaves) hr
      cases hm
      rw [← h.1]
      exact hc
  · cases h

theorem Hop_VarsBelow_NotCond (k : Nat) (g : Hop_Obj) (c : Bool) :
    Hop_VarsBelow k (Hop_NotCond g c) ↔ Hop_VarsBelow k g := by
  cases c <;> cases g <;> simp [Hop_NotCond, Hop_Not, Hop_VarsBelow]

/-- Two assignments that agree on the variables of a function graph give it
the same value. -/
theorem Hop_Eval_agree (k : Nat) (e1 e2 : Nat → Bool) (he : ∀ i, i < k → e1 i = e2 i) :
    ∀ g, Hop_VarsBelow k g → Hop_Eval e1 g = Hop_Eval e2 g := by
  intro g
  induction g with
  | const1 c => intro _; rfl
  | var i c => intro h; simp only [Hop_Eval, he i h]
  | and a b c iha ihb => intro h; simp only [Hop_Eval, iha h.1, ihb h.2]

/-- The function graph of a node over the seeded leaves mentions only the
variables of the leaf positions. -/
theorem Cone.varsBelow {p : If_Man} (he : AllEmpty p) {leaves : List Nat} {n : Nat} {g : Hop_Obj}
    (hc : Cone p.net (setLeafVars p leaves 0).cutData n g) :
    Hop_VarsBelow leaves.length g := by
  induction hc with
  | leaf m g hs =>
    have hm : m ∈ leaves := by
      by_contra hm
      rw [(setLeafVars_seed p he leaves m).2 hm] at hs
      cases hs
    obtain ⟨j, hj, hd⟩ := (setLeafVars_seed p he leaves m).1 hm
    rw [hs] at hd
    cases hd
    have hlt : j < leaves.length := by
      by_contra hge
      rw [List.getElem?_eq_none (by omega)] at hj
      cases hj
    exact hlt
  | node m f0 f1 g0 g1 hs h0 h1 _ _ ih0 ih1 =>
    rw [Hop_VarsBelow_NotCond]
    exact ⟨(Hop_VarsBelow_NotCond _ _ _).2 ih0, (Hop_VarsBelow_NotCond _ _ _).2 ih1⟩

/-- C5 (fanin order): for a mapper whose best-cut-leaf relation is acyclic
and whose scratch annotations are empty, and an object `n` without a
recorded correspondent, a call of `Abc_NodeFromIf_rec` returns only when `n`
is an AND object, and the node it returns has as many fanins as the best cut
of `n` has leaves, its `i`-th fanin is the
uncomplemented correspondent of the `i`-th leaf, and its function is the one
`Abc_NodeIfToHop2` returns for `n`. Variable `i` of that function stands for
the `i`-th leaf and so for the `i`-th fanin: the value of the function under
variable `i` := value assigned to the `i`-th leaf is the reference value of
`n`, for every assignment to the leaves; and for every assignment `b` to the
nodes of the new network, its value under variable `i` := value of the
`i`-th fanin of the returned node is the reference value of `n` when every
leaf has the value of its correspondent. The call returns, for every
recursion depth from some depth on, when `n` is reconstructible. -/
theorem Abc_NodeFromIf_rec_fanin_order (rank : Nat → Nat) (ntk : Abc_Ntk) (p : If_Man) (n : Nat)
    (hrank : LeavesBelow p.net rank) (he : AllEmpty p) (hpn : If_ObjCopy p n = none) :
    (∀ fuel c ntk' p', Abc_NodeFromIf_rec fuel ntk p (some n) = .ok (c, ntk', p') →
      p.net.Typ n = .IF_AND ∧ (ntk'.vFanins c).length = (p.bestLeaves n).length ∧
      (∀ (i l : Nat), (p.bestLeaves n)[i]? = some l →
        ∃ ci, If_ObjCopy p' l = some ci ∧ (ntk'.vFanins c)[i]? = some (ci, false)) ∧
      ∃ g fuel' q q', ntk'.pData c = .func g ∧ AllEmpty q ∧ q.net = p.net ∧
        Abc_NodeIfToHop2 fuel' q n = .ok (g, q') ∧
        ∃ K, ∀ fuel, K ≤ fuel →
          (∀ a : Nat → Bool, refVal p.net (p.bestLeaves n) a fuel n
            = some (Hop_Eval (fun i => a ((p.bestLeaves n).getD i 0)) g)) ∧
          (∀ b : Nat → Bool,
            refVal p.net (p.bestLeaves n) (fun l => b ((If_ObjCopy p' l).getD 0)) fuel n
              = some (Hop_Eval (fun i => b ((ntk'.vFanins c).getD i (0, false)).1) g))) ∧
    (Reconstructible p.net p.pCopy n →
      ∃ K, ∀ fuel, K ≤ fuel → ∃ c ntk' p',
        Abc_NodeFromIf_rec fuel ntk p (some n) = .ok (c, ntk', p')) := by
  constructor
  · intro fuel c ntk' p' h
    obtain ⟨hg, hc⟩ := Abc_NodeFromIf_rec_grows p.net rank hrank fuel ntk p n c ntk' p' he rfl h
    obtain ⟨_, hT, _, _, _, hfan, hcompl, hfun⟩ := hg.fresh n c hpn hc
    have hfi : ∀ (i l : Nat), (p.bestLeaves n)[i]? = some l →
        ∃ ci, If_ObjCopy p' l = some ci ∧ (ntk'.vFanins c)[i]? = some (ci, false) :=
      fun i l hl => fanin_of_map hfan hcompl i l hl
    refine ⟨hT, ?_, hfi, ?_⟩
    · have := congrArg List.length hfan
      simpa using this
    · obtain ⟨g, fuel', q, q', hd, hq, hnet, hrun⟩ := hfun
      have hcone := Abc_NodeIfToHop2_sound fuel' q n g q' hrun
      have hbl : q.bestLeaves n = p.bestLeaves n := by
        simp only [If_Man.bestLeaves, If_Man.cut, If_ObjCutBest, hnet]
      rw [hbl] at hcone
      obtain ⟨K, hK⟩ := hcone.refVal_eq hq
      have hvb := hcone.varsBelow hq
      rw [hnet] at hK
      refine ⟨g, fuel', q, q', hd, hq, hnet, hrun, K, ?_⟩
      intro fuel1 hf
      refine ⟨hK fuel1 hf, ?_⟩
      intro b
      rw [hK fuel1 hf]
      congr 1
      apply Hop_Eval_agree _ _ _ _ g hvb
      intro i hi
      have hl : (p.bestLeaves n)[i]? = some ((p.bestLeaves n).get ⟨i, hi⟩) :=
        List.getElem?_eq_getElem hi
      obtain ⟨ci, hci, hfi'⟩ := hfi i _ hl
      simp only [List.getD_eq_getElem?_getD, hl, hfi', Option.getD_some, hci]
  · intro hr
    obtain ⟨K, ⟨c, ntk', p'⟩, r⟩ := Abc_NodeFromIf_rec_total p.net rank hrank p.pCopy n hr ntk p
      he rfl (fun m c hm => by rw [hm]; simp)
    exact ⟨K, fun fuel hf => ⟨c, ntk', p', r fuel hf⟩⟩

/-- The best-cut-leaf relation of the example mapper follows the identifiers. -/
theorem exNet_leavesBelow : LeavesBelow exNet id := by
  intro m hT l hl
  have hm : m = 4 ∨ m = 5 ∨ m = 6 ∨ m = 7 := by
    simp only [exNet] at hT
    split at hT <;> simp_all
  rcases hm with rfl | rfl | rfl | rfl <;> simp [exNet, exCuts] at hl <;>
    rcases hl with rfl | rfl | rfl <;> simp

/-- In the example, the object `5`, whose best cut has the leaves `1, 2, 3`,
has no recorded correspondent when the output loop starts; the node created
for it has the three fanins `0, 1, 2`, the correspondents of the leaves, and
the function `NOT (AND (AND (var0, var1), NOT var2))`, whose value under
variable `i` := value of the `i`-th fanin is the reference value of `5`. -/
theorem Abc_NodeFromIf_rec_fanin_order_witness :
    LeavesBelow exMan0.net id ∧ AllEmpty exMan0 ∧ If_ObjCopy exMan0 5 = none ∧
    (reconResult (Abc_NodeFromIf_rec 4 exNew0 exMan0 (some 5))).2.1.vFanins
        (reconResult (Abc_NodeFromIf_rec 4 exNew0 exMan0 (some 5))).1
      = [(0, false), (1, false), (2, false)] ∧
    (reconResult (Abc_NodeFromIf_rec 4 exNew0 exMan0 (some 5))).2.1.pData
        (reconResult (Abc_NodeFromIf_rec 4 exNew0 exMan0 (some 5))).1
      = .func (Hop_Not (Hop_And (Hop_And (Hop_IthVar 0) (Hop_IthVar 1))
          (Hop_Not (Hop_IthVar 2)))) ∧
    ((reconResult (Abc_NodeFromIf_rec 4 exNew0 exMan0 (some 5))).2.1.vFanins
        (reconResult (Abc_NodeFromIf_rec 4 exNew0 exMan0 (some 5))).1).length
      = (exMan0.bestLeaves 5).length ∧
    ∃ g, (reconResult (Abc_NodeFromIf_rec 4 exNew0 exMan0 (some 5))).2.1.pData
        (reconResult (Abc_NodeFromIf_rec 4 exNew0 exMan0 (some 5))).1 = .func g ∧
      ∃ K, ∀ fuel, K ≤ fuel → ∀ b : Nat → Bool,
        refVal exMan0.net (exMan0.bestLeaves 5)
            (fun l => b ((If_ObjCopy
              (reconResult (Abc_NodeFromIf_rec 4 exNew0 exMan0 (some 5))).2.2 l).getD 0)) fuel 5
          = some (Hop_Eval (fun i => b
              (((reconResult (Abc_NodeFromIf_rec 4 exNew0 exMan0 (some 5))).2.1.vFanins
                (reconResult (Abc_NodeFromIf_rec 4 exNew0 exMan0 (some 5))).1).getD i
                  (0, false)).1) g) :=
  ⟨exNet_leavesBelow, fun _ => rfl, rfl, rfl, rfl,
    ((Abc_NodeFromIf_rec_fanin_order id exNew0 exMan0 5 exNet_leavesBelow (fun _ => rfl) rfl).1
      4 (reconResult (Abc_NodeFromIf_rec 4 exNew0 exMan0 (some 5))).1
      (reconResult (Abc_NodeFromIf_rec 4 exNew0 exMan0 (some 5))).2.1
      (reconResult (Abc_NodeFromIf_rec 4 exNew0 exMan0 (some 5))).2.2 rfl).2.1,
    match ((Abc_NodeFromIf_rec_fanin_order id exNew0 exMan0 5 exNet_leavesBelow
      (fun _ => rfl) rfl).1
      4 (reconResult (Abc_NodeFromIf_rec 4 exNew0 exMan0 (some 5))).1
      (reconResult (Abc_NodeFromIf_rec 4 exNew0 exMan0 (some 5))).2.1
      (reconResult (Abc_NodeFromIf_rec 4 exNew0 exMan0 (some 5))).2.2 rfl).2.2.2 with
    | ⟨g, _, _, _, hd, _, _, _, K, hK⟩ => ⟨g, hd, K, fun fuel hf => (hK fuel hf).2⟩⟩

/-! ## The start of `Abc_NtkFromIf` -/

theorem Abc_ObjSetCopy_pCopy (ntk : Abc_Ntk) (x : Nat) (c : Option Nat) (j : Nat) :
    (Abc_ObjSetCopy ntk x c).pCopy j = if j = x then c else ntk.pCopy j := by
  simp only [Abc_ObjSetCopy, Function.update_apply]

@[simp] theorem Abc_ObjSetCopy_vCis (ntk : Abc_Ntk) (x : Nat) (c : Option Nat) :
    (Abc_ObjSetCopy ntk x c).vCis = ntk.vCis := rfl

@[simp] theorem Abc_ObjSetCopy_vCos (ntk : Abc_Ntk) (x : Nat) (c : Option Nat) :
    (Abc_ObjSetCopy ntk x c).vCos = ntk.vCos := rfl

@[simp] theorem Abc_NtkCreatePo_nObjs (ntk : Abc_Ntk) :
    (Abc_NtkCreatePo ntk).nObjs = ntk.nObjs + 1 := rfl

@[simp] theorem Abc_NtkCreatePo_vCos (ntk : Abc_Ntk) :
    (Abc_NtkCreatePo ntk).vCos = ntk.vCos ++ [ntk.nObjs] := rfl

theorem Abc_NtkCreatePo_vFanins (ntk : Abc_Ntk) (j : Nat) :
    (Abc_NtkCreatePo ntk).vFanins j = if j = ntk.nObjs then [] else ntk.vFanins j :=
  Abc_NtkCreateObj_vFanins ntk .ABC_OBJ_PO j

@[simp] theorem Abc_NtkCreatePi_nObjs (ntk : Abc_Ntk) :
    (Abc_NtkCreatePi ntk).nObjs = ntk.nObjs + 1 := rfl

@[simp] theorem Abc_NtkCreatePi_vCos (ntk : Abc_Ntk) :
    (Abc_NtkCreatePi ntk).vCos = ntk.vCos := rfl

theorem Abc_NtkCreatePi_vFanins (ntk : Abc_Ntk) (j : Nat) :
    (Abc_NtkCreatePi ntk).vFanins j = if j = ntk.nObjs then [] else ntk.vFanins j :=
  Abc_NtkCreateObj_vFanins ntk .ABC_OBJ_PI j

/-- Duplicating the primary outputs: the new network gets one new object per
duplicated object, in order, without fanins, and every duplicated object
points to a new object. -/
theorem Abc_NtkDupCos_spec (objs : List Nat) (src new : Abc_Ntk) :
    (Abc_NtkDupCos objs src new).2.nObjs = new.nObjs + objs.length ∧
    (Abc_NtkDupCos objs src new).2.vCos
      = new.vCos ++ (List.range objs.length).map (fun i => new.nObjs + i) ∧
    (Abc_NtkDupCos objs src new).1.vCos = src.vCos ∧
    (Abc_NtkDupCos objs src new).1.vCis = src.vCis ∧
    ((∀ j, new.vFanins j = []) → ∀ j, (Abc_NtkDupCos objs src new).2.vFanins j = []) ∧
    (∀ x c, (Abc_NtkDupCos objs src new).1.pCopy x = some c →
      src.pCopy x = some c ∨ c < new.nObjs + objs.length) ∧
    (∀ x, x ∉ objs → (Abc_NtkDupCos objs src new).1.pCopy x = src.pCopy x) ∧
    (∀ x, x ∈ objs → ∃ c, (Abc_NtkDupCos objs src new).1.pCopy x = some c ∧
      c < new.nObjs + objs.length) ∧
    (objs.Nodup → ∀ (i x : Nat), objs[i]? = some x →
      (Abc_NtkDupCos objs src new).1.pCopy x = some (new.nObjs + i)) := by
  induction objs generalizing src new with
  | nil =>
    refine ⟨by simp [Abc_NtkDupCos], by simp [Abc_NtkDupCos], rfl, rfl, fun h => h,
      fun x c h => Or.inl h, fun _ _ => rfl, by simp, by simp⟩
  | cons o rest ih =>
    simp only [Abc_NtkDupCos]
    obtain ⟨h1, h2, h3, h4, h5, h6, h9, h7, h8⟩ := ih (Abc_ObjSetCopy src o (some new.nObjs))
      (Abc_NtkCreatePo new)
    simp only [Abc_NtkCreatePo_nObjs, Abc_NtkCreatePo_vCos, Abc_ObjSetCopy_vCis,
      Abc_ObjSetCopy_vCos] at h1 h2 h3 h4 h6 h7 h8
    refine ⟨?_, ?_, h3, h4, ?_, ?_, ?_, ?_, ?_⟩
    · rw [h1]; simp only [List.length_cons]; omega
    · rw [h2]
      simp only [List.length_cons, List.range_succ_eq_map, List.map_cons, List.map_map,
        List.append_assoc, List.singleton_append, Nat.add_zero]
      congr 2
      apply List.map_congr_left
      intro a _
      simp only [Function.comp]
      omega
    · intro hf j
      apply h5
      intro j
      rw [Abc_NtkCreatePo_vFanins]
      split
      · rfl
      · exact hf j
    · intro x c hx
      rcases h6 x c hx with h | h
      · rw [Abc_ObjSetCopy_pCopy] at h
        split at h
        · right
          cases h
          simp only [List.length_cons]; omega
        · exact Or.inl h
      · right
        simp only [List.length_cons]; omega
    · intro x hx
      rw [List.mem_cons, not_or] at hx
      rw [h9 x hx.2, Abc_ObjSetCopy_pCopy, if_neg hx.1]
    · intro x hx
      by_cases hr : x ∈ rest
      · obtain ⟨c, hc, hlt⟩ := h7 x hr
        exact ⟨c, hc, by simp only [List.length_cons]; omega⟩
      · have hxo : x = o := by
          rcases List.mem_cons.1 hx with h | h
          · exact h
          · exact absurd h hr
        subst hxo
        refine ⟨new.nObjs, ?_, by simp only [List.length_cons]; omega⟩
        rw [h9 x hr, Abc_ObjSetCopy_pCopy, if_pos rfl]
    · intro hnd i x hi
      rw [List.nodup_cons] at hnd
      cases i with
      | zero =>
        simp only [List.getElem?_cons_zero, Option.some.injEq] at hi
        subst hi
        rw [h9 o hnd.1, Abc_ObjSetCopy_pCopy, if_pos rfl]
        rfl
      | succ k =>
        simp only [List.getElem?_cons_succ] at hi
        rw [h8 hnd.2 k x hi]
        congr 1
        omega

/-- Duplicating the primary inputs: the new network gets one new object per
duplicated object, without fanins, and every duplicated object points to a
new object. -/
theorem Abc_NtkDupCis_spec (objs : List Nat) (src new : Abc_Ntk) :
    (Abc_NtkDupCis objs src new).2.nObjs = new.nObjs + objs.length ∧
    (Abc_NtkDupCis objs src new).2.vCos = new.vCos ∧
    (Abc_NtkDupCis objs src new).1.vCos = src.vCos ∧
    (Abc_NtkDupCis objs src new).1.vCis = src.vCis ∧
    ((∀ j, new.vFanins j = []) → ∀ j, (Abc_NtkDupCis objs src new).2.vFanins j = []) ∧
    (∀ x, x ∉ objs → (Abc_NtkDupCis objs src new).1.pCopy x = src.pCopy x) ∧
    (∀ x, x ∈ objs → ∃ c, (Abc_NtkDupCis objs src new).1.pCopy x = some c ∧
      c < new.nObjs + objs.length) := by
  induction objs generalizing src new with
  | nil =>
    exact ⟨by simp [Abc_NtkDupCis], rfl, rfl, rfl, fun h => h, fun _ _ => rfl, by simp⟩
  | cons o rest ih =>
    simp only [Abc_NtkDupCis]
    obtain ⟨h1, h2, h3, h4, h5, h9, h7⟩ := ih (Abc_ObjSetCopy src o (some new.nObjs))
      (Abc_NtkCreatePi new)
    simp only [Abc_NtkCreatePi_nObjs, Abc_NtkCreatePi_vCos, Abc_ObjSetCopy_vCis,
      Abc_ObjSetCopy_vCos] at h1 h2 h3 h4 h7
    refine ⟨?_, h2, h3, h4, ?_, ?_, ?_⟩
    · rw [h1]; simp only [List.length_cons]; omega
    · intro hf j
      apply h5
      intro j
      rw [Abc_NtkCreatePi_vFanins]
      split
      · rfl
      · exact hf j
    · intro x hx
      rw [List.mem_cons, not_or] at hx
      rw [h9 x hx.2, Abc_ObjSetCopy_pCopy, if_neg hx.1]
    · intro x hx
      by_cases hr : x ∈ rest
      · obtain ⟨c, hc, hlt⟩ := h7 x hr
        exact ⟨c, hc, by simp only [List.length_cons]; omega⟩
      · have hxo : x = o := by
          rcases List.mem_cons.1 hx with h | h
          · exact h
          · exact absurd h hr
        subst hxo
        refine ⟨new.nObjs, ?_, by simp only [List.length_cons]; omega⟩
        rw [h9 x hr, Abc_ObjSetCopy_pCopy, if_pos rfl]

/-- The new network and the source network after `Abc_NtkStartFrom`. -/
theorem Abc_NtkStartFrom_spec (pNtk : Abc_Ntk) :
    (Abc_NtkStartFrom pNtk).2.nObjs = pNtk.vCis.length + pNtk.vCos.length ∧
    (Abc_NtkStartFrom pNtk).2.vCos
      = (List.range pNtk.vCos.length).map (fun i => pNtk.vCis.length + i) ∧
    (Abc_NtkStartFrom pNtk).1.vCos = pNtk.vCos ∧
    (Abc_NtkStartFrom pNtk).1.vCis = pNtk.vCis ∧
    (∀ j, (Abc_NtkStartFrom pNtk).2.vFanins j = []) ∧
    (∀ x, x ∈ pNtk.vCis → ∃ c, (Abc_NtkStartFrom pNtk).1.pCopy x = some c ∧
      c < pNtk.vCis.length + pNtk.vCos.length) ∧
    (∀ x, x ∈ pNtk.vCos → ∃ c, (Abc_NtkStartFrom pNtk).1.pCopy x = some c ∧
      c < pNtk.vCis.length + pNtk.vCos.length) ∧
    (pNtk.vCos.Nodup → ∀ (i x : Nat), pNtk.vCos[i]? = some x →
      (Abc_NtkStartFrom pNtk).1.pCopy x = some (pNtk.vCis.length + i)) := by
  obtain ⟨a1, a2, a3, a4, a5, a6, a7⟩ := Abc_NtkDupCis_spec pNtk.vCis pNtk (Abc_NtkAlloc .ABC_NTK_LOGIC)
  obtain ⟨b1, b2, b3, b4, b5, b6, b9, b7, b8⟩ := Abc_NtkDupCos_spec pNtk.vCos
    (Abc_NtkDupCis pNtk.vCis pNtk (Abc_NtkAlloc .ABC_NTK_LOGIC)).1 (Abc_NtkDupCis pNtk.vCis pNtk (Abc_NtkAlloc .ABC_NTK_LOGIC)).2
  have hn : (Abc_NtkDupCis pNtk.vCis pNtk (Abc_NtkAlloc .ABC_NTK_LOGIC)).2.nObjs = pNtk.vCis.length := by
    rw [a1]; simp [Abc_NtkAlloc]
  rw [a3] at b3
  rw [hn] at b1 b2 b7 b8
  simp only [Abc_NtkStartFrom]
  refine ⟨b1, ?_, b3, b4.trans a4, b5 (a5 (fun _ => rfl)), ?_, b7, b8⟩
  · rw [b2, a2]; simp [Abc_NtkAlloc]
  · intro x hx
    by_cases hc : x ∈ pNtk.vCos
    · exact b7 x hc
    · obtain ⟨c, hc1, hc2⟩ := a7 x hx
      refine ⟨c, ?_, ?_⟩
      · rw [b9 x hc, hc1]
      · simp only [Abc_NtkAlloc, Nat.zero_add] at hc2
        omega

theorem setPiCopies_spec (src : Abc_Ntk) (cis : List Nat) (i : Nat) (p p' : If_Man)
    (h : setPiCopies src cis i p = .ok p') :
    p'.net = p.net ∧ p'.cutData = p.cutData ∧
    ∀ m c, p'.pCopy m = some c →
      p.pCopy m = some c ∨ (m ∈ p.net.vPis ∧ ∃ ci, ci ∈ cis ∧ src.pCopy ci = some c) := by
  induction cis generalizing i p with
  | nil =>
    simp only [setPiCopies, Except.ok.injEq] at h
    subst h
    exact ⟨rfl, rfl, fun m c hm => Or.inl hm⟩
  | cons ci rest ih =>
    simp only [setPiCopies] at h
    split at h
    · cases h
    · rename_i pi hpi
      obtain ⟨h1, h2, h3⟩ := ih _ _ h
      refine ⟨h1, h2, ?_⟩
      intro m c hm
      rcases h3 m c hm with h' | ⟨hv, x, hx, hxc⟩
      · rw [If_ObjSetCopy_pCopy] at h'
        split at h'
        · rename_i e
          subst e
          exact Or.inr ⟨List.mem_iff_getElem?.2 ⟨i, hpi⟩, ci, List.mem_cons_self _ _, h'⟩
        · exact Or.inl h'
      · exact Or.inr ⟨hv, x, List.mem_cons_of_mem _ hx, hxc⟩

/-- The state in which the output loop of `Abc_NtkFromIf` starts. -/
theorem Abc_NtkFromIf_start_spec (pIfMan : If_Man) (pNtk src0 ntk0 : Abc_Ntk) (p0 : If_Man)
    (h : Abc_NtkFromIf_start pIfMan pNtk = .ok (src0, ntk0, p0)) :
    src0 = (Abc_NtkStartFrom pNtk).1 ∧
    ntk0.nObjs = pNtk.vCis.length + pNtk.vCos.length + 1 ∧
    ntk0.vCos = (List.range pNtk.vCos.length).map (fun i => pNtk.vCis.length + i) ∧
    (∀ j, ntk0.vFanins j = []) ∧
    p0.net = pIfMan.net ∧ AllEmpty p0 ∧
    (∀ m c, p0.pCopy m = some c →
      c < ntk0.nObjs ∧ (m = pIfMan.net.pConst1 ∨ m ∈ pIfMan.net.vPis)) := by
  obtain ⟨s1, s2, s3, s4, s5, s6, s7, s8⟩ := Abc_NtkStartFrom_spec pNtk
  simp only [Abc_NtkFromIf_start] at h
  split at h
  · cases h
  · rename_i p3 hp3
    simp only [Except.ok.injEq, Prod.mk.injEq] at h
    obtain ⟨rfl, rfl, rfl⟩ := h
    obtain ⟨h1, h2, h3⟩ := setPiCopies_spec _ _ _ _ _ hp3
    refine ⟨rfl, ?_, ?_, ?_, ?_, ?_, ?_⟩
    · simp [Abc_NtkCreateNodeConst1, Abc_NtkCreateNode, s1]
    · simp [Abc_NtkCreateNodeConst1, Abc_NtkCreateNode, s2]
    · intro j
      simp only [Abc_NtkCreateNodeConst1, Abc_NtkCreateNode, Abc_ObjSetData_vFanins,
        Abc_NtkCreateObj_vFanins]
      split
      · rfl
      · exact s5 j
    · rw [h1]; rfl
    · intro c
      rw [h2]; rfl
    · intro m c hm
      have hn : (Abc_NtkCreateNodeConst1 (Abc_NtkStartFrom pNtk).2).nObjs
          = pNtk.vCis.length + pNtk.vCos.length + 1 := by
        simp [Abc_NtkCreateNodeConst1, Abc_NtkCreateNode, s1]
      rcases h3 m c hm with h' | ⟨hv, x, hx, hxc⟩
      · rw [If_ObjSetCopy_pCopy] at h'
        split at h'
        · rename_i e
          cases h'
          refine ⟨by rw [hn, s1]; omega, Or.inl e⟩
        · simp [If_ManCleanCutData, If_ManCleanNodeCopy] at h'
      · refine ⟨?_, Or.inr hv⟩
        rw [s4] at hx
        obtain ⟨c', hc1, hc2⟩ := s6 x hx
        rw [hxc] at hc1
        cases hc1
        rw [hn]; omega

/-! ## The output loop of `Abc_NtkFromIf` -/

theorem Abc_NodeFromIf_rec_none (fuel : Nat) (ntk : Abc_Ntk) (p : If_Man)
    (r : Nat × Abc_Ntk × If_Man) : Abc_NodeFromIf_rec fuel ntk p none ≠ .ok r := by
  cases fuel <;> simp [Abc_NodeFromIf_rec]

/-- The frame of the output loop: the loop extends the new network and the
correspondence as `Grows` describes, and appends to the fanins of the output
of every position the correspondent of the driver of the mapper output of
the same position, with the complement bit of the mapper output. -/
theorem coLoop_grows (N : If_Net) (rank : Nat → Nat) (hrank : LeavesBelow N rank)
    (fuel : Nat) (src : Abc_Ntk) (cos : List Nat) (i : Nat) (ntk : Abc_Ntk) (p : If_Man)
    (ntk' : Abc_Ntk) (p' : If_Man) (he : AllEmpty p) (hN : p.net = N)
    (hlt : ∀ x, x ∈ cos → ∀ c, src.pCopy x = some c → c < ntk.nObjs)
    (hnd : (cos.map src.pCopy).Nodup)
    (h : coLoop fuel src cos i ntk p = .ok (ntk', p')) :
    Grows (fun j => ∃ x, x ∈ cos ∧ src.pCopy x = some j) (fun _ => True) ntk p ntk' p' ∧
    ∀ (k x : Nat), cos[k]? = some x → ∃ po mpo drv c, src.pCopy x = some po ∧
      N.vPos[i + k]? = some mpo ∧ N.pFanin0 mpo = some drv ∧ p'.pCopy drv = some c ∧
      ntk'.vFanins po = ntk.vFanins po ++ [(c, N.fCompl0 mpo)] := by
  induction cos generalizing i ntk p with
  | nil =>
    simp only [coLoop, Except.ok.injEq, Prod.mk.injEq] at h
    obtain ⟨rfl, rfl⟩ := h
    exact ⟨Grows.same _ _ _ _ he, by simp⟩
  | cons x rest ih =>
    simp only [coLoop] at h
    split at h
    · cases h
    · rename_i mpo hmpo
      split at h
      · cases h
      · rename_i c ntk1 p1 hr
        split at h
        · cases h
        · rename_i po hpo
          cases hdrv : p.net.pFanin0 mpo with
          | none =>
            rw [hdrv] at hr
            exact absurd hr (Abc_NodeFromIf_rec_none _ _ _ _)
          | some drv =>
            rw [hdrv] at hr
            obtain ⟨g1, hc⟩ := Abc_NodeFromIf_rec_grows N rank hrank fuel ntk p drv c ntk1 p1
              he hN hr
            have hpolt : po < ntk.nObjs := hlt x (List.mem_cons_self _ _) po hpo
            have hE : ∀ j, (∃ y, y ∈ x :: rest ∧ src.pCopy y = some j) → j < ntk.nObjs :=
              fun j ⟨y, hy, hyc⟩ => hlt y hy j hyc
            rw [List.map_cons, List.nodup_cons] at hnd
            obtain ⟨g2, hfan⟩ := ih (i + 1)
              (Abc_ObjAddFanin ntk1 po (Abc_ObjNotCond (c, false) (p1.net.fCompl0 mpo))) p1
              g1.empty (g1.net.trans hN)
              (fun y hy c hyc => lt_of_lt_of_le (hlt y (List.mem_cons_of_mem _ hy) c hyc) g1.le)
              hnd.2 h
            have g1' : Grows (fun j => ∃ y, y ∈ x :: rest ∧ src.pCopy y = some j)
                (fun _ => True) ntk p ntk1 p1 :=
              g1.weaken (fun _ hf => hf.elim) (fun _ _ => trivial)
            have ga : Grows (fun j => ∃ y, y ∈ x :: rest ∧ src.pCopy y = some j)
                (fun _ => True) ntk1 p1
                (Abc_ObjAddFanin ntk1 po (Abc_ObjNotCond (c, false) (p1.net.fCompl0 mpo))) p1 :=
              (Grows.addFanin (fun _ => True) ntk1 p1 g1.empty po _).weaken
                (fun j hj => ⟨x, List.mem_cons_self _ _, by rw [hj]; exact hpo⟩)
                (fun _ h => h)
            have g2' : Grows (fun j => ∃ y, y ∈ x :: rest ∧ src.pCopy y = some j)
                (fun _ => True)
                (Abc_ObjAddFanin ntk1 po (Abc_ObjNotCond (c, false) (p1.net.fCompl0 mpo))) p1
                ntk' p' :=
              g2.weaken (fun j ⟨y, hy, hyc⟩ => ⟨y, List.mem_cons_of_mem _ hy, hyc⟩)
                (fun _ h => h)
            refine ⟨g1'.comp (ga.comp g2'
              (fun j hj => lt_of_lt_of_le (hE j hj) g1.le)) hE, ?_⟩
            have hnotin : ∀ y, y ∈ rest → src.pCopy y ≠ some po := by
              intro y hy hyc
              apply hnd.1
              rw [hpo, ← hyc]
              exact List.mem_map_of_mem _ hy
            intro k y hk
            cases k with
            | zero =>
              simp only [List.getElem?_cons_zero, Option.some.injEq] at hk
              subst hk
              refine ⟨po, mpo, drv, c, hpo, by simpa [hN] using hmpo, by rw [← hN]; exact hdrv,
                g2.mono drv c hc, ?_⟩
              rw [g2.fanins po (by simp; exact lt_of_lt_of_le hpolt g1.le)
                (fun ⟨y, hy, hyc⟩ => hnotin y hy hyc), Abc_ObjAddFanin_vFanins, if_pos rfl,
                g1.fanins po hpolt (fun hf => hf)]
              simp [Abc_ObjNotCond, g1.net, hN]
            | succ k =>
              simp only [List.getElem?_cons_succ] at hk
              obtain ⟨po', mpo', drv', c', h1, h2, h3, h4, h5⟩ := hfan k y hk
              have hne : po' ≠ po := by
                intro e
                rw [e] at h1
                exact hnotin y (List.mem_iff_getElem?.2 ⟨k, hk⟩) h1
              refine ⟨po', mpo', drv', c', h1, ?_, h3, h4, ?_⟩
              · rw [← h2]; congr 1; omega
              · rw [h5, Abc_ObjAddFanin_vFanins, if_neg hne, g1.fanins po'
                  (hlt y (List.mem_cons_of_mem _ (List.mem_iff_getElem?.2 ⟨k, hk⟩)) po' h1)
                  (fun hf => hf)]

/-- The output loop returns, for every recursion depth from some depth on,
when every source output has a duplicate and the driver of the mapper output
of every position is reconstructible. -/
theorem coLoop_total (N : If_Net) (rank : Nat → Nat) (hrank : LeavesBelow N rank)
    (cp : Nat → Option Nat) (src : Abc_Ntk) (cos : List Nat) (i : Nat) (ntk : Abc_Ntk)
    (p : If_Man) (he : AllEmpty p) (hN : p.net = N)
    (hcp : ∀ m c, cp m = some c → p.pCopy m ≠ none)
    (hcos : ∀ (k x : Nat), cos[k]? = some x → (∃ po, src.pCopy x = some po) ∧
      ∃ mpo drv, N.vPos[i + k]? = some mpo ∧ N.pFanin0 mpo = some drv ∧
        Reconstructible N cp drv) :
    ∃ K r, ∀ fuel, K ≤ fuel → coLoop fuel src cos i ntk p = .ok r := by
  induction cos generalizing i ntk p with
  | nil => exact ⟨0, (ntk, p), fun _ _ => rfl⟩
  | cons x rest ih =>
    obtain ⟨⟨po, hpo⟩, mpo, drv, hmpo, hdrv, hrec⟩ := hcos 0 x (by simp)
    obtain ⟨K1, ⟨c, ntk1, p1⟩, r1⟩ := Abc_NodeFromIf_rec_total N rank hrank cp drv hrec ntk p
      he hN hcp
    obtain ⟨g1, _⟩ := Abc_NodeFromIf_rec_grows N rank hrank K1 ntk p drv c ntk1 p1 he hN
      (r1 K1 (le_refl _))
    obtain ⟨K2, r, r2⟩ := ih (i + 1)
      (Abc_ObjAddFanin ntk1 po (Abc_ObjNotCond (c, false) (p1.net.fCompl0 mpo))) p1
      g1.empty (g1.net.trans hN)
      (fun m c hm => by
        cases hpm : p.pCopy m with
        | none => exact absurd hpm (hcp m c hm)
        | some c' => rw [g1.mono m c' hpm]; simp)
      (fun k y hk => by
        have := hcos (k + 1) y (by simpa using hk)
        rw [show i + (k + 1) = i + 1 + k by omega] at this
        exact this)
    refine ⟨max K1 K2, r, ?_⟩
    intro fuel hf
    simp only [Nat.add_zero] at hmpo
    simp only [coLoop, hN, hmpo, hdrv, r1 fuel (by omega), hpo]
    exact r2 fuel (by omega)

/-- The state after the output loop of `Abc_NtkFromIf`, relative to the
state in which the loop starts. -/
theorem Abc_NtkFromIf_outputs_grows (rank : Nat → Nat) (fuel : Nat) (pIfMan : If_Man)
    (pNtk src ntk' : Abc_Ntk) (p' : If_Man) (hrank : LeavesBelow pIfMan.net rank)
    (hnd : pNtk.vCos.Nodup)
    (h : Abc_NtkFromIf_outputs fuel pIfMan pNtk = .ok (src, ntk', p')) :
    ∃ ntk0 p0, Abc_NtkFromIf_start pIfMan pNtk = .ok (src, ntk0, p0) ∧
      Grows (fun j => ∃ x, x ∈ pNtk.vCos ∧ src.pCopy x = some j) (fun _ => True)
        ntk0 p0 ntk' p' ∧
      ∀ (k x : Nat), pNtk.vCos[k]? = some x → ∃ mpo drv c,
        src.pCopy x = some (pNtk.vCis.length + k) ∧
        pIfMan.net.vPos[k]? = some mpo ∧ pIfMan.net.pFanin0 mpo = some drv ∧
        p'.pCopy drv = some c ∧
        ntk'.vFanins (pNtk.vCis.length + k) = [(c, pIfMan.net.fCompl0 mpo)] := by
  simp only [Abc_NtkFromIf_outputs] at h
  split at h
  · cases h
  · rename_i src0 ntk0 p0 hstart
    split at h
    · cases h
    · rename_i ntk1 p1 hloop
      simp only [Except.ok.injEq, Prod.mk.injEq] at h
      obtain ⟨rfl, rfl, rfl⟩ := h
      obtain ⟨hsrc, hn0, _, hfan0, hnet0, he0, _⟩ :=
        Abc_NtkFromIf_start_spec pIfMan pNtk src0 ntk0 p0 hstart
      obtain ⟨_, _, s3, _, _, _, s7, s8⟩ := Abc_NtkStartFrom_spec pNtk
      rw [← hsrc] at s3 s7 s8
      have hmapeq : src0.vCos.map src0.pCopy
          = (List.range pNtk.vCos.length).map (fun i => some (pNtk.vCis.length + i)) := by
        apply List.ext_getElem?
        intro j
        simp only [List.getElem?_map, s3]
        cases hx : pNtk.vCos[j]? with
        | none =>
          have : pNtk.vCos.length ≤ j := List.getElem?_eq_none_iff.1 hx
          rw [List.getElem?_eq_none_iff.2 (by simpa using this)]
          rfl
        | some x =>
          have hj : j < pNtk.vCos.length := by
            by_contra hc
            rw [List.getElem?_eq_none_iff.2 (by omega)] at hx
            cases hx
          simp [List.getElem?_range, hj, s8 hnd j x hx]
      have hnd' : (src0.vCos.map src0.pCopy).Nodup := by
        rw [hmapeq]
        apply List.Nodup.map _ (List.nodup_range _)
        intro a b hab
        simp only [Option.some.injEq] at hab
        omega
      obtain ⟨g, hfan⟩ := coLoop_grows pIfMan.net rank hrank fuel src0 src0.vCos 0 ntk0 p0
        ntk1 p1 he0 hnet0
        (fun x hx c hc => by
          obtain ⟨c', hc1, hc2⟩ := s7 x (s3 ▸ hx)
          rw [hc] at hc1
          cases hc1
          omega) hnd' hloop
      rw [s3] at g hfan
      refine ⟨ntk0, p0, hstart, g, ?_⟩
      intro k x hk
      obtain ⟨po, mpo, drv, c, h1, h2, h3, h4, h5⟩ := hfan k x hk
      rw [s8 hnd k x hk] at h1
      cases h1
      refine ⟨mpo, drv, c, s8 hnd k x hk, by simpa using h2, h3, h4, ?_⟩
      rw [h5, hfan0]
      rfl

/-- C8 (primary-output reconciliation): for a mapper whose best-cut-leaf
relation is acyclic and a source network with pairwise distinct outputs,
after the output loop of `Abc_NtkFromIf` the new network has as many outputs
as the source, and its `i`-th output, the duplicate of the `i`-th source
output, has exactly one fanin: the correspondent of the driver of the `i`-th
mapper output, with the complement bit of that mapper output as complement
attribute. The loop returns, for every recursion depth from some depth on,
when the driver of the mapper output of every position is reconstructible. -/
theorem Abc_NtkFromIf_outputs_reconciled (rank : Nat → Nat) (pIfMan : If_Man) (pNtk : Abc_Ntk)
    (hrank : LeavesBelow pIfMan.net rank) (hnd : pNtk.vCos.Nodup) :
    (∀ fuel src ntk' p', Abc_NtkFromIf_outputs fuel pIfMan pNtk = .ok (src, ntk', p') →
      ntk'.vCos.length = pNtk.vCos.length ∧
      ∀ (i po : Nat), ntk'.vCos[i]? = some po → ∃ x mpo drv c,
        pNtk.vCos[i]? = some x ∧ src.pCopy x = some po ∧
        pIfMan.net.vPos[i]? = some mpo ∧ pIfMan.net.pFanin0 mpo = some drv ∧
        If_ObjCopy p' drv = some c ∧ ntk'.vFanins po = [(c, pIfMan.net.fCompl0 mpo)]) ∧
    (∀ src0 ntk0 p0, Abc_NtkFromIf_start pIfMan pNtk = .ok (src0, ntk0, p0) →
      (∀ i, i < pNtk.vCos.length → ∃ mpo drv, pIfMan.net.vPos[i]? = some mpo ∧
        pIfMan.net.pFanin0 mpo = some drv ∧ Reconstructible pIfMan.net p0.pCopy drv) →
      ∃ K, ∀ fuel, K ≤ fuel → ∃ ntk' p',
        Abc_NtkFromIf_outputs fuel pIfMan pNtk = .ok (src0, ntk', p')) := by
  constructor
  · intro fuel src ntk' p' h
    obtain ⟨ntk0, p0, hstart, g, hfan⟩ :=
      Abc_NtkFromIf_outputs_grows rank fuel pIfMan pNtk src ntk' p' hrank hnd h
    obtain ⟨_, _, hcos0, _⟩ := Abc_NtkFromIf_start_spec pIfMan pNtk src ntk0 p0 hstart
    have hcos : ntk'.vCos = (List.range pNtk.vCos.length).map (fun i => pNtk.vCis.length + i) :=
      g.cos.trans hcos0
    refine ⟨by rw [hcos]; simp, ?_⟩
    intro i po hpo
    rw [hcos, List.getElem?_map] at hpo
    have hi : i < pNtk.vCos.length := by
      by_contra hc
      rw [List.getElem?_eq_none_iff.2 (by simpa using hc)] at hpo
      cases hpo
    rw [List.getElem?_range hi] at hpo
    simp only [Option.map_some', Option.some.injEq] at hpo
    subst hpo
    obtain ⟨mpo, drv, c, h1, h2, h3, h4, h5⟩ := hfan i (pNtk.vCos[i]) (List.getElem?_eq_getElem hi)
    exact ⟨pNtk.vCos[i], mpo, drv, c, List.getElem?_eq_getElem hi, h1, h2, h3, h4, h5⟩
  · intro src0 ntk0 p0 hstart hpos
    obtain ⟨hsrc, _, _, _, hnet0, he0, _⟩ :=
      Abc_NtkFromIf_start_spec pIfMan pNtk src0 ntk0 p0 hstart
    obtain ⟨_, _, s3, _, _, _, s7, _⟩ := Abc_NtkStartFrom_spec pNtk
    rw [← hsrc] at s3 s7
    obtain ⟨K, ⟨ntk', p'⟩, r⟩ := coLoop_total pIfMan.net rank hrank p0.pCopy src0 src0.vCos 0
      ntk0 p0 he0 hnet0 (fun m c hm => by rw [hm]; simp)
      (fun k x hk => by
        rw [s3] at hk
        have hk' : k < pNtk.vCos.length := by
          by_contra hc
          rw [List.getElem?_eq_none_iff.2 (by omega)] at hk
          cases hk
        obtain ⟨c, hc, _⟩ := s7 x (List.mem_iff_getElem?.2 ⟨k, hk⟩)
        refine ⟨⟨c, hc⟩, ?_⟩
        simpa using hpos k hk')
    refine ⟨K, fun fuel hf => ⟨ntk', p', ?_⟩⟩
    simp only [Abc_NtkFromIf_outputs, hstart, r fuel hf]

/-- In the example, the first output of the new network is driven by the
complement of the correspondent of the mapper object `5`. -/
theorem Abc_NtkFromIf_outputs_reconciled_witness :
    LeavesBelow exMan.net id ∧ exNtk.vCos.Nodup ∧
    Abc_NtkFromIf_outputs 5 exMan exNtk = .ok exOut ∧
    exOut.2.1.vCos.length = exNtk.vCos.length :=
  ⟨exNet_leavesBelow, by decide, rfl,
    ((Abc_NtkFromIf_outputs_reconciled id exMan exNtk exNet_leavesBelow (by decide)).1
      5 exOut.1 exOut.2.1 exOut.2.2 rfl).1⟩

/-- C3 (no duplicate materialization): for a mapper whose best-cut-leaf
relation is acyclic, whose constant and inputs are not AND objects, and a
source network with pairwise distinct outputs, after the output loop of
`Abc_NtkFromIf` every object of the new network created by the loop is the
correspondent of exactly one mapper object, two AND objects with the same
correspondent are the same object, and a leaf of the best cuts of two AND
objects with correspondents is the same uncomplemented fanin of both
correspondents, at the positions of the leaf. -/
theorem Abc_NtkFromIf_no_duplicate (rank : Nat → Nat) (fuel : Nat) (pIfMan : If_Man)
    (pNtk src ntk' : Abc_Ntk) (p' : If_Man) (hrank : LeavesBelow pIfMan.net rank)
    (hnd : pNtk.vCos.Nodup)
    (hconst : pIfMan.net.Typ pIfMan.net.pConst1 ≠ .IF_AND)
    (hpis : ∀ pi, pi ∈ pIfMan.net.vPis → pIfMan.net.Typ pi ≠ .IF_AND)
    (h : Abc_NtkFromIf_outputs fuel pIfMan pNtk = .ok (src, ntk', p')) :
    (∀ j, pNtk.vCis.length + pNtk.vCos.length + 1 ≤ j → j < ntk'.nObjs →
      ∃! m, If_ObjCopy p' m = some j) ∧
    (∀ m1 m2 c, pIfMan.net.Typ m1 = .IF_AND → pIfMan.net.Typ m2 = .IF_AND →
      If_ObjCopy p' m1 = some c → If_ObjCopy p' m2 = some c → m1 = m2) ∧
    (∀ (n1 n2 c1 c2 i1 i2 l : Nat),
      pIfMan.net.Typ n1 = .IF_AND → pIfMan.net.Typ n2 = .IF_AND →
      If_ObjCopy p' n1 = some c1 → If_ObjCopy p' n2 = some c2 →
      (pIfMan.bestLeaves n1)[i1]? = some l → (pIfMan.bestLeaves n2)[i2]? = some l →
      ∃ c, If_ObjCopy p' l = some c ∧ (ntk'.vFanins c1)[i1]? = some (c, false) ∧
        (ntk'.vFanins c2)[i2]? = some (c, false)) := by
  obtain ⟨ntk0, p0, hstart, g, _⟩ :=
    Abc_NtkFromIf_outputs_grows rank fuel pIfMan pNtk src ntk' p' hrank hnd h
  obtain ⟨_, hn0, _, _, hnet0, _, hcp0⟩ := Abc_NtkFromIf_start_spec pIfMan pNtk src ntk0 p0 hstart
  have hand : ∀ m, pIfMan.net.Typ m = .IF_AND → p0.pCopy m = none := by
    intro m hm
    cases hc : p0.pCopy m with
    | none => rfl
    | some c =>
      rcases (hcp0 m c hc).2 with e | e
      · rw [e] at hm; exact absurd hm hconst
      · exact absurd hm (hpis m e)
  refine ⟨?_, ?_, ?_⟩
  · intro j hlo hhi
    obtain ⟨m, hm0, hm⟩ := g.onto j (by omega) hhi
    refine ⟨m, hm, ?_⟩
    intro m' hm'
    cases hc : p0.pCopy m' with
    | none => exact g.inj m' m j hc hm0 hm' hm
    | some c =>
      have h1 := g.mono m' c hc
      simp only [If_ObjCopy] at hm'
      rw [hm'] at h1
      cases h1
      have := (hcp0 m' j hc).1
      omega
  · intro m1 m2 c h1 h2 hc1 hc2
    exact g.inj m1 m2 c (hand m1 h1) (hand m2 h2) hc1 hc2
  · intro n1 n2 c1 c2 i1 i2 l h1 h2 hc1 hc2 hl1 hl2
    obtain ⟨_, _, _, _, _, hf1, hcm1, _⟩ := g.fresh n1 c1 (hand n1 h1) hc1
    obtain ⟨_, _, _, _, _, hf2, hcm2, _⟩ := g.fresh n2 c2 (hand n2 h2) hc2
    rw [If_Man.bestLeaves_congr hnet0] at hf1 hf2
    obtain ⟨c, hc, hfc⟩ := fanin_of_map hf1 hcm1 i1 l hl1
    obtain ⟨c', hc', hfc'⟩ := fanin_of_map hf2 hcm2 i2 l hl2
    rw [hc] at hc'
    cases hc'
    exact ⟨c, hc, hfc, hfc'⟩

/-- In the example, the mapper object `4` is the first leaf of the best cuts
of the objects `6` and `7`, whose correspondents are the nodes `8` and `10`. -/
theorem Abc_NtkFromIf_no_duplicate_witness :
    LeavesBelow exMan.net id ∧ exNtk.vCos.Nodup ∧
    exMan.net.Typ exMan.net.pConst1 ≠ .IF_AND ∧
    (∀ pi, pi ∈ exMan.net.vPis → exMan.net.Typ pi ≠ .IF_AND) ∧
    Abc_NtkFromIf_outputs 5 exMan exNtk = .ok exOut ∧
    ∃ c, If_ObjCopy exOut.2.2 4 = some c ∧ (exOut.2.1.vFanins 8)[0]? = some (c, false) ∧
      (exOut.2.1.vFanins 10)[0]? = some (c, false) :=
  ⟨exNet_leavesBelow, by decide, by decide, by decide, rfl,
    (Abc_NtkFromIf_no_duplicate id 5 exMan exNtk exOut.1 exOut.2.1 exOut.2.2 exNet_leavesBelow
      (by decide) (by decide) (by decide) rfl).2.2 6 7 8 10 0 0 4 rfl rfl rfl rfl rfl rfl⟩

/-! ## The synthesis over cuts and the synthesis over nodes -/

theorem ConeCut.unique_cut {N : If_Net} {seed : If_CutRef → Option Hop_Obj} {c : If_CutRef}
    {g h : Hop_Obj} (hg : ConeCut N seed c g) (hh : ConeCut N seed c h) : g = h := by
  induction hg generalizing h with
  | leaf c g hs =>
    cases hh with
    | leaf _ _ hs' => rw [hs] at hs'; exact Option.some.inj hs'
    | node _ _ _ _ _ hs' => rw [hs] at hs'; cases hs'
  | node c c0 c1 g0 g1 hs h0 h1 _ _ ih0 ih1 =>
    cases hh with
    | leaf _ _ hs' => rw [hs] at hs'; cases hs'
    | node _ c0' c1' g0' g1' _ h0' h1' d0 d1 =>
      rw [h0] at h0'; rw [h1] at h1'
      cases h0'; cases h1'
      rw [ih0 d0, ih1 d1]

/-- The memoized recursion over cuts returns the function graph of the cut,
for every recursion depth from some depth on. -/
theorem Abc_NodeIfToHop_rec_total {N : If_Net} {seed : If_CutRef → Option Hop_Obj}
    {c : If_CutRef} {g : Hop_Obj} (hc : ConeCut N seed c g) (p : If_Man)
    (hp : MemoInvCut N seed p) :
    ∃ K q vs, (∀ fuel, K ≤ fuel → Abc_NodeIfToHop_rec fuel p (some c) = .ok (g, q)) ∧
      MemoInvCut N seed q ∧ Extends p q vs ∧
      ∀ x ∈ vs, ∃ h, ConeCut N seed x h ∧ Hop_Size h ≤ Hop_Size g := by
  induction hc generalizing p with
  | leaf c g hs =>
    refine ⟨1, p, [], ?_, hp, Extends.refl p, by simp⟩
    intro fuel hf
    obtain ⟨f, rfl⟩ : ∃ f, fuel = f + 1 := ⟨fuel - 1, by omega⟩
    simp [Abc_NodeIfToHop_rec, If_CutData, hp.2.2 c g hs]
  | node c c0 c1 g0 g1 hs h0 h1 d0 d1 ih0 ih1 =>
    have hcone := ConeCut.node c c0 c1 g0 g1 hs h0 h1 d0 d1
    cases hd : p.cutData c with
    | some h =>
      have := ConeCut.unique_cut (hp.2.1 c h hd) hcone
      subst this
      refine ⟨1, p, [], ?_, hp, Extends.refl p, by simp⟩
      intro fuel hf
      obtain ⟨f, rfl⟩ : ∃ f, fuel = f + 1 := ⟨fuel - 1, by omega⟩
      simp [Abc_NodeIfToHop_rec, If_CutData, hd]
    | none =>
      obtain ⟨K0, p1, vs0, r0, i0, e0, w0⟩ := ih0 p hp
      obtain ⟨K1, p2, vs1, r1, i1, e1, w1⟩ := ih1 p1 i0
      have hn2 : p2.cutData c = none := by
        by_contra hne
        rcases (e0.trans e1).written hne with h | h
        · exact h hd
        · have hsz : ∀ (g' : Hop_Obj), Hop_Size g' ≤ Hop_Size g0 ∨ Hop_Size g' ≤ Hop_Size g1 →
              ConeCut N seed c g' → False := by
            intro g' hle hc'
            have := ConeCut.unique_cut hc' hcone
            subst this
            simp at hle
            omega
          rcases List.mem_append.1 h with h | h
          · obtain ⟨h', hc', hle⟩ := w0 _ h
            exact hsz h' (Or.inl hle) hc'
          · obtain ⟨h', hc', hle⟩ := w1 _ h
            exact hsz h' (Or.inr hle) hc'
      refine ⟨max K0 K1 + 1, Vec_PtrPush (If_CutSetData p2 c
        (some (Hop_NotCond (Hop_And (Hop_NotCond g0 (N.Cuts c.1 c.2).fCompl0)
          (Hop_NotCond g1 (N.Cuts c.1 c.2).fCompl1)) (N.Cuts c.1 c.2).Phase))) c,
        (vs0 ++ vs1) ++ [c], ?_, ?_, (e0.trans e1).trans (Extends.push p2 _ _ hn2), ?_⟩
      · intro fuel hf
        obtain ⟨f, rfl⟩ : ∃ f, fuel = f + 1 := ⟨fuel - 1, by omega⟩
        have hf0 : K0 ≤ f := by omega
        have hf1 : K1 ≤ f := by omega
        simp only [Abc_NodeIfToHop_rec, If_CutData, hd, hp.1, h0, r0 f hf0, i0.1, h1, r1 f hf1,
          hn2, i1.1, If_Man.cut]
      · refine ⟨i1.1, ?_, ?_⟩
        · intro x h hx
          simp only [Vec_PtrPush_cutData, If_CutSetData_cutData] at hx
          split at hx
          · rename_i heq
            subst heq
            cases hx
            exact hcone
          · exact i1.2.1 x h hx
        · intro x h hx
          simp only [Vec_PtrPush_cutData, If_CutSetData_cutData]
          split
          · rename_i heq
            subst heq
            rw [hs] at hx; cases hx
          · exact i1.2.2 x h hx
      · intro x hx
        simp only [List.mem_append, List.mem_singleton] at hx
        rcases hx with (h | h) | h
        · obtain ⟨h', hc', hle⟩ := w0 _ h
          exact ⟨h', hc', by simp; omega⟩
        · obtain ⟨h', hc', hle⟩ := w1 _ h
          exact ⟨h', hc', by simp; omega⟩
        · subst h
          exact ⟨_, hcone, le_refl _⟩

theorem MemoInvCut_seeded (p : If_Man) (leaves : List Nat) :
    MemoInvCut p.net (setLeafVars p leaves 0).cutData (Vec_PtrClear (setLeafVars p leaves 0)) := by
  refine ⟨by simp, ?_, ?_⟩
  · intro c h hc
    exact ConeCut.leaf c h hc
  · intro c h hc
    exact hc

/-- With at least two leaves, the synthesis over cuts returns the function
graph of the cut over the seeded leaves. -/
theorem Abc_NodeIfToHop_total (p : If_Man) (c : If_CutRef) (g : Hop_Obj)
    (hk : 2 ≤ (p.cut c).pLeaves.length)
    (hc : ConeCut p.net (setLeafVars p (p.cut c).pLeaves 0).cutData c g) :
    ∃ K q, ∀ fuel, K ≤ fuel → Abc_NodeIfToHop fuel p c = .ok (g, q) := by
  obtain ⟨K, q, vs, r, _, _, _⟩ :=
    Abc_NodeIfToHop_rec_total hc _ (MemoInvCut_seeded p (p.cut c).pLeaves)
  refine ⟨K, cleanCuts (cleanLeaves q (q.cut c).pLeaves) (cleanLeaves q (q.cut c).pLeaves).vTemp, ?_⟩
  intro fuel hf
  have hk' : (p.cut c).pLeaves.length > 1 := by omega
  simp only [Abc_NodeIfToHop, hk', if_true, r fuel hf]

/-- A decomposition tree that mirrors the fanin graph and ends exactly at the
leaves has the function graph of its object. -/
theorem CutMirrorsToLeaves.coneCut {p : If_Man} (he : AllEmpty p) {leaves : List Nat}
    {c : If_CutRef} (hm : CutMirrorsToLeaves p.net leaves c) :
    ∃ g, ConeCut p.net (setLeafVars p leaves 0).cutData c g ∧
      Cone p.net (setLeafVars p leaves 0).cutData c.1 g := by
  induction hm with
  | leaf l hl =>
    obtain ⟨j, _, hd⟩ := (setLeafVars_seed p he leaves l).1 hl
    exact ⟨_, ConeCut.leaf (l, 0) _ hd, Cone.leaf l _ hd⟩
  | node n i f0 f1 i0 i1 hn h0 h1 hc0 hc1 hcm0 hcm1 hph _ _ ih0 ih1 =>
    obtain ⟨g0, a0, b0⟩ := ih0
    obtain ⟨g1, a1, b1⟩ := ih1
    have hsn : (setLeafVars p leaves 0).cutData (If_ObjCutTriv n) = none :=
      (setLeafVars_seed p he leaves n).2 hn
    have hsc : (setLeafVars p leaves 0).cutData (n, i) = none := by
      rw [setLeafVars_cutData_of_not_mem, he]
      intro l hl hc
      simp only [If_ObjCutTriv, Prod.mk.injEq] at hc
      exact hn (hc.1 ▸ hl)
    have hA := ConeCut.node (N := p.net) (n, i) (f0, i0) (f1, i1) g0 g1 hsc hc0 hc1 a0 a1
    have hB := Cone.node (N := p.net) n f0 f1 g0 g1 hsn h0 h1 b0 b1
    simp only [hcm0, hcm1, hph] at hA
    exact ⟨_, hA, hB⟩

/-- The best cut of the object `7` of the second example mirrors the fanin
graph below `7`, and the two syntheses return different function graphs,
which differ in value when the variables 0 and 1 are true and the others
false. -/
theorem Abc_NodeIfToHop_differ :
    AllEmpty exManShared ∧
    CutMirrors exManShared.net (exManShared.bestLeaves 7) (If_ObjCutBest exManShared 7) ∧
    ∃ g1 q1 g2 q2, Abc_NodeIfToHop 5 exManShared (If_ObjCutBest exManShared 7) = .ok (g1, q1) ∧
      Abc_NodeIfToHop2 5 exManShared 7 = .ok (g2, q2) ∧ g1 ≠ g2 ∧
      Hop_Eval (fun i => decide (i < 2)) g1 ≠ Hop_Eval (fun i => decide (i < 2)) g2 :=
  ⟨fun _ => rfl,
    .node 7 2 6 4 1 1 rfl rfl rfl rfl rfl rfl rfl
      (.node 6 1 4 3 0 0 rfl rfl rfl rfl rfl rfl rfl (.leaf 4 (by decide)) (.leaf 3 (by decide)))
      (.node 4 1 1 2 0 0 rfl rfl rfl rfl rfl rfl rfl (.leaf 1 (by decide)) (.leaf 2 (by decide))),
    _, _, _, _, rfl, rfl, by decide, by decide⟩

/-- C6, amended (the two synthesis algorithms agree): for a mapper whose
scratch annotations are empty and an object whose best cut has at least two
leaves and a decomposition tree that mirrors the fanin graph below the object
and ends exactly at the leaves, `Abc_NodeIfToHop` on the best cut and
`Abc_NodeIfToHop2` on the object return the same function graph, for every
recursion depth from some depth on. -/
theorem Abc_NodeIfToHop_agree (p : If_Man) (n : Nat) (he : AllEmpty p)
    (hk : 2 ≤ (p.bestLeaves n).length)
    (hm : CutMirrorsToLeaves p.net (p.bestLeaves n) (If_ObjCutBest p n)) :
    ∃ K, ∀ fuel, K ≤ fuel → ∃ g q1 q2,
      Abc_NodeIfToHop fuel p (If_ObjCutBest p n) = .ok (g, q1) ∧
      Abc_NodeIfToHop2 fuel p n = .ok (g, q2) := by
  obtain ⟨g, a, b⟩ := hm.coneCut he
  obtain ⟨K1, q1, r1⟩ := Abc_NodeIfToHop_total p (If_ObjCutBest p n) g hk a
  obtain ⟨K2, q2, r2⟩ := Abc_NodeIfToHop2_total p n g hk b
  exact ⟨max K1 K2, fun fuel hf => ⟨g, q1, q2, r1 fuel (by omega), r2 fuel (by omega)⟩⟩

/-- In the first example, the best cut of the object `5`, with the leaves
`1, 2, 3`, mirrors the fanin graph below `5` and ends exactly at the leaves. -/
theorem Abc_NodeIfToHop_agree_witness :
    AllEmpty exMan ∧ 2 ≤ (exMan.bestLeaves 5).length ∧
    CutMirrorsToLeaves exMan.net (exMan.bestLeaves 5) (If_ObjCutBest exMan 5) ∧
    ∃ K, ∀ fuel, K ≤ fuel → ∃ g q1 q2,
      Abc_NodeIfToHop fuel exMan (If_ObjCutBest exMan 5) = .ok (g, q1) ∧
      Abc_NodeIfToHop2 fuel exMan 5 = .ok (g, q2) :=
  ⟨fun _ => rfl, by decide,
    .node 5 1 4 3 1 0 (by decide) rfl rfl rfl rfl rfl rfl rfl
      (.node 4 1 1 2 0 0 (by decide) rfl rfl rfl rfl rfl rfl rfl
        (.leaf 1 (by decide)) (.leaf 2 (by decide)))
      (.leaf 3 (by decide)),
    Abc_NodeIfToHop_agree exMan 5 (fun _ => rfl) (by decide)
      (.node 5 1 4 3 1 0 (by decide) rfl rfl rfl rfl rfl rfl rfl
        (.node 4 1 1 2 0 0 (by decide) rfl rfl rfl rfl rfl rfl rfl
          (.leaf 1 (by decide)) (.leaf 2 (by decide)))
        (.leaf 3 (by decide)))⟩

/-! ## The loader -/

theorem NetExt.self (p : If_Man) : NetExt p p :=
  ⟨le_refl _, fun _ _ => ⟨rfl, rfl, rfl, rfl, rfl⟩⟩

theorem NetExt.chain {p q r : If_Man} (h1 : NetExt p q) (h2 : NetExt q r) : NetExt p r := by
  refine ⟨le_trans h1.1 h2.1, fun k hk => ?_⟩
  obtain ⟨a1, a2, a3, a4, a5⟩ := h1.2 k hk
  obtain ⟨b1, b2, b3, b4, b5⟩ := h2.2 k (lt_of_lt_of_le hk h1.1)
  exact ⟨b1.trans a1, b2.trans a2, b3.trans a3, b4.trans a4, b5.trans a5⟩

theorem If_ManSetupObj_netExt (p : If_Man) (t : If_Type) (f0 : Option Nat) (c0 : Bool)
    (f1 : Option Nat) (c1 : Bool) : NetExt p (If_ManSetupObj p t f0 c0 f1 c1) := by
  refine ⟨by simp [If_ManSetupObj], fun k hk => ?_⟩
  have hne : k ≠ p.net.nObjs := by omega
  simp [If_ManSetupObj, Function.update_noteq hne]

theorem If_ManSetupObj_new (p : If_Man) (t : If_Type) (f0 : Option Nat) (c0 : Bool)
    (f1 : Option Nat) (c1 : Bool) :
    (If_ManSetupObj p t f0 c0 f1 c1).net.nObjs = p.net.nObjs + 1 ∧
    (If_ManSetupObj p t f0 c0 f1 c1).net.Typ p.net.nObjs = t ∧
    (If_ManSetupObj p t f0 c0 f1 c1).net.pFanin0 p.net.nObjs = f0 ∧
    (If_ManSetupObj p t f0 c0 f1 c1).net.fCompl0 p.net.nObjs = c0 ∧
    (If_ManSetupObj p t f0 c0 f1 c1).net.pFanin1 p.net.nObjs = f1 ∧
    (If_ManSetupObj p t f0 c0 f1 c1).net.fCompl1 p.net.nObjs = c1 ∧
    (If_ManSetupObj p t f0 c0 f1 c1).net.vPis = p.net.vPis ∧
    (If_ManSetupObj p t f0 c0 f1 c1).net.vPos = p.net.vPos := by
  simp [If_ManSetupObj]

/-- Creating an object adds one to the number of AND objects when the new
object is an AND object, and nothing otherwise. -/
theorem andCount_succ {p q : If_Man} (h : NetExt p q) (hn : q.net.nObjs = p.net.nObjs + 1) :
    q.andCount = p.andCount + (if q.net.Typ p.net.nObjs = .IF_AND then 1 else 0) := by
  simp only [If_Man.andCount, hn, List.range_succ, List.filter_append, List.length_append]
  congr 1
  · congr 1
    apply List.filter_congr
    intro k hk
    rw [(h.2 k (List.mem_range.1 hk)).1]
  · simp only [List.filter_cons, List.filter_nil]
    split <;> simp_all

theorem SameButCopy.self_copy (src : Abc_Ntk) : SameButCopy src src := rfl

theorem SameButCopy.setCopy {src ntk : Abc_Ntk} (h : SameButCopy src ntk) (x : Nat)
    (c : Option Nat) : SameButCopy src (Abc_ObjSetCopy ntk x c) := by
  unfold SameButCopy at h ⊢
  rw [h]
  rfl

theorem If_ManCreatePi_spec (p : If_Man) :
    NetExt p (If_ManCreatePi p) ∧ (If_ManCreatePi p).net.nObjs = p.net.nObjs + 1 ∧
    (If_ManCreatePi p).net.Typ p.net.nObjs = .IF_CI ∧
    (If_ManCreatePi p).net.vPis = p.net.vPis ++ [p.net.nObjs] ∧
    (If_ManCreatePi p).net.vPos = p.net.vPos ∧
    (If_ManCreatePi p).net.pConst1 = p.net.pConst1 := by
  refine ⟨?_, by simp [If_ManCreatePi, If_ManSetupObj], by simp [If_ManCreatePi, If_ManSetupObj],
    by simp [If_ManCreatePi, If_ManSetupObj], by simp [If_ManCreatePi, If_ManSetupObj],
    by simp [If_ManCreatePi, If_ManSetupObj]⟩
  exact If_ManSetupObj_netExt p .IF_CI none false none false

/-- The input loop of the loader: one new mapper input per source input, in
order, recorded in the source input. -/
theorem ciLoopToIf_spec (src : Abc_Ntk) (cis : List Nat) (ntk : Abc_Ntk) (p : If_Man)
    (hs : SameButCopy src ntk) (hnd : cis.Nodup) :
    SameButCopy src (ciLoopToIf cis ntk p).1 ∧ NetExt p (ciLoopToIf cis ntk p).2 ∧
    (ciLoopToIf cis ntk p).2.net.nObjs = p.net.nObjs + cis.length ∧
    (ciLoopToIf cis ntk p).2.net.vPis
      = p.net.vPis ++ (List.range cis.length).map (fun i => p.net.nObjs + i) ∧
    (ciLoopToIf cis ntk p).2.net.vPos = p.net.vPos ∧
    (ciLoopToIf cis ntk p).2.net.pConst1 = p.net.pConst1 ∧
    (ciLoopToIf cis ntk p).2.andCount = p.andCount ∧
    (∀ x, x ∉ cis → (ciLoopToIf cis ntk p).1.pCopy x = ntk.pCopy x) ∧
    (∀ (i x : Nat), cis[i]? = some x →
      (ciLoopToIf cis ntk p).1.pCopy x = some (p.net.nObjs + i)) := by
  induction cis generalizing ntk p with
  | nil =>
    refine ⟨hs, NetExt.self p, by simp [ciLoopToIf], by simp [ciLoopToIf], rfl, rfl, rfl,
      fun _ _ => rfl, by simp⟩
  | cons o rest ih =>
    rw [List.nodup_cons] at hnd
    obtain ⟨e, n1, n2, n3, n4, n5⟩ := If_ManCreatePi_spec p
    obtain ⟨h1, h2, h3, h4, h5, h6, h7, h8, h9⟩ :=
      ih (Abc_ObjSetCopy ntk o (some p.net.nObjs)) (If_ManCreatePi p) (hs.setCopy _ _) hnd.2
    simp only [ciLoopToIf]
    refine ⟨h1, e.chain h2, ?_, ?_, h5.trans n4, h6.trans n5, ?_, ?_, ?_⟩
    · rw [h3, n1]; simp only [List.length_cons]; omega
    · rw [h4, n3, n1]
      simp only [List.length_cons, List.range_succ_eq_map, List.map_cons, List.map_map,
        List.append_assoc, List.singleton_append, Nat.add_zero]
      congr 2
      apply List.map_congr_left
      intro a _
      simp only [Function.comp]
      omega
    · rw [h7, andCount_succ e n1, n2]
      simp
    · intro x hx
      rw [List.mem_cons, not_or] at hx
      rw [h8 x hx.2, Abc_ObjSetCopy_pCopy, if_neg hx.1]
    · intro i x hi
      cases i with
      | zero =>
        simp only [List.getElem?_cons_zero, Option.some.injEq] at hi
        subst hi
        rw [h8 o hnd.1, Abc_ObjSetCopy_pCopy, if_pos rfl]
        rfl
      | succ k =>
        simp only [List.getElem?_cons_succ] at hi
        rw [h9 k x hi, n1]
        congr 1
        omega

theorem SameButCopy.vFanins {src ntk : Abc_Ntk} (h : SameButCopy src ntk) :
    ntk.vFanins = src.vFanins := by
  unfold SameButCopy at h; rw [h]

theorem SameButCopy.pData {src ntk : Abc_Ntk} (h : SameButCopy src ntk) :
    ntk.pData = src.pData := by
  unfold SameButCopy at h; rw [h]

theorem SameButCopy.vCos {src ntk : Abc_Ntk} (h : SameButCopy src ntk) :
    ntk.vCos = src.vCos := by
  unfold SameButCopy at h; rw [h]

theorem SameButCopy.vCis {src ntk : Abc_Ntk} (h : SameButCopy src ntk) :
    ntk.vCis = src.vCis := by
  unfold SameButCopy at h; rw [h]

theorem SameButCopy.nObjs {src ntk : Abc_Ntk} (h : SameButCopy src ntk) :
    ntk.nObjs = src.nObjs := by
  unfold SameButCopy at h; rw [h]

theorem SameButCopy.Typ {src ntk : Abc_Ntk} (h : SameButCopy src ntk) :
    ntk.Typ = src.Typ := by
  unfold SameButCopy at h; rw [h]

/-- One step of the node loop of the loader keeps its invariant, whatever the
equivalence links of the mapper become. -/
theorem LoadInv.step {src : Abc_Ntk} (hwf : StrashWF src) {n : Nat} {rest : List Nat}
    {ntk : Abc_Ntk} {p p2 : If_Man} (h : LoadInv src (n :: rest) ntk p)
    {f0 f1 pf0 pf1 : Nat} {c0 c1 : Bool} (hfan : src.vFanins n = [(f0, c0), (f1, c1)])
    (h0 : ntk.pCopy f0 = some pf0) (h1 : ntk.pCopy f1 = some pf1)
    (hext : NetExt p p2) (hn : p2.net.nObjs = p.net.nObjs + 1)
    (hT : p2.net.Typ p.net.nObjs = .IF_AND)
    (hF0 : p2.net.pFanin0 p.net.nObjs = some pf0) (hC0 : p2.net.fCompl0 p.net.nObjs = c0)
    (hF1 : p2.net.pFanin1 p.net.nObjs = some pf1) (hC1 : p2.net.fCompl1 p.net.nObjs = c1)
    (hpis : p2.net.vPis = p.net.vPis) (hpos : p2.net.vPos = p.net.vPos) :
    LoadInv src rest (Abc_ObjSetCopy ntk n (some p.net.nObjs)) p2 := by
  obtain ⟨hnlt, hnT⟩ := h.ands_node n (List.mem_cons_self _ _)
  obtain ⟨hlt, hsorted⟩ := List.pairwise_cons.1 h.sorted
  obtain ⟨g0, d0, g1, d1, hfan', hf0lt, hf1lt, _, _⟩ := hwf.and_fanins n hnlt hnT
  rw [hfan] at hfan'
  simp only [List.cons.injEq, Prod.mk.injEq, and_true] at hfan'
  obtain ⟨⟨rfl, rfl⟩, rfl, rfl⟩ := hfan'
  have hnc : n ≠ src.pConst1 := by
    intro e; rw [e, hwf.const_typ] at hnT; cases hnT
  have hnci : n ∉ src.vCis := by
    intro e; rw [hwf.cis_typ n e] at hnT; cases hnT
  have hold : ∀ j, j ≠ n → Loaded src rest j → Loaded src (n :: rest) j := by
    intro j hj hl
    rcases hl with e | e | ⟨a, b, c⟩
    · exact Or.inl e
    · exact Or.inr (Or.inl e)
    · exact Or.inr (Or.inr ⟨a, b, by simp [hj, c]⟩)
  refine
    { same := h.same.setCopy _ _
      sorted := hsorted
      ands_node := fun m hm => h.ands_node m (List.mem_cons_of_mem _ hm)
      below := ?_
      loaded := ?_
      inj := ?_
      andOK := ?_
      pis := ?_
      pos := hpos.trans h.pos
      count := ?_ }
  · intro j hj hjT hjr m hm
    by_cases e : j = n
    · rw [e]; exact hlt m hm
    · exact h.below j hj hjT (by simp [e, hjr]) m (List.mem_cons_of_mem _ hm)
  · intro j hl
    by_cases e : j = n
    · exact ⟨p.net.nObjs, by rw [Abc_ObjSetCopy_pCopy, if_pos e], by omega⟩
    · obtain ⟨k, hk, hklt⟩ := h.loaded j (hold j e hl)
      exact ⟨k, by rw [Abc_ObjSetCopy_pCopy, if_neg e]; exact hk, by omega⟩
  · intro j j' hl hl' hc
    rw [Abc_ObjSetCopy_pCopy, Abc_ObjSetCopy_pCopy] at hc
    by_cases e : j = n <;> by_cases e' : j' = n
    · rw [e, e']
    · rw [if_pos e, if_neg e'] at hc
      obtain ⟨k, hk, hklt⟩ := h.loaded j' (hold j' e' hl')
      rw [hk] at hc; cases hc; omega
    · rw [if_neg e, if_pos e'] at hc
      obtain ⟨k, hk, hklt⟩ := h.loaded j (hold j e hl)
      rw [hk] at hc; cases hc; omega
    · rw [if_neg e, if_neg e'] at hc
      exact h.inj j j' (hold j e hl) (hold j' e' hl') hc
  · intro j hj hjT hjr
    by_cases e : j = n
    · subst e
      refine ⟨p.net.nObjs, f0, c0, f1, c1, by rw [Abc_ObjSetCopy_pCopy, if_pos rfl], hfan, hT,
        ?_, hC0, ?_, hC1⟩
      · rw [hF0, Abc_ObjSetCopy_pCopy, if_neg (by omega), h0]
      · rw [hF1, Abc_ObjSetCopy_pCopy, if_neg (by omega), h1]
    · have hjn : j ∉ n :: rest := by simp [e, hjr]
      obtain ⟨k, a0, b0, a1, b1, hk, hfj, t1, t2, t3, t4, t5⟩ := h.andOK j hj hjT hjn
      obtain ⟨k', hk', hklt⟩ := h.loaded j (Or.inr (Or.inr ⟨hj, hjT, hjn⟩))
      rw [hk] at hk'; cases hk'
      obtain ⟨x0, y0, x1, y1, hfj', hx0, hx1, _, _⟩ := hwf.and_fanins j hj hjT
      rw [hfj] at hfj'
      simp only [List.cons.injEq, Prod.mk.injEq, and_true] at hfj'
      obtain ⟨⟨rfl, rfl⟩, rfl, rfl⟩ := hfj'
      have hjltn : j < n := h.below j hj hjT hjn n (List.mem_cons_self _ _)
      obtain ⟨e1, e2, e3, e4, e5⟩ := hext.2 k hklt
      refine ⟨k, a0, b0, a1, b1, by rw [Abc_ObjSetCopy_pCopy, if_neg e]; exact hk, hfj,
        e1.trans t1, ?_, e3.trans t3, ?_, e5.trans t5⟩
      · rw [e2, t2, Abc_ObjSetCopy_pCopy, if_neg (by omega)]
      · rw [e4, t4, Abc_ObjSetCopy_pCopy, if_neg (by omega)]
  · rw [hpis, h.pis]
    apply List.map_congr_left
    intro x hx
    have hxn : x ≠ n := fun e => hnci (e ▸ hx)
    rw [Abc_ObjSetCopy_pCopy, if_neg hxn]
  · have := h.count
    rw [andCount_succ hext hn, hT] at *
    simp only [List.length_cons, if_true] at this ⊢
    omega

theorem SameButEquiv.self_equiv (p : If_Man) : SameButEquiv p p := rfl

theorem SameButEquiv.chain_equiv {p q r : If_Man} (h1 : SameButEquiv p q) (h2 : SameButEquiv q r) :
    SameButEquiv p r := by
  unfold SameButEquiv at *
  rw [h2, h1]

theorem SameButEquiv.setChoice (p : If_Man) (x : Nat) (e : Option Nat) :
    SameButEquiv p (If_ObjSetChoice p x e) := rfl

theorem SameButEquiv.netExt {p q : If_Man} (h : SameButEquiv p q) : NetExt p q := by
  unfold SameButEquiv at h
  rw [h]
  exact ⟨le_refl _, fun _ _ => ⟨rfl, rfl, rfl, rfl, rfl⟩⟩

theorem SameButEquiv.nObjs_eq {p q : If_Man} (h : SameButEquiv p q) : q.net.nObjs = p.net.nObjs := by
  unfold SameButEquiv at h; rw [h]

theorem SameButEquiv.Typ_eq {p q : If_Man} (h : SameButEquiv p q) : q.net.Typ = p.net.Typ := by
  unfold SameButEquiv at h; rw [h]

theorem SameButEquiv.pFanin0 {p q : If_Man} (h : SameButEquiv p q) :
    q.net.pFanin0 = p.net.pFanin0 := by
  unfold SameButEquiv at h; rw [h]

theorem SameButEquiv.pFanin1 {p q : If_Man} (h : SameButEquiv p q) :
    q.net.pFanin1 = p.net.pFanin1 := by
  unfold SameButEquiv at h; rw [h]

theorem SameButEquiv.fCompl0 {p q : If_Man} (h : SameButEquiv p q) :
    q.net.fCompl0 = p.net.fCompl0 := by
  unfold SameButEquiv at h; rw [h]

theorem SameButEquiv.fCompl1 {p q : If_Man} (h : SameButEquiv p q) :
    q.net.fCompl1 = p.net.fCompl1 := by
  unfold SameButEquiv at h; rw [h]

theorem SameButEquiv.vPis {p q : If_Man} (h : SameButEquiv p q) : q.net.vPis = p.net.vPis := by
  unfold SameButEquiv at h; rw [h]

theorem SameButEquiv.vPos {p q : If_Man} (h : SameButEquiv p q) : q.net.vPos = p.net.vPos := by
  unfold SameButEquiv at h; rw [h]

/-- The walk along an equivalence chain changes equivalence links only. -/
theorem choiceLoop_frame (fuel : Nat) (ntk : Abc_Ntk) (pPrev : Nat) (d : Abc_Data)
    (p q : If_Man) (h : choiceLoop fuel ntk pPrev d p = .ok q) : SameButEquiv p q := by
  induction fuel generalizing pPrev d p with
  | zero =>
    cases d with
    | null => simp only [choiceLoop, Except.ok.injEq] at h; subst h; rfl
    | func g => simp [choiceLoop] at h
    | obj f => simp [choiceLoop] at h
  | succ fuel ih =>
    cases d with
    | null => simp only [choiceLoop, Except.ok.injEq] at h; subst h; rfl
    | func g => simp [choiceLoop] at h
    | obj f =>
      simp only [choiceLoop] at h
      split at h
      · cases h
      · exact (SameButEquiv.setChoice p _ _).chain_equiv (ih _ _ _ h)

theorem Abc_ObjFanin_of_two {ntk : Abc_Ntk} {n f0 f1 : Nat} {c0 c1 : Bool}
    (h : ntk.vFanins n = [(f0, c0), (f1, c1)]) :
    Abc_ObjFanin0 ntk n = some f0 ∧ Abc_ObjFanin1 ntk n = some f1 ∧
    Abc_ObjFaninC0 ntk n = c0 ∧ Abc_ObjFaninC1 ntk n = c1 := by
  simp [Abc_ObjFanin0, Abc_ObjFanin1, Abc_ObjFaninC0, Abc_ObjFaninC1, h]

theorem If_ManCreateAnd_spec (p : If_Man) (f0 : Nat) (c0 : Bool) (f1 : Nat) (c1 : Bool) :
    NetExt p (If_ManCreateAnd p f0 c0 f1 c1) ∧
    (If_ManCreateAnd p f0 c0 f1 c1).net.nObjs = p.net.nObjs + 1 ∧
    (If_ManCreateAnd p f0 c0 f1 c1).net.Typ p.net.nObjs = .IF_AND ∧
    (If_ManCreateAnd p f0 c0 f1 c1).net.pFanin0 p.net.nObjs = some f0 ∧
    (If_ManCreateAnd p f0 c0 f1 c1).net.fCompl0 p.net.nObjs = c0 ∧
    (If_ManCreateAnd p f0 c0 f1 c1).net.pFanin1 p.net.nObjs = some f1 ∧
    (If_ManCreateAnd p f0 c0 f1 c1).net.fCompl1 p.net.nObjs = c1 ∧
    (If_ManCreateAnd p f0 c0 f1 c1).net.vPis = p.net.vPis ∧
    (If_ManCreateAnd p f0 c0 f1 c1).net.vPos = p.net.vPos :=
  ⟨If_ManSetupObj_netExt p _ _ _ _ _, If_ManSetupObj_new p _ _ _ _ _⟩

/-- The node loop of the loader keeps its invariant. -/
theorem andLoopToIf_loadInv {src : Abc_Ntk} (hwf : StrashWF src) (fuel : Nat)
    (ands : List Nat) (ntk : Abc_Ntk) (p : If_Man) (ntk' : Abc_Ntk) (p' : If_Man)
    (hinv : LoadInv src ands ntk p) (h : andLoopToIf fuel ands ntk p = .ok (ntk', p')) :
    LoadInv src [] ntk' p' := by
  induction ands generalizing ntk p with
  | nil =>
    simp only [andLoopToIf, Except.ok.injEq, Prod.mk.injEq] at h
    obtain ⟨rfl, rfl⟩ := h
    exact hinv
  | cons n rest ih =>
    obtain ⟨hnlt, hnT⟩ := hinv.ands_node n (List.mem_cons_self _ _)
    obtain ⟨f0, c0, f1, c1, hfan, _, _, _, _⟩ := hwf.and_fanins n hnlt hnT
    have hfan' : ntk.vFanins n = [(f0, c0), (f1, c1)] := by rw [hinv.same.vFanins]; exact hfan
    obtain ⟨a0, a1, b0, b1⟩ := Abc_ObjFanin_of_two hfan'
    simp only [andLoopToIf, a0, a1, b0, b1] at h
    split at h
    · rename_i pf0 pf1 h0 h1
      obtain ⟨e, n1, n2, n3, n4, n5, n6, n7, n8⟩ := If_ManCreateAnd_spec p pf0 c0 pf1 c1
      split at h
      · split at h
        · cases h
        · rename_i p2 hp2
          have hs := choiceLoop_frame _ _ _ _ _ _ hp2
          refine ih _ _ (hinv.step hwf hfan h0 h1 (e.chain hs.netExt) (by rw [hs.nObjs_eq, n1])
            (by rw [hs.Typ_eq, n2]) (by rw [hs.pFanin0, n3]) (by rw [hs.fCompl0, n4])
            (by rw [hs.pFanin1, n5]) (by rw [hs.fCompl1, n6]) (by rw [hs.vPis, n7])
            (by rw [hs.vPos, n8])) h
      · exact ih _ _ (hinv.step hwf hfan h0 h1 e n1 n2 n3 n4 n5 n6 n7 n8) h
    · cases h

theorem If_ManCreatePo_spec (p : If_Man) (d : Nat) (c : Bool) :
    NetExt p (If_ManCreatePo p d c) ∧ (If_ManCreatePo p d c).net.nObjs = p.net.nObjs + 1 ∧
    (If_ManCreatePo p d c).net.Typ p.net.nObjs = .IF_CO ∧
    (If_ManCreatePo p d c).net.pFanin0 p.net.nObjs = some d ∧
    (If_ManCreatePo p d c).net.fCompl0 p.net.nObjs = c ∧
    (If_ManCreatePo p d c).net.vPis = p.net.vPis ∧
    (If_ManCreatePo p d c).net.vPos = p.net.vPos ++ [p.net.nObjs] ∧
    (∀ k, k < p.net.nObjs → (If_ManCreatePo p d c).net.pEquiv k = p.net.pEquiv k) := by
  refine ⟨If_ManSetupObj_netExt p .IF_CO (some d) c none false,
    by simp [If_ManCreatePo, If_ManSetupObj], by simp [If_ManCreatePo, If_ManSetupObj],
    by simp [If_ManCreatePo, If_ManSetupObj], by simp [If_ManCreatePo, If_ManSetupObj],
    by simp [If_ManCreatePo, If_ManSetupObj], by simp [If_ManCreatePo, If_ManSetupObj], ?_⟩
  intro k hk
  have hne : k ≠ p.net.nObjs := by omega
  simp [If_ManCreatePo, If_ManSetupObj, Function.update_noteq hne]

/-- The output loop of the loader: one new mapper output per source output,
in order, referencing the mapper object of the fanin of the source output,
with the complement attribute of that fanin. -/
theorem coLoopToIf_spec (ntk : Abc_Ntk) (cos : List Nat) (p p' : If_Man)
    (h : coLoopToIf ntk cos p = .ok p') :
    NetExt p p' ∧ p'.net.nObjs = p.net.nObjs + cos.length ∧ p'.net.vPis = p.net.vPis ∧
    p'.andCount = p.andCount ∧
    p'.net.vPos = p.net.vPos ++ (List.range cos.length).map (fun i => p.net.nObjs + i) ∧
    (∀ k, k < p.net.nObjs → p'.net.pEquiv k = p.net.pEquiv k) ∧
    (∀ (i co : Nat), cos[i]? = some co → ∃ f d,
      Abc_ObjFanin0 ntk co = some f ∧ ntk.pCopy f = some d ∧
      p'.net.Typ (p.net.nObjs + i) = .IF_CO ∧ p'.net.pFanin0 (p.net.nObjs + i) = some d ∧
      p'.net.fCompl0 (p.net.nObjs + i) = Abc_ObjFaninC0 ntk co) := by
  induction cos generalizing p with
  | nil =>
    simp only [coLoopToIf, Except.ok.injEq] at h
    subst h
    exact ⟨NetExt.self p, by simp, rfl, rfl, by simp, fun _ _ => rfl, by simp⟩
  | cons co rest ih =>
    simp only [coLoopToIf] at h
    split at h
    · cases h
    · rename_i f hf
      split at h
      · cases h
      · rename_i d hd
        obtain ⟨e, n1, n2, n3, n4, n5, n6, n7⟩ :=
          If_ManCreatePo_spec p d (Abc_ObjFaninC0 ntk co)
        obtain ⟨h1, h2, h3, h4, h5, h6, h7⟩ := ih _ h
        refine ⟨e.chain h1, ?_, h3.trans n5, ?_, ?_, ?_, ?_⟩
        · rw [h2, n1]; simp only [List.length_cons]; omega
        · rw [h4, andCount_succ e n1, n2]; simp
        · rw [h5, n6, n1]
          simp only [List.length_cons, List.range_succ_eq_map, List.map_cons, List.map_map,
            List.append_assoc, List.singleton_append, Nat.add_zero]
          congr 2
          apply List.map_congr_left
          intro a _
          simp only [Function.comp]
          omega
        · intro k hk
          rw [h6 k (by omega), n7 k hk]
        · intro i x hi
          cases i with
          | zero =>
            simp only [List.getElem?_cons_zero, Option.some.injEq] at hi
            subst hi
            obtain ⟨t1, t2, t3, _, _⟩ := h1.2 p.net.nObjs (by omega)
            exact ⟨f, d, hf, hd, by rw [Nat.add_zero, t1, n2], by rw [Nat.add_zero, t2, n3],
              by rw [Nat.add_zero, t3, n4]⟩
          | succ k =>
            simp only [List.getElem?_cons_succ] at hi
            obtain ⟨f', d', a1, a2, a3, a4, a5⟩ := h7 k x hi
            rw [n1] at a3 a4 a5
            rw [show p.net.nObjs + (k + 1) = p.net.nObjs + 1 + k by omega]
            exact ⟨f', d', a1, a2, a3, a4, a5⟩

theorem andCount_fresh {p : If_Man} (h : p.Fresh) : p.andCount = 0 := by
  simp only [If_Man.andCount, List.length_eq_zero, List.filter_eq_nil_iff, List.mem_range]
  intro k hk
  simpa using h.2.2.2 k hk

/-- The invariant of the node loop holds when the loop starts. -/
theorem LoadInv.init {src : Abc_Ntk} (hwf : StrashWF src) {m0 : If_Man} (hfresh : m0.Fresh) :
    LoadInv src (Abc_AigAnds src)
      (ciLoopToIf src.vCis (Abc_ObjSetCopy src src.pConst1 (some (If_ManConst1 m0))) m0).1
      (ciLoopToIf src.vCis (Abc_ObjSetCopy src src.pConst1 (some (If_ManConst1 m0))) m0).2 := by
  obtain ⟨h1, h2, h3, h4, h5, h6, h7, h8, h9⟩ := ciLoopToIf_spec src src.vCis
    (Abc_ObjSetCopy src src.pConst1 (some (If_ManConst1 m0))) m0
    ((SameButCopy.self_copy src).setCopy _ _) hwf.cis_nodup
  have hconst : src.pConst1 ∉ src.vCis := by
    intro e
    have := hwf.cis_typ _ e
    rw [hwf.const_typ] at this
    cases this
  have hmem : ∀ j, j < src.nObjs → src.Typ j = .ABC_OBJ_NODE → j ∈ Abc_AigAnds src := by
    intro j hj hT
    simp [Abc_AigAnds, hj, hT]
  have hloaded : ∀ j, Loaded src (Abc_AigAnds src) j → j = src.pConst1 ∨ j ∈ src.vCis := by
    intro j hl
    rcases hl with e | e | ⟨a, b, c⟩
    · exact Or.inl e
    · exact Or.inr e
    · exact absurd (hmem j a b) c
  have hcopyc : (ciLoopToIf src.vCis (Abc_ObjSetCopy src src.pConst1
      (some (If_ManConst1 m0))) m0).1.pCopy src.pConst1 = some m0.net.pConst1 := by
    rw [h8 _ hconst, Abc_ObjSetCopy_pCopy, if_pos rfl]
    rfl
  refine
    { same := h1
      sorted := (List.pairwise_lt_range _).filter _
      ands_node := fun n hn => by simpa [Abc_AigAnds] using hn
      below := fun j hj hT hn => absurd (hmem j hj hT) hn
      loaded := ?_
      inj := ?_
      andOK := fun j hj hT hn => absurd (hmem j hj hT) hn
      pis := ?_
      pos := h5.trans hfresh.2.1
      count := by rw [h7, andCount_fresh hfresh]; simp }
  · intro j hl
    rcases hloaded j hl with e | e
    · subst e
      exact ⟨_, hcopyc, by rw [h3]; have := hfresh.2.2.1; omega⟩
    · obtain ⟨i, hi⟩ := List.mem_iff_getElem?.1 e
      have hilt : i < src.vCis.length := by
        by_contra hc
        rw [List.getElem?_eq_none_iff.2 (by omega)] at hi
        cases hi
      exact ⟨_, h9 i j hi, by rw [h3]; omega⟩
  · intro j j' hl hl' hc
    rcases hloaded j hl with e | e <;> rcases hloaded j' hl' with e' | e'
    · rw [e, e']
    · obtain ⟨i, hi⟩ := List.mem_iff_getElem?.1 e'
      rw [e, hcopyc, h9 i j' hi] at hc
      have hc' := Option.some.inj hc
      have := hfresh.2.2.1
      omega
    · obtain ⟨i, hi⟩ := List.mem_iff_getElem?.1 e
      rw [e', hcopyc, h9 i j hi] at hc
      have hc' := Option.some.inj hc
      have := hfresh.2.2.1
      omega
    · obtain ⟨i, hi⟩ := List.mem_iff_getElem?.1 e
      obtain ⟨i', hi'⟩ := List.mem_iff_getElem?.1 e'
      rw [h9 i j hi, h9 i' j' hi'] at hc
      simp only [Option.some.injEq, Nat.add_left_cancel_iff] at hc
      subst hc
      rw [hi] at hi'
      exact Option.some.inj hi'
  · rw [h4, hfresh.1]
    apply List.ext_getElem?
    intro i
    simp only [List.nil_append, List.getElem?_map]
    cases hx : src.vCis[i]? with
    | none =>
      have : src.vCis.length ≤ i := List.getElem?_eq_none_iff.1 hx
      rw [List.getElem?_eq_none_iff.2 (by simpa using this)]
      rfl
    | some x =>
      have hilt : i < src.vCis.length := by
        by_contra hc
        rw [List.getElem?_eq_none_iff.2 (by omega)] at hx
        cases hx
      rw [List.getElem?_range hilt]
      simp [h9 i x hx]

theorem If_ObjSetChoice_pEquiv (p : If_Man) (x : Nat) (e : Option Nat) (k : Nat) :
    (If_ObjSetChoice p x e).net.pEquiv k = if k = x then e else p.net.pEquiv k := by
  simp only [If_ObjSetChoice, Function.update_apply]

theorem If_ManCreateAnd_pEquiv (p : If_Man) (f0 : Nat) (c0 : Bool) (f1 : Nat) (c1 : Bool)
    (k : Nat) (hk : k < p.net.nObjs) :
    (If_ManCreateAnd p f0 c0 f1 c1).net.pEquiv k = p.net.pEquiv k := by
  have hne : k ≠ p.net.nObjs := by omega
  simp [If_ManCreateAnd, If_ManSetupObj, Function.update_noteq hne]

/-- The walk along an equivalence chain that leads to nodes visited earlier
returns, records the link of the node it starts from, and keeps the recorded
links. -/
theorem choiceLoop_links {src ntk : Abc_Ntk} (hs : SameButCopy src ntk) (hch : ChainOrdered src)
    (n0 : Nat)
    (hload : ∀ j, j ≤ n0 → j < src.nObjs → src.Typ j = .ABC_OBJ_NODE →
      ∃ k, ntk.pCopy j = some k)
    (hinj : ∀ j j', j ≤ n0 → j < src.nObjs → src.Typ j = .ABC_OBJ_NODE →
      j' ≤ n0 → j' < src.nObjs → src.Typ j' = .ABC_OBJ_NODE →
      ntk.pCopy j = ntk.pCopy j' → j = j')
    (fuel : Nat) (pPrev : Nat) (p : If_Man) (h0 : pPrev ≤ n0) (h1 : pPrev < src.nObjs)
    (hT : src.Typ pPrev = .ABC_OBJ_NODE) (hf : pPrev < fuel) :
    ∃ q, choiceLoop fuel ntk pPrev (ntk.pData pPrev) p = .ok q ∧ LinkOK src ntk q pPrev ∧
      ∀ j, j ≤ n0 → j < src.nObjs → src.Typ j = .ABC_OBJ_NODE →
        LinkOK src ntk p j → LinkOK src ntk q j := by
  induction fuel generalizing pPrev p with
  | zero => omega
  | succ fuel ih =>
    obtain ⟨hnf, hobj⟩ := hch pPrev h1 hT
    rw [hs.pData]
    cases hd : src.pData pPrev with
    | null =>
      refine ⟨p, by simp [choiceLoop], ?_, fun _ _ _ _ h => h⟩
      intro m hm
      rw [hd] at hm
      cases hm
    | func g => exact absurd hd (hnf g)
    | obj m =>
      obtain ⟨hml, hmT⟩ := hobj m hd
      obtain ⟨k, hk⟩ := hload pPrev h0 h1 hT
      obtain ⟨e, he⟩ := hload m (by omega) (by omega) hmT
      obtain ⟨q, hq, hlm, hpres⟩ := ih m (If_ObjSetChoice p k (ntk.pCopy m)) (by omega)
        (by omega) hmT (by omega)
      have hstep : ∀ j, j ≤ n0 → j < src.nObjs → src.Typ j = .ABC_OBJ_NODE →
          LinkOK src ntk p j → LinkOK src ntk (If_ObjSetChoice p k (ntk.pCopy m)) j := by
        intro j a b c hl m' hm'
        obtain ⟨kj, ej, t1, t2, t3⟩ := hl m' hm'
        refine ⟨kj, ej, t1, t2, ?_⟩
        rw [If_ObjSetChoice_pEquiv]
        split
        · rename_i heq
          have : j = pPrev := hinj j pPrev a b c h0 h1 hT (by rw [t1, hk, heq])
          subst this
          rw [hd] at hm'
          cases hm'
          exact t2
        · exact t3
      refine ⟨q, by simp only [choiceLoop, hk]; exact hq, ?_, ?_⟩
      · apply hpres pPrev h0 h1 hT
        intro m' hm'
        rw [hd] at hm'
        cases hm'
        exact ⟨k, e, hk, he, by rw [If_ObjSetChoice_pEquiv, if_pos rfl, he]⟩
      · intro j a b c hl
        exact hpres j a b c (hstep j a b c hl)

/-- The node loop of the loader returns on a structurally hashed network
whose equivalence chains lead to nodes visited earlier, and records the link
of every node that has a next node in its chain. -/
theorem andLoopToIf_total {src : Abc_Ntk} (hwf : StrashWF src) (hch : ChainOrdered src)
    (fuel : Nat) (hfuel : src.nObjs ≤ fuel) (ands : List Nat) (ntk : Abc_Ntk) (p : If_Man)
    (hinv : LoadInv src ands ntk p)
    (hlink : ∀ j, j < src.nObjs → src.Typ j = .ABC_OBJ_NODE → j ∉ ands → LinkOK src ntk p j) :
    ∃ ntk' p', andLoopToIf fuel ands ntk p = .ok (ntk', p') ∧
      ∀ j, j < src.nObjs → src.Typ j = .ABC_OBJ_NODE → LinkOK src ntk' p' j := by
  induction ands generalizing ntk p with
  | nil => exact ⟨ntk, p, rfl, fun j a b => hlink j a b (by simp)⟩
  | cons n rest ih =>
    obtain ⟨hnlt, hnT⟩ := hinv.ands_node n (List.mem_cons_self _ _)
    obtain ⟨hlt, hsorted⟩ := List.pairwise_cons.1 hinv.sorted
    obtain ⟨f0, c0, f1, c1, hfan, hf0, hf1, hs0, hs1⟩ := hwf.and_fanins n hnlt hnT
    have hfan' : ntk.vFanins n = [(f0, c0), (f1, c1)] := by rw [hinv.same.vFanins]; exact hfan
    obtain ⟨a0, a1, b0, b1⟩ := Abc_ObjFanin_of_two hfan'
    have hsrcLoaded : ∀ f, f < n → src.IsSource f → Loaded src (n :: rest) f := by
      intro f hf hsf
      rcases hsf with e | e | ⟨a, b⟩
      · exact Or.inl e
      · exact Or.inr (Or.inl e)
      · refine Or.inr (Or.inr ⟨a, b, ?_⟩)
        intro hm
        rcases List.mem_cons.1 hm with e | e
        · omega
        · have := hlt f e; omega
    obtain ⟨pf0, h0, _⟩ := hinv.loaded f0 (hsrcLoaded f0 hf0 hs0)
    obtain ⟨pf1, h1, _⟩ := hinv.loaded f1 (hsrcLoaded f1 hf1 hs1)
    obtain ⟨e, n1, n2, n3, n4, n5, n6, n7, n8⟩ := If_ManCreateAnd_spec p pf0 c0 pf1 c1
    have hinv1 := hinv.step hwf hfan h0 h1 e n1 n2 n3 n4 n5 n6 n7 n8
    have hbelow : ∀ j, j < src.nObjs → src.Typ j = .ABC_OBJ_NODE → j ≤ n → j ∉ rest := by
      intro j _ _ hjn hm
      have := hlt j hm
      omega
    -- the links recorded before are still recorded after the creation of the new object
    have hlink1 : ∀ j, j < src.nObjs → src.Typ j = .ABC_OBJ_NODE → j ∉ n :: rest →
        LinkOK src (Abc_ObjSetCopy ntk n (some p.net.nObjs))
          (If_ManCreateAnd p pf0 c0 pf1 c1) j := by
      intro j a b c m hm
      obtain ⟨k, ej, t1, t2, t3⟩ := hlink j a b c m hm
      obtain ⟨k', hk', hklt⟩ := hinv.loaded j (Or.inr (Or.inr ⟨a, b, c⟩))
      rw [t1] at hk'
      cases hk'
      have hjn : j < n := hinv.below j a b c n (List.mem_cons_self _ _)
      have hmj : m < j := ((hch j a b).2 m hm).1
      refine ⟨k, ej, ?_, ?_, ?_⟩
      · rw [Abc_ObjSetCopy_pCopy, if_neg (by omega)]; exact t1
      · rw [Abc_ObjSetCopy_pCopy, if_neg (by omega)]; exact t2
      · rw [If_ManCreateAnd_pEquiv _ _ _ _ _ _ hklt]; exact t3
    simp only [andLoopToIf, a0, a1, b0, b1, h0, h1]
    by_cases hc : Abc_AigNodeIsChoice (Abc_ObjSetCopy ntk n (some p.net.nObjs)) n = true
    · obtain ⟨q, hq, hln, hpres⟩ := choiceLoop_links (hinv.same.setCopy n (some p.net.nObjs)) hch n
        (fun j a b c => by
          obtain ⟨k, hk, _⟩ := hinv1.loaded j (Or.inr (Or.inr ⟨b, c, hbelow j b c a⟩))
          exact ⟨k, hk⟩)
        (fun j j' a b c a' b' c' he =>
          hinv1.inj j j' (Or.inr (Or.inr ⟨b, c, hbelow j b c a⟩))
            (Or.inr (Or.inr ⟨b', c', hbelow j' b' c' a'⟩)) he)
        fuel n (If_ManCreateAnd p pf0 c0 pf1 c1) (le_refl _) hnlt hnT (by omega)
      have hs := choiceLoop_frame _ _ _ _ _ _ hq
      have hinv2 := hinv.step hwf hfan h0 h1 (e.chain hs.netExt) (by rw [hs.nObjs_eq, n1])
        (by rw [hs.Typ_eq, n2]) (by rw [hs.pFanin0, n3]) (by rw [hs.fCompl0, n4])
        (by rw [hs.pFanin1, n5]) (by rw [hs.fCompl1, n6]) (by rw [hs.vPis, n7])
        (by rw [hs.vPos, n8])
      obtain ⟨ntk', p', hr, hl⟩ := ih _ _ hinv2 (fun j a b c => by
        by_cases ejn : j = n
        · rw [ejn]; exact hln
        · have hjn : j ∉ n :: rest := by simp [ejn, c]
          exact hpres j (le_of_lt (hinv.below j a b hjn n (List.mem_cons_self _ _))) a b
            (hlink1 j a b hjn))
      exact ⟨ntk', p', by rw [if_pos hc, hq]; exact hr, hl⟩
    · obtain ⟨ntk', p', hr, hl⟩ := ih _ _ hinv1 (fun j a b c => by
        by_cases ejn : j = n
        · intro m hm
          exfalso
          apply hc
          simp only [Abc_AigNodeIsChoice]
          rw [(hinv.same.setCopy n (some p.net.nObjs)).pData, ← ejn, hm]
        · exact hlink1 j a b (by simp [ejn, c]))
      exact ⟨ntk', p', by rw [if_neg hc]; exact hr, hl⟩

/-- The output loop of the loader returns when the fanin of every output is
loaded. -/
theorem coLoopToIf_total (ntk : Abc_Ntk) (cos : List Nat) (p : If_Man)
    (h : ∀ co, co ∈ cos → ∃ f d, Abc_ObjFanin0 ntk co = some f ∧ ntk.pCopy f = some d) :
    ∃ p', coLoopToIf ntk cos p = .ok p' := by
  induction cos generalizing p with
  | nil => exact ⟨p, rfl⟩
  | cons co rest ih =>
    obtain ⟨f, d, hf, hd⟩ := h co (List.mem_cons_self _ _)
    obtain ⟨p', hp'⟩ := ih (If_ManCreatePo p d (Abc_ObjFaninC0 ntk co))
      (fun x hx => h x (List.mem_cons_of_mem _ hx))
    exact ⟨p', by simp only [coLoopToIf, hf, hd]; exact hp'⟩

/-- A run of `Abc_NtkToIf` that returns, on a structurally hashed network
and a mapper started without inputs, outputs and AND objects, returns a
mapper, in the state the node loop leaves followed by the output loop. -/
theorem Abc_NtkToIf_loaded {Par : Type} (If_ManStart : Par → Option If_Man) (fuel : Nat)
    (pNtk : Abc_Ntk) (pPars : Par) (m0 : If_Man) (hwf : StrashWF pNtk)
    (hstart : If_ManStart pPars = some m0) (hfresh : m0.Fresh) (ntk' : Abc_Ntk)
    (r : Option If_Man) (h : Abc_NtkToIf If_ManStart fuel pNtk pPars = .ok (ntk', r)) :
    ∃ m p3, r = some m ∧ LoadInv pNtk [] ntk' p3 ∧ coLoopToIf ntk' pNtk.vCos p3 = .ok m := by
  simp only [Abc_NtkToIf, hwf.strash, if_true, hstart] at h
  split at h
  · cases h
  · rename_i ntk3 p3 hand
    split at h
    · cases h
    · rename_i p4 hco
      simp only [Except.ok.injEq, Prod.mk.injEq] at h
      obtain ⟨rfl, rfl⟩ := h
      have hinit := LoadInv.init hwf hfresh
      have hsame : (ciLoopToIf pNtk.vCis
          (Abc_ObjSetCopy pNtk pNtk.pConst1 (some (If_ManConst1 m0))) m0).1.nObjs = pNtk.nObjs ∧
          (ciLoopToIf pNtk.vCis
          (Abc_ObjSetCopy pNtk pNtk.pConst1 (some (If_ManConst1 m0))) m0).1.Typ = pNtk.Typ :=
        ⟨hinit.same.nObjs, hinit.same.Typ⟩
      have hands : Abc_AigAnds (ciLoopToIf pNtk.vCis
          (Abc_ObjSetCopy pNtk pNtk.pConst1 (some (If_ManConst1 m0))) m0).1
          = Abc_AigAnds pNtk := by
        simp only [Abc_AigAnds, hsame.1, hsame.2]
      simp only [Abc_ObjSetCopy_vCis] at hand
      rw [hands] at hand
      have hfin := andLoopToIf_loadInv hwf fuel _ _ _ _ _ hinit hand
      rw [hfin.same.vCos] at hco
      exact ⟨p4, p3, rfl, hfin, hco⟩

/-- The function `Abc_NtkToIf` returns a mapper on a structurally hashed network whose
equivalence chains lead to nodes visited earlier, and records the link of
every node that has a next node in its chain. -/
theorem Abc_NtkToIf_returns {Par : Type} (If_ManStart : Par → Option If_Man) (fuel : Nat)
    (pNtk : Abc_Ntk) (pPars : Par) (m0 : If_Man) (hwf : StrashWF pNtk) (hch : ChainOrdered pNtk)
    (hstart : If_ManStart pPars = some m0) (hfresh : m0.Fresh) (hfuel : pNtk.nObjs ≤ fuel) :
    ∃ ntk' m p3, Abc_NtkToIf If_ManStart fuel pNtk pPars = .ok (ntk', some m) ∧
      LoadInv pNtk [] ntk' p3 ∧ coLoopToIf ntk' pNtk.vCos p3 = .ok m ∧
      ∀ j, j < pNtk.nObjs → pNtk.Typ j = .ABC_OBJ_NODE → LinkOK pNtk ntk' p3 j := by
  have hinit := LoadInv.init hwf hfresh
  have hands : Abc_AigAnds (ciLoopToIf pNtk.vCis
      (Abc_ObjSetCopy pNtk pNtk.pConst1 (some (If_ManConst1 m0))) m0).1
      = Abc_AigAnds pNtk := by
    simp only [Abc_AigAnds, hinit.same.nObjs, hinit.same.Typ]
  obtain ⟨ntk3, p3, hand, hlinks⟩ := andLoopToIf_total hwf hch fuel hfuel _ _ _ hinit
    (fun j a b c => absurd (by simp [Abc_AigAnds, a, b]) c)
  have hfin := andLoopToIf_loadInv hwf fuel _ _ _ _ _ hinit hand
  obtain ⟨p4, hco⟩ := coLoopToIf_total ntk3 pNtk.vCos p3 (fun co hco => by
    obtain ⟨f, c, hf, hsf⟩ := hwf.co_fanin co hco
    have hl : Loaded pNtk [] f := by
      rcases hsf with e | e | ⟨a, b⟩
      · exact Or.inl e
      · exact Or.inr (Or.inl e)
      · exact Or.inr (Or.inr ⟨a, b, by simp⟩)
    obtain ⟨d, hd, _⟩ := hfin.loaded f hl
    refine ⟨f, d, ?_, hd⟩
    simp [Abc_ObjFanin0, hfin.same.vFanins, hf])
  refine ⟨ntk3, p4, p3, ?_, hfin, hco, hlinks⟩
  simp only [Abc_NtkToIf, hwf.strash, if_true, hstart, Abc_ObjSetCopy_vCis]
  rw [hands, hand]
  simp only [hfin.same.vCos, hco]

/-- C7 (loading preserves structure and polarity): for a structurally hashed
network and a mapper started without inputs, outputs and AND objects, a run
of `Abc_NtkToIf` that returns, returns a mapper in which, for the recorded
correspondence `M`, the `i`-th input is `M` of the `i`-th source input, `M`
of every source node is an AND object whose fanins are `M` of the fanins of
the node, with their complement attributes, the `i`-th output references `M`
of the fanin of the `i`-th source output with the complement attribute of
that fanin, and the inputs, AND objects and outputs are as many as those of
the source. The run returns when the equivalence chains lead to nodes
visited earlier and the recursion depth is at least the number of objects. -/
theorem Abc_NtkToIf_structure {Par : Type} (If_ManStart : Par → Option If_Man)
    (pNtk : Abc_Ntk) (pPars : Par) (m0 : If_Man) (hwf : StrashWF pNtk)
    (hstart : If_ManStart pPars = some m0) (hfresh : m0.Fresh) :
    (∀ fuel ntk' r, Abc_NtkToIf If_ManStart fuel pNtk pPars = .ok (ntk', r) →
      ∃ m, r = some m ∧
      m.net.vPis.map some = pNtk.vCis.map ntk'.pCopy ∧
      (∀ n, n < pNtk.nObjs → pNtk.Typ n = .ABC_OBJ_NODE →
        ∃ k, ntk'.pCopy n = some k ∧ m.net.Typ k = .IF_AND ∧
          m.net.pFanin0 k ≠ none ∧ m.net.pFanin1 k ≠ none ∧
          m.net.pFanin0 k = (Abc_ObjFanin0 pNtk n).bind ntk'.pCopy ∧
          m.net.fCompl0 k = Abc_ObjFaninC0 pNtk n ∧
          m.net.pFanin1 k = (Abc_ObjFanin1 pNtk n).bind ntk'.pCopy ∧
          m.net.fCompl1 k = Abc_ObjFaninC1 pNtk n) ∧
      (∀ (i co : Nat), pNtk.vCos[i]? = some co →
        ∃ po, m.net.vPos[i]? = some po ∧ m.net.Typ po = .IF_CO ∧
          m.net.pFanin0 po ≠ none ∧
          m.net.pFanin0 po = (Abc_ObjFanin0 pNtk co).bind ntk'.pCopy ∧
          m.net.fCompl0 po = Abc_ObjFaninC0 pNtk co) ∧
      m.net.vPis.length = pNtk.vCis.length ∧ m.andCount = (Abc_AigAnds pNtk).length ∧
      m.net.vPos.length = pNtk.vCos.length) ∧
    (ChainOrdered pNtk → ∀ fuel, pNtk.nObjs ≤ fuel →
      ∃ ntk' m, Abc_NtkToIf If_ManStart fuel pNtk pPars = .ok (ntk', some m)) := by
  constructor
  · intro fuel ntk' r h
    obtain ⟨m, p3, rfl, hinv, hco⟩ :=
      Abc_NtkToIf_loaded If_ManStart fuel pNtk pPars m0 hwf hstart hfresh ntk' r h
    obtain ⟨e, c2, c3, c4, c5, _, c7⟩ := coLoopToIf_spec ntk' pNtk.vCos p3 m hco
    have hpis : m.net.vPis.map some = pNtk.vCis.map ntk'.pCopy := by rw [c3, hinv.pis]
    refine ⟨m, rfl, hpis, ?_, ?_, ?_, ?_, ?_⟩
    · intro n hn hT
      obtain ⟨k, f0, c0, f1, c1, hk, hfan, t1, t2, t3, t4, t5⟩ := hinv.andOK n hn hT (by simp)
      obtain ⟨k', hk', hklt⟩ := hinv.loaded n (Or.inr (Or.inr ⟨hn, hT, by simp⟩))
      rw [hk] at hk'
      cases hk'
      obtain ⟨e1, e2, e3, e4, e5⟩ := e.2 k hklt
      obtain ⟨g0, d0, g1, d1, hfan', _, _, hs0, hs1⟩ := hwf.and_fanins n hn hT
      rw [hfan] at hfan'
      simp only [List.cons.injEq, Prod.mk.injEq, and_true] at hfan'
      obtain ⟨⟨rfl, rfl⟩, rfl, rfl⟩ := hfan'
      have hl : ∀ f, pNtk.IsSource f → ∃ d, ntk'.pCopy f = some d := by
        intro f hsf
        have : Loaded pNtk [] f := by
          rcases hsf with e | e | ⟨a, b⟩
          · exact Or.inl e
          · exact Or.inr (Or.inl e)
          · exact Or.inr (Or.inr ⟨a, b, by simp⟩)
        obtain ⟨d, hd, _⟩ := hinv.loaded f this
        exact ⟨d, hd⟩
      obtain ⟨x0, hx0⟩ := hl f0 hs0
      obtain ⟨x1, hx1⟩ := hl f1 hs1
      obtain ⟨a0, a1, b0, b1⟩ := Abc_ObjFanin_of_two hfan
      refine ⟨k, hk, e1.trans t1, ?_, ?_, ?_, ?_, ?_, ?_⟩
      · rw [e2, t2, hx0]; simp
      · rw [e4, t4, hx1]; simp
      · rw [e2, t2, a0]; rfl
      · rw [e3, t3, b0]
      · rw [e4, t4, a1]; rfl
      · rw [e5, t5, b1]
    · intro i co hi
      obtain ⟨f, d, a1, a2, a3, a4, a5⟩ := c7 i co hi
      have hilt : i < pNtk.vCos.length := by
        by_contra hc
        rw [List.getElem?_eq_none_iff.2 (by omega)] at hi
        cases hi
      have hF : Abc_ObjFanin0 pNtk co = some f := by
        simpa [Abc_ObjFanin0, hinv.same.vFanins] using a1
      have hC : Abc_ObjFaninC0 ntk' co = Abc_ObjFaninC0 pNtk co := by
        simp [Abc_ObjFaninC0, hinv.same.vFanins]
      refine ⟨p3.net.nObjs + i, ?_, a3, by rw [a4]; simp, ?_, by rw [a5, hC]⟩
      · rw [c5, hinv.pos]
        simp [List.getElem?_range, hilt]
      · rw [a4, hF]
        exact a2.symm
    · have := congrArg List.length hpis
      simpa using this
    · rw [c4]
      have := hinv.count
      simpa using this
    · rw [c5, hinv.pos]
      simp
  · intro hch fuel hfuel
    obtain ⟨ntk', m, _, h, _⟩ :=
      Abc_NtkToIf_returns If_ManStart fuel pNtk pPars m0 hwf hch hstart hfresh hfuel
    exact ⟨ntk', m, h⟩

/-- The network `exNtkOrd` is structurally hashed. -/
theorem exNtkOrd_wf : StrashWF exNtkOrd where
  strash := rfl
  const_typ := rfl
  cis_typ := by decide
  cis_nodup := by decide
  and_fanins := by
    intro n hn hT
    have hm : n = 3 ∨ n = 4 := by
      simp only [exNtkOrd] at hT
      split at hT <;> simp_all
    rcases hm with rfl | rfl
    · exact ⟨1, false, 2, false, rfl, by decide, by decide, Or.inr (Or.inl (by decide)),
        Or.inr (Or.inl (by decide))⟩
    · exact ⟨2, false, 1, false, rfl, by decide, by decide, Or.inr (Or.inl (by decide)),
        Or.inr (Or.inl (by decide))⟩
  co_fanin := by
    intro co hco
    have : co = 5 := by simpa [exNtkOrd] using hco
    subst this
    exact ⟨4, false, rfl, Or.inr (Or.inr ⟨by decide, rfl⟩)⟩

/-- The equivalence chain of the network `exNtkOrd` leads to a node visited
earlier. -/
theorem exNtkOrd_chain : ChainOrdered exNtkOrd := by
  intro n hn hT
  have hm : n = 3 ∨ n = 4 := by
    simp only [exNtkOrd] at hT
    split at hT <;> simp_all
  rcases hm with rfl | rfl
  · exact ⟨by simp [exNtkOrd], by simp [exNtkOrd]⟩
  · refine ⟨by simp [exNtkOrd], ?_⟩
    intro m hm
    have : m = 3 := by simpa [exNtkOrd] using hm.symm
    subst this
    exact ⟨by decide, rfl⟩

/-- The network `exNtkChoice` is structurally hashed. -/
theorem exNtkChoice_wf : StrashWF exNtkChoice where
  strash := rfl
  const_typ := rfl
  cis_typ := by decide
  cis_nodup := by decide
  and_fanins := by
    intro n hn hT
    have hm : n = 3 ∨ n = 4 := by
      simp only [exNtkChoice] at hT
      split at hT <;> simp_all
    rcases hm with rfl | rfl
    · exact ⟨1, false, 2, false, rfl, by decide, by decide, Or.inr (Or.inl (by decide)),
        Or.inr (Or.inl (by decide))⟩
    · exact ⟨2, false, 1, false, rfl, by decide, by decide, Or.inr (Or.inl (by decide)),
        Or.inr (Or.inl (by decide))⟩
  co_fanin := by
    intro co hco
    have : co = 5 := by simpa [exNtkChoice] using hco
    subst this
    exact ⟨3, false, rfl, Or.inr (Or.inr ⟨by decide, rfl⟩)⟩

/-- The mapper `If_ManStartFresh` has no inputs, outputs and AND objects. -/
theorem If_ManStartFresh_fresh : If_ManStartFresh.Fresh := by
  refine ⟨rfl, rfl, by decide, ?_⟩
  intro k hk
  have : k = 0 := by
    have : k < 1 := hk
    omega
  subst this
  decide

/-- Loading the network `exNtkOrd` into a fresh mapper returns a mapper with
as many AND objects as the network has nodes. -/
theorem Abc_NtkToIf_structure_witness :
    StrashWF exNtkOrd ∧ If_ManStartFresh.Fresh ∧ ChainOrdered exNtkOrd ∧
    (∃ ntk' m, Abc_NtkToIf (fun _ : Unit => some If_ManStartFresh) 6 exNtkOrd ()
      = .ok (ntk', some m)) ∧
    ∃ m, some (loadResult (Abc_NtkToIf (fun _ : Unit => some If_ManStartFresh) 6
        exNtkOrd ())).2 = some m ∧ m.andCount = (Abc_AigAnds exNtkOrd).length :=
  ⟨exNtkOrd_wf, If_ManStartFresh_fresh, exNtkOrd_chain,
    (Abc_NtkToIf_structure (fun _ : Unit => some If_ManStartFresh) exNtkOrd () If_ManStartFresh
      exNtkOrd_wf rfl If_ManStartFresh_fresh).2 exNtkOrd_chain 6 (le_refl _),
    match (Abc_NtkToIf_structure (fun _ : Unit => some If_ManStartFresh) exNtkOrd ()
      If_ManStartFresh exNtkOrd_wf rfl If_ManStartFresh_fresh).1 6 _ _ rfl with
    | ⟨m, h1, _, _, _, _, h2, _⟩ => ⟨m, h1, h2⟩⟩

/-- Loading the network `exNtkChoice`, in which the chain of the node `3`
leads to the node `4`, visited later, returns a mapper in which the mapper
object of the node `3` is not linked to the mapper object of the node `4`. -/
theorem Abc_NtkToIf_chain_unrecorded :
    StrashWF exNtkChoice ∧ If_ManStartFresh.Fresh ∧ exNtkChoice.pData 3 = .obj 4 ∧
    ∃ ntk' m, Abc_NtkToIf (fun _ : Unit => some If_ManStartFresh) 6 exNtkChoice ()
        = .ok (ntk', some m) ∧
      ntk'.pCopy 3 = some 3 ∧ ntk'.pCopy 4 = some 4 ∧ m.net.pEquiv 3 = none :=
  ⟨exNtkChoice_wf, If_ManStartFresh_fresh, rfl, _, _, rfl, rfl, rfl, rfl⟩

/-- The network `exNtkAlt` is structurally hashed. -/
theorem exNtkAlt_wf : StrashWF exNtkAlt where
  strash := rfl
  const_typ := rfl
  cis_typ := by decide
  cis_nodup := by decide
  and_fanins := by
    intro n hn hT
    have hm : n = 4 ∨ n = 5 ∨ n = 6 ∨ n = 7 := by
      simp only [exNtkAlt] at hT
      split at hT <;> simp_all
    rcases hm with rfl | rfl | rfl | rfl
    · exact ⟨1, false, 2, false, rfl, by decide, by decide, Or.inr (Or.inl (by decide)),
        Or.inr (Or.inl (by decide))⟩
    · exact ⟨4, false, 3, false, rfl, by decide, by decide, Or.inr (Or.inr ⟨by decide, rfl⟩),
        Or.inr (Or.inl (by decide))⟩
    · exact ⟨2, false, 3, false, rfl, by decide, by decide, Or.inr (Or.inl (by decide)),
        Or.inr (Or.inl (by decide))⟩
    · exact ⟨1, false, 6, false, rfl, by decide, by decide, Or.inr (Or.inl (by decide)),
        Or.inr (Or.inr ⟨by decide, rfl⟩)⟩
  co_fanin := by
    intro co hco
    have : co = 8 := by simpa [exNtkAlt] using hco
    subst this
    exact ⟨5, false, rfl, Or.inr (Or.inr ⟨by decide, rfl⟩)⟩

/-- C9 (equivalence-chain loading), the run on the network `exNtkAlt`: the
node `5` heads the chain `5 -> 7`, and the node `7` is visited after the
node `5`. `Abc_NtkToIf` returns; the mapper objects created for the nodes `5`
and `7` are the objects `5` and `7`, and the mapper object `5` has no link:
the link from the mapper object of `5` to the mapper object of `7` is not
recorded. -/
theorem Abc_NtkToIf_chain_lost :
    StrashWF exNtkAlt ∧ If_ManStartFresh.Fresh ∧
    exNtkAlt.pData 5 = .obj 7 ∧ exNtkAlt.pData 7 = .null ∧
    Abc_AigNodeIsChoice exNtkAlt 5 = true ∧
    ∃ ntk' m, Abc_NtkToIf (fun _ : Unit => some If_ManStartFresh) 9 exNtkAlt ()
        = .ok (ntk', some m) ∧
      ntk'.pCopy 5 = some 5 ∧ ntk'.pCopy 7 = some 7 ∧ m.net.Typ 5 = .IF_AND ∧
      m.net.Typ 7 = .IF_AND ∧ m.net.pEquiv 5 = none :=
  ⟨exNtkAlt_wf, If_ManStartFresh_fresh, rfl, rfl, rfl, _, _, rfl, rfl, rfl, rfl, rfl, rfl⟩

/-- Whenever `Abc_NtkToIf` returns, it returns a mapper handle. -/
theorem Abc_NtkToIf_handle {Par : Type} (If_ManStart : Par → Option If_Man) (fuel : Nat)
    (pNtk : Abc_Ntk) (pPars : Par) (ntk' : Abc_Ntk) (h : Option If_Man)
    (hl : Abc_NtkToIf If_ManStart fuel pNtk pPars = .ok (ntk', h)) : ∃ m, h = some m := by
  simp only [Abc_NtkToIf] at hl
  split at hl
  · split at hl
    · cases hl
    · split at hl
      · cases hl
      · split at hl
        · cases hl
        · simp only [Except.ok.injEq, Prod.mk.injEq] at hl
          exact ⟨_, hl.2.symm⟩
  · cases hl

/-- For a structurally hashed
network whose equivalence chains lead to nodes visited earlier and a mapper
started without inputs, outputs and AND objects, `Abc_NtkToIf` returns, for
every recursion depth of at least the number of objects, a mapper in which,
for every node `n` with a next node `s` in its chain, the mapper object
recorded for `n` is linked to the mapper object recorded for `s`. -/
theorem Abc_NtkToIf_chain {Par : Type} (If_ManStart : Par → Option If_Man) (fuel : Nat)
    (pNtk : Abc_Ntk) (pPars : Par) (m0 : If_Man) (hwf : StrashWF pNtk) (hch : ChainOrdered pNtk)
    (hstart : If_ManStart pPars = some m0) (hfresh : m0.Fresh) (hfuel : pNtk.nObjs ≤ fuel) :
    ∃ ntk' m, Abc_NtkToIf If_ManStart fuel pNtk pPars = .ok (ntk', some m) ∧
      ∀ n s, n < pNtk.nObjs → pNtk.Typ n = .ABC_OBJ_NODE → pNtk.pData n = .obj s →
        ∃ k e, ntk'.pCopy n = some k ∧ ntk'.pCopy s = some e ∧ m.net.pEquiv k = some e := by
  obtain ⟨ntk', m, p3, h, hinv, hco, hlinks⟩ :=
    Abc_NtkToIf_returns If_ManStart fuel pNtk pPars m0 hwf hch hstart hfresh hfuel
  obtain ⟨_, _, _, _, _, c6, _⟩ := coLoopToIf_spec ntk' pNtk.vCos p3 m hco
  refine ⟨ntk', m, h, ?_⟩
  intro n s hn hT hd
  obtain ⟨k, e, t1, t2, t3⟩ := hlinks n hn hT s hd
  obtain ⟨k', hk', hklt⟩ := hinv.loaded n (Or.inr (Or.inr ⟨hn, hT, by simp⟩))
  rw [t1] at hk'
  cases hk'
  exact ⟨k, e, t1, t2, by rw [c6 k hklt, t3]⟩

/-- Loading the network `exNtkOrd`, in which the chain of the node `4` leads
to the node `3`, records the link. -/
theorem Abc_NtkToIf_chain_witness :
    StrashWF exNtkOrd ∧ ChainOrdered exNtkOrd ∧ If_ManStartFresh.Fresh ∧
    ∃ ntk' m, Abc_NtkToIf (fun _ : Unit => some If_ManStartFresh) 6 exNtkOrd ()
        = .ok (ntk', some m) ∧
      ∀ n s, n < exNtkOrd.nObjs → exNtkOrd.Typ n = .ABC_OBJ_NODE → exNtkOrd.pData n = .obj s →
        ∃ k e, ntk'.pCopy n = some k ∧ ntk'.pCopy s = some e ∧ m.net.pEquiv k = some e :=
  ⟨exNtkOrd_wf, exNtkOrd_chain, If_ManStartFresh_fresh,
    Abc_NtkToIf_chain (fun _ : Unit => some If_ManStartFresh) 6 exNtkOrd () If_ManStartFresh
      exNtkOrd_wf exNtkOrd_chain rfl If_ManStartFresh_fresh (le_refl _)⟩

/-- When `If_ManStart` returns no mapper, `Abc_NtkToIf` does not return a
null handle: it dereferences the handle. -/
theorem Abc_NtkToIf_start_failure :
    StrashWF exNtkOrd ∧
    Abc_NtkToIf (fun _ : Unit => (none : Option If_Man)) 6 exNtkOrd () = .error .nullPointer ∧
    ∀ ntk', Abc_NtkToIf (fun _ : Unit => (none : Option If_Man)) 6 exNtkOrd ()
      ≠ .ok (ntk', none) :=
  ⟨exNtkOrd_wf, rfl, fun _ h => by cases h⟩

/-- C10, amended (loader failure): `Abc_NtkToIf` never returns a null handle;
when the mapper cannot be initialized the call does not return; when the
mapper is initialized, without inputs, outputs and AND objects, the call on a
structurally hashed network whose equivalence chains lead to nodes visited
earlier returns, for every recursion depth of at least the number of
objects, a mapper with as many inputs, AND objects and outputs as the
source. -/
theorem Abc_NtkToIf_no_null_handle {Par : Type} (If_ManStart : Par → Option If_Man)
    (fuel : Nat) (pNtk : Abc_Ntk) (pPars : Par) :
    (∀ ntk', Abc_NtkToIf If_ManStart fuel pNtk pPars ≠ .ok (ntk', none)) ∧
    (If_ManStart pPars = none → ∀ r, Abc_NtkToIf If_ManStart fuel pNtk pPars ≠ .ok r) ∧
    (∀ m0, If_ManStart pPars = some m0 → m0.Fresh → StrashWF pNtk → ChainOrdered pNtk →
      pNtk.nObjs ≤ fuel →
      ∃ ntk' m, Abc_NtkToIf If_ManStart fuel pNtk pPars = .ok (ntk', some m) ∧
        m.net.vPis.length = pNtk.vCis.length ∧ m.andCount = (Abc_AigAnds pNtk).length ∧
        m.net.vPos.length = pNtk.vCos.length) := by
  refine ⟨?_, ?_, ?_⟩
  · intro ntk' h
    simp only [Abc_NtkToIf] at h
    split at h
    · split at h
      · cases h
      · split at h
        · cases h
        · split at h
          · cases h
          · simp at h
    · cases h
  · intro hs r h
    simp only [Abc_NtkToIf, hs] at h
    split at h <;> cases h
  · intro m0 hstart hfresh hwf hch hfuel
    obtain ⟨ntk', m, p3, h, hinv, hco, _⟩ :=
      Abc_NtkToIf_returns If_ManStart fuel pNtk pPars m0 hwf hch hstart hfresh hfuel
    obtain ⟨_, _, c3, c4, c5, _, _⟩ := coLoopToIf_spec ntk' pNtk.vCos p3 m hco
    refine ⟨ntk', m, h, ?_, ?_, ?_⟩
    · have := congrArg List.length (c3 ▸ hinv.pis)
      simpa using this
    · rw [c4]
      have := hinv.count
      simpa using this
    · rw [c5, hinv.pos]
      simp

/-- Loading the network `exNtkOrd` into a fresh mapper returns a mapper. -/
theorem Abc_NtkToIf_no_null_handle_witness :
    If_ManStartFresh.Fresh ∧ StrashWF exNtkOrd ∧ ChainOrdered exNtkOrd ∧
    ∃ ntk' m, Abc_NtkToIf (fun _ : Unit => some If_ManStartFresh) 6 exNtkOrd ()
        = .ok (ntk', some m) ∧
      m.net.vPis.length = exNtkOrd.vCis.length ∧ m.andCount = (Abc_AigAnds exNtkOrd).length ∧
      m.net.vPos.length = exNtkOrd.vCos.length :=
  ⟨If_ManStartFresh_fresh, exNtkOrd_wf, exNtkOrd_chain,
    (Abc_NtkToIf_no_null_handle (fun _ : Unit => some If_ManStartFresh) 6 exNtkOrd ()).2.2
      If_ManStartFresh rfl If_ManStartFresh_fresh exNtkOrd_wf exNtkOrd_chain (le_refl _)⟩

/-! ## The driver `Abc_NtkIf` -/

/-- When the mapper cannot be started, the run of `Abc_NtkIf` on the example
network does not return `NULL`: the loader dereferences the null handle and
the driver does not return. -/
theorem Abc_NtkIf_unstarted :
    exNtk.ntkType = .ABC_NTK_STRASH ∧ exServicesNoStart.If_ManStart () = none ∧
    Abc_NtkIf exServicesNoStart 6 exNtk () = .error .nullPointer ∧
    ∀ out, Abc_NtkIf exServicesNoStart 6 exNtk () ≠ .ok out :=
  ⟨rfl, rfl, rfl, fun _ h => by cases h⟩

/-- C11, amended (driver result): `Abc_NtkIf` returns a network exactly when
the loader returned a handle, the mapping reported success, the
reconstruction returned and the check of the new network passed; a network
it returns has passed the check; when the mapping reports failure, and when
the check fails, it returns `NULL`, in the second case after deleting the new
network, and it returns `NULL` in these two cases only; it does not return
exactly when the loader or the reconstruction stops on a fault; the loader
never returns a null handle, and when the mapper cannot be started on a
structurally hashed network the run stops on the dereference of the null
handle. -/
theorem Abc_NtkIf_result {Par : Type} (S : If_Services Par) (fuel : Nat) (pNtk : Abc_Ntk)
    (pPars : Par) :
    (∀ ntk, (∃ out, Abc_NtkIf S fuel pNtk pPars = .ok out ∧ out.pNtkNew = some ntk) ↔
      ∃ ntk1 m ntk2 ntkNew m2,
        Abc_NtkToIf S.If_ManStart fuel pNtk (S.Abc_NtkGetCiArrivalFloats pNtk pPars)
          = .ok (ntk1, some m) ∧
        (S.If_ManPerformMapping m).1 = true ∧
        Abc_NtkFromIf S.Abc_NtkLogicMakeSimpleCos fuel (S.If_ManPerformMapping m).2 ntk1
          = .ok (ntk2, ntkNew, m2) ∧
        ntk = S.Abc_NtkDupExdc ntk2 ntkNew ∧ S.Abc_NtkCheck ntk = true) ∧
    (∀ out ntk, Abc_NtkIf S fuel pNtk pPars = .ok out → out.pNtkNew = some ntk →
      S.Abc_NtkCheck ntk = true) ∧
    (∀ ntk1 m,
      Abc_NtkToIf S.If_ManStart fuel pNtk (S.Abc_NtkGetCiArrivalFloats pNtk pPars)
        = .ok (ntk1, some m) →
      (S.If_ManPerformMapping m).1 = false →
      ∃ out, Abc_NtkIf S fuel pNtk pPars = .ok out ∧ out.pNtkNew = none) ∧
    (∀ ntk1 m ntk2 ntkNew m2,
      Abc_NtkToIf S.If_ManStart fuel pNtk (S.Abc_NtkGetCiArrivalFloats pNtk pPars)
        = .ok (ntk1, some m) →
      (S.If_ManPerformMapping m).1 = true →
      Abc_NtkFromIf S.Abc_NtkLogicMakeSimpleCos fuel (S.If_ManPerformMapping m).2 ntk1
        = .ok (ntk2, ntkNew, m2) →
      S.Abc_NtkCheck (S.Abc_NtkDupExdc ntk2 ntkNew) = false →
      ∃ out, Abc_NtkIf S fuel pNtk pPars = .ok out ∧ out.pNtkNew = none ∧
        out.fDeleted = true) ∧
    (∀ out, Abc_NtkIf S fuel pNtk pPars = .ok out → out.pNtkNew = none →
      ∃ ntk1 m,
        Abc_NtkToIf S.If_ManStart fuel pNtk (S.Abc_NtkGetCiArrivalFloats pNtk pPars)
          = .ok (ntk1, some m) ∧
        ((S.If_ManPerformMapping m).1 = false ∨
          ((S.If_ManPerformMapping m).1 = true ∧ ∃ ntk2 ntkNew m2,
            Abc_NtkFromIf S.Abc_NtkLogicMakeSimpleCos fuel (S.If_ManPerformMapping m).2 ntk1
              = .ok (ntk2, ntkNew, m2) ∧
            S.Abc_NtkCheck (S.Abc_NtkDupExdc ntk2 ntkNew) = false))) ∧
    (∀ e, Abc_NtkIf S fuel pNtk pPars = .error e ↔
      (Abc_NtkToIf S.If_ManStart fuel pNtk (S.Abc_NtkGetCiArrivalFloats pNtk pPars)
          = .error e ∨
        ∃ ntk1 m,
          Abc_NtkToIf S.If_ManStart fuel pNtk (S.Abc_NtkGetCiArrivalFloats pNtk pPars)
            = .ok (ntk1, some m) ∧
          (S.If_ManPerformMapping m).1 = true ∧
          Abc_NtkFromIf S.Abc_NtkLogicMakeSimpleCos fuel (S.If_ManPerformMapping m).2 ntk1
            = .error e)) ∧
    (∀ ntk1, Abc_NtkToIf S.If_ManStart fuel pNtk (S.Abc_NtkGetCiArrivalFloats pNtk pPars)
      ≠ .ok (ntk1, none)) ∧
    (S.If_ManStart (S.Abc_NtkGetCiArrivalFloats pNtk pPars) = none →
      pNtk.ntkType = .ABC_NTK_STRASH →
      Abc_NtkIf S fuel pNtk pPars = .error .nullPointer) := by
  have key : ∀ out, Abc_NtkIf S fuel pNtk pPars = .ok out →
      ∃ ntk1 m, Abc_NtkToIf S.If_ManStart fuel pNtk (S.Abc_NtkGetCiArrivalFloats pNtk pPars)
          = .ok (ntk1, some m) ∧ Abc_NtkIf_mapping S fuel ntk1 (some m) = .ok out := by
    intro out h
    unfold Abc_NtkIf at h
    split at h
    · split at h
      · cases h
      · next ntk1 h1 hl =>
        obtain ⟨m, rfl⟩ := Abc_NtkToIf_handle _ _ _ _ _ _ hl
        exact ⟨ntk1, m, hl, h⟩
    · cases h
  have run : ∀ ntk1 h, Abc_NtkToIf S.If_ManStart fuel pNtk
      (S.Abc_NtkGetCiArrivalFloats pNtk pPars) = .ok (ntk1, h) →
      Abc_NtkIf S fuel pNtk pPars = Abc_NtkIf_mapping S fuel ntk1 h := by
    intro ntk1 h hl
    have hs : pNtk.ntkType = .ABC_NTK_STRASH := by
      by_contra hc
      simp [Abc_NtkToIf, hc] at hl
    simp only [Abc_NtkIf, hs, if_true, hl]
  have mapped : ∀ ntk1 m out ntk, Abc_NtkIf_mapping S fuel ntk1 (some m) = .ok out →
      out.pNtkNew = some ntk →
      (S.If_ManPerformMapping m).1 = true ∧ ∃ ntk2 ntkNew m2,
        Abc_NtkFromIf S.Abc_NtkLogicMakeSimpleCos fuel (S.If_ManPerformMapping m).2 ntk1
          = .ok (ntk2, ntkNew, m2) ∧
        ntk = S.Abc_NtkDupExdc ntk2 ntkNew ∧ S.Abc_NtkCheck ntk = true := by
    intro ntk1 m out ntk h hn
    simp only [Abc_NtkIf_mapping] at h
    split at h
    · next hm =>
      refine ⟨hm, ?_⟩
      split at h
      · cases h
      · next ntk2 ntkNew m2 hf =>
        refine ⟨ntk2, ntkNew, m2, hf, ?_⟩
        simp only [Except.ok.injEq] at h
        subst h
        simp only [Abc_NtkIf_finish] at hn
        split at hn
        · next hc =>
          simp only [Option.some.injEq] at hn
          subst hn
          exact ⟨rfl, hc⟩
        · cases hn
    · simp only [Except.ok.injEq] at h
      subst h
      cases hn
  refine ⟨?_, ?_, ?_, ?_, ?_, ?_, ?_, ?_⟩
  · intro ntk
    constructor
    · rintro ⟨out, h, hn⟩
      obtain ⟨ntk1, m, hl, hm⟩ := key out h
      obtain ⟨a, ntk2, ntkNew, m2, b, c, d⟩ := mapped ntk1 m out ntk hm hn
      exact ⟨ntk1, m, ntk2, ntkNew, m2, hl, a, b, c, d⟩
    · rintro ⟨ntk1, m, ntk2, ntkNew, m2, hl, a, b, c, d⟩
      refine ⟨Abc_NtkIf_finish S ntk2 m2 (some ntkNew), ?_, ?_⟩
      · rw [run ntk1 (some m) hl]
        simp only [Abc_NtkIf_mapping, a, if_true, b]
      · subst c
        simp only [Abc_NtkIf_finish, d, if_true]
  · intro out ntk h hn
    obtain ⟨ntk1, m, hl, hm⟩ := key out h
    exact (mapped ntk1 m out ntk hm hn).2.choose_spec.choose_spec.choose_spec.2.2
  · intro ntk1 m hl a
    rw [run ntk1 (some m) hl]
    simp [Abc_NtkIf_mapping, a]
  · intro ntk1 m ntk2 ntkNew m2 hl a b d
    refine ⟨Abc_NtkIf_finish S ntk2 m2 (some ntkNew), ?_, ?_, ?_⟩
    · rw [run ntk1 (some m) hl]
      simp only [Abc_NtkIf_mapping, a, if_true, b]
    · simp [Abc_NtkIf_finish, d]
    · simp [Abc_NtkIf_finish, d]
  · intro out h hn
    obtain ⟨ntk1, m, hl, hm⟩ := key out h
    refine ⟨ntk1, m, hl, ?_⟩
    cases hmap : (S.If_ManPerformMapping m).1 with
    | false => exact Or.inl rfl
    | true =>
      refine Or.inr ⟨rfl, ?_⟩
      simp only [Abc_NtkIf_mapping, hmap, if_true] at hm
      split at hm
      · cases hm
      · next ntk2 ntkNew m2 hf =>
        refine ⟨ntk2, ntkNew, m2, hf, ?_⟩
        simp only [Except.ok.injEq] at hm
        subst hm
        simp only [Abc_NtkIf_finish] at hn
        split at hn
        · cases hn
        · next hc => simpa using hc
  · intro e
    cases hl : Abc_NtkToIf S.If_ManStart fuel pNtk (S.Abc_NtkGetCiArrivalFloats pNtk pPars) with
    | error e' =>
      have he : Abc_NtkIf S fuel pNtk pPars = .error e' := by
        unfold Abc_NtkIf
        split
        · rw [hl]
        · next hs =>
          simp only [Abc_NtkToIf, hs, if_false] at hl
          rw [← Except.error.inj hl]
      rw [he]
      constructor
      · intro h; exact Or.inl (by rw [Except.error.inj h])
      · rintro (h | ⟨_, _, h, _⟩)
        · rw [Except.error.inj h]
        · cases h
    | ok r =>
      obtain ⟨ntk1, h⟩ := r
      obtain ⟨m, rfl⟩ := Abc_NtkToIf_handle _ _ _ _ _ _ hl
      rw [run ntk1 (some m) hl]
      constructor
      · intro h
        refine Or.inr ⟨ntk1, m, rfl, ?_⟩
        simp only [Abc_NtkIf_mapping] at h
        split at h
        · next hm =>
          refine ⟨hm, ?_⟩
          split at h
          · next e' hf => rw [hf, Except.error.inj h]
          · cases h
        · cases h
      · rintro (h | ⟨ntk1', m', h, hm, hf⟩)
        · cases h
        · simp only [Except.ok.injEq, Prod.mk.injEq, Option.some.injEq] at h
          obtain ⟨rfl, rfl⟩ := h
          simp only [Abc_NtkIf_mapping, hm, if_true, hf]
  · intro ntk1 hl
    obtain ⟨m, hm⟩ := Abc_NtkToIf_handle _ _ _ _ _ _ hl
    cases hm
  · intro hs hstr
    simp only [Abc_NtkIf, Abc_NtkToIf, hstr, if_true, hs]

/-- In the example the mapping succeeds and the check passes: `Abc_NtkIf`
returns a network, which has passed the check. -/
theorem Abc_NtkIf_result_witness :
    Abc_NtkIf (exServices true true) 6 exNtk ()
      = .ok (driverResult (Abc_NtkIf (exServices true true) 6 exNtk ())) ∧
    (driverResult (Abc_NtkIf (exServices true true) 6 exNtk ())).pNtkNew.isSome = true ∧
    ∀ ntk, (driverResult (Abc_NtkIf (exServices true true) 6 exNtk ())).pNtkNew = some ntk →
      (exServices true true).Abc_NtkCheck ntk = true :=
  ⟨rfl, rfl, fun ntk h =>
    (Abc_NtkIf_result (exServices true true) 6 exNtk ()).2.1 _ ntk rfl h⟩

/-- The statements of `Abc_NtkIf` for a reconstruction that returned no
network (abcIf.c:76-77) return before the call of `If_ManStop`. No run
executes them, since `Abc_NtkFromIf` returns a network whenever it returns. -/
theorem Abc_NtkIf_finish_unreleased :
    (Abc_NtkIf_finish (exServices true true) exNtk exMan none).pIfMan.isSome = true ∧
    (Abc_NtkIf_finish (exServices true true) exNtk exMan none).pNtkNew.isNone = true ∧
    (Abc_NtkIf_finish (exServices true true) exNtk exMan none).nStops = 0 :=
  ⟨rfl, rfl, rfl⟩

theorem Abc_NodeIfToHop2_keeps (fuel : Nat) (p : If_Man) (n : Nat) (g : Hop_Obj) (q : If_Man)
    (h : Abc_NodeIfToHop2 fuel p n = .ok (g, q)) : q.net = p.net ∧ q.pCopy = p.pCopy := by
  simp only [Abc_NodeIfToHop2] at h
  split at h
  · split at h
    · cases h
    · rename_i g3 p3 h3
      simp only [Except.ok.injEq, Prod.mk.injEq] at h
      obtain ⟨_, rfl⟩ := h
      obtain ⟨vs, e⟩ := Abc_NodeIfToHop2_rec_extends _ _ _ _ _ h3
      have hnet : p3.net = p.net := by rw [e.1]; simp
      exact ⟨by simp [hnet], by rw [cleanCuts_pCopy, cleanLeaves_pCopy, e.2.1]; simp⟩
  · cases h

theorem Keeps.same_keeps (E Q : Nat → Prop) (ntk : Abc_Ntk) (p : If_Man) : Keeps E Q ntk p ntk p where
  net := rfl
  le := le_refl _
  typ := fun _ _ => rfl
  data := fun _ _ => rfl
  fanins := fun _ _ _ => rfl
  cis := rfl
  cos := rfl
  mono := fun _ _ h => h
  fresh := fun _ h1 h2 => absurd h1 h2
  closed := fun h => h
  bound := fun h1 h2 => ⟨h1, h2⟩

theorem Keeps.weaken_keeps {E Q E' Q' : Nat → Prop} {ntk ntk' : Abc_Ntk} {p p' : If_Man}
    (h : Keeps E Q ntk p ntk' p') (hE : ∀ j, E j → E' j) (hQ : ∀ m, Q m → Q' m) :
    Keeps E' Q' ntk p ntk' p' where
  net := h.net
  le := h.le
  typ := h.typ
  data := h.data
  fanins := fun j hj hn => h.fanins j hj (fun he => hn (hE j he))
  cis := h.cis
  cos := h.cos
  mono := h.mono
  fresh := fun m h1 h2 => hQ m (h.fresh m h1 h2)
  closed := h.closed
  bound := h.bound

theorem Keeps.comp_keeps {E Q : Nat → Prop} {ntk ntk' ntk'' : Abc_Ntk} {p p' p'' : If_Man}
    (h1 : Keeps E Q ntk p ntk' p') (h2 : Keeps E Q ntk' p' ntk'' p'') :
    Keeps E Q ntk p ntk'' p'' where
  net := h2.net.trans h1.net
  le := le_trans h1.le h2.le
  typ := fun j hj => (h2.typ j (lt_of_lt_of_le hj h1.le)).trans (h1.typ j hj)
  data := fun j hj => (h2.data j (lt_of_lt_of_le hj h1.le)).trans (h1.data j hj)
  fanins := fun j hj hn =>
    (h2.fanins j (lt_of_lt_of_le hj h1.le) hn).trans (h1.fanins j hj hn)
  cis := h2.cis.trans h1.cis
  cos := h2.cos.trans h1.cos
  mono := fun m c h => h2.mono m c (h1.mono m c h)
  fresh := fun m ha hb => by
    cases hc : p'.pCopy m with
    | none => exact h2.fresh m hc hb
    | some c => exact h1.fresh m ha (by rw [hc]; exact fun e => Option.noConfusion e)
  closed := fun h => h2.closed (h1.closed h)
  bound := fun ha hb => h2.bound (h1.bound ha hb).1 (h1.bound ha hb).2

theorem FanoutsOK.addFanin_ok {ntk : Abc_Ntk} (h : FanoutsOK ntk) (x : Nat) (f : Abc_Ptr)
    (hx : x < ntk.nObjs) (hf : f.1 < ntk.nObjs) : FanoutsOK (Abc_ObjAddFanin ntk x f) := by
  obtain ⟨h1, h2⟩ := h
  constructor
  · intro c j
    simp only [Abc_ObjAddFanin, Function.update_apply]
    by_cases hc : c = f.1 <;> by_cases hj : j = x
    · subst hj
      simp only [hc, if_true, List.mem_append, List.mem_singleton]
      exact ⟨fun _ => ⟨f.2, Or.inr rfl⟩, fun _ => Or.inr trivial⟩
    · simp only [hc, hj, if_true, if_false, List.mem_append, List.mem_singleton, or_false]
      rw [← hc]; exact h1 c j
    · subst hj
      simp only [hc, if_true, if_false, List.mem_append, List.mem_singleton]
      rw [h1 c j]
      constructor
      · rintro ⟨b, hb⟩; exact ⟨b, Or.inl hb⟩
      · rintro ⟨b, hb | hb⟩
        · exact ⟨b, hb⟩
        · exact absurd (congrArg Prod.fst hb) hc
    · simp only [hc, hj, if_false]
      exact h1 c j
  · intro j g hg
    simp only [Abc_ObjAddFanin, Function.update_apply] at hg ⊢
    split at hg
    · rename_i hj
      rcases List.mem_append.1 hg with hg | hg
      · exact h2 j g (hj ▸ hg)
      · rw [List.mem_singleton.1 hg, hj]; exact ⟨hx, hf⟩
    · exact h2 j g hg

theorem FanoutsOK.createObj {ntk : Abc_Ntk} (h : FanoutsOK ntk) (t : Abc_ObjType) :
    FanoutsOK (Abc_NtkCreateObj ntk t) := by
  obtain ⟨h1, h2⟩ := h
  constructor
  · intro c j
    simp only [Abc_NtkCreateObj, Function.update_apply]
    by_cases hc : c = ntk.nObjs <;> by_cases hj : j = ntk.nObjs
    · simp [hc, hj]
    · simp only [hc, hj, if_true, if_false, List.not_mem_nil, false_iff, not_exists]
      intro b hb
      exact absurd (h2 j _ hb).2 (lt_irrefl _)
    · simp only [hc, hj, if_true, if_false, List.not_mem_nil, exists_false, iff_false]
      intro hm
      obtain ⟨b, hb⟩ := (h1 c ntk.nObjs).1 hm
      exact absurd (h2 _ _ hb).1 (lt_irrefl _)
    · simp only [hc, hj, if_false]
      exact h1 c j
  · intro j g hg
    simp only [Abc_NtkCreateObj, Function.update_apply] at hg ⊢
    split at hg
    · cases hg
    · exact ⟨Nat.lt_succ_of_lt (h2 j g hg).1, Nat.lt_succ_of_lt (h2 j g hg).2⟩

theorem Keeps.addFanin_keeps (Q : Nat → Prop) (ntk : Abc_Ntk) (p : If_Man) (x : Nat) (f : Abc_Ptr)
    (hx : x < ntk.nObjs) (hf : ∃ l, p.pCopy l = some f.1) :
    Keeps (fun j => j = x) Q ntk p (Abc_ObjAddFanin ntk x f) p where
  net := rfl
  le := le_refl _
  typ := fun _ _ => rfl
  data := fun _ _ => rfl
  fanins := fun j _ hn => by simp [Abc_ObjAddFanin, Function.update_apply, hn]
  cis := rfl
  cos := rfl
  mono := fun _ _ h => h
  fresh := fun _ h1 h2 => absurd h1 h2
  closed := fun h => h
  bound := fun h1 h2 =>
    ⟨h1.addFanin_ok x f hx (hf.elim fun l hl => h2 l _ hl), h2⟩

theorem Keeps.createNode (Q : Nat → Prop) (ntk : Abc_Ntk) (p : If_Man) :
    Keeps (fun _ => False) Q ntk p (Abc_NtkCreateNode ntk) p where
  net := rfl
  le := Nat.le_succ _
  typ := fun j hj => by
    simp [Abc_NtkCreateNode, Abc_NtkCreateObj, Function.update_apply, Nat.ne_of_lt hj]
  data := fun j hj => by
    simp [Abc_NtkCreateNode, Abc_NtkCreateObj, Function.update_apply, Nat.ne_of_lt hj]
  fanins := fun j hj _ => by
    simp [Abc_NtkCreateNode, Abc_NtkCreateObj, Function.update_apply, Nat.ne_of_lt hj]
  cis := rfl
  cos := rfl
  mono := fun _ _ h => h
  fresh := fun _ h1 h2 => absurd h1 h2
  closed := fun h => h
  bound := fun h1 h2 => ⟨h1.createObj _, fun m c hm => Nat.lt_succ_of_lt (h2 m c hm)⟩

theorem leafLoop_keeps (N : If_Net) (Q : Nat → Prop)
    (recur : Abc_Ntk → If_Man → Option Nat → Except Fault (Nat × Abc_Ntk × If_Man))
    (hrec : ∀ ntk p l c ntk' p', p.net = N → recur ntk p (some l) = .ok (c, ntk', p') →
      Keeps (fun _ => False) (Relation.ReflTransGen (LeafEdge N) l) ntk p ntk' p' ∧
        p'.pCopy l = some c)
    (new : Nat) (leaves : List Nat)
    (hQ : ∀ l, l ∈ leaves → ∀ m, Relation.ReflTransGen (LeafEdge N) l m → Q m)
    (ntk : Abc_Ntk) (p : If_Man) (ntk' : Abc_Ntk) (p' : If_Man)
    (hN : p.net = N) (hnew : new < ntk.nObjs)
    (h : leafLoop recur new leaves ntk p = .ok (ntk', p')) :
    Keeps (fun j => j = new) Q ntk p ntk' p' ∧ ∀ l, l ∈ leaves → p'.pCopy l ≠ none := by
  induction leaves generalizing ntk p with
  | nil =>
    simp only [leafLoop, Except.ok.injEq, Prod.mk.injEq] at h
    obtain ⟨rfl, rfl⟩ := h
    exact ⟨Keeps.same_keeps _ _ _ _, fun l hl => absurd hl (List.not_mem_nil l)⟩
  | cons l rest ih =>
    simp only [leafLoop] at h
    split at h
    · cases h
    · rename_i c ntk1 p1 hr
      obtain ⟨k1, hc⟩ := hrec ntk p l c ntk1 p1 hN hr
      have k1' : Keeps (fun j => j = new) Q ntk p ntk1 p1 :=
        k1.weaken_keeps (fun _ hf => hf.elim) (hQ l (List.mem_cons_self _ _))
      have hnew1 : new < ntk1.nObjs := lt_of_lt_of_le hnew k1.le
      have ka := Keeps.addFanin_keeps Q ntk1 p1 new (c, false) hnew1 ⟨l, hc⟩
      obtain ⟨k2, hall⟩ :=
        ih (fun x hx => hQ x (List.mem_cons_of_mem _ hx)) (Abc_ObjAddFanin ntk1 new (c, false)) p1
          (k1.net.trans hN) hnew1 h
      refine ⟨k1'.comp_keeps (ka.comp_keeps k2), ?_⟩
      intro x hx
      rcases List.mem_cons.1 hx with e | e
      · rw [e, k2.mono l c hc]
        exact fun e => Option.noConfusion e
      · exact hall x e

theorem Abc_NodeFromIf_rec_keeps (fuel : Nat) (ntk : Abc_Ntk) (p : If_Man) (n c : Nat)
    (ntk' : Abc_Ntk) (p' : If_Man)
    (h : Abc_NodeFromIf_rec fuel ntk p (some n) = .ok (c, ntk', p')) :
    Keeps (fun _ => False) (Relation.ReflTransGen (LeafEdge p.net) n) ntk p ntk' p' ∧
      p'.pCopy n = some c := by
  induction fuel generalizing ntk p n c ntk' p' with
  | zero => simp [Abc_NodeFromIf_rec] at h
  | succ fuel ih =>
    simp only [Abc_NodeFromIf_rec, If_ObjCopy] at h
    split at h
    · rename_i c0 hc0
      simp only [Except.ok.injEq, Prod.mk.injEq] at h
      obtain ⟨rfl, rfl, rfl⟩ := h
      exact ⟨Keeps.same_keeps _ _ _ _, hc0⟩
    · rename_i hpn
      split at h
      · rename_i hT
        split at h
        · cases h
        · rename_i ntk2 p2 hloop
          split at h
          · cases h
          · rename_i g p3 hhop
            simp only [Except.ok.injEq, Prod.mk.injEq] at h
            obtain ⟨rfl, rfl, rfl⟩ := h
            obtain ⟨kl, hall⟩ := leafLoop_keeps p.net
              (Relation.ReflTransGen (LeafEdge p.net) n) (Abc_NodeFromIf_rec fuel)
              (fun ntk q l c ntk' q' hq h => by
                have := ih ntk q l c ntk' q' h
                rw [hq] at this
                exact this)
              ntk.nObjs (p.cut (If_ObjCutBest p n)).pLeaves
              (fun l hl m hm => Relation.ReflTransGen.head ⟨hT, hl⟩ hm)
              (Abc_NtkCreateNode ntk) p ntk2 p2 rfl (by simp [Abc_NtkCreateNode]) hloop
            have kc := Keeps.createNode (Relation.ReflTransGen (LeafEdge p.net) n) ntk p
            obtain ⟨hnet3, hcopy3⟩ := Abc_NodeIfToHop2_keeps fuel p2 n g p3 hhop
            have hle : ntk.nObjs + 1 ≤ ntk2.nObjs := kl.le
            have hmono2 : ∀ l c, p.pCopy l = some c →
                (If_ObjSetCopy p3 n (some ntk.nObjs)).pCopy l = some c := by
              intro l c hl
              rw [If_ObjSetCopy_pCopy, hcopy3]
              split
              · rename_i e; subst e; rw [hpn] at hl; cases hl
              · exact kl.mono l c hl
            have hstay : ∀ l, p2.pCopy l ≠ none →
                (If_ObjSetCopy p3 n (some ntk.nObjs)).pCopy l ≠ none := by
              intro l hl
              rw [If_ObjSetCopy_pCopy, hcopy3]
              split
              · exact fun e => Option.noConfusion e
              · exact hl
            refine ⟨?_, by simp [If_ObjSetCopy_pCopy]⟩
            refine
              { net := by simp [hnet3, kl.net]
                le := by simp; omega
                typ := ?_
                data := ?_
                fanins := ?_
                cis := by simp [kl.cis, Abc_NtkCreateNode]
                cos := by simp [kl.cos, Abc_NtkCreateNode]
                mono := hmono2
                fresh := ?_
                closed := ?_
                bound := ?_ }
            · intro j hj
              simp only [Abc_ObjSetData_Typ]
              rw [kl.typ j (by simp [Abc_NtkCreateNode]; omega)]
              exact kc.typ j hj
            · intro j hj
              have hjn : j ≠ ntk.nObjs := by omega
              rw [Abc_ObjSetData_pData, if_neg hjn, kl.data j (by simp [Abc_NtkCreateNode]; omega)]
              exact kc.data j hj
            · intro j hj _
              have hjn : j ≠ ntk.nObjs := by omega
              simp only [Abc_ObjSetData_vFanins]
              rw [kl.fanins j (by simp [Abc_NtkCreateNode]; omega) hjn]
              exact kc.fanins j hj (fun hf => hf)
            · intro m hm hs
              rw [If_ObjSetCopy_pCopy, hcopy3] at hs
              split at hs
              · rename_i e
                rw [e]
              · exact kl.fresh m hm hs
            · intro hcl m hm hs l hl
              have hcl2 := kl.closed hcl
              apply hstay
              have hl2 : l ∈ p2.bestLeaves m := by
                simp only [If_Man.bestLeaves, If_Man.cut, If_ObjCutBest, If_ObjSetCopy_net, hnet3]
                  at hl
                exact hl
              rw [If_ObjSetCopy_pCopy, hcopy3] at hs
              split at hs
              · rename_i e
                subst e
                apply hall
                simp only [If_Man.bestLeaves, If_Man.cut, If_ObjCutBest, kl.net] at hl2
                exact hl2
              · exact hcl2 m (by simpa [hnet3] using hm) hs l hl2
            · intro hf hcb
              obtain ⟨hf2, hcb2⟩ := kl.bound (kc.bound hf hcb).1 (kc.bound hf hcb).2
              refine ⟨hf2, ?_⟩
              intro m c hm
              rw [If_ObjSetCopy_pCopy, hcopy3] at hm
              simp only [Abc_ObjSetData_nObjs]
              split at hm
              · cases hm; omega
              · exact hcb2 m c hm
      · cases h

theorem coLoop_keeps (fuel : Nat) (src : Abc_Ntk) (cos : List Nat) (i : Nat) (ntk : Abc_Ntk)
    (p : If_Man) (ntk' : Abc_Ntk) (p' : If_Man)
    (hlt : ∀ x, x ∈ cos → ∀ c, src.pCopy x = some c → c < ntk.nObjs)
    (h : coLoop fuel src cos i ntk p = .ok (ntk', p')) :
    Keeps (fun j => ∃ x, x ∈ cos ∧ src.pCopy x = some j) (DriverReach p.net) ntk p ntk' p' := by
  induction cos generalizing i ntk p with
  | nil =>
    simp only [coLoop, Except.ok.injEq, Prod.mk.injEq] at h
    obtain ⟨rfl, rfl⟩ := h
    exact Keeps.same_keeps _ _ _ _
  | cons x rest ih =>
    simp only [coLoop] at h
    split at h
    · cases h
    · rename_i mpo hmpo
      split at h
      · cases h
      · rename_i c ntk1 p1 hr
        split at h
        · cases h
        · rename_i po hpo
          cases hdrv : p.net.pFanin0 mpo with
          | none =>
            rw [hdrv] at hr
            exact absurd hr (Abc_NodeFromIf_rec_none _ _ _ _)
          | some drv =>
            rw [hdrv] at hr
            obtain ⟨k1, hc⟩ := Abc_NodeFromIf_rec_keeps fuel ntk p drv c ntk1 p1 hr
            have hpolt : po < ntk.nObjs := hlt x (List.mem_cons_self _ _) po hpo
            have k2 := ih (i + 1)
              (Abc_ObjAddFanin ntk1 po (Abc_ObjNotCond (c, false) (p1.net.fCompl0 mpo))) p1
              (fun y hy c hyc => lt_of_lt_of_le (hlt y (List.mem_cons_of_mem _ hy) c hyc) k1.le)
              h
            have k1' : Keeps (fun j => ∃ y, y ∈ x :: rest ∧ src.pCopy y = some j)
                (DriverReach p.net) ntk p ntk1 p1 :=
              k1.weaken_keeps (fun _ hf => hf.elim)
                (fun m hm => ⟨mpo, drv, List.mem_iff_getElem?.2 ⟨i, hmpo⟩, hdrv, hm⟩)
            have ka : Keeps (fun j => ∃ y, y ∈ x :: rest ∧ src.pCopy y = some j)
                (DriverReach p.net) ntk1 p1
                (Abc_ObjAddFanin ntk1 po (Abc_ObjNotCond (c, false) (p1.net.fCompl0 mpo))) p1 :=
              (Keeps.addFanin_keeps (DriverReach p.net) ntk1 p1 po _ (lt_of_lt_of_le hpolt k1.le)
                ⟨drv, hc⟩).weaken_keeps
                (fun j hj => ⟨x, List.mem_cons_self _ _, by rw [hj]; exact hpo⟩)
                (fun _ h => h)
            have k2' : Keeps (fun j => ∃ y, y ∈ x :: rest ∧ src.pCopy y = some j)
                (DriverReach p.net)
                (Abc_ObjAddFanin ntk1 po (Abc_ObjNotCond (c, false) (p1.net.fCompl0 mpo))) p1
                ntk' p' :=
              k2.weaken_keeps (fun j ⟨y, hy, hyc⟩ => ⟨y, List.mem_cons_of_mem _ hy, hyc⟩)
                (fun m hm => by rw [k1.net] at hm; exact hm)
            exact k1'.comp_keeps (ka.comp_keeps k2')

theorem Abc_NtkDupCis_vFanouts (objs : List Nat) (src new : Abc_Ntk)
    (h : ∀ j, new.vFanouts j = []) : ∀ j, (Abc_NtkDupCis objs src new).2.vFanouts j = [] := by
  induction objs generalizing src new with
  | nil => exact h
  | cons x rest ih =>
    simp only [Abc_NtkDupCis]
    apply ih
    intro j
    simp only [Abc_NtkCreatePi, Abc_NtkCreateObj, Function.update_apply]
    split
    · rfl
    · exact h j

theorem Abc_NtkDupCos_vFanouts (objs : List Nat) (src new : Abc_Ntk)
    (h : ∀ j, new.vFanouts j = []) : ∀ j, (Abc_NtkDupCos objs src new).2.vFanouts j = [] := by
  induction objs generalizing src new with
  | nil => exact h
  | cons x rest ih =>
    simp only [Abc_NtkDupCos]
    apply ih
    intro j
    simp only [Abc_NtkCreatePo, Abc_NtkCreateObj, Function.update_apply]
    split
    · rfl
    · exact h j

theorem setPiCopies_frame (src : Abc_Ntk) (cis : List Nat) (i : Nat) (p p' : If_Man)
    (h : setPiCopies src cis i p = .ok p') (m : Nat) (hm : m ∉ p.net.vPis) :
    p'.pCopy m = p.pCopy m := by
  induction cis generalizing i p with
  | nil =>
    simp only [setPiCopies, Except.ok.injEq] at h
    subst h
    rfl
  | cons ci rest ih =>
    simp only [setPiCopies] at h
    split at h
    · cases h
    · rename_i pi hpi
      rw [ih _ _ h (by simpa using hm), If_ObjSetCopy_pCopy, if_neg]
      intro e
      exact hm (e ▸ List.mem_iff_getElem?.2 ⟨i, hpi⟩)

/-- The constant node of the new network when the output loop of
`Abc_NtkFromIf` starts. -/
theorem Abc_NtkFromIf_start_const (pIfMan : If_Man) (pNtk src0 ntk0 : Abc_Ntk) (p0 : If_Man)
    (h : Abc_NtkFromIf_start pIfMan pNtk = .ok (src0, ntk0, p0))
    (hc : pIfMan.net.pConst1 ∉ pIfMan.net.vPis) :
    p0.pCopy pIfMan.net.pConst1 = some (pNtk.vCis.length + pNtk.vCos.length) ∧
    ntk0.Typ (pNtk.vCis.length + pNtk.vCos.length) = .ABC_OBJ_NODE ∧
    ntk0.pData (pNtk.vCis.length + pNtk.vCos.length) = .func (.const1 false) ∧
    FanoutsOK ntk0 := by
  obtain ⟨s1, s2, s3, s4, s5, s6, s7, s8⟩ := Abc_NtkStartFrom_spec pNtk
  have hfo : ∀ j, (Abc_NtkStartFrom pNtk).2.vFanouts j = [] := by
    simp only [Abc_NtkStartFrom]
    exact Abc_NtkDupCos_vFanouts _ _ _ (Abc_NtkDupCis_vFanouts _ _ _ (fun _ => rfl))
  simp only [Abc_NtkFromIf_start] at h
  split at h
  · cases h
  · rename_i p3 hp3
    simp only [Except.ok.injEq, Prod.mk.injEq] at h
    obtain ⟨rfl, rfl, rfl⟩ := h
    refine ⟨?_, ?_, ?_, ?_, ?_⟩
    · rw [setPiCopies_frame _ _ _ _ _ hp3 _ (by simpa [If_ManCleanCutData, If_ManCleanNodeCopy] using hc),
        If_ObjSetCopy_pCopy]
      simp [If_ManCleanCutData, If_ManCleanNodeCopy, s1]
    · simp [Abc_NtkCreateNodeConst1, Abc_NtkCreateNode, Abc_NtkCreateObj_Typ, s1]
    · simp [Abc_NtkCreateNodeConst1, Abc_NtkCreateNode, Abc_ObjSetData_pData, s1]
    · intro c j
      have e1 : (Abc_NtkCreateNodeConst1 (Abc_NtkStartFrom pNtk).2).vFanouts c = [] := by
        simp only [Abc_NtkCreateNodeConst1, Abc_NtkCreateNode, Abc_ObjSetData, Abc_NtkCreateObj,
          Function.update_apply]
        split
        · rfl
        · exact hfo c
      have e2 : (Abc_NtkCreateNodeConst1 (Abc_NtkStartFrom pNtk).2).vFanins j = [] := by
        simp only [Abc_NtkCreateNodeConst1, Abc_NtkCreateNode, Abc_ObjSetData_vFanins,
          Abc_NtkCreateObj_vFanins]
        split
        · rfl
        · exact s5 j
      rw [e1, e2]
      simp
    · intro j f hf
      have e2 : (Abc_NtkCreateNodeConst1 (Abc_NtkStartFrom pNtk).2).vFanins j = [] := by
        simp only [Abc_NtkCreateNodeConst1, Abc_NtkCreateNode, Abc_ObjSetData_vFanins,
          Abc_NtkCreateObj_vFanins]
        split
        · rfl
        · exact s5 j
      rw [e2] at hf
      cases hf

theorem Abc_NtkFromIf_outputs_keeps (fuel : Nat) (pIfMan : If_Man) (pNtk src ntk' : Abc_Ntk)
    (p' : If_Man) (h : Abc_NtkFromIf_outputs fuel pIfMan pNtk = .ok (src, ntk', p')) :
    ∃ ntk0 p0, Abc_NtkFromIf_start pIfMan pNtk = .ok (src, ntk0, p0) ∧
      Keeps (fun j => ∃ x, x ∈ pNtk.vCos ∧ src.pCopy x = some j) (DriverReach pIfMan.net)
        ntk0 p0 ntk' p' ∧
      ∀ x, x ∈ pNtk.vCos → ∀ c, src.pCopy x = some c →
        c < pNtk.vCis.length + pNtk.vCos.length := by
  simp only [Abc_NtkFromIf_outputs] at h
  split at h
  · cases h
  · rename_i src0 ntk0 p0 hstart
    split at h
    · cases h
    · rename_i ntk1 p1 hloop
      simp only [Except.ok.injEq, Prod.mk.injEq] at h
      obtain ⟨rfl, rfl, rfl⟩ := h
      obtain ⟨e0, hn0, _, _, hnet0, _, _⟩ := Abc_NtkFromIf_start_spec pIfMan pNtk src0 ntk0 p0 hstart
      obtain ⟨s1, s2, s3, s4, s5, s6, s7, s8⟩ := Abc_NtkStartFrom_spec pNtk
      have hco : ∀ x, x ∈ src0.vCos → ∀ c, src0.pCopy x = some c →
          c < pNtk.vCis.length + pNtk.vCos.length := by
        intro x hx c hc
        rw [e0, s3] at hx
        obtain ⟨c', hc1, hc2⟩ := s7 x hx
        rw [e0, hc1] at hc
        cases hc
        exact hc2
      have k := coLoop_keeps fuel src0 src0.vCos 0 ntk0 p0 ntk1 p1
        (fun x hx c hc => by rw [hn0]; exact Nat.lt_succ_of_lt (hco x hx c hc)) hloop
      rw [hnet0] at k
      have hv : src0.vCos = pNtk.vCos := by rw [e0, s3]
      rw [hv] at k
      exact ⟨ntk0, p0, hstart, k, fun x hx c hc => hco x (hv ▸ hx) c hc⟩

/-! ## Removal of the unused constant node -/

/-- C15 (unused-constant removal): for a mapper whose constant is not one of
its inputs, after the output loop of `Abc_NtkFromIf` the mapper constant
points to the constant node created before the loop, a node without fanins
whose function is the constant 1; the removal step returns, and after it this
node is present in the new network exactly when it has a consumer, an object
with the node among its fanins, which is the duplicate of a source output or
a node created by the loop; every other object keeps its type, fanins,
fanouts and function. -/
theorem Abc_NtkFromIf_const_removal (fuel : Nat) (pIfMan : If_Man) (pNtk src ntk' : Abc_Ntk)
    (p' : If_Man) (hc : pIfMan.net.pConst1 ∉ pIfMan.net.vPis)
    (h : Abc_NtkFromIf_outputs fuel pIfMan pNtk = .ok (src, ntk', p')) :
    ∃ c ntk'', If_ObjCopy p' p'.net.pConst1 = some c ∧
      c = pNtk.vCis.length + pNtk.vCos.length ∧
      ntk'.Typ c = .ABC_OBJ_NODE ∧ ntk'.pData c = .func (.const1 false) ∧
      ntk'.vFanins c = [] ∧
      removeUnusedConst p' ntk' = .ok ntk'' ∧
      (ntk''.Typ c ≠ .ABC_OBJ_NONE ↔ ∃ j b, (c, b) ∈ ntk'.vFanins j) ∧
      (∀ j b, (c, b) ∈ ntk'.vFanins j →
        (∃ x, x ∈ pNtk.vCos ∧ src.pCopy x = some j) ∨ (c < j ∧ j < ntk'.nObjs)) ∧
      ntk''.nObjs = ntk'.nObjs ∧ ntk''.vCis = ntk'.vCis ∧ ntk''.vCos = ntk'.vCos ∧
      ∀ j, j ≠ c → ntk''.Typ j = ntk'.Typ j ∧ ntk''.vFanins j = ntk'.vFanins j ∧
        ntk''.vFanouts j = ntk'.vFanouts j ∧ ntk''.pData j = ntk'.pData j := by
  obtain ⟨ntk0, p0, hstart, k, hco⟩ := Abc_NtkFromIf_outputs_keeps fuel pIfMan pNtk src ntk' p' h
  obtain ⟨c1, c2, c3, c4⟩ := Abc_NtkFromIf_start_const pIfMan pNtk src ntk0 p0 hstart hc
  obtain ⟨_, hn0, _, hfan0, hnet0, _, hcp0⟩ := Abc_NtkFromIf_start_spec pIfMan pNtk src ntk0 p0 hstart
  have hcb0 : CopiesBelow ntk0 p0 := fun m c hm => (hcp0 m c hm).1
  obtain ⟨hfo, _⟩ := k.bound c4 hcb0
  have hlt : pNtk.vCis.length + pNtk.vCos.length < ntk0.nObjs := by rw [hn0]; exact Nat.lt_succ_self _
  have hnE : ¬ ∃ x, x ∈ pNtk.vCos ∧ src.pCopy x = some (pNtk.vCis.length + pNtk.vCos.length) :=
    fun ⟨x, hx, hxc⟩ => absurd (hco x hx _ hxc) (lt_irrefl _)
  have hcopy : If_ObjCopy p' p'.net.pConst1 = some (pNtk.vCis.length + pNtk.vCos.length) := by
    rw [k.net, hnet0]
    exact k.mono _ _ c1
  have hfanc : ntk'.vFanins (pNtk.vCis.length + pNtk.vCos.length) = [] := by
    rw [k.fanins _ hlt hnE]; exact hfan0 _
  have hcons : ∀ j b, (pNtk.vCis.length + pNtk.vCos.length, b) ∈ ntk'.vFanins j →
      (∃ x, x ∈ pNtk.vCos ∧ src.pCopy x = some j) ∨
        (pNtk.vCis.length + pNtk.vCos.length < j ∧ j < ntk'.nObjs) := by
    intro j b hb
    by_cases hE : ∃ x, x ∈ pNtk.vCos ∧ src.pCopy x = some j
    · exact Or.inl hE
    · right
      refine ⟨?_, (hfo.2 j _ hb).1⟩
      by_contra hle
      have hj : j < ntk0.nObjs := by rw [hn0]; omega
      rw [k.fanins j hj hE, hfan0 j] at hb
      cases hb
  have hout : ∀ j, pNtk.vCis.length + pNtk.vCos.length ∉ ntk'.vFanouts j := by
    intro j hj
    obtain ⟨b, hb⟩ := (hfo.1 j _).1 hj
    rw [hfanc] at hb
    cases hb
  refine ⟨_, if Abc_ObjFanoutNum ntk' (pNtk.vCis.length + pNtk.vCos.length) = 0 then
      Abc_NtkDeleteObj ntk' (pNtk.vCis.length + pNtk.vCos.length) else ntk',
    hcopy, rfl, (k.typ _ hlt).trans c2, (k.data _ hlt).trans c3, hfanc, ?_, ?_, hcons, ?_⟩
  · simp only [removeUnusedConst, hcopy]
    split <;> rfl
  · by_cases h0 : Abc_ObjFanoutNum ntk' (pNtk.vCis.length + pNtk.vCos.length) = 0
    · rw [if_pos h0]
      have hnil : ntk'.vFanouts (pNtk.vCis.length + pNtk.vCos.length) = [] :=
        List.eq_nil_of_length_eq_zero h0
      constructor
      · intro hne
        exact absurd (by simp [Abc_NtkDeleteObj]) hne
      · rintro ⟨j, b, hb⟩
        have := (hfo.1 _ j).2 ⟨b, hb⟩
        rw [hnil] at this
        cases this
    · rw [if_neg h0]
      constructor
      · intro _
        cases hv : ntk'.vFanouts (pNtk.vCis.length + pNtk.vCos.length) with
        | nil => exact absurd (by simp [Abc_ObjFanoutNum, hv]) h0
        | cons j rest =>
          obtain ⟨b, hb⟩ := (hfo.1 _ j).1 (by rw [hv]; exact List.mem_cons_self _ _)
          exact ⟨j, b, hb⟩
      · intro _
        rw [(k.typ _ hlt).trans c2]
        exact fun e => Abc_ObjType.noConfusion e
  · by_cases h0 : Abc_ObjFanoutNum ntk' (pNtk.vCis.length + pNtk.vCos.length) = 0
    · rw [if_pos h0]
      have hnil : ntk'.vFanouts (pNtk.vCis.length + pNtk.vCos.length) = [] :=
        List.eq_nil_of_length_eq_zero h0
      refine ⟨rfl, rfl, rfl, ?_⟩
      intro j hj
      refine ⟨by simp [Abc_NtkDeleteObj, Function.update_apply, hj], ?_, ?_, rfl⟩
      · simp only [Abc_NtkDeleteObj, if_neg hj]
        apply List.filter_eq_self.2
        intro f hf
        simp only [bne_iff_ne, ne_eq]
        intro e
        have := (hfo.1 (pNtk.vCis.length + pNtk.vCos.length) j).2 ⟨f.2, by rw [← e]; exact hf⟩
        rw [hnil] at this
        cases this
      · simp only [Abc_NtkDeleteObj, if_neg hj]
        apply List.filter_eq_self.2
        intro f hf
        simp only [bne_iff_ne, ne_eq]
        intro e
        exact hout j (e ▸ hf)
    · rw [if_neg h0]
      exact ⟨rfl, rfl, rfl, fun _ _ => ⟨rfl, rfl, rfl, rfl⟩⟩

/-- In the example no object has the constant node among its fanins, and
the removal step removes it. -/
theorem Abc_NtkFromIf_const_removal_witness :
    exMan.net.pConst1 ∉ exMan.net.vPis ∧
    ∃ c ntk'', If_ObjCopy exOut.2.2 exOut.2.2.net.pConst1 = some c ∧
      removeUnusedConst exOut.2.2 exOut.2.1 = .ok ntk'' ∧
      (ntk''.Typ c ≠ .ABC_OBJ_NONE ↔ ∃ j b, (c, b) ∈ exOut.2.1.vFanins j) :=
  ⟨by decide,
    match Abc_NtkFromIf_const_removal 5 exMan exNtk exOut.1 exOut.2.1 exOut.2.2 (by decide) rfl
      with
    | ⟨c, ntk'', h1, _, _, _, _, h2, h3, _⟩ => ⟨c, ntk'', h1, h2, h3⟩⟩

/-- C16 (idempotent post-processing): the removal step of `Abc_NtkFromIf`,
applied to the network it returned, returns this network unchanged. -/
theorem removeUnusedConst_idempotent (p : If_Man) (ntk ntk1 : Abc_Ntk)
    (h : removeUnusedConst p ntk = .ok ntk1) : removeUnusedConst p ntk1 = .ok ntk1 := by
  simp only [removeUnusedConst] at h
  split at h
  · cases h
  · rename_i c hc
    simp only [removeUnusedConst, hc]
    split at h
    · rename_i h0
      simp only [Except.ok.injEq] at h
      subst h
      have e0 : Abc_ObjFanoutNum (Abc_NtkDeleteObj ntk c) c = 0 := by
        simp [Abc_ObjFanoutNum, Abc_NtkDeleteObj]
      rw [if_pos e0]
      congr 1
      simp only [Abc_NtkDeleteObj, Function.update_idem]
      congr 1
      · funext j
        split
        · rfl
        · simp [List.filter_filter]
      · funext j
        split
        · rfl
        · simp [List.filter_filter]
    · rename_i h0
      simp only [Except.ok.injEq] at h
      subst h
      rw [if_neg h0]

/-- In the example the removal step removes the constant node, and a second
application returns the same network. -/
theorem removeUnusedConst_idempotent_witness :
    removeUnusedConst exOut.2.2 exOut.2.1
      = .ok (constResult (removeUnusedConst exOut.2.2 exOut.2.1)) ∧
    (constResult (removeUnusedConst exOut.2.2 exOut.2.1)).Typ 6 = .ABC_OBJ_NONE ∧
    removeUnusedConst exOut.2.2 (constResult (removeUnusedConst exOut.2.2 exOut.2.1))
      = .ok (constResult (removeUnusedConst exOut.2.2 exOut.2.1)) :=
  ⟨rfl, rfl, removeUnusedConst_idempotent exOut.2.2 exOut.2.1 _ rfl⟩


/-! ## The state in which a fault occurs -/

theorem Abc_NodeIfToHop_rec_at_eq (fuel : Nat) (p : If_Man) (o : Option If_CutRef) :
    (Abc_NodeIfToHop_rec_at fuel p o).mapError Prod.fst = Abc_NodeIfToHop_rec fuel p o := by
  induction fuel generalizing p o with
  | zero => rfl
  | succ fuel ih =>
    cases o with
    | none => rfl
    | some c =>
      simp only [Abc_NodeIfToHop_rec_at, Abc_NodeIfToHop_rec]
      cases hd : If_CutData p c with
      | some g => rfl
      | none =>
        simp only []
        rw [← ih p (p.cut c).pOne]
        cases h0 : Abc_NodeIfToHop_rec_at fuel p (p.cut c).pOne with
        | error e => rfl
        | ok r0 =>
          obtain ⟨g0, p1⟩ := r0
          simp only [Except.mapError]
          rw [← ih p1 (p1.cut c).pTwo]
          cases h1 : Abc_NodeIfToHop_rec_at fuel p1 (p1.cut c).pTwo with
          | error e => rfl
          | ok r1 =>
            obtain ⟨g1, p2⟩ := r1
            simp only [Except.mapError]
            cases If_CutData p2 c <;> rfl

theorem Abc_NodeIfToHop_at_eq (fuel : Nat) (p : If_Man) (c : If_CutRef) :
    (Abc_NodeIfToHop_at fuel p c).mapError Prod.fst = Abc_NodeIfToHop fuel p c := by
  simp only [Abc_NodeIfToHop_at, Abc_NodeIfToHop]
  split
  · rw [← Abc_NodeIfToHop_rec_at_eq]
    cases Abc_NodeIfToHop_rec_at fuel _ (some c) with
    | error e => rfl
    | ok r => rfl
  · rfl

theorem Abc_NodeIfToHop2_rec_at_eq (fuel : Nat) (p : If_Man) (o : Option Nat) :
    (Abc_NodeIfToHop2_rec_at fuel p o).mapError Prod.fst = Abc_NodeIfToHop2_rec fuel p o := by
  induction fuel generalizing p o with
  | zero => rfl
  | succ fuel ih =>
    cases o with
    | none => rfl
    | some n =>
      simp only [Abc_NodeIfToHop2_rec_at, Abc_NodeIfToHop2_rec]
      cases hd : If_CutData p (If_ObjCutTriv n) with
      | some g => rfl
      | none =>
        simp only []
        rw [← ih p (p.net.pFanin0 n)]
        cases h0 : Abc_NodeIfToHop2_rec_at fuel p (p.net.pFanin0 n) with
        | error e => rfl
        | ok r0 =>
          obtain ⟨g0, p1⟩ := r0
          simp only [Except.mapError]
          rw [← ih p1 (p1.net.pFanin1 n)]
          cases h1 : Abc_NodeIfToHop2_rec_at fuel p1 (p1.net.pFanin1 n) with
          | error e => rfl
          | ok r1 =>
            obtain ⟨g1, p2⟩ := r1
            simp only [Except.mapError]
            cases If_CutData p2 (If_ObjCutTriv n) <;> rfl

theorem Abc_NodeIfToHop2_at_eq (fuel : Nat) (p : If_Man) (n : Nat) :
    (Abc_NodeIfToHop2_at fuel p n).mapError Prod.fst = Abc_NodeIfToHop2 fuel p n := by
  simp only [Abc_NodeIfToHop2_at, Abc_NodeIfToHop2]
  split
  · rw [← Abc_NodeIfToHop2_rec_at_eq]
    cases Abc_NodeIfToHop2_rec_at fuel _ (some n) with
    | error e => rfl
    | ok r => rfl
  · rfl

theorem leafLoop_at_eq
    (recur_at : Abc_Ntk → If_Man → Option Nat →
      Except (Fault × Abc_Ntk × If_Man) (Nat × Abc_Ntk × If_Man))
    (recur : Abc_Ntk → If_Man → Option Nat → Except Fault (Nat × Abc_Ntk × If_Man))
    (hrec : ∀ ntk p o, (recur_at ntk p o).mapError Prod.fst = recur ntk p o)
    (new : Nat) (leaves : List Nat) (ntk : Abc_Ntk) (p : If_Man) :
    (leafLoop_at recur_at new leaves ntk p).mapError Prod.fst
      = leafLoop recur new leaves ntk p := by
  induction leaves generalizing ntk p with
  | nil => rfl
  | cons l rest ih =>
    simp only [leafLoop_at, leafLoop]
    rw [← hrec ntk p (some l)]
    cases recur_at ntk p (some l) with
    | error e => rfl
    | ok r =>
      obtain ⟨c, ntk1, p1⟩ := r
      simp only [Except.mapError]
      exact ih _ _

theorem Abc_NodeFromIf_rec_at_eq (fuel : Nat) (ntk : Abc_Ntk) (p : If_Man) (o : Option Nat) :
    (Abc_NodeFromIf_rec_at fuel ntk p o).mapError Prod.fst = Abc_NodeFromIf_rec fuel ntk p o := by
  induction fuel generalizing ntk p o with
  | zero => rfl
  | succ fuel ih =>
    cases o with
    | none => rfl
    | some n =>
      simp only [Abc_NodeFromIf_rec_at, Abc_NodeFromIf_rec]
      cases hd : If_ObjCopy p n with
      | some c => rfl
      | none =>
        simp only []
        split
        · rw [← leafLoop_at_eq (Abc_NodeFromIf_rec_at fuel) (Abc_NodeFromIf_rec fuel) ih]
          cases leafLoop_at (Abc_NodeFromIf_rec_at fuel) ntk.nObjs
              (p.cut (If_ObjCutBest p n)).pLeaves (Abc_NtkCreateNode ntk) p with
          | error e => rfl
          | ok r =>
            obtain ⟨ntk2, p2⟩ := r
            simp only [Except.mapError]
            rw [← Abc_NodeIfToHop2_at_eq]
            cases Abc_NodeIfToHop2_at fuel p2 n with
            | error e => rfl
            | ok r => rfl
        · rfl

/-! ## The states of the reconstruction -/

theorem ReconPoint.keeps {p0 q : If_Man} (h : ReconPoint p0 q) :
    q.net = p0.net ∧ (∀ m c, p0.pCopy m = some c → q.pCopy m = some c) ∧
      (LeavesClosed p0 → LeavesClosed q) := by
  induction h with
  | start => exact ⟨rfl, fun _ _ h => h, fun h => h⟩
  | call fuel ntk o c ntk' p' _ hcall ih =>
    cases o with
    | none => exact absurd hcall (Abc_NodeFromIf_rec_none _ _ _ _)
    | some n =>
      obtain ⟨k, _⟩ := Abc_NodeFromIf_rec_keeps fuel ntk _ n c ntk' p' hcall
      exact ⟨k.net.trans ih.1, fun m c hm => k.mono m c (ih.2.1 m c hm),
        fun hc => k.closed (ih.2.2 hc)⟩
  | scratch q _ hnet hcopy ih =>
    refine ⟨hnet.trans ih.1, fun m c hm => by rw [hcopy]; exact ih.2.1 m c hm, ?_⟩
    intro hc m hm hs l hl
    have := ih.2.2 hc m (by rw [← hnet]; exact hm) (by rw [← hcopy]; exact hs) l
      (by simpa [If_Man.bestLeaves, If_Man.cut, If_ObjCutBest, hnet] using hl)
    rw [hcopy]; exact this

theorem coLoop_point (fuel : Nat) (src : Abc_Ntk) (cos : List Nat) (i : Nat) (ntk : Abc_Ntk)
    (p : If_Man) (ntk' : Abc_Ntk) (p' : If_Man) (p0 : If_Man) (hp : ReconPoint p0 p)
    (h : coLoop fuel src cos i ntk p = .ok (ntk', p')) : ReconPoint p0 p' := by
  induction cos generalizing i ntk p with
  | nil =>
    simp only [coLoop, Except.ok.injEq, Prod.mk.injEq] at h
    obtain ⟨_, rfl⟩ := h
    exact hp
  | cons x rest ih =>
    simp only [coLoop] at h
    split at h
    · cases h
    · split at h
      · cases h
      · rename_i c ntk1 p1 hr
        split at h
        · cases h
        · exact ih _ _ _ (ReconPoint.call fuel ntk _ c ntk1 p1 hp hr) h

theorem setPiCopies_mapped (src : Abc_Ntk) (cis : List Nat) (i : Nat) (p p' : If_Man)
    (h : setPiCopies src cis i p = .ok p') (hsrc : ∀ ci, ci ∈ cis → src.pCopy ci ≠ none) :
    (∀ m, p.pCopy m ≠ none → p'.pCopy m ≠ none) ∧
    ∀ (k pi : Nat), i ≤ k → k < i + cis.length → p.net.vPis[k]? = some pi →
      p'.pCopy pi ≠ none := by
  induction cis generalizing i p with
  | nil =>
    simp only [setPiCopies, Except.ok.injEq] at h
    subst h
    exact ⟨fun _ h => h, fun k pi h1 h2 => by simp at h2; omega⟩
  | cons ci rest ih =>
    simp only [setPiCopies] at h
    split at h
    · cases h
    · rename_i pi0 hpi0
      obtain ⟨a, b⟩ := ih (i + 1) _ h (fun x hx => hsrc x (List.mem_cons_of_mem _ hx))
      have hset : ∀ m, p.pCopy m ≠ none →
          (If_ObjSetCopy p pi0 (src.pCopy ci)).pCopy m ≠ none := by
        intro m hm
        rw [If_ObjSetCopy_pCopy]
        split
        · exact hsrc ci (List.mem_cons_self _ _)
        · exact hm
      refine ⟨fun m hm => a m (hset m hm), ?_⟩
      intro k pi h1 h2 hk
      by_cases hki : k = i
      · subst hki
        rw [hpi0] at hk
        cases hk
        apply a
        rw [If_ObjSetCopy_pCopy, if_pos rfl]
        exact hsrc ci (List.mem_cons_self _ _)
      · exact b k pi (by omega) (by simp at h2; omega) (by simpa using hk)

/-- The constant and the inputs of the mapper have correspondents when the
output loop of `Abc_NtkFromIf` starts, when the mapper has no more inputs
than the source network. -/
theorem Abc_NtkFromIf_start_mapped (pIfMan : If_Man) (pNtk src0 ntk0 : Abc_Ntk) (p0 : If_Man)
    (h : Abc_NtkFromIf_start pIfMan pNtk = .ok (src0, ntk0, p0))
    (hpis : pIfMan.net.vPis.length ≤ pNtk.vCis.length) :
    p0.pCopy pIfMan.net.pConst1 ≠ none ∧ ∀ pi, pi ∈ pIfMan.net.vPis → p0.pCopy pi ≠ none := by
  obtain ⟨s1, s2, s3, s4, s5, s6, s7, s8⟩ := Abc_NtkStartFrom_spec pNtk
  simp only [Abc_NtkFromIf_start] at h
  split at h
  · cases h
  · rename_i p3 hp3
    simp only [Except.ok.injEq, Prod.mk.injEq] at h
    obtain ⟨rfl, rfl, rfl⟩ := h
    obtain ⟨a, b⟩ := setPiCopies_mapped _ _ _ _ _ hp3 (fun ci hci => by
      rw [s4] at hci
      obtain ⟨c, hc, _⟩ := s6 ci hci
      rw [hc]; exact fun e => Option.noConfusion e)
    refine ⟨a _ (by simp [If_ObjSetCopy_pCopy, If_ManCleanCutData, If_ManCleanNodeCopy]), ?_⟩
    intro pi hpi
    obtain ⟨k, hk⟩ := List.mem_iff_getElem?.1 hpi
    have hklt : k < pIfMan.net.vPis.length := by
      by_contra hge
      rw [List.getElem?_eq_none (by omega)] at hk
      cases hk
    exact b k pi (Nat.zero_le _) (by rw [s4]; omega) hk

/-! ## Rejection of objects that are not AND objects -/

/-- C13 (reconstruction rejects non-AND nodes): on a mapper object without a
recorded correspondent whose type is not AND, `Abc_NodeFromIf_rec` fails with
a failed assertion in the state in which it was called, the new network and
the correspondence as they were. When the output loop of `Abc_NtkFromIf`
starts, for a mapper with no more inputs than the source network, the
constant and the inputs have correspondents, and they keep them in every
state the reconstruction goes through; so the object of a call that fails in
this way is neither the constant, nor an input, nor an AND object. -/
theorem Abc_NodeFromIf_rec_rejects (pIfMan : If_Man) (pNtk src ntk0 : Abc_Ntk) (p0 : If_Man)
    (hstart : Abc_NtkFromIf_start pIfMan pNtk = .ok (src, ntk0, p0))
    (hpis : pIfMan.net.vPis.length ≤ pNtk.vCis.length) :
    (∀ fuel ntk p n, If_ObjCopy p n = none → p.net.Typ n ≠ .IF_AND →
      Abc_NodeFromIf_rec_at (fuel + 1) ntk p (some n) = .error (.assertion, ntk, p) ∧
      Abc_NodeFromIf_rec (fuel + 1) ntk p (some n) = .error .assertion) ∧
    (∀ q, ReconPoint p0 q → If_ObjCopy q pIfMan.net.pConst1 ≠ none ∧
      ∀ pi, pi ∈ pIfMan.net.vPis → If_ObjCopy q pi ≠ none) ∧
    (∀ q fuel ntk n, ReconPoint p0 q → If_ObjCopy q n = none → q.net.Typ n ≠ .IF_AND →
      Abc_NodeFromIf_rec_at (fuel + 1) ntk q (some n) = .error (.assertion, ntk, q) ∧
      n ≠ pIfMan.net.pConst1 ∧ n ∉ pIfMan.net.vPis ∧ pIfMan.net.Typ n ≠ .IF_AND) := by
  have rej : ∀ fuel ntk p n, If_ObjCopy p n = none → p.net.Typ n ≠ .IF_AND →
      Abc_NodeFromIf_rec_at (fuel + 1) ntk p (some n) = .error (.assertion, ntk, p) ∧
      Abc_NodeFromIf_rec (fuel + 1) ntk p (some n) = .error .assertion := by
    intro fuel ntk p n hc ht
    constructor
    · simp only [Abc_NodeFromIf_rec_at, hc, if_neg ht]
    · simp only [Abc_NodeFromIf_rec, hc, if_neg ht]
  obtain ⟨m1, m2⟩ := Abc_NtkFromIf_start_mapped pIfMan pNtk src ntk0 p0 hstart hpis
  obtain ⟨_, _, _, _, hnet0, _, _⟩ := Abc_NtkFromIf_start_spec pIfMan pNtk src ntk0 p0 hstart
  have stay : ∀ q, ReconPoint p0 q → ∀ m, p0.pCopy m ≠ none → q.pCopy m ≠ none := by
    intro q hq m hm
    cases hc : p0.pCopy m with
    | none => exact absurd hc hm
    | some c =>
      rw [hq.keeps.2.1 m c hc]
      exact fun e => Option.noConfusion e
  refine ⟨rej, fun q hq => ⟨stay q hq _ m1, fun pi hpi => stay q hq pi (m2 pi hpi)⟩, ?_⟩
  intro q fuel ntk n hq hc ht
  refine ⟨(rej fuel ntk q n hc ht).1, ?_, ?_, ?_⟩
  · intro e
    exact stay q hq _ m1 (e ▸ hc)
  · intro e
    exact stay q hq n (m2 n e) hc
  · rw [← hnet0, ← hq.keeps.1]
    exact ht

/-- In the example, when the output loop starts, the mapper object `8`, an
output, has no correspondent, and a call of `Abc_NodeFromIf_rec` on it fails
in the state in which it was called. -/
theorem Abc_NodeFromIf_rec_rejects_witness :
    Abc_NtkFromIf_start exMan exNtk = .ok ((Abc_NtkStartFrom exNtk).1, exNew0, exMan0) ∧
    exMan.net.vPis.length ≤ exNtk.vCis.length ∧
    If_ObjCopy exMan0 8 = none ∧ exMan0.net.Typ 8 ≠ .IF_AND ∧
    Abc_NodeFromIf_rec 1 exNew0 exMan0 (some 8) = .error .assertion :=
  ⟨rfl, by decide, rfl, by decide,
    ((Abc_NodeFromIf_rec_rejects exMan exNtk (Abc_NtkStartFrom exNtk).1 exNew0 exMan0 rfl
      (by decide)).1 0 exNew0 exMan0 8 rfl (by decide)).2⟩


/-! ## Descent of the synthesis -/

/-- Below an object that the leaves separate from the inputs, the descent
does not come back to the object. -/
theorem Separates.acyclic {N : If_Net} {leaves : List Nat} {m : Nat}
    (hs : Separates N leaves m) (hm : m ∉ leaves) :
    ¬ Relation.TransGen (FaninEdge N leaves) m m := by
  induction hs with
  | leaf m h => exact absurd h hm
  | node m f0 f1 h0 h1 _ _ ih0 ih1 =>
    intro ht
    obtain ⟨y, ⟨_, hy⟩, hym⟩ := Relation.TransGen.head'_iff.1 ht
    have hyy : Relation.TransGen (FaninEdge N leaves) y y :=
      Relation.TransGen.tail' hym ⟨hm, hy⟩
    have hyl : y ∉ leaves := by
      intro hyl
      rcases Relation.ReflTransGen.cases_head hym with e | ⟨z, ⟨hz, _⟩, _⟩
      · exact hm (e ▸ hyl)
      · exact hz hyl
    rcases hy with hy | hy
    · rw [h0] at hy
      cases hy
      exact ih0 hyl hyy
    · rw [h1] at hy
      cases hy
      exact ih1 hyl hyy

/-- The recursion over nodes returns on an object that the leaves separate
from the inputs, when the first cuts of the leaves are annotated, for every
recursion depth from some depth on; the cuts it annotates are the first cuts
of objects that the descent reaches from the object, that are not leaves and
have two fanins. -/
theorem Abc_NodeIfToHop2_rec_sep {N : If_Net} {leaves : List Nat} {m : Nat}
    (hs : Separates N leaves m) (p : If_Man) (hN : p.net = N)
    (hl : ∀ l, l ∈ leaves → p.cutData (If_ObjCutTriv l) ≠ none) :
    ∃ K g q vs, (∀ fuel, K ≤ fuel → Abc_NodeIfToHop2_rec fuel p (some m) = .ok (g, q)) ∧
      Extends p q vs ∧
      ∀ c, c ∈ vs → ∃ x, c = If_ObjCutTriv x ∧
        Relation.ReflTransGen (FaninEdge N leaves) m x ∧ x ∉ leaves ∧
        ∃ f0 f1, N.pFanin0 x = some f0 ∧ N.pFanin1 x = some f1 := by
  have hit : ∀ (p : If_Man) (m : Nat) (g : Hop_Obj), p.cutData (If_ObjCutTriv m) = some g →
      ∃ K g q vs, (∀ fuel, K ≤ fuel → Abc_NodeIfToHop2_rec fuel p (some m) = .ok (g, q)) ∧
        Extends p q vs ∧
        ∀ c, c ∈ vs → ∃ x, c = If_ObjCutTriv x ∧
          Relation.ReflTransGen (FaninEdge N leaves) m x ∧ x ∉ leaves ∧
          ∃ f0 f1, N.pFanin0 x = some f0 ∧ N.pFanin1 x = some f1 := by
    intro p m g hd
    refine ⟨1, g, p, [], ?_, Extends.refl p, fun c hc => absurd hc (List.not_mem_nil c)⟩
    intro fuel hf
    obtain ⟨f, rfl⟩ : ∃ f, fuel = f + 1 := ⟨fuel - 1, by omega⟩
    simp [Abc_NodeIfToHop2_rec, If_CutData, hd]
  induction hs generalizing p with
  | leaf m h =>
    cases hd : p.cutData (If_ObjCutTriv m) with
    | none => exact absurd hd (hl m h)
    | some g => exact hit p m g hd
  | node m f0 f1 h0 h1 s0 s1 ih0 ih1 =>
    cases hd : p.cutData (If_ObjCutTriv m) with
    | some g => exact hit p m g hd
    | none =>
      have hm : m ∉ leaves := fun h => hl m h hd
      obtain ⟨K0, g0, p1, vs0, r0, e0, w0⟩ := ih0 p hN hl
      have hl1 : ∀ l, l ∈ leaves → p1.cutData (If_ObjCutTriv l) ≠ none := by
        intro l hll
        cases hc : p.cutData (If_ObjCutTriv l) with
        | none => exact absurd hc (hl l hll)
        | some g => rw [e0.mono hc]; exact fun e => Option.noConfusion e
      have hN1 : p1.net = N := e0.1.trans hN
      obtain ⟨K1, g1, p2, vs1, r1, e1, w1⟩ := ih1 p1 hN1 hl1
      have hN2 : p2.net = N := e1.1.trans hN1
      have hacyc := (Separates.node m f0 f1 h0 h1 s0 s1).acyclic hm
      have hn2 : p2.cutData (If_ObjCutTriv m) = none := by
        by_contra hne
        rcases (e0.trans e1).written hne with h | h
        · exact h hd
        · rcases List.mem_append.1 h with h | h
          · obtain ⟨x, hx, hr, _⟩ := w0 _ h
            simp only [If_ObjCutTriv, Prod.mk.injEq, and_true] at hx
            subst hx
            exact hacyc (Relation.TransGen.head' ⟨hm, Or.inl h0⟩ hr)
          · obtain ⟨x, hx, hr, _⟩ := w1 _ h
            simp only [If_ObjCutTriv, Prod.mk.injEq, and_true] at hx
            subst hx
            exact hacyc (Relation.TransGen.head' ⟨hm, Or.inr h1⟩ hr)
      refine ⟨max K0 K1 + 1, Hop_NotCond (Hop_And (Hop_NotCond g0 (N.fCompl0 m))
          (Hop_NotCond g1 (N.fCompl1 m))) (N.Cuts m 0).Phase,
        Vec_PtrPush (If_CutSetData p2 (If_ObjCutTriv m)
        (some (Hop_NotCond (Hop_And (Hop_NotCond g0 (N.fCompl0 m))
          (Hop_NotCond g1 (N.fCompl1 m))) (N.Cuts m 0).Phase)))
        (If_ObjCutTriv m), (vs0 ++ vs1) ++ [If_ObjCutTriv m], ?_,
        (e0.trans e1).trans (Extends.push p2 _ _ hn2), ?_⟩
      · intro fuel hf
        obtain ⟨f, rfl⟩ : ∃ f, fuel = f + 1 := ⟨fuel - 1, by omega⟩
        have hf0 : K0 ≤ f := by omega
        have hf1 : K1 ≤ f := by omega
        have hd' : p.cutData (m, 0) = none := hd
        have hn2' : p2.cutData (m, 0) = none := hn2
        simp only [Abc_NodeIfToHop2_rec, If_CutData, hd', hN, h0, r0 f hf0, hN1, h1, r1 f hf1,
          hn2', hN2, If_Man.cut, If_ObjCutTriv]
      · intro c hc
        rcases List.mem_append.1 hc with hc | hc
        · rcases List.mem_append.1 hc with hc | hc
          · obtain ⟨x, hx, hr, rest⟩ := w0 c hc
            exact ⟨x, hx, Relation.ReflTransGen.head ⟨hm, Or.inl h0⟩ hr, rest⟩
          · obtain ⟨x, hx, hr, rest⟩ := w1 c hc
            exact ⟨x, hx, Relation.ReflTransGen.head ⟨hm, Or.inr h1⟩ hr, rest⟩
        · rw [List.mem_singleton.1 hc]
          exact ⟨m, rfl, Relation.ReflTransGen.refl, hm, f0, f1, h0, h1⟩

/-- Below a cut whose decomposition tree ends at the leaves, the descent does
not come back to the cut. -/
theorem SeparatesCut.acyclic_cut {N : If_Net} {leaves : List Nat} {c : If_CutRef}
    (hs : SeparatesCut N leaves c) (hc : c ∉ leaves.map If_ObjCutTriv) :
    ¬ Relation.TransGen (CutEdge N leaves) c c := by
  induction hs with
  | leaf l h => exact absurd (List.mem_map_of_mem _ h) hc
  | node c c0 c1 h0 h1 _ _ ih0 ih1 =>
    intro ht
    obtain ⟨y, ⟨_, hy⟩, hym⟩ := Relation.TransGen.head'_iff.1 ht
    have hyy : Relation.TransGen (CutEdge N leaves) y y :=
      Relation.TransGen.tail' hym ⟨hc, hy⟩
    have hyl : y ∉ leaves.map If_ObjCutTriv := by
      intro hyl
      rcases Relation.ReflTransGen.cases_head hym with e | ⟨z, ⟨hz, _⟩, _⟩
      · exact hc (e ▸ hyl)
      · exact hz hyl
    rcases hy with hy | hy
    · rw [h0] at hy
      cases hy
      exact ih0 hyl hyy
    · rw [h1] at hy
      cases hy
      exact ih1 hyl hyy

/-- The recursion over cuts returns on a cut whose decomposition tree ends at
the leaves, when the first cuts of the leaves are annotated, for every
recursion depth from some depth on; the cuts it annotates are cuts that the
descent reaches from the cut, that are not first cuts of leaves and have two
children. -/
theorem Abc_NodeIfToHop_rec_sep {N : If_Net} {leaves : List Nat} {c : If_CutRef}
    (hs : SeparatesCut N leaves c) (p : If_Man) (hN : p.net = N)
    (hl : ∀ l, l ∈ leaves → p.cutData (If_ObjCutTriv l) ≠ none) :
    ∃ K g q vs, (∀ fuel, K ≤ fuel → Abc_NodeIfToHop_rec fuel p (some c) = .ok (g, q)) ∧
      Extends p q vs ∧
      ∀ x, x ∈ vs → Relation.ReflTransGen (CutEdge N leaves) c x ∧
        x ∉ leaves.map If_ObjCutTriv ∧
        ∃ c0 c1, (N.Cuts x.1 x.2).pOne = some c0 ∧ (N.Cuts x.1 x.2).pTwo = some c1 := by
  have hit : ∀ (p : If_Man) (c : If_CutRef) (g : Hop_Obj), p.cutData c = some g →
      ∃ K g q vs, (∀ fuel, K ≤ fuel → Abc_NodeIfToHop_rec fuel p (some c) = .ok (g, q)) ∧
        Extends p q vs ∧
        ∀ x, x ∈ vs → Relation.ReflTransGen (CutEdge N leaves) c x ∧
          x ∉ leaves.map If_ObjCutTriv ∧
          ∃ c0 c1, (N.Cuts x.1 x.2).pOne = some c0 ∧ (N.Cuts x.1 x.2).pTwo = some c1 := by
    intro p c g hd
    refine ⟨1, g, p, [], ?_, Extends.refl p, fun x hx => absurd hx (List.not_mem_nil x)⟩
    intro fuel hf
    obtain ⟨f, rfl⟩ : ∃ f, fuel = f + 1 := ⟨fuel - 1, by omega⟩
    simp [Abc_NodeIfToHop_rec, If_CutData, hd]
  induction hs generalizing p with
  | leaf l h =>
    cases hd : p.cutData (If_ObjCutTriv l) with
    | none => exact absurd hd (hl l h)
    | some g => exact hit p _ g hd
  | node c c0 c1 h0 h1 s0 s1 ih0 ih1 =>
    cases hd : p.cutData c with
    | some g => exact hit p c g hd
    | none =>
      have hc : c ∉ leaves.map If_ObjCutTriv := by
        intro h
        obtain ⟨l, hll, e⟩ := List.mem_map.1 h
        exact hl l hll (e ▸ hd)
      obtain ⟨K0, g0, p1, vs0, r0, e0, w0⟩ := ih0 p hN hl
      have hl1 : ∀ l, l ∈ leaves → p1.cutData (If_ObjCutTriv l) ≠ none := by
        intro l hll
        cases hc : p.cutData (If_ObjCutTriv l) with
        | none => exact absurd hc (hl l hll)
        | some g => rw [e0.mono hc]; exact fun e => Option.noConfusion e
      have hN1 : p1.net = N := e0.1.trans hN
      obtain ⟨K1, g1, p2, vs1, r1, e1, w1⟩ := ih1 p1 hN1 hl1
      have hN2 : p2.net = N := e1.1.trans hN1
      have hacyc := (SeparatesCut.node c c0 c1 h0 h1 s0 s1).acyclic_cut hc
      have hn2 : p2.cutData c = none := by
        by_contra hne
        rcases (e0.trans e1).written hne with h | h
        · exact h hd
        · rcases List.mem_append.1 h with h | h
          · exact hacyc (Relation.TransGen.head' ⟨hc, Or.inl h0⟩ (w0 _ h).1)
          · exact hacyc (Relation.TransGen.head' ⟨hc, Or.inr h1⟩ (w1 _ h).1)
      refine ⟨max K0 K1 + 1, Hop_NotCond (Hop_And (Hop_NotCond g0 (N.Cuts c.1 c.2).fCompl0)
          (Hop_NotCond g1 (N.Cuts c.1 c.2).fCompl1)) (N.Cuts c.1 c.2).Phase,
        Vec_PtrPush (If_CutSetData p2 c
        (some (Hop_NotCond (Hop_And (Hop_NotCond g0 (N.Cuts c.1 c.2).fCompl0)
          (Hop_NotCond g1 (N.Cuts c.1 c.2).fCompl1)) (N.Cuts c.1 c.2).Phase))) c,
        (vs0 ++ vs1) ++ [c], ?_,
        (e0.trans e1).trans (Extends.push p2 _ _ hn2), ?_⟩
      · intro fuel hf
        obtain ⟨f, rfl⟩ : ∃ f, fuel = f + 1 := ⟨fuel - 1, by omega⟩
        have hf0 : K0 ≤ f := by omega
        have hf1 : K1 ≤ f := by omega
        simp only [Abc_NodeIfToHop_rec, If_CutData, hd, hN, h0, r0 f hf0, hN1, h1, r1 f hf1,
          hn2, hN2, If_Man.cut]
      · intro x hx
        rcases List.mem_append.1 hx with hx | hx
        · rcases List.mem_append.1 hx with hx | hx
          · obtain ⟨hr, rest⟩ := w0 x hx
            exact ⟨Relation.ReflTransGen.head ⟨hc, Or.inl h0⟩ hr, rest⟩
          · obtain ⟨hr, rest⟩ := w1 x hx
            exact ⟨Relation.ReflTransGen.head ⟨hc, Or.inr h1⟩ hr, rest⟩
        · rw [List.mem_singleton.1 hx]
          exact ⟨Relation.ReflTransGen.refl, hc, c0, c1, h0, h1⟩

theorem Except.ok_of_mapError {ε ε' α : Type} (f : ε → ε') (x : Except ε α) (r : α)
    (h : x.mapError f = .ok r) : x = .ok r := by
  cases x with
  | error e => cases h
  | ok a => simpa [Except.mapError] using h

/-- A pass of `Abc_NodeIfToHop2` returns on an object whose best cut has at
least two leaves that separate the object from the inputs. -/
theorem Abc_NodeIfToHop2_returns (p : If_Man) (n : Nat) (hk : 2 ≤ (p.bestLeaves n).length)
    (hs : Separates p.net (p.bestLeaves n) n) :
    ∃ K g q, ∀ fuel, K ≤ fuel → Abc_NodeIfToHop2 fuel p n = .ok (g, q) := by
  obtain ⟨K, g, q, vs, r, e, _⟩ := Abc_NodeIfToHop2_rec_sep hs
    (Vec_PtrClear (setLeafVars p (p.bestLeaves n) 0)) (by simp)
    (fun l hl => by
      obtain ⟨j, _, hj⟩ := setLeafVars_cutData_of_mem p (p.bestLeaves n) 0 l hl
      rw [Vec_PtrClear_cutData, hj]
      exact fun e => Option.noConfusion e)
  refine ⟨K, g, cleanCuts (cleanLeaves q (q.cut (If_ObjCutBest p n)).pLeaves)
    (cleanLeaves q (q.cut (If_ObjCutBest p n)).pLeaves).vTemp, fun fuel hf => ?_⟩
  have hk' : (p.cut (If_ObjCutBest p n)).pLeaves.length > 1 := hk
  have r' := r fuel hf
  simp only [If_Man.bestLeaves] at r'
  simp only [Abc_NodeIfToHop2, hk', if_true, r']

/-- A pass of `Abc_NodeIfToHop` returns on a cut with at least two leaves
whose decomposition tree ends at the leaves. -/
theorem Abc_NodeIfToHop_returns (p : If_Man) (c : If_CutRef)
    (hk : 2 ≤ (p.cut c).pLeaves.length) (hs : SeparatesCut p.net (p.cut c).pLeaves c) :
    ∃ K g q, ∀ fuel, K ≤ fuel → Abc_NodeIfToHop fuel p c = .ok (g, q) := by
  obtain ⟨K, g, q, vs, r, e, _⟩ := Abc_NodeIfToHop_rec_sep hs
    (Vec_PtrClear (setLeafVars p (p.cut c).pLeaves 0)) (by simp)
    (fun l hl => by
      obtain ⟨j, _, hj⟩ := setLeafVars_cutData_of_mem p (p.cut c).pLeaves 0 l hl
      rw [Vec_PtrClear_cutData, hj]
      exact fun e => Option.noConfusion e)
  refine ⟨K, g, cleanCuts (cleanLeaves q (q.cut c).pLeaves)
    (cleanLeaves q (q.cut c).pLeaves).vTemp, fun fuel hf => ?_⟩
  have hk' : (p.cut c).pLeaves.length > 1 := hk
  simp only [Abc_NodeIfToHop, hk', if_true, r fuel hf]

/-! ## Rejection of degenerate cuts -/

/-- C14 (synthesis rejects degenerate cuts): when the leaves of the best cut
separate the object from the inputs, `Abc_NodeIfToHop2` fails, for every
recursion depth from some depth on, exactly when the best cut has fewer than
two leaves; it then fails with a failed assertion in the state in which it
was called, the scratch annotations and the array `vTemp` as they were. The
same holds for `Abc_NodeIfToHop` on a cut whose decomposition tree ends at
its leaves. -/
theorem synthesis_rejects_degenerate (p : If_Man) (n : Nat) (c : If_CutRef) :
    (Separates p.net (p.bestLeaves n) n →
      ((∃ K, ∀ fuel, K ≤ fuel → ∃ e, Abc_NodeIfToHop2_at fuel p n = .error e) ↔
        (p.bestLeaves n).length < 2)) ∧
    ((p.bestLeaves n).length < 2 →
      ∀ fuel, Abc_NodeIfToHop2_at fuel p n = .error (.assertion, p)) ∧
    (SeparatesCut p.net (p.cut c).pLeaves c →
      ((∃ K, ∀ fuel, K ≤ fuel → ∃ e, Abc_NodeIfToHop_at fuel p c = .error e) ↔
        (p.cut c).pLeaves.length < 2)) ∧
    ((p.cut c).pLeaves.length < 2 →
      ∀ fuel, Abc_NodeIfToHop_at fuel p c = .error (.assertion, p)) := by
  have f2 : (p.bestLeaves n).length < 2 →
      ∀ fuel, Abc_NodeIfToHop2_at fuel p n = .error (.assertion, p) := by
    intro hlt fuel
    have : ¬ (p.cut (If_ObjCutBest p n)).pLeaves.length > 1 := by
      simp only [If_Man.bestLeaves] at hlt
      omega
    simp only [Abc_NodeIfToHop2_at, this, if_false]
  have f1 : (p.cut c).pLeaves.length < 2 →
      ∀ fuel, Abc_NodeIfToHop_at fuel p c = .error (.assertion, p) := by
    intro hlt fuel
    have : ¬ (p.cut c).pLeaves.length > 1 := by omega
    simp only [Abc_NodeIfToHop_at, this, if_false]
  refine ⟨?_, f2, ?_, f1⟩
  · intro hs
    constructor
    · rintro ⟨K, hK⟩
      by_contra hge
      obtain ⟨K', g, q, r⟩ := Abc_NodeIfToHop2_returns p n (by omega) hs
      obtain ⟨e, he⟩ := hK (max K K') (le_max_left _ _)
      have := Except.ok_of_mapError Prod.fst _ _
        ((Abc_NodeIfToHop2_at_eq (max K K') p n).trans (r _ (le_max_right _ _)))
      rw [he] at this
      cases this
    · intro hlt
      exact ⟨0, fun fuel _ => ⟨_, f2 hlt fuel⟩⟩
  · intro hs
    constructor
    · rintro ⟨K, hK⟩
      by_contra hge
      obtain ⟨K', g, q, r⟩ := Abc_NodeIfToHop_returns p c (by omega) hs
      obtain ⟨e, he⟩ := hK (max K K') (le_max_left _ _)
      have := Except.ok_of_mapError Prod.fst _ _
        ((Abc_NodeIfToHop_at_eq (max K K') p c).trans (r _ (le_max_right _ _)))
      rw [he] at this
      cases this
    · intro hlt
      exact ⟨0, fun fuel _ => ⟨_, f1 hlt fuel⟩⟩

/-- In the example the best cut of the object `8` has one leaf, the object
itself, and both functions fail in the state in which they are called. -/
theorem synthesis_rejects_degenerate_witness :
    Separates exMan.net (exMan.bestLeaves 8) 8 ∧ (exMan.bestLeaves 8).length < 2 ∧
    (∃ K, ∀ fuel, K ≤ fuel → ∃ e, Abc_NodeIfToHop2_at fuel exMan 8 = .error e) ∧
    (∀ fuel, Abc_NodeIfToHop_at fuel exMan (8, 0) = .error (.assertion, exMan)) :=
  ⟨Separates.leaf 8 (by decide), by decide,
    ((synthesis_rejects_degenerate exMan 8 (8, 0)).1 (Separates.leaf 8 (by decide))).2
      (by decide),
    (synthesis_rejects_degenerate exMan 8 (8, 0)).2.2.2 (by decide)⟩


/-! ## The memoization write -/

/-- In an acyclic fanin graph the assertion of `Abc_NodeIfToHop2_rec` does not
fail, and the cuts a call annotates are first cuts of objects that are not
above the object of the call. -/
theorem Abc_NodeIfToHop2_rec_ranked {N : If_Net} {rank : Nat → Nat} (hr : FaninsBelow N rank)
    (fuel : Nat) (p : If_Man) (o : Option Nat) (hN : p.net = N) :
    Abc_NodeIfToHop2_rec fuel p o ≠ .error .assertion ∧
    ∀ g q, Abc_NodeIfToHop2_rec fuel p o = .ok (g, q) →
      ∃ m vs, o = some m ∧ Extends p q vs ∧ ∀ c, c ∈ vs → c.2 = 0 ∧ rank c.1 ≤ rank m := by
  induction fuel generalizing p o with
  | zero => simp [Abc_NodeIfToHop2_rec]
  | succ fuel ih =>
    cases o with
    | none => simp [Abc_NodeIfToHop2_rec]
    | some m =>
      simp only [Abc_NodeIfToHop2_rec, If_CutData]
      cases hd : p.cutData (If_ObjCutTriv m) with
      | some g =>
        refine ⟨fun e => Except.noConfusion e, ?_⟩
        intro g' q h
        simp only [Except.ok.injEq, Prod.mk.injEq] at h
        obtain ⟨_, rfl⟩ := h
        exact ⟨m, [], rfl, Extends.refl p, fun c hc => absurd hc (List.not_mem_nil c)⟩
      | none =>
        simp only []
        obtain ⟨a0, b0⟩ := ih p (p.net.pFanin0 m) hN
        cases h0 : Abc_NodeIfToHop2_rec fuel p (p.net.pFanin0 m) with
        | error e =>
          refine ⟨?_, fun g q h => Except.noConfusion h⟩
          intro he
          simp only [Except.error.injEq] at he
          exact a0 (by rw [h0, he])
        | ok r0 =>
          obtain ⟨g0, p1⟩ := r0
          obtain ⟨f0, vs0, hf0, e0, w0⟩ := b0 g0 p1 h0
          have hN1 : p1.net = N := e0.1.trans hN
          simp only []
          obtain ⟨a1, b1⟩ := ih p1 (p1.net.pFanin1 m) hN1
          cases h1 : Abc_NodeIfToHop2_rec fuel p1 (p1.net.pFanin1 m) with
          | error e =>
            refine ⟨?_, fun g q h => Except.noConfusion h⟩
            intro he
            simp only [Except.error.injEq] at he
            exact a1 (by rw [h1, he])
          | ok r1 =>
            obtain ⟨g1, p2⟩ := r1
            obtain ⟨f1, vs1, hf1, e1, w1⟩ := b1 g1 p2 h1
            have hlt0 : rank f0 < rank m := hr m f0 (Or.inl (by rw [← hN]; exact hf0))
            have hlt1 : rank f1 < rank m := hr m f1 (Or.inr (by rw [← hN1]; exact hf1))
            have hn2 : p2.cutData (If_ObjCutTriv m) = none := by
              by_contra hne
              rcases (e0.trans e1).written hne with h | h
              · exact h hd
              · rcases List.mem_append.1 h with h | h
                · have := (w0 _ h).2
                  simp only [If_ObjCutTriv] at this
                  omega
                · have := (w1 _ h).2
                  simp only [If_ObjCutTriv] at this
                  omega
            simp only [hn2]
            refine ⟨fun e => Except.noConfusion e, ?_⟩
            intro g q h
            simp only [Except.ok.injEq, Prod.mk.injEq] at h
            obtain ⟨_, rfl⟩ := h
            refine ⟨m, (vs0 ++ vs1) ++ [If_ObjCutTriv m], rfl,
              (e0.trans e1).trans (Extends.push p2 _ _ hn2), ?_⟩
            intro c hc
            rcases List.mem_append.1 hc with hc | hc
            · rcases List.mem_append.1 hc with hc | hc
              · exact ⟨(w0 c hc).1, by have := (w0 c hc).2; omega⟩
              · exact ⟨(w1 c hc).1, by have := (w1 c hc).2; omega⟩
            · rw [List.mem_singleton.1 hc]
              exact ⟨rfl, le_refl _⟩

/-- When the child pointers of the cuts are acyclic the assertion of
`Abc_NodeIfToHop_rec` does not fail, and the cuts a call annotates are not
above the cut of the call. -/
theorem Abc_NodeIfToHop_rec_ranked {N : If_Net} {rank : If_CutRef → Nat}
    (hr : CutsBelow N rank) (fuel : Nat) (p : If_Man) (o : Option If_CutRef) (hN : p.net = N) :
    Abc_NodeIfToHop_rec fuel p o ≠ .error .assertion ∧
    ∀ g q, Abc_NodeIfToHop_rec fuel p o = .ok (g, q) →
      ∃ c vs, o = some c ∧ Extends p q vs ∧ ∀ x, x ∈ vs → rank x ≤ rank c := by
  induction fuel generalizing p o with
  | zero => simp [Abc_NodeIfToHop_rec]
  | succ fuel ih =>
    cases o with
    | none => simp [Abc_NodeIfToHop_rec]
    | some c =>
      simp only [Abc_NodeIfToHop_rec, If_CutData]
      cases hd : p.cutData c with
      | some g =>
        refine ⟨fun e => Except.noConfusion e, ?_⟩
        intro g' q h
        simp only [Except.ok.injEq, Prod.mk.injEq] at h
        obtain ⟨_, rfl⟩ := h
        exact ⟨c, [], rfl, Extends.refl p, fun x hx => absurd hx (List.not_mem_nil x)⟩
      | none =>
        simp only []
        obtain ⟨a0, b0⟩ := ih p (p.cut c).pOne hN
        cases h0 : Abc_NodeIfToHop_rec fuel p (p.cut c).pOne with
        | error e =>
          refine ⟨?_, fun g q h => Except.noConfusion h⟩
          intro he
          simp only [Except.error.injEq] at he
          exact a0 (by rw [h0, he])
        | ok r0 =>
          obtain ⟨g0, p1⟩ := r0
          obtain ⟨c0, vs0, hc0, e0, w0⟩ := b0 g0 p1 h0
          have hN1 : p1.net = N := e0.1.trans hN
          simp only []
          obtain ⟨a1, b1⟩ := ih p1 (p1.cut c).pTwo hN1
          cases h1 : Abc_NodeIfToHop_rec fuel p1 (p1.cut c).pTwo with
          | error e =>
            refine ⟨?_, fun g q h => Except.noConfusion h⟩
            intro he
            simp only [Except.error.injEq] at he
            exact a1 (by rw [h1, he])
          | ok r1 =>
            obtain ⟨g1, p2⟩ := r1
            obtain ⟨c1, vs1, hc1, e1, w1⟩ := b1 g1 p2 h1
            have hlt0 : rank c0 < rank c :=
              hr c c0 (Or.inl (by simpa [If_Man.cut, hN] using hc0))
            have hlt1 : rank c1 < rank c :=
              hr c c1 (Or.inr (by simpa [If_Man.cut, hN1] using hc1))
            have hn2 : p2.cutData c = none := by
              by_contra hne
              rcases (e0.trans e1).written hne with h | h
              · exact h hd
              · rcases List.mem_append.1 h with h | h
                · have := w0 _ h
                  omega
                · have := w1 _ h
                  omega
            simp only [hn2]
            refine ⟨fun e => Except.noConfusion e, ?_⟩
            intro g q h
            simp only [Except.ok.injEq, Prod.mk.injEq] at h
            obtain ⟨_, rfl⟩ := h
            refine ⟨c, (vs0 ++ vs1) ++ [c], rfl,
              (e0.trans e1).trans (Extends.push p2 _ _ hn2), ?_⟩
            intro x hx
            rcases List.mem_append.1 hx with hx | hx
            · rcases List.mem_append.1 hx with hx | hx
              · have := w0 x hx; omega
              · have := w1 x hx; omega
            · rw [List.mem_singleton.1 hx]

theorem exNet_faninsBelow : FaninsBelow exNet id := by
  intro m f h
  simp only [exNet] at h
  rcases h with h | h <;> split at h <;> simp_all <;> omega

theorem exNet_cutsBelow : CutsBelow exNet (fun c => c.1) := by
  intro c d h
  obtain ⟨a, b⟩ := c
  simp only [exNet] at h
  unfold exCuts at h
  rcases h with h | h <;> split at h <;> simp_all <;> (subst h; simp)

/-- C17 (the memoization write is never a double write): for a mapper with
empty scratch annotations, in a pass of `Abc_NodeIfToHop2` over an acyclic
fanin graph, and in a pass of `Abc_NodeIfToHop` over cuts with acyclic child
pointers, the assertion that the slot is empty when the result is stored
does not fail, at any recursion depth; when the pass returns, the array
`vTemp` it leaves holds every cut at most once, and holds exactly the cuts
that the recursion annotated and that are not first cuts of leaves. -/
theorem synthesis_no_double_write (p : If_Man) (he : AllEmpty p) (rank : Nat → Nat)
    (rankc : If_CutRef → Nat) (n : Nat) (c : If_CutRef) :
    (FaninsBelow p.net rank →
      (∀ fuel, Abc_NodeIfToHop2_rec fuel (Vec_PtrClear (setLeafVars p (p.bestLeaves n) 0))
        (some n) ≠ .error .assertion) ∧
      ∀ fuel g q, Abc_NodeIfToHop2 fuel p n = .ok (g, q) →
        ∃ q3, Abc_NodeIfToHop2_rec fuel (Vec_PtrClear (setLeafVars p (p.bestLeaves n) 0))
            (some n) = .ok (g, q3) ∧
          q.vTemp = q3.vTemp ∧ q.vTemp.Nodup ∧
          ∀ x, x ∈ q.vTemp ↔
            (q3.cutData x ≠ none ∧ x ∉ (p.bestLeaves n).map If_ObjCutTriv)) ∧
    (CutsBelow p.net rankc →
      (∀ fuel, Abc_NodeIfToHop_rec fuel (Vec_PtrClear (setLeafVars p (p.cut c).pLeaves 0))
        (some c) ≠ .error .assertion) ∧
      ∀ fuel g q, Abc_NodeIfToHop fuel p c = .ok (g, q) →
        ∃ q3, Abc_NodeIfToHop_rec fuel (Vec_PtrClear (setLeafVars p (p.cut c).pLeaves 0))
            (some c) = .ok (g, q3) ∧
          q.vTemp = q3.vTemp ∧ q.vTemp.Nodup ∧
          ∀ x, x ∈ q.vTemp ↔
            (q3.cutData x ≠ none ∧ x ∉ (p.cut c).pLeaves.map If_ObjCutTriv)) := by
  have key : ∀ (leaves : List Nat) (q3 : If_Man) (vs : List If_CutRef),
      Extends (Vec_PtrClear (setLeafVars p leaves 0)) q3 vs →
      q3.vTemp = vs ∧ vs.Nodup ∧
        ∀ x, x ∈ vs ↔ (q3.cutData x ≠ none ∧ x ∉ leaves.map If_ObjCutTriv) := by
    intro leaves q3 vs e
    refine ⟨by rw [e.2.2.1]; simp, e.2.2.2.1, ?_⟩
    intro x
    constructor
    · intro hx
      refine ⟨(e.2.2.2.2.2 x hx).2, ?_⟩
      intro hl
      obtain ⟨l, hll, rfl⟩ := List.mem_map.1 hl
      obtain ⟨j, _, hj⟩ := setLeafVars_cutData_of_mem p leaves 0 l hll
      have := (e.2.2.2.2.2 _ hx).1
      rw [Vec_PtrClear_cutData, hj] at this
      cases this
    · rintro ⟨h1, h2⟩
      rcases e.written h1 with h | h
      · exfalso
        apply h
        rw [Vec_PtrClear_cutData, setLeafVars_cutData_of_not_mem, he x]
        intro l hl hc
        exact h2 (List.mem_map.2 ⟨l, hl, hc.symm⟩)
      · exact h
  constructor
  · intro hr
    refine ⟨fun fuel => (Abc_NodeIfToHop2_rec_ranked hr fuel _ _ (by simp)).1, ?_⟩
    intro fuel g q h
    simp only [Abc_NodeIfToHop2] at h
    split at h
    · split at h
      · cases h
      · rename_i g3 p3 h3
        simp only [Except.ok.injEq, Prod.mk.injEq] at h
        obtain ⟨rfl, rfl⟩ := h
        obtain ⟨vs, e⟩ := Abc_NodeIfToHop2_rec_extends _ _ _ _ _ h3
        obtain ⟨k1, k2, k3⟩ := key _ p3 vs e
        refine ⟨p3, h3, by simp, by simp only [cleanCuts_vTemp, cleanLeaves_vTemp]; rw [k1]; exact k2, ?_⟩
        intro x
        simp only [cleanCuts_vTemp, cleanLeaves_vTemp]
        rw [k1]
        exact k3 x
    · cases h
  · intro hr
    refine ⟨fun fuel => (Abc_NodeIfToHop_rec_ranked hr fuel _ _ (by simp)).1, ?_⟩
    intro fuel g q h
    simp only [Abc_NodeIfToHop] at h
    split at h
    · split at h
      · cases h
      · rename_i g3 p3 h3
        simp only [Except.ok.injEq, Prod.mk.injEq] at h
        obtain ⟨rfl, rfl⟩ := h
        obtain ⟨vs, e⟩ := Abc_NodeIfToHop_rec_extends _ _ _ _ _ h3
        obtain ⟨k1, k2, k3⟩ := key _ p3 vs e
        refine ⟨p3, h3, by simp, by simp only [cleanCuts_vTemp, cleanLeaves_vTemp]; rw [k1]; exact k2, ?_⟩
        intro x
        simp only [cleanCuts_vTemp, cleanLeaves_vTemp]
        rw [k1]
        exact k3 x
    · cases h

/-- In the example, the pass of `Abc_NodeIfToHop2` on the object `5`, whose
best cut has the leaves `1, 2, 3`, leaves the first cuts of the objects `4`
and `5` in the array `vTemp`, each once. -/
theorem synthesis_no_double_write_witness :
    AllEmpty exMan ∧ FaninsBelow exMan.net id ∧
    (passState exMan (Abc_NodeIfToHop2 5 exMan 5)).vTemp = [(4, 0), (5, 0)] ∧
    (passState exMan (Abc_NodeIfToHop2 5 exMan 5)).vTemp.Nodup :=
  ⟨fun _ => rfl, exNet_faninsBelow, rfl,
    match ((synthesis_no_double_write exMan (fun _ => rfl) id (fun c => c.1) 5 (5, 1)).1
      exNet_faninsBelow).2 5 _ (passState exMan (Abc_NodeIfToHop2 5 exMan 5)) rfl with
    | ⟨_, _, _, h, _⟩ => h⟩


/-! ## Termination and descent of the synthesis -/

theorem Abc_NodeIfToHop2_rec_mono (fuel : Nat) (p : If_Man) (o : Option Nat)
    (r : Hop_Obj × If_Man) (h : Abc_NodeIfToHop2_rec fuel p o = .ok r) (k : Nat) :
    Abc_NodeIfToHop2_rec (fuel + k) p o = .ok r := by
  induction fuel generalizing p o r with
  | zero => simp [Abc_NodeIfToHop2_rec] at h
  | succ fuel ih =>
    cases o with
    | none => simp [Abc_NodeIfToHop2_rec] at h
    | some m =>
      have e : fuel + 1 + k = (fuel + k) + 1 := by omega
      rw [e]
      simp only [Abc_NodeIfToHop2_rec] at h ⊢
      cases hd : If_CutData p (If_ObjCutTriv m) with
      | some g =>
        simp only [hd] at h ⊢
        exact h
      | none =>
        simp only [hd] at h ⊢
        cases h0 : Abc_NodeIfToHop2_rec fuel p (p.net.pFanin0 m) with
        | error e0 => simp only [h0] at h; cases h
        | ok r0 =>
          obtain ⟨g0, p1⟩ := r0
          simp only [h0] at h
          simp only [ih _ _ _ h0]
          cases h1 : Abc_NodeIfToHop2_rec fuel p1 (p1.net.pFanin1 m) with
          | error e1 => simp only [h1] at h; cases h
          | ok r1 =>
            obtain ⟨g1, p2⟩ := r1
            simp only [h1] at h
            simp only [ih _ _ _ h1]
            exact h

/-- An object from which the descent reaches an object that is not a leaf and
has no first fanin has no function graph over the seeded leaves. -/
theorem Cone.blocked {N : If_Net} {seed : If_CutRef → Option Hop_Obj} {leaves : List Nat}
    (hseed : ∀ x, seed (If_ObjCutTriv x) ≠ none → x ∈ leaves) {n x : Nat}
    (hr : Relation.ReflTransGen (FaninEdge N leaves) n x) (hx : x ∉ leaves)
    (hnone : N.pFanin0 x = none) : ∀ g, ¬ Cone N seed n g := by
  induction hr using Relation.ReflTransGen.head_induction_on with
  | refl =>
    intro g hc
    cases hc with
    | leaf _ _ hs => exact hx (hseed x (by rw [hs]; exact fun e => Option.noConfusion e))
    | node _ f0 f1 g0 g1 _ h0 _ _ _ => rw [hnone] at h0; cases h0
  | @head a b hab _ ih =>
    intro g hc
    cases hc with
    | leaf _ _ hs => exact hab.1 (hseed a (by rw [hs]; exact fun e => Option.noConfusion e))
    | node _ f0 f1 g0 g1 _ h0 h1 c0 c1 =>
      rcases hab.2 with e | e
      · rw [h0] at e
        cases e
        exact ih g0 c0
      · rw [h1] at e
        cases e
        exact ih g1 c1

/-- In an acyclic fanin graph the recursion over nodes, on an object without
a function graph over the annotations found on entry, dereferences a null
fanin pointer, for every recursion depth from some depth on. -/
theorem Abc_NodeIfToHop2_rec_null {N : If_Net} {seed : If_CutRef → Option Hop_Obj}
    {rank : Nat → Nat} (hr : FaninsBelow N rank) (m : Nat) (p : If_Man)
    (hp : MemoInv N seed p) (hno : ¬ ∃ g, Cone N seed m g) :
    ∃ K, ∀ fuel, K ≤ fuel → Abc_NodeIfToHop2_rec fuel p (some m) = .error .nullPointer := by
  generalize hk : rank m = k
  induction k using Nat.strong_induction_on generalizing m p with
  | _ k ih =>
    subst hk
    have hd : p.cutData (If_ObjCutTriv m) = none := by
      cases hd : p.cutData (If_ObjCutTriv m) with
      | none => rfl
      | some h => exact absurd ⟨h, hp.2.1 m h hd⟩ hno
    have hd' : p.cutData (m, 0) = none := hd
    have hs : seed (If_ObjCutTriv m) = none := by
      cases hs : seed (If_ObjCutTriv m) with
      | none => rfl
      | some h => rw [hp.2.2 m h hs] at hd; cases hd
    cases hf0 : N.pFanin0 m with
    | none =>
      refine ⟨2, fun fuel hf => ?_⟩
      obtain ⟨f, rfl⟩ : ∃ f, fuel = f + 2 := ⟨fuel - 2, by omega⟩
      simp only [Abc_NodeIfToHop2_rec, If_CutData, If_ObjCutTriv, hd', hp.1, hf0]
    | some f0 =>
      by_cases hc0 : ∃ g0, Cone N seed f0 g0
      · obtain ⟨g0, c0⟩ := hc0
        obtain ⟨K0, q, vs, r0, i0, e0, _⟩ := Abc_NodeIfToHop2_rec_total c0 p hp
        cases hf1 : N.pFanin1 m with
        | none =>
          refine ⟨K0 + 2, fun fuel hf => ?_⟩
          obtain ⟨f, rfl⟩ : ∃ f, fuel = f + 2 := ⟨fuel - 2, by omega⟩
          simp only [Abc_NodeIfToHop2_rec, If_CutData, If_ObjCutTriv, hd', hp.1, hf0,
            r0 (f + 1) (by omega), i0.1, hf1]
        | some f1 =>
          by_cases hc1 : ∃ g1, Cone N seed f1 g1
          · obtain ⟨g1, c1⟩ := hc1
            exact absurd ⟨_, Cone.node m f0 f1 g0 g1 hs hf0 hf1 c0 c1⟩ hno
          · obtain ⟨K1, r1⟩ := ih (rank f1) (hr m f1 (Or.inr hf1)) f1 q i0 hc1 rfl
            refine ⟨max K0 K1 + 1, fun fuel hf => ?_⟩
            obtain ⟨f, rfl⟩ : ∃ f, fuel = f + 1 := ⟨fuel - 1, by omega⟩
            simp only [Abc_NodeIfToHop2_rec, If_CutData, If_ObjCutTriv, hd', hp.1, hf0,
              r0 f (by omega), i0.1, hf1, r1 f (by omega)]
      · obtain ⟨K0, r0⟩ := ih (rank f0) (hr m f0 (Or.inl hf0)) f0 p hp hc0 rfl
        refine ⟨K0 + 1, fun fuel hf => ?_⟩
        obtain ⟨f, rfl⟩ : ∃ f, fuel = f + 1 := ⟨fuel - 1, by omega⟩
        simp only [Abc_NodeIfToHop2_rec, If_CutData, If_ObjCutTriv, hd', hp.1, hf0,
          r0 f (by omega)]

/-- In the acyclic mapper `exManStale` the object `7` is an AND object, the
fanin path `7, 6, 4, 2` passes through no leaf of the best cut of `7` and
ends at the input `2`, which is not a leaf and has no fanins; the first cut
of the object `4` carries an annotation on entry, and the recursion of
`Abc_NodeIfToHop2_rec` started at `7` returns, as does `Abc_NodeIfToHop2`.
With the annotation removed, the recursion dereferences a null fanin
pointer. -/
theorem Abc_NodeIfToHop2_rec_stale :
    FaninsBelow exManStale.net id ∧ exManStale.net.Typ 7 = .IF_AND ∧
    exManStale.bestLeaves 7 = [3, 1] ∧
    Relation.ReflTransGen (FaninEdge exManStale.net (exManStale.bestLeaves 7)) 7 2 ∧
    2 ∉ exManStale.bestLeaves 7 ∧ exManStale.net.Typ 2 = .IF_CI ∧
    exManStale.net.pFanin0 2 = none ∧ exManStale.net.pFanin1 2 = none ∧
    exManStale.cutData (If_ObjCutTriv 4) ≠ none ∧
    (∃ r, Abc_NodeIfToHop2_rec 5
      (Vec_PtrClear (setLeafVars exManStale (exManStale.bestLeaves 7) 0)) (some 7) = .ok r) ∧
    (∃ r, Abc_NodeIfToHop2 5 exManStale 7 = .ok r) ∧
    Abc_NodeIfToHop2_rec 5
      (Vec_PtrClear (setLeafVars exManGap (exManGap.bestLeaves 7) 0)) (some 7)
        = .error .nullPointer :=
  ⟨fun m f h => exNet_faninsBelow m f h, rfl, rfl,
    Relation.ReflTransGen.head ⟨by decide, Or.inl rfl⟩
      (Relation.ReflTransGen.head ⟨by decide, Or.inl rfl⟩
        (Relation.ReflTransGen.single ⟨by decide, Or.inr rfl⟩)),
    by decide, rfl, rfl, rfl, fun h => Option.noConfusion h, ⟨_, rfl⟩, ⟨_, rfl⟩, rfl⟩

/-- C20, amended (termination and safe descent of the synthesis): for a
mapper whose inputs and constant have no fanins, and an object `n` whose
best-cut leaves are seeded. When the leaves separate `n` from the inputs, the
recursion of `Abc_NodeIfToHop2_rec` started at `n` returns, for every
recursion depth from some depth on, and the objects whose fanin pointers it
follows are reached from `n` by fanin steps through objects that are not
leaves, are not leaves, have two fanins and are neither inputs nor the
constant. When the fanin graph is acyclic, the scratch annotations are empty
before the leaves are seeded, and a fanin path from `n` on which no object is
a leaf reaches an input or a constant that is not a leaf, the recursion
dereferences a null fanin pointer, for every recursion depth from some depth
on, and returns for no recursion depth. -/
theorem Abc_NodeIfToHop2_rec_descent (p : If_Man) (rank : Nat → Nat)
    (hio : ∀ x, p.net.Typ x = .IF_CI ∨ p.net.Typ x = .IF_CONST1 → p.net.pFanin0 x = none)
    (n : Nat) :
    (Separates p.net (p.bestLeaves n) n →
      ∃ K g q vs,
        (∀ fuel, K ≤ fuel → Abc_NodeIfToHop2_rec fuel
          (Vec_PtrClear (setLeafVars p (p.bestLeaves n) 0)) (some n) = .ok (g, q)) ∧
        Extends (Vec_PtrClear (setLeafVars p (p.bestLeaves n) 0)) q vs ∧
        ∀ c, c ∈ vs → ∃ x, c = If_ObjCutTriv x ∧
          Relation.ReflTransGen (FaninEdge p.net (p.bestLeaves n)) n x ∧
          x ∉ p.bestLeaves n ∧
          (∃ f0 f1, p.net.pFanin0 x = some f0 ∧ p.net.pFanin1 x = some f1) ∧
          p.net.Typ x ≠ .IF_CI ∧ p.net.Typ x ≠ .IF_CONST1) ∧
    (FaninsBelow p.net rank → AllEmpty p →
      (∃ x, Relation.ReflTransGen (FaninEdge p.net (p.bestLeaves n)) n x ∧
        x ∉ p.bestLeaves n ∧ (p.net.Typ x = .IF_CI ∨ p.net.Typ x = .IF_CONST1)) →
      (∃ K, ∀ fuel, K ≤ fuel → Abc_NodeIfToHop2_rec fuel
        (Vec_PtrClear (setLeafVars p (p.bestLeaves n) 0)) (some n) = .error .nullPointer) ∧
      ∀ fuel r, Abc_NodeIfToHop2_rec fuel
        (Vec_PtrClear (setLeafVars p (p.bestLeaves n) 0)) (some n) ≠ .ok r) := by
  constructor
  · intro hs
    obtain ⟨K, g, q, vs, r, e, w⟩ := Abc_NodeIfToHop2_rec_sep hs
      (Vec_PtrClear (setLeafVars p (p.bestLeaves n) 0)) (by simp)
      (fun l hl => by
        obtain ⟨j, _, hj⟩ := setLeafVars_cutData_of_mem p (p.bestLeaves n) 0 l hl
        rw [Vec_PtrClear_cutData, hj]
        exact fun e => Option.noConfusion e)
    refine ⟨K, g, q, vs, r, e, ?_⟩
    intro c hc
    obtain ⟨x, hx, hr, hl, f0, f1, h0, h1⟩ := w c hc
    refine ⟨x, hx, hr, hl, ⟨f0, f1, h0, h1⟩, ?_, ?_⟩
    · intro ht
      rw [hio x (Or.inl ht)] at h0
      cases h0
    · intro ht
      rw [hio x (Or.inr ht)] at h0
      cases h0
  · rintro hr he ⟨x, hreach, hx, ht⟩
    have hseed : ∀ y, (setLeafVars p (p.bestLeaves n) 0).cutData (If_ObjCutTriv y) ≠ none →
        y ∈ p.bestLeaves n := by
      intro y hy
      by_contra hn
      exact hy ((setLeafVars_seed p he (p.bestLeaves n) y).2 hn)
    have hno : ¬ ∃ g, Cone p.net (setLeafVars p (p.bestLeaves n) 0).cutData n g :=
      fun ⟨g, hg⟩ => Cone.blocked hseed hreach hx (hio x ht) g hg
    obtain ⟨K, hK⟩ := Abc_NodeIfToHop2_rec_null hr n _ (MemoInv_seeded p (p.bestLeaves n)) hno
    refine ⟨⟨K, hK⟩, ?_⟩
    intro fuel r h
    have h1 := Abc_NodeIfToHop2_rec_mono fuel _ _ r h K
    rw [hK (fuel + K) (Nat.le_add_left _ _)] at h1
    cases h1

/-- In the example with the object `5`, whose best cut has the leaves
`1, 2, 3`, the leaves separate `5` from the inputs and the recursion returns;
with the best cut of the object `6` reduced to the leaf `4` and empty
annotations, the fanin step from `6` to the input `3` passes through no leaf
and the recursion dereferences a null fanin pointer. -/
theorem Abc_NodeIfToHop2_rec_descent_witness :
    (∀ x, exMan.net.Typ x = .IF_CI ∨ exMan.net.Typ x = .IF_CONST1 →
      exMan.net.pFanin0 x = none) ∧
    Separates exMan.net (exMan.bestLeaves 5) 5 ∧
    (∃ K g q, ∀ fuel, K ≤ fuel → Abc_NodeIfToHop2_rec fuel
      (Vec_PtrClear (setLeafVars exMan (exMan.bestLeaves 5) 0)) (some 5) = .ok (g, q)) ∧
    FaninsBelow exManOpen.net id ∧ AllEmpty exManOpen ∧
    Relation.ReflTransGen (FaninEdge exManOpen.net (exManOpen.bestLeaves 6)) 6 3 ∧
    3 ∉ exManOpen.bestLeaves 6 ∧ exManOpen.net.Typ 3 = .IF_CI ∧
    ∃ K, ∀ fuel, K ≤ fuel → Abc_NodeIfToHop2_rec fuel
      (Vec_PtrClear (setLeafVars exManOpen (exManOpen.bestLeaves 6) 0)) (some 6)
        = .error .nullPointer :=
  have hio : ∀ x, exMan.net.Typ x = .IF_CI ∨ exMan.net.Typ x = .IF_CONST1 →
      exMan.net.pFanin0 x = none := by
    intro x hx
    simp only [exMan, exNet] at hx ⊢
    rcases hx with hx | hx <;> split at hx <;> simp_all
  have hs : Separates exMan.net (exMan.bestLeaves 5) 5 :=
    Separates.node 5 4 3 rfl rfl
      (Separates.node 4 1 2 rfl rfl (Separates.leaf 1 (by decide)) (Separates.leaf 2 (by decide)))
      (Separates.leaf 3 (by decide))
  have hfb : FaninsBelow exManOpen.net id := fun m f h => exNet_faninsBelow m f h
  have hpath : Relation.ReflTransGen (FaninEdge exManOpen.net (exManOpen.bestLeaves 6)) 6 3 :=
    Relation.ReflTransGen.single ⟨by decide, Or.inr rfl⟩
  ⟨hio, hs,
    match (Abc_NodeIfToHop2_rec_descent exMan id hio 5).1 hs with
    | ⟨K, g, q, _, h, _⟩ => ⟨K, g, q, h⟩,
    hfb, fun _ => rfl, hpath, by decide, rfl,
    ((Abc_NodeIfToHop2_rec_descent exManOpen id (fun x hx => hio x hx) 6).2 hfb (fun _ => rfl)
      ⟨3, hpath, by decide, Or.inl rfl⟩).1⟩


/-! ## The correspondence during the reconstruction -/

/-- When the output loop of `Abc_NtkFromIf` starts, no AND object has a
correspondent, for a mapper whose constant and inputs are not AND objects. -/
theorem Abc_NtkFromIf_start_fresh (pIfMan : If_Man) (pNtk src0 ntk0 : Abc_Ntk) (p0 : If_Man)
    (h : Abc_NtkFromIf_start pIfMan pNtk = .ok (src0, ntk0, p0))
    (hconst : pIfMan.net.Typ pIfMan.net.pConst1 ≠ .IF_AND)
    (hpis : ∀ pi, pi ∈ pIfMan.net.vPis → pIfMan.net.Typ pi ≠ .IF_AND) :
    ∀ m, pIfMan.net.Typ m = .IF_AND → p0.pCopy m = none := by
  obtain ⟨_, _, _, _, _, _, hcp0⟩ := Abc_NtkFromIf_start_spec pIfMan pNtk src0 ntk0 p0 h
  intro m hm
  cases hc : p0.pCopy m with
  | none => rfl
  | some c =>
    rcases (hcp0 m c hc).2 with e | e
    · exact absurd (e ▸ hm) hconst
    · exact absurd hm (hpis m e)

/-- C18 (leaves-closed correspondence): for a mapper whose constant and
inputs are not AND objects, in every state the reconstruction goes through
from the start of the output loop of `Abc_NtkFromIf`, every AND object with a
recorded correspondent has recorded correspondents for all leaves of its best
cut; a correspondent recorded in such a state is the same in every later
state; the state in which the output loop ends is one of these states. -/
theorem Abc_NtkFromIf_leaves_closed (pIfMan : If_Man) (pNtk src ntk0 : Abc_Ntk) (p0 : If_Man)
    (hstart : Abc_NtkFromIf_start pIfMan pNtk = .ok (src, ntk0, p0))
    (hconst : pIfMan.net.Typ pIfMan.net.pConst1 ≠ .IF_AND)
    (hpis : ∀ pi, pi ∈ pIfMan.net.vPis → pIfMan.net.Typ pi ≠ .IF_AND) :
    (∀ q, ReconPoint p0 q → LeavesClosed q) ∧
    (∀ q q', ReconPoint p0 q → ReconPoint q q' →
      ∀ m c, If_ObjCopy q m = some c → If_ObjCopy q' m = some c) ∧
    (∀ fuel ntk' p', Abc_NtkFromIf_outputs fuel pIfMan pNtk = .ok (src, ntk', p') →
      ReconPoint p0 p') := by
  have hfresh := Abc_NtkFromIf_start_fresh pIfMan pNtk src ntk0 p0 hstart hconst hpis
  obtain ⟨_, _, _, _, hnet0, _, _⟩ := Abc_NtkFromIf_start_spec pIfMan pNtk src ntk0 p0 hstart
  have h0 : LeavesClosed p0 := by
    intro m hm hs
    exact absurd (hfresh m (hnet0 ▸ hm)) hs
  refine ⟨fun q hq => hq.keeps.2.2 h0, fun q q' _ hq' m c hm => hq'.keeps.2.1 m c hm, ?_⟩
  intro fuel ntk' p' h
  simp only [Abc_NtkFromIf_outputs, hstart] at h
  split at h
  · cases h
  · rename_i ntk1 p1 hloop
    simp only [Except.ok.injEq, Prod.mk.injEq] at h
    obtain ⟨_, _, rfl⟩ := h
    exact coLoop_point fuel src src.vCos 0 ntk0 p0 ntk1 p1 p0 ReconPoint.start hloop

/-- In the example, the state in which the output loop ends is leaves-closed. -/
theorem Abc_NtkFromIf_leaves_closed_witness :
    Abc_NtkFromIf_start exMan exNtk = .ok ((Abc_NtkStartFrom exNtk).1, exNew0, exMan0) ∧
    exMan.net.Typ exMan.net.pConst1 ≠ .IF_AND ∧
    (∀ pi, pi ∈ exMan.net.vPis → exMan.net.Typ pi ≠ .IF_AND) ∧
    LeavesClosed exOut.2.2 :=
  ⟨rfl, by decide, by decide,
    match Abc_NtkFromIf_leaves_closed exMan exNtk (Abc_NtkStartFrom exNtk).1 exNew0 exMan0 rfl
      (by decide) (by decide) with
    | ⟨h1, _, h3⟩ => h1 exOut.2.2 (h3 5 exOut.2.1 exOut.2.2 rfl)⟩

/-! ## No detached nodes -/

/-- C19 (no detached nodes): for a mapper whose best-cut-leaf relation is
acyclic, whose constant and inputs are not AND objects and which has no more
outputs than the source network, and a source network with pairwise distinct
outputs, after the output loop of `Abc_NtkFromIf` every node created by the
loop is in the transitive fanin of an output of the new network, and is the
correspondent of exactly one mapper object, an AND object reached from the
driver of a mapper output through the best-cut-leaf relation; every AND
object reached in this way has a correspondent created by the loop; an AND
object that is not reached, such as a chained equivalent that is a leaf of no
best cut in use, has no correspondent. -/
theorem Abc_NtkFromIf_no_detached (rank : Nat → Nat) (fuel : Nat) (pIfMan : If_Man)
    (pNtk src ntk' : Abc_Ntk) (p' : If_Man) (hrank : LeavesBelow pIfMan.net rank)
    (hnd : pNtk.vCos.Nodup)
    (hconst : pIfMan.net.Typ pIfMan.net.pConst1 ≠ .IF_AND)
    (hpis : ∀ pi, pi ∈ pIfMan.net.vPis → pIfMan.net.Typ pi ≠ .IF_AND)
    (hpos : pIfMan.net.vPos.length ≤ pNtk.vCos.length)
    (h : Abc_NtkFromIf_outputs fuel pIfMan pNtk = .ok (src, ntk', p')) :
    (∀ j, pNtk.vCis.length + pNtk.vCos.length + 1 ≤ j → j < ntk'.nObjs →
      ∃ po, po ∈ ntk'.vCos ∧ Relation.TransGen ntk'.IsFanin po j) ∧
    (∀ j, pNtk.vCis.length + pNtk.vCos.length + 1 ≤ j → j < ntk'.nObjs →
      ∃ m, If_ObjCopy p' m = some j ∧ pIfMan.net.Typ m = .IF_AND ∧
        DriverReach pIfMan.net m ∧ ∀ m', If_ObjCopy p' m' = some j → m' = m) ∧
    (∀ m, pIfMan.net.Typ m = .IF_AND → DriverReach pIfMan.net m →
      ∃ j, If_ObjCopy p' m = some j ∧ pNtk.vCis.length + pNtk.vCos.length + 1 ≤ j ∧
        j < ntk'.nObjs) ∧
    (∀ m, pIfMan.net.Typ m = .IF_AND → ¬ DriverReach pIfMan.net m →
      If_ObjCopy p' m = none) := by
  obtain ⟨ntk0, p0, hstart, g, hout⟩ :=
    Abc_NtkFromIf_outputs_grows rank fuel pIfMan pNtk src ntk' p' hrank hnd h
  obtain ⟨ntk0', p0', hstart', k, _⟩ := Abc_NtkFromIf_outputs_keeps fuel pIfMan pNtk src ntk' p' h
  rw [hstart] at hstart'
  simp only [Except.ok.injEq, Prod.mk.injEq, true_and] at hstart'
  obtain ⟨rfl, rfl⟩ := hstart'
  obtain ⟨_, hn0, hcos0, _, hnet0, _, hcp0⟩ := Abc_NtkFromIf_start_spec pIfMan pNtk src ntk0 p0 hstart
  have hfresh := Abc_NtkFromIf_start_fresh pIfMan pNtk src ntk0 p0 hstart hconst hpis
  have hcl0 : LeavesClosed p0 := by
    intro m hm hs
    exact absurd (hfresh m (hnet0 ▸ hm)) hs
  have hcl := k.closed hcl0
  have hnet : p'.net = pIfMan.net := k.net.trans hnet0
  -- the leaves of an AND object with a correspondent are fanins of the correspondent
  have hedge : ∀ a l ca, LeafEdge pIfMan.net a l → p'.pCopy a = some ca →
      ∃ cl, p'.pCopy l = some cl ∧ ntk'.IsFanin ca cl := by
    intro a l ca ⟨ha, hl⟩ hca
    obtain ⟨_, _, _, _, _, hmap, _⟩ := g.fresh a ca (hfresh a ha) hca
    have hl' : l ∈ p0.bestLeaves a := by
      simpa [If_Man.bestLeaves, If_Man.cut, If_ObjCutBest, hnet0] using hl
    have hmem : p'.pCopy l ∈ (p0.bestLeaves a).map p'.pCopy := List.mem_map_of_mem _ hl'
    rw [← hmap] at hmem
    obtain ⟨f, hf, hfl⟩ := List.mem_map.1 hmem
    exact ⟨f.1, hfl.symm, f.2, hf⟩
  have hpath : ∀ drv cd a, p'.pCopy drv = some cd →
      Relation.ReflTransGen (LeafEdge pIfMan.net) drv a →
      ∃ ca, p'.pCopy a = some ca ∧ Relation.ReflTransGen ntk'.IsFanin cd ca := by
    intro drv cd a hcd hr
    induction hr with
    | refl => exact ⟨cd, hcd, Relation.ReflTransGen.refl⟩
    | tail _ hbc ih =>
      obtain ⟨cb, hcb, hrb⟩ := ih
      obtain ⟨cl, hcl', hfan⟩ := hedge _ _ cb hbc hcb
      exact ⟨cl, hcl', Relation.ReflTransGen.tail hrb hfan⟩
  -- a reached object has a correspondent below an output of the new network
  have hreach : ∀ m, DriverReach pIfMan.net m →
      ∃ cm po, p'.pCopy m = some cm ∧ po ∈ ntk'.vCos ∧ Relation.TransGen ntk'.IsFanin po cm := by
    rintro m ⟨mpo, drv, hmpo, hdrv, hr⟩
    obtain ⟨i, hi⟩ := List.mem_iff_getElem?.1 hmpo
    have hilt : i < pNtk.vCos.length := by
      by_contra hge
      rw [List.getElem?_eq_none (by omega)] at hi
      cases hi
    obtain ⟨mpo', drv', c, _, h2, h3, h4, h5⟩ :=
      hout i (pNtk.vCos.get ⟨i, hilt⟩) (List.getElem?_eq_getElem hilt)
    rw [hi] at h2
    cases h2
    rw [hdrv] at h3
    cases h3
    obtain ⟨cm, hcm, hrm⟩ := hpath drv c m h4 hr
    refine ⟨cm, pNtk.vCis.length + i, hcm, ?_, ?_⟩
    · rw [g.cos, hcos0]
      exact List.mem_map.2 ⟨i, List.mem_range.2 hilt, rfl⟩
    · exact Relation.TransGen.head' ⟨pIfMan.net.fCompl0 mpo, by rw [h5]; exact List.mem_singleton.2 rfl⟩ hrm
  have hcreated : ∀ j, pNtk.vCis.length + pNtk.vCos.length + 1 ≤ j → j < ntk'.nObjs →
      ∃ m, p0.pCopy m = none ∧ p'.pCopy m = some j ∧ pIfMan.net.Typ m = .IF_AND ∧
        DriverReach pIfMan.net m := by
    intro j hlo hhi
    obtain ⟨m, hm0, hm⟩ := g.onto j (by rw [hn0]; exact hlo) hhi
    refine ⟨m, hm0, hm, ?_, k.fresh m hm0 (by rw [hm]; exact fun e => Option.noConfusion e)⟩
    rw [← hnet0]
    exact (g.fresh m j hm0 hm).2.1
  refine ⟨?_, ?_, ?_, ?_⟩
  · intro j hlo hhi
    obtain ⟨m, _, hm, _, hr⟩ := hcreated j hlo hhi
    obtain ⟨cm, po, hcm, hpo, ht⟩ := hreach m hr
    rw [hm] at hcm
    cases hcm
    exact ⟨po, hpo, ht⟩
  · intro j hlo hhi
    obtain ⟨m, hm0, hm, ht, hr⟩ := hcreated j hlo hhi
    refine ⟨m, hm, ht, hr, ?_⟩
    intro m' hm'
    cases h0 : p0.pCopy m' with
    | none => exact g.inj m' m j h0 hm0 hm' hm
    | some c0 =>
      have := g.mono m' c0 h0
      rw [If_ObjCopy] at hm'
      rw [hm'] at this
      cases this
      have := (hcp0 m' j h0).1
      omega
  · intro m ht hr
    obtain ⟨cm, _, hcm, _, _⟩ := hreach m hr
    obtain ⟨_, _, hlo, hhi, _⟩ := g.fresh m cm (hfresh m ht) hcm
    exact ⟨cm, hcm, by rw [← hn0]; exact hlo, hhi⟩
  · intro m ht hr
    cases hc : p'.pCopy m with
    | none => exact hc
    | some c =>
      exact absurd (k.fresh m (hfresh m ht) (by rw [hc]; exact fun e => Option.noConfusion e)) hr

/-- In the example the AND object `4` is reached from the driver `6` of the
second mapper output and has a correspondent created by the loop. -/
theorem Abc_NtkFromIf_no_detached_witness :
    LeavesBelow exMan.net id ∧ exNtk.vCos.Nodup ∧
    exMan.net.Typ exMan.net.pConst1 ≠ .IF_AND ∧
    (∀ pi, pi ∈ exMan.net.vPis → exMan.net.Typ pi ≠ .IF_AND) ∧
    exMan.net.vPos.length ≤ exNtk.vCos.length ∧
    Abc_NtkFromIf_outputs 5 exMan exNtk = .ok exOut ∧
    DriverReach exMan.net 4 ∧
    ∃ j, If_ObjCopy exOut.2.2 4 = some j ∧ j < exOut.2.1.nObjs :=
  have hr : DriverReach exMan.net 4 :=
    ⟨9, 6, by decide, rfl, Relation.ReflTransGen.single ⟨rfl, by decide⟩⟩
  ⟨exNet_leavesBelow, by decide, by decide, by decide, by decide, rfl, hr,
    match (Abc_NtkFromIf_no_detached id 5 exMan exNtk exOut.1 exOut.2.1 exOut.2.2
      exNet_leavesBelow (by decide) (by decide) (by decide) (by decide) rfl).2.2.1 4 rfl hr with
    | ⟨j, h1, _, h2⟩ => ⟨j, h1, h2⟩⟩

end AbcIf
